import Mathlib

/-!
Lowered finite-volume multi-cell engine.

A shallow embedding of `src/util/partition.hpp` (`make_partition`, `partition_range`)
and of `src/fvm_multicell.hpp` (`compute_cv_area_unnormalized_capacitance`,
`initialize`, `setup_matrix`, `reset`, `deliver_event`).

Conventions of the embedding:

* `size_type` / `cell_lid_type` indices of the lowering are natural numbers; the
  wrap-around of a fixed-width index type is modelled for `make_partition`, whose value
  type is a parameter (`util.unsigned w` is the unsigned type of `w` bits);
* `value_type` is the field of rationals: arithmetic is exact, rounding is not modelled;
* containers are lists; a read outside a container yields `0` and a write outside a
  container is dropped (the source has undefined behaviour there);
* a `throw` and a failed `EXPECTS` stop the running function; `initialize` returns the
  engine as it stands at that point together with the error.
-/

namespace nest.mc

/-! ## util: partitions -/

namespace util

/-- An unsigned integer type of `w` bits, such as the `cell_lid_type` of the divisions in
the lowering: a natural number, with sums reduced modulo `2^w`. -/
structure unsigned (w : Nat) where
  val : Nat
deriving DecidableEq, Repr

/-- Conversion of a natural number to the unsigned type of `w` bits. -/
def unsigned.of_nat (w n : Nat) : unsigned w := ⟨n % 2 ^ w⟩

/-- The sum of two values of the unsigned type of `w` bits wraps around at `2^w`. -/
instance unsigned.wrapping_add (w : Nat) : Add (unsigned w) :=
  ⟨fun a b => ⟨(a.val + b.val) % 2 ^ w⟩⟩

/-- The three-argument `make_partition(divisions, sizes, from)`: `divisions` is resized to
`size(sizes)+1`; the loop stores the running value of `from` and then adds the next size;
the last slot receives the final value.  The result is the content of `divisions`.  The
sum `from += s` is taken in the value type `T` of the divisions, a parameter of the
template: in `unsigned w` it wraps around at `2^w`.  The lowering is evaluated with
`T = Nat`, with which a fixed-width `cell_lid_type` agrees as long as the sums fit. -/
def make_partition {T : Type} [Add T] : List T → T → List T
  | [], frm => [frm]
  | s :: sizes, frm => frm :: make_partition sizes (frm + s)

/-- A `partition_range` is a view over a sequence of divisions. -/
structure partition_range where
  /-- the underlying sequence `d_0, ..., d_n` -/
  divisions : List Nat
deriving DecidableEq, Repr

/-- Number of intervals of the partition: one less than the number of divisions. -/
def partition_range.size (part : partition_range) : Nat :=
  part.divisions.length - 1

/-- The `operator[]` of the view: interval `k` is the pair `(d_k, d_{k+1})`. -/
def partition_range.get (part : partition_range) (k : Nat) : Nat × Nat :=
  (part.divisions.getD k 0, part.divisions.getD (k + 1) 0)

/-- First interval, `front()`. -/
def partition_range.front (part : partition_range) : Nat × Nat :=
  part.get 0

/-- Last interval, `back()`. -/
def partition_range.back (part : partition_range) : Nat × Nat :=
  part.get (part.size - 1)

/-- Global lower and upper bound, `bounds() = {front().first, back().second}`. -/
def partition_range.bounds (part : partition_range) : Nat × Nat :=
  (part.front.1, part.back.2)

/-- The view returned by `make_partition`, i.e. `partition_view(divisions)`, for
divisions held as natural numbers. -/
def make_partition_view (sizes : List Nat) (frm : Nat) : partition_range :=
  ⟨make_partition sizes frm⟩

/-- The view returned by `make_partition` for divisions held in the unsigned type of `w`
bits: the sizes and the start value are converted to that type and the divisions are read
back as natural numbers. -/
def make_partition_view_unsigned (w : Nat) (sizes : List Nat) (frm : Nat) : partition_range :=
  ⟨(make_partition (sizes.map (unsigned.of_nat w)) (unsigned.of_nat w frm)).map (fun d => d.val)⟩

end util

/-! ## Cell descriptions -/

/-- Modelled from the spec: the segment classes of `segment.hpp` are not part of the
sources; a segment is a soma, a cable, or of another (unsupported) kind. -/
inductive segmentKind where
  | soma
  | cable
  | none
deriving DecidableEq, Repr

/-- Modelled from the spec: one compartment of a cable, with the radii at its two ends
(`left` is on the parent side) and its length. -/
structure compartment where
  radius : ℚ × ℚ
  length : ℚ
deriving DecidableEq, Repr

/-- Modelled from the spec: a segment as the engine reads it: `as_soma()` / `as_cable()`
(through `kind`), `num_compartments()`, the soma `radius()`, the parameters `c_m` and
`r_L` of its "membrane" mechanism, the cable `compartments()`, and the names of
its `mechanisms()`. -/
structure segment where
  kind : segmentKind
  num_compartments : Nat
  radius : ℚ
  c_m : ℚ
  r_L : ℚ
  compartments : List compartment
  mechanisms : List String
deriving DecidableEq, Repr

/-- Modelled from the spec: a location is a segment index and a position along it. -/
structure segment_location where
  segment : Nat
  position : ℚ
deriving DecidableEq, Repr

/-- Modelled from the spec: a synapse is a mechanism name and a location. -/
structure synapse where
  mechanism : String
  location : segment_location
deriving DecidableEq, Repr

/-- Modelled from the spec: a current clamp `(delay, duration, amplitude)`. -/
structure i_clamp where
  delay : ℚ
  duration : ℚ
  amplitude : ℚ
deriving DecidableEq, Repr

/-- Modelled from the spec: a stimulus is a location and a clamp. -/
structure stimulus where
  location : segment_location
  clamp : i_clamp
deriving DecidableEq, Repr

/-- Modelled from the spec: the kind of a probe; `other` stands for any value of the
enumeration that is neither of the two supported ones. -/
inductive probeKind where
  | membrane_voltage
  | membrane_current
  | other
deriving DecidableEq, Repr

/-- Modelled from the spec: a probe is a location and a kind. -/
structure probe where
  location : segment_location
  kind : probeKind
deriving DecidableEq, Repr

/-- Modelled from the spec: a spike detector is a location and a threshold. -/
structure detector where
  location : segment_location
  threshold : ℚ
deriving DecidableEq, Repr

/-- Modelled from the spec: a cell description as `initialize` reads it
(`cell.hpp` is not part of the sources). -/
structure cell where
  num_compartments : Nat
  parent_index : List Nat
  segments : List segment
  synapses : List synapse
  stimulii : List stimulus
  detectors : List detector
  probes : List probe
deriving DecidableEq, Repr

/-! ## Collaborators of the engine -/

/-- Modelled from the spec: the ion species of `ion.hpp`. -/
inductive ionKind where
  | ca
  | na
  | k
deriving DecidableEq, Repr

/-- Modelled from the spec: ion storage over an index set: reversal potential, internal
and external concentration, each of the length of the index set. -/
structure ion where
  node_index : List Nat
  reversal_potential : List ℚ
  internal_concentration : List ℚ
  external_concentration : List ℚ
deriving DecidableEq, Repr

/-- Modelled from the spec: a mechanism instance as the engine sees it: its name, the CV
index set it is bound to, the areas handed over by `set_areas`, the kinds of the ions whose
storage it was given a reference to by `set_ion`, and its own state arrays. -/
structure mechanism where
  name : String
  node_index : List Nat
  areas : Option (List ℚ)
  ions : List ionKind
  state : List ℚ
deriving DecidableEq, Repr

/-- Modelled from the spec: what the engine consumes from outside this source file:
`math.hpp` (`pi`, `area_frustrum`, `log`), the mechanism catalogue (which names it knows,
which ions a mechanism uses, the kinetics behind `nrn_init` and `net_receive`) and the
location resolver `find_compartment_index(location, graph)`. -/
structure externals where
  pi : ℚ
  area_frustrum : ℚ → ℚ → ℚ → ℚ
  log : ℚ → ℚ
  known : String → Bool
  uses_ion : String → ionKind → Bool
  nrn_init : mechanism → List ℚ → List ℚ
  net_receive : mechanism → Nat → ℚ → List ℚ
  find_compartment_index : segment_location → Nat

/-- Errors raised while lowering: the two exception types thrown by the engine, a failed
`EXPECTS`, and the unknown-name failure of the catalogue. -/
inductive error where
  | logic_error (what : String)
  | domain_error (what : String)
  | assertion (what : String)
  | unknown_mechanism (name : String)
deriving DecidableEq, Repr

namespace math

/-- Modelled from the spec: `math::area_sphere(r) = 4 pi r^2`. -/
def area_sphere (x : externals) (r : ℚ) : ℚ := 4 * x.pi * r * r

/-- Modelled from the spec: `math::area_circle(r) = pi r^2`. -/
def area_circle (x : externals) (r : ℚ) : ℚ := x.pi * r * r

/-- Modelled from the spec: `math::mean` of a pair of radii. -/
def mean (r : ℚ × ℚ) : ℚ := (r.1 + r.2) / 2

end math

/-! ## Engine state -/

/-- Modelled from the spec: the tree matrix of `matrix.hpp`: lower, diagonal and upper
entries, right-hand side, and the parent index. -/
structure matrix where
  l : List ℚ
  d : List ℚ
  u : List ℚ
  rhs : List ℚ
  p : List Nat
deriving DecidableEq, Repr

/-- Modelled from the spec: `matrix_type(parent_index)`: storage of the size of the parent
index.  The source fills it with NaN; the embedding fills it with `0`. -/
def matrix.of_parent_index (pi : List Nat) : matrix :=
  { l := List.replicate pi.length 0
    d := List.replicate pi.length 0
    u := List.replicate pi.length 0
    rhs := List.replicate pi.length 0
    p := pi }

/-- The `size()` of the matrix is the size of its parent index. -/
def matrix.size (m : matrix) : Nat := m.p.length

/-- The pointer-to-member of a probe handle selects one of two state vectors. -/
inductive field_selector where
  | voltage_
  | current_
deriving DecidableEq, Repr

/-- The ion map `ions_`, keyed by the three ion kinds. -/
structure ion_map where
  ca : Option ion
  na : Option ion
  k : Option ion
deriving DecidableEq, Repr

/-- The private members of `fvm_multicell`. -/
structure fvm_multicell where
  t_ : ℚ
  resting_potential_ : ℚ
  matrix_ : matrix
  segment_index_ : List Nat
  cv_areas_ : List ℚ
  face_alpha_ : List ℚ
  cv_capacitance_ : List ℚ
  current_ : List ℚ
  voltage_ : List ℚ
  synapse_base_ : Nat
  mechanisms_ : List mechanism
  ions_ : ion_map
  stimulii_ : List (Nat × i_clamp)
  probes_ : List (field_selector × Nat)
deriving DecidableEq, Repr

/-- The default-constructed engine: time `0`, resting potential `-65`, empty containers
(`synapse_base_` has no initializer in the source; it is `0` here). -/
def fvm_multicell.fresh : fvm_multicell :=
  { t_ := 0
    resting_potential_ := -65
    matrix_ := matrix.of_parent_index []
    segment_index_ := []
    cv_areas_ := []
    face_alpha_ := []
    cv_capacitance_ := []
    current_ := []
    voltage_ := []
    synapse_base_ := 0
    mechanisms_ := []
    ions_ := ⟨none, none, none⟩
    stimulii_ := []
    probes_ := [] }

/-- Compound assignment `xs[i] += a` on a value container. -/
def add_at (xs : List ℚ) (i : Nat) (a : ℚ) : List ℚ :=
  xs.set i (xs.getD i 0 + a)

/-- Compound assignment `xs[i] /= a` on a value container. -/
def div_at (xs : List ℚ) (i : Nat) (a : ℚ) : List ℚ :=
  xs.set i (xs.getD i 0 / a)

/-- The half-open index range `make_span(comps)`. -/
def make_span (comps : Nat × Nat) : List Nat :=
  List.range' comps.1 (comps.2 - comps.1)

/-! ## Geometry and capacitance -/

/-- One iteration of the cable loop of `compute_cv_area_unnormalized_capacitance`. -/
def cable_compartment_step (x : externals) (seg : segment) (comps : Nat × Nat)
    (parent : List Nat) (e : fvm_multicell) (i : Nat) : fvm_multicell :=
  let c := (seg.compartments)[i - comps.1]?.getD ⟨(0, 0), 0⟩
  let j := parent.getD i 0
  let radius_center := math.mean c.radius
  let area_face := math.area_circle x radius_center
  let face_alpha := e.face_alpha_.set i (area_face / (seg.c_m * seg.r_L * c.length))
  let halflen := c.length / 2
  let al := x.area_frustrum halflen c.radius.1 radius_center
  let ar := x.area_frustrum halflen c.radius.2 radius_center
  let areas := add_at (add_at e.cv_areas_ j al) i ar
  let caps := add_at (add_at e.cv_capacitance_ j (al * seg.c_m)) i (ar * seg.c_m)
  { e with face_alpha_ := face_alpha, cv_areas_ := areas, cv_capacitance_ := caps }

/-- The method `compute_cv_area_unnormalized_capacitance(comps, seg, parent)`.
The size `comps.size()` of the allotted range is `comps.second - comps.first`; the soma
check guards the whole soma branch (the closing brace after the `throw` is read as the end
of the inner `if`).  Every failure happens before the first write, so on failure the
engine is the one passed in. -/
def compute_cv_area_unnormalized_capacitance (x : externals) (comps : Nat × Nat)
    (seg : segment) (parent : List Nat) (e : fvm_multicell) : Except error fvm_multicell :=
  match seg.kind with
  | segmentKind.soma =>
    if comps.2 - comps.1 ≠ 1 then
      Except.error (error.logic_error "soma allocated more than one compartment")
    else
      let i := comps.1
      let area := math.area_sphere x seg.radius
      Except.ok { e with cv_areas_ := add_at e.cv_areas_ i area
                         cv_capacitance_ := add_at e.cv_capacitance_ i (area * seg.c_m) }
  | segmentKind.cable =>
    if seg.compartments.length ≠ comps.2 - comps.1 then
      Except.error (error.assertion "util::size(compartments)==comps.second-comps.first")
    else
      Except.ok ((make_span comps).foldl (cable_compartment_step x seg comps parent) e)
  | segmentKind.none =>
    Except.error (error.domain_error "FVM lowering encountered unsuported segment type")

/-- The loop `for (auto k: make_span(comps))` that relocates the local parent indices of
one cell into `group_parent_index`. -/
def relocate_parents (parent_index : List Nat) (comps : Nat × Nat) (gpi : List Nat) :
    List Nat :=
  (make_span comps).foldl
    (fun g k => g.set k (parent_index.getD (k - comps.1) 0 + comps.1)) gpi

/-- The loop over the segments of one cell, `j = 0 .. nseg-1`, starting at segment `j`.
It stops at the first segment that fails and returns the engine reached so far. -/
def segments_loop (x : externals) (seg_comp_part : util.partition_range)
    (parent : List Nat) : Nat → List segment → fvm_multicell →
    fvm_multicell × Option error
  | _, [], e => (e, none)
  | j, seg :: segs, e =>
    match compute_cv_area_unnormalized_capacitance x (seg_comp_part.get j) seg parent e with
    | Except.error err => (e, some err)
    | Except.ok e1 => segments_loop x seg_comp_part parent (j + 1) segs e1

/-- The loop `for (auto k: make_span(comps)) cv_capacitance_[k] /= cv_areas_[k]`. -/
def normalize_capacitance (comps : Nat × Nat) (e : fvm_multicell) : fvm_multicell :=
  (make_span comps).foldl
    (fun s k => { s with cv_capacitance_ := div_at s.cv_capacitance_ k (s.cv_areas_.getD k 0) }) e

/-- The local variables of `initialize` that live across the loop over the cells. -/
structure lowering_locals where
  group_parent_index : List Nat
  detectors_total : Nat
  targets_total : Nat
  probess_total : Nat
deriving DecidableEq, Repr

/-- The loop over the cells `i = 0 .. ncell-1` of `initialize`, starting at cell `i`. -/
def cells_loop (x : externals) (cell_comp_part : util.partition_range) :
    Nat → List cell → lowering_locals → fvm_multicell →
    lowering_locals × fvm_multicell × Option error
  | _, [], loc, e => (loc, e, none)
  | i, c :: cs, loc, e =>
    let comps := cell_comp_part.get i
    let gpi := relocate_parents c.parent_index comps loc.group_parent_index
    let seg_comp_part :=
      util.make_partition_view (c.segments.map (fun s => s.num_compartments)) comps.1
    match segments_loop x seg_comp_part gpi 0 c.segments e with
    | (e1, some err) => ({ loc with group_parent_index := gpi }, e1, some err)
    | (e1, none) =>
      let e2 := normalize_capacitance comps e1
      cells_loop x cell_comp_part (i + 1) cs
        { group_parent_index := gpi
          detectors_total := loc.detectors_total + c.detectors.length
          targets_total := loc.targets_total + c.synapses.length
          probess_total := loc.probess_total + c.probes.length } e2

/-! ## Ordered containers of the standard library -/

/-- The comparison `std::less<std::string>`: lexicographic order of the characters. -/
def name_less (a b : String) : Prop := a.data < b.data

instance name_less_decidable (a b : String) : Decidable (name_less a b) := by
  unfold name_less
  infer_instance

/-- A `std::map<std::string, V>`: the entries in strictly increasing key order. -/
abbrev std_map (ν : Type) := List (String × ν)

/-- Lookup of a key, `find` / `count`. -/
def std_map.find {ν : Type} : std_map ν → String → Option ν
  | [], _ => none
  | (k1, v) :: rest, k =>
    if name_less k k1 then none
    else if name_less k1 k then std_map.find rest k
    else some v

/-- The access `m[k]` followed by an update of the mapped value: `f none` is stored when
the key is new (the value it would be default-constructed with is updated), `f (some v)`
replaces the value `v` of an existing key. -/
def std_map.update {ν : Type} : std_map ν → String → (Option ν → ν) → std_map ν
  | [], k, f => [(k, f none)]
  | (k1, v) :: rest, k, f =>
    if name_less k k1 then (k, f none) :: (k1, v) :: rest
    else if name_less k1 k then (k1, v) :: std_map.update rest k f
    else (k1, f (some v)) :: rest

/-- Insertion into a `std::set<int>`: the elements in strictly increasing order. -/
def std_set_insert : List Nat → Nat → List Nat
  | [], a => [a]
  | b :: rest, a =>
    if a < b then a :: b :: rest
    else if b < a then b :: std_set_insert rest a
    else b :: rest

/-! ## Mechanism binder -/

/-- The inner loop over `cell.segment(i)->mechanisms()`: every name other than
"membrane" records segment `i`. -/
def mech_map_segment (i : Nat) (names : List String) (mech_map : std_map (List Nat)) :
    std_map (List Nat) :=
  names.foldl
    (fun m name =>
      if name ≠ "membrane" then std_map.update m name (fun o => o.getD [] ++ [i]) else m)
    mech_map

/-- The loop `for (unsigned i=0; i<cell.num_segments(); ++i)` that fills `mech_map`,
starting at segment `i`. -/
def mech_map_loop : Nat → List segment → std_map (List Nat) → std_map (List Nat)
  | _, [], mech_map => mech_map
  | i, seg :: segs, mech_map =>
    mech_map_loop (i + 1) segs (mech_map_segment i seg.mechanisms mech_map)

/-- The compartment index of a density mechanism: for each of its segments the range
`segment_index_[seg] .. segment_index_[seg+1]`, written one after the other. -/
def density_compartment_index (segment_index_ : List Nat) : List Nat → List Nat
  | [] => []
  | seg :: segs =>
    List.range' (segment_index_.getD seg 0)
        (segment_index_.getD (seg + 1) 0 - segment_index_.getD seg 0)
      ++ density_compartment_index segment_index_ segs

/-- Modelled from the spec: `mechanism_catalogue::make(name, voltage, current, index)`:
an instance bound to the index set, or the unknown-name failure. -/
def mechanism_catalogue.make (x : externals) (name : String) (index : List Nat) :
    Except error mechanism :=
  if x.known name then
    Except.ok { name := name, node_index := index, areas := none, ions := [], state := [] }
  else Except.error (error.unknown_mechanism name)

/-- The loop `for (auto& mech : mech_map)`: one density mechanism per entry of the map,
in the iteration order of the map, appended to `mechanisms_`. -/
def density_loop (x : externals) (segment_index_ : List Nat) :
    std_map (List Nat) → List mechanism → List mechanism × Option error
  | [], ms => (ms, none)
  | (name, segs) :: rest, ms =>
    match mechanism_catalogue.make x name (density_compartment_index segment_index_ segs) with
    | Except.error err => (ms, some err)
    | Except.ok m => density_loop x segment_index_ rest (ms ++ [m])

/-- The local variables of the synapse pass: `syn_mech_map`, `syn_mech_indices`, the
target handle container and the position `target_hi` of the next write into it. -/
structure synapse_locals where
  syn_mech_map : List (List Nat)
  syn_mech_indices : std_map Nat
  target_handles : List (Nat × Nat)
  target_hi : Nat
deriving DecidableEq, Repr

/-- One iteration of `for (const auto& syn : cell.synapses())`. -/
def synapse_step (x : externals) (s : synapse_locals) (syn : synapse) : synapse_locals :=
  let name := syn.mechanism
  let fresh_name := (std_map.find s.syn_mech_indices name).isNone
  let index :=
    if fresh_name then s.syn_mech_map.length
    else (std_map.find s.syn_mech_indices name).getD 0
  let indices :=
    if fresh_name then std_map.update s.syn_mech_indices name (fun _ => index)
    else s.syn_mech_indices
  let mech_map := if fresh_name then s.syn_mech_map ++ [[]] else s.syn_mech_map
  let comp := x.find_compartment_index syn.location
  { syn_mech_map := mech_map.set index (mech_map.getD index [] ++ [comp])
    syn_mech_indices := indices
    target_handles := s.target_handles.set s.target_hi (index, (mech_map.getD index []).length)
    target_hi := s.target_hi + 1 }

/-- The whole loop over the synapses, writing into `target_handles` from its beginning. -/
def synapse_pass (x : externals) (synapses : List synapse) (target_handles : List (Nat × Nat)) :
    synapse_locals :=
  synapses.foldl (synapse_step x)
    { syn_mech_map := [], syn_mech_indices := [], target_handles := target_handles,
      target_hi := 0 }

/-- The loop `for (const auto& syni : syn_mech_indices)`: one synaptic mechanism per entry
of the map, in the iteration order of the map, bound to `syn_mech_map[syni.second]`, given
the CV areas, and appended to `mechanisms_`. -/
def synapse_mechanism_loop (x : externals) (syn_mech_map : List (List Nat))
    (cv_areas_ : List ℚ) : std_map Nat → List mechanism → List mechanism × Option error
  | [], ms => (ms, none)
  | (mech_name, index) :: rest, ms =>
    match mechanism_catalogue.make x mech_name (syn_mech_map.getD index []) with
    | Except.error err => (ms, some err)
    | Except.ok m =>
      synapse_mechanism_loop x syn_mech_map cv_areas_ rest
        (ms ++ [{ m with areas := some cv_areas_ }])

/-! ## Ion binding -/

/-- Modelled from the spec: the list `mechanisms::ion_kinds()`. -/
def ion_kinds : List ionKind := [ionKind.ca, ionKind.na, ionKind.k]

/-- Lookup in `ions_`. -/
def ion_map.get (m : ion_map) : ionKind → Option ion
  | ionKind.ca => m.ca
  | ionKind.na => m.na
  | ionKind.k => m.k

/-- Store an ion under a kind in `ions_`. -/
def ion_map.put (m : ion_map) (kind : ionKind) (i : ion) : ion_map :=
  match kind with
  | ionKind.ca => { m with ca := some i }
  | ionKind.na => { m with na := some i }
  | ionKind.k => { m with k := some i }

/-- Modelled from the spec: ion storage constructed over an index vector (the source fills
the arrays with NaN, the embedding with `0`). -/
def ion.of_index (index : List Nat) : ion :=
  { node_index := index
    reversal_potential := List.replicate index.length 0
    internal_concentration := List.replicate index.length 0
    external_concentration := List.replicate index.length 0 }

/-- The call `ions_.emplace(kind, i)`: no effect when the key is present. -/
def ion_map.emplace (m : ion_map) (kind : ionKind) (i : ion) : ion_map :=
  match m.get kind with
  | some _ => m
  | none => m.put kind i

/-- The access `ions_[kind]`: a default-constructed ion is inserted when the key is
absent. -/
def ion_map.touch (m : ion_map) (kind : ionKind) : ion_map :=
  m.emplace kind (ion.of_index [])

/-- The `std::set<int> index_set` of one ion: the node indices of all mechanisms that use
the ion, inserted in the order of `mechanisms_`. -/
def ion_index_set (x : externals) (kind : ionKind) (ms : List mechanism) : List Nat :=
  ms.foldl
    (fun set m => if x.uses_ion m.name kind then m.node_index.foldl std_set_insert set else set)
    []

/-- One iteration of `for (auto ion : mechanisms::ion_kinds())`. -/
def ion_step (x : externals) (e : fvm_multicell) (kind : ionKind) : fvm_multicell :=
  let indexes := ion_index_set x kind e.mechanisms_
  let ions1 := if indexes.length ≠ 0 then e.ions_.emplace kind (ion.of_index indexes) else e.ions_
  let ions2 :=
    if e.mechanisms_.any (fun m => x.uses_ion m.name kind) then ions1.touch kind else ions1
  { e with
    ions_ := ions2
    mechanisms_ :=
      e.mechanisms_.map
        (fun m => if x.uses_ion m.name kind then { m with ions := m.ions ++ [kind] } else m) }

/-- The three assignments `(all) = value` on the storage of the ion `ions_[kind]`. -/
def ion_map.assign (m : ion_map) (kind : ionKind) (erev xi xo : ℚ) : ion_map :=
  let m1 := m.touch kind
  match m1.get kind with
  | none => m1
  | some i =>
    m1.put kind
      { i with
        reversal_potential := i.reversal_potential.map (fun _ => erev)
        internal_concentration := i.internal_concentration.map (fun _ => xi)
        external_concentration := i.external_concentration.map (fun _ => xo) }

/-- The hard-coded defaults for sodium, potassium and calcium, with `DEF_vrest = -65`. -/
def assign_ion_defaults (x : externals) (m : ion_map) : ion_map :=
  let DEF_vrest : ℚ := -65
  let m1 := m.assign ionKind.na (115 + DEF_vrest) 10 140
  let m2 := m1.assign ionKind.k (-12 + DEF_vrest) (544 / 10) (25 / 10)
  m2.assign ionKind.ca ((125 / 10) * x.log (2 / (5 / 100000))) (5 / 100000) 2

/-! ## Probes, detectors, reset -/

/-- The loop `for (auto probe : cell.probes())`, writing from position `probe_hi`; it stops
at the first probe of unrecognized kind. -/
def probe_loop (x : externals) :
    List probe → List (field_selector × Nat) → Nat → List (field_selector × Nat) × Option error
  | [], handles, _ => (handles, none)
  | pr :: prs, handles, probe_hi =>
    let comp := x.find_compartment_index pr.location
    match pr.kind with
    | probeKind.membrane_voltage =>
      probe_loop x prs (handles.set probe_hi (field_selector.voltage_, comp)) (probe_hi + 1)
    | probeKind.membrane_current =>
      probe_loop x prs (handles.set probe_hi (field_selector.current_, comp)) (probe_hi + 1)
    | probeKind.other => (handles, some (error.logic_error "unrecognized probeKind"))

/-- The loop `for (auto detector : cell.detectors())`, writing from position
`detector_hi`. -/
def detector_loop (x : externals) : List detector → List Nat → Nat → List Nat
  | [], handles, _ => handles
  | dt :: dts, handles, detector_hi =>
    detector_loop x dts (handles.set detector_hi (x.find_compartment_index dt.location))
      (detector_hi + 1)

/-- The method `reset()`. -/
def fvm_multicell.reset (x : externals) (e : fvm_multicell) : fvm_multicell :=
  let voltage := e.voltage_.map (fun _ => e.resting_potential_)
  { e with
    voltage_ := voltage
    t_ := 0
    mechanisms_ := e.mechanisms_.map (fun m => { m with state := x.nrn_init m voltage }) }

/-! ## The method that lowers the cells -/

/-- What a call of the lowering method leaves behind: the engine, the three handle
containers of the caller, and the error if the call failed. -/
structure outcome where
  engine : fvm_multicell
  detector_handles : List Nat
  target_handles : List (Nat × Nat)
  probe_handles : List (field_selector × Nat)
  failure : Option error
deriving DecidableEq, Repr

/-- The second half of the lowering method, from `// create mechanisms` to the final
`reset()`.  The source reads a description named `cell` there; it is a parameter.  The
member `segment_index_` is read as the engine holds it, and `find_compartment_index` with
its `graph` argument is the resolver of the collaborators. -/
def bind_mechanisms (x : externals) (cell : cell) (detector_handles : List Nat)
    (target_handles : List (Nat × Nat)) (probe_handles : List (field_selector × Nat))
    (e : fvm_multicell) : outcome :=
  let mech_map := mech_map_loop 0 cell.segments []
  match density_loop x e.segment_index_ mech_map e.mechanisms_ with
  | (ms, some err) =>
    ⟨{ e with mechanisms_ := ms }, detector_handles, target_handles, probe_handles, some err⟩
  | (ms, none) =>
    let e1 := { e with mechanisms_ := ms, synapse_base_ := ms.length }
    let syn := synapse_pass x cell.synapses target_handles
    match synapse_mechanism_loop x syn.syn_mech_map e1.cv_areas_ syn.syn_mech_indices
        e1.mechanisms_ with
    | (ms1, some err) =>
      ⟨{ e1 with mechanisms_ := ms1 }, detector_handles, syn.target_handles, probe_handles,
        some err⟩
    | (ms1, none) =>
      let e2 := { e1 with mechanisms_ := ms1 }
      let e3 := ion_kinds.foldl (ion_step x) e2
      let e4 := { e3 with ions_ := assign_ion_defaults x e3.ions_ }
      let e5 :=
        { e4 with
          stimulii_ :=
            e4.stimulii_ ++
              cell.stimulii.map (fun st => (x.find_compartment_index st.location, st.clamp)) }
      match probe_loop x cell.probes probe_handles 0 with
      | (ph, some err) => ⟨e5, detector_handles, syn.target_handles, ph, some err⟩
      | (ph, none) =>
        ⟨ fvm_multicell.reset x e5, detector_loop x cell.detectors detector_handles 0,
          syn.target_handles, ph, none⟩

/-- The partition `cell_comp_part` of the CVs among the cells. -/
def cell_comp_part (cells : List cell) : util.partition_range :=
  util.make_partition_view (cells.map (fun c => c.num_compartments)) 0

/-- The total compartment count `ncomp = cell_comp_part.bounds().second`. -/
def ncomp (cells : List cell) : Nat := (cell_comp_part cells).bounds.2

/-- The five assignments `x_ = vector_type{ncomp, T{0}}` that allocate the storage. -/
def allocate_storage (n : Nat) (e : fvm_multicell) : fvm_multicell :=
  { e with
    cv_areas_ := List.replicate n 0
    face_alpha_ := List.replicate n 0
    cv_capacitance_ := List.replicate n 0
    current_ := List.replicate n 0
    voltage_ := List.replicate n 0 }

/-- The locals at the entry of the loop over the cells: `group_parent_index{ncomp, 0}` and
the three totals at zero. -/
def lowering_locals.start (n : Nat) : lowering_locals :=
  { group_parent_index := List.replicate n 0, detectors_total := 0, targets_total := 0,
    probess_total := 0 }

/-- The method `initialize(cells, detector_handles, target_handles, probe_handles)`.
The description named `cell` that its second half reads is passed next to `cells`; the
third size check compares with the counter `probess_total` of the loop. -/
def fvm_multicell.initialize (x : externals) (cells : List cell) (cell : cell)
    (detector_handles : List Nat) (target_handles : List (Nat × Nat))
    (probe_handles : List (field_selector × Nat)) (e : fvm_multicell) : outcome :=
  match cells_loop x (cell_comp_part cells) 0 cells (lowering_locals.start (ncomp cells))
      (allocate_storage (ncomp cells) e) with
  | (_, e1, some err) => ⟨e1, detector_handles, target_handles, probe_handles, some err⟩
  | (loc, e1, none) =>
    if detector_handles.length ≠ loc.detectors_total then
      ⟨e1, detector_handles, target_handles, probe_handles,
        some (error.assertion "util::size(detector_handles)==detectors_total")⟩
    else if target_handles.length ≠ loc.targets_total then
      ⟨e1, detector_handles, target_handles, probe_handles,
        some (error.assertion "util::size(target_handles)==targets_total")⟩
    else if probe_handles.length ≠ loc.probess_total then
      ⟨e1, detector_handles, target_handles, probe_handles,
        some (error.assertion "util::size(probe_handles)==probes_total")⟩
    else
      bind_mechanisms x cell detector_handles target_handles probe_handles
        { e1 with matrix_ := matrix.of_parent_index loc.group_parent_index }

/-! ## Event delivery and matrix assembly -/

/-- The method `deliver_event(h, weight)`: `net_receive(h.second, weight)` on
`mechanisms_[synapse_base_ + h.first]`. -/
def fvm_multicell.deliver_event (x : externals) (h : Nat × Nat) (weight : ℚ)
    (e : fvm_multicell) : fvm_multicell :=
  match e.mechanisms_[e.synapse_base_ + h.1]? with
  | none => e
  | some m =>
    { e with
      mechanisms_ :=
        e.mechanisms_.set (e.synapse_base_ + h.1)
          { m with state := x.net_receive m h.2 weight } }

/-- The assignment `d(all) = cv_areas_`: an element-wise copy into the storage of `d`. -/
def copy_into (d : List ℚ) (src : List ℚ) : List ℚ :=
  (List.range d.length).map (fun i => src.getD i 0)

/-- One iteration of the first loop of `setup_matrix`. -/
def setup_matrix_step (dt : ℚ) (face_alpha_ : List ℚ) (m : matrix) (i : Nat) : matrix :=
  let a := 100000 * dt * face_alpha_.getD i 0
  let d1 := add_at m.d i a
  { m with
    d := add_at d1 (m.p.getD i 0) a
    l := m.l.set i (-a)
    u := m.u.set i (-a) }

/-- One iteration of the second loop of `setup_matrix` (the right-hand side). -/
def setup_rhs_step (factor : ℚ) (e : fvm_multicell) (m : matrix) (i : Nat) : matrix :=
  { m with
    rhs :=
      m.rhs.set i
        (e.cv_areas_.getD i 0 *
          (e.voltage_.getD i 0 - factor / e.cv_capacitance_.getD i 0 * e.current_.getD i 0)) }

/-- The method `setup_matrix(dt)`. -/
def fvm_multicell.setup_matrix (dt : ℚ) (e : fvm_multicell) : fvm_multicell :=
  let m0 := { e.matrix_ with d := copy_into e.matrix_.d e.cv_areas_ }
  let m1 := (List.range' 1 (m0.d.length - 1)).foldl (setup_matrix_step dt e.face_alpha_) m0
  let factor := 10 * dt
  let m2 := (List.range' 0 m1.d.length).foldl (setup_rhs_step factor e) m1
  { e with matrix_ := m2 }

/-! ## Predicates used in the statements -/

/-- A segment that `compute_cv_area_unnormalized_capacitance` rejects when it is allotted a
range of `num_compartments()` CVs: a soma whose count is not one, a cable whose list of
compartments does not have that size, or a segment of unsupported kind. -/
def segment.malformed (s : segment) : Prop :=
  match s.kind with
  | segmentKind.soma => s.num_compartments ≠ 1
  | segmentKind.cable => s.compartments.length ≠ s.num_compartments
  | segmentKind.none => True

/-- The part of the engine that the geometry pass does not touch, together with the sizes
of the three arrays it accumulates into. -/
def geometry_frame (a b : fvm_multicell) : Prop :=
  b.t_ = a.t_ ∧ b.resting_potential_ = a.resting_potential_ ∧ b.matrix_ = a.matrix_ ∧
  b.segment_index_ = a.segment_index_ ∧ b.current_ = a.current_ ∧ b.voltage_ = a.voltage_ ∧
  b.synapse_base_ = a.synapse_base_ ∧ b.mechanisms_ = a.mechanisms_ ∧ b.ions_ = a.ions_ ∧
  b.stimulii_ = a.stimulii_ ∧ b.probes_ = a.probes_ ∧
  b.cv_areas_.length = a.cv_areas_.length ∧ b.face_alpha_.length = a.face_alpha_.length ∧
  b.cv_capacitance_.length = a.cv_capacitance_.length

/-- The fields of the engine that the binder never writes. -/
def binder_frame (a b : fvm_multicell) : Prop :=
  b.matrix_ = a.matrix_ ∧ b.segment_index_ = a.segment_index_ ∧ b.cv_areas_ = a.cv_areas_ ∧
  b.face_alpha_ = a.face_alpha_ ∧ b.cv_capacitance_ = a.cv_capacitance_ ∧
  b.current_ = a.current_ ∧ b.voltage_.length = a.voltage_.length ∧ b.probes_ = a.probes_ ∧
  b.resting_potential_ = a.resting_potential_

/-- The entry in row `r` and column `c` of the matrix held in `l`, `d`, `u`, `p`, after the
layout comment of `setup_matrix`: with `j = p[i]` the parent of `i > 0`, `d[i]` is the
diagonal entry `a_ii`, `l[i]` the entry `a_ij` and `u[i]` the entry `a_ji`; every other
entry is zero. -/
def matrix.entry (m : matrix) (r c : Nat) : ℚ :=
  if r = c then m.d.getD r 0
  else if 1 ≤ r ∧ m.p.getD r 0 = c then m.l.getD r 0
  else if 1 ≤ c ∧ m.p.getD c 0 = r then m.u.getD c 0
  else 0

/-- Collaborators used for the worked examples: the catalogue knows every name. -/
def sample_externals : externals :=
  { pi := 22 / 7
    area_frustrum := fun len r1 r2 => (22 / 7) * (r1 + r2) * len
    log := fun _ => 0
    known := fun _ => true
    uses_ion := fun _ _ => false
    nrn_init := fun _ _ => []
    net_receive := fun m lid w => m.state ++ [(lid : ℚ), w]
    find_compartment_index := fun loc => loc.segment }

/-- A soma of radius 10 with one compartment, carrying "pas" then "hh". -/
def sample_soma : segment :=
  { kind := segmentKind.soma, num_compartments := 1, radius := 10, c_m := 1 / 100, r_L := 100,
    compartments := [], mechanisms := ["membrane", "pas", "hh"] }

/-- A cable of two compartments, carrying "pas". -/
def sample_cable : segment :=
  { kind := segmentKind.cable, num_compartments := 2, radius := 0, c_m := 1 / 100, r_L := 100,
    compartments := [⟨(1, 1), 5⟩, ⟨(1, 1), 5⟩], mechanisms := ["membrane", "pas"] }

/-- A cell of three compartments: a soma and a cable; the first synapse is an "expsyn" on
CV 0, the second an "exp2syn" on CV 1. -/
def sample_cell : cell :=
  { num_compartments := 3, parent_index := [0, 0, 1], segments := [sample_soma, sample_cable],
    synapses := [⟨"expsyn", ⟨0, 0⟩⟩, ⟨"exp2syn", ⟨1, 0⟩⟩],
    stimulii := [], detectors := [], probes := [] }

/-- A cell without segments: zero compartments. -/
def empty_cell : cell :=
  { num_compartments := 0, parent_index := [], segments := [], synapses := [], stimulii := [],
    detectors := [], probes := [] }

/-- A cell whose soma is allotted two compartments. -/
def two_compartment_soma_cell : cell :=
  { num_compartments := 2, parent_index := [0, 0],
    segments := [{ sample_soma with num_compartments := 2 }],
    synapses := [], stimulii := [], detectors := [], probes := [] }

/-- A placeholder segment (unsupported kind) without compartments. -/
def placeholder_segment : segment :=
  { kind := segmentKind.none, num_compartments := 0, radius := 0, c_m := 0, r_L := 0,
    compartments := [], mechanisms := [] }

/-- A cell of zero compartments whose only segment is a placeholder. -/
def placeholder_cell : cell :=
  { empty_cell with segments := [placeholder_segment] }

/-- An engine with three CVs on a chain `0 - 1 - 2`, used for the worked examples of the
matrix assembly. -/
def sample_engine : fvm_multicell :=
  { fvm_multicell.fresh with
    matrix_ := matrix.of_parent_index [0, 0, 1]
    cv_areas_ := [10, 20, 30]
    face_alpha_ := [7, 1 / 2, 1 / 4]
    cv_capacitance_ := [1, 2, 4]
    current_ := [0, 1, 0]
    voltage_ := [-65, -65, -65] }

/-! ## Time stepping -/

/-- Modelled from the spec: what `advance` consumes from outside this source file: the
amplitude `ie(t)` of a current clamp (`stimulus.hpp`), and the kinetics of a mechanism:
`set_params(t, dt)` followed by `nrn_current()` yields, from the mechanism, `t`, `dt` and
the voltage, the contribution that the mechanism adds to the current of each CV of its
index set (one value per entry of `node_index`); `nrn_state()` maps the mechanism, the `t`
and `dt` of the last `set_params` and the voltage to the new state of the mechanism. -/
structure stepping where
  amplitude : i_clamp → ℚ → ℚ
  nrn_current : mechanism → ℚ → ℚ → List ℚ → List ℚ
  nrn_state : mechanism → ℚ → ℚ → List ℚ → List ℚ

/-- Compound assignment `xs[i] -= a` on a value container. -/
def sub_at (xs : List ℚ) (i : Nat) (a : ℚ) : List ℚ :=
  xs.set i (xs.getD i 0 - a)

/-- Modelled from the spec: one step of the reverse sweep of the tree solver: row `i` is
eliminated from the row of its parent. -/
def hines_backward_step (m : matrix) (i : Nat) : matrix :=
  let factor := m.l.getD i 0 / m.d.getD i 0
  { m with
    d := sub_at m.d (m.p.getD i 0) (factor * m.u.getD i 0)
    rhs := sub_at m.rhs (m.p.getD i 0) (factor * m.rhs.getD i 0) }

/-- Modelled from the spec: one step of the forward sweep of the tree solver: the value of
the parent is substituted into row `i`. -/
def hines_forward_step (m : matrix) (i : Nat) : matrix :=
  let r1 := sub_at m.rhs i (m.u.getD i 0 * m.rhs.getD (m.p.getD i 0) 0)
  { m with rhs := div_at r1 i (m.d.getD i 0) }

/-- Modelled from the spec: `matrix::solve()` of `matrix.hpp`: a single reverse sweep
`i = N-1, ..., 1` to eliminate, the division of the root row, and a forward sweep
`i = 1, ..., N-1` to back-substitute; the solution is left in `rhs`. -/
def matrix.solve (m : matrix) : matrix :=
  let m1 := (List.range' 1 (m.size - 1)).reverse.foldl hines_backward_step m
  let m2 := { m1 with rhs := div_at m1.rhs 0 (m1.d.getD 0 0) }
  (List.range' 1 (m.size - 1)).foldl hines_forward_step m2

/-- One iteration of the loop over `stimulii_` in `advance`:
`current_[loc] -= 100*ie/cv_areas_[loc]` with `ie = stim.second.amplitude(t_)`. -/
def stimulus_step (s : stepping) (e : fvm_multicell) (current : List ℚ) (stim : Nat × i_clamp) :
    List ℚ :=
  sub_at current stim.1 (100 * s.amplitude stim.2 e.t_ / e.cv_areas_.getD stim.1 0)

/-- One iteration of the loop over `mechanisms_` in `advance`: `set_params(t_, dt)` and
`nrn_current()`, which adds the contribution of the mechanism to the current of the CVs of
its index set. -/
def mechanism_current_step (s : stepping) (dt : ℚ) (e : fvm_multicell) (current : List ℚ)
    (m : mechanism) : List ℚ :=
  (m.node_index.zip (s.nrn_current m e.t_ dt e.voltage_)).foldl
    (fun cur ia => add_at cur ia.1 ia.2) current

/-- The current at the end of the second loop of `advance`: zeroed, then the
contributions of the mechanisms in the order of `mechanisms_`, then the stimuli. -/
def step_current (s : stepping) (dt : ℚ) (e : fvm_multicell) : List ℚ :=
  let current0 := e.current_.map (fun _ => (0 : ℚ))
  let current1 := e.mechanisms_.foldl (mechanism_current_step s dt e) current0
  e.stimulii_.foldl (stimulus_step s e) current1

/-- The method `advance(dt)`. -/
def fvm_multicell.advance (s : stepping) (dt : ℚ) (e : fvm_multicell) : fvm_multicell :=
  let e1 := fvm_multicell.setup_matrix dt { e with current_ := step_current s dt e }
  let m := e1.matrix_.solve
  let voltage := copy_into e.voltage_ m.rhs
  { e1 with
    matrix_ := m
    voltage_ := voltage
    mechanisms_ := e.mechanisms_.map (fun mech => { mech with state := s.nrn_state mech e.t_ dt voltage })
    t_ := e.t_ + dt }

/-- A sequence of calls of `advance`, one for each step size of the list. -/
def advance_steps (s : stepping) (dts : List ℚ) (e : fvm_multicell) : fvm_multicell :=
  dts.foldl (fun st dt => fvm_multicell.advance s dt st) e

/-- The method `probe(h)`: the entry `h.second` of the state vector that `h.first`
selects. -/
def fvm_multicell.probe (h : field_selector × Nat) (e : fvm_multicell) : ℚ :=
  match h.1 with
  | field_selector.voltage_ => e.voltage_.getD h.2 0
  | field_selector.current_ => e.current_.getD h.2 0

/-- The method `detector_voltage(h)`. -/
def fvm_multicell.detector_voltage (h : Nat) (e : fvm_multicell) : ℚ :=
  e.voltage_.getD h 0

/-- The method `resting_potential(potential_mV)`. -/
def fvm_multicell.resting_potential (potential_mV : ℚ) (e : fvm_multicell) : fvm_multicell :=
  { e with resting_potential_ := potential_mV }

/-- The method `is_physical_solution()`: `(v > -1000) && (v < 1000)` for `v = voltage_[0]`. -/
def fvm_multicell.is_physical_solution (e : fvm_multicell) : Bool :=
  decide (e.voltage_.getD 0 0 > -1000) && decide (e.voltage_.getD 0 0 < 1000)

/-- The method `time()`. -/
def fvm_multicell.time (e : fvm_multicell) : ℚ := e.t_

/-! ## Predicates on the engine state used in the statements -/

/-- The structure of a mechanism: the mechanism without the state it holds. -/
def mechanism.structure (m : mechanism) : mechanism := { m with state := [] }

/-- The matrix arrays `l`, `u` and `rhs` have the size of `d`. -/
def matrix.well_sized (m : matrix) : Prop :=
  m.l.length = m.d.length ∧ m.u.length = m.d.length ∧ m.rhs.length = m.d.length

/-- Engine `b` has the fixed structure of engine `a`: the same resting potential, areas,
`face_alpha`, capacitances, stimuli, probes, ions, `synapse_base_`, parent array and
mechanisms up to their state, containers of the same sizes, and the same entries `l[0]`
and `u[0]` (which no step writes); `current`, `d`, `rhs` and the entries of `l` and `u`
from index 1 on are free. -/
def same_structure (a b : fvm_multicell) : Prop :=
  b.resting_potential_ = a.resting_potential_ ∧ b.segment_index_ = a.segment_index_ ∧
  b.cv_areas_ = a.cv_areas_ ∧ b.face_alpha_ = a.face_alpha_ ∧
  b.cv_capacitance_ = a.cv_capacitance_ ∧ b.synapse_base_ = a.synapse_base_ ∧
  b.ions_ = a.ions_ ∧ b.stimulii_ = a.stimulii_ ∧ b.probes_ = a.probes_ ∧
  b.matrix_.p = a.matrix_.p ∧
  b.current_.length = a.current_.length ∧ b.voltage_.length = a.voltage_.length ∧
  b.matrix_.l.length = a.matrix_.l.length ∧ b.matrix_.d.length = a.matrix_.d.length ∧
  b.matrix_.u.length = a.matrix_.u.length ∧ b.matrix_.rhs.length = a.matrix_.rhs.length ∧
  b.matrix_.l.getD 0 0 = a.matrix_.l.getD 0 0 ∧ b.matrix_.u.getD 0 0 = a.matrix_.u.getD 0 0 ∧
  b.mechanisms_.map mechanism.structure = a.mechanisms_.map mechanism.structure

/-- Engine `b` differs from engine `a` only in stale data: it has the structure of `a`,
and the same time, voltage and mechanisms with their state. -/
def stale_equiv (a b : fvm_multicell) : Prop :=
  same_structure a b ∧ b.t_ = a.t_ ∧ b.voltage_ = a.voltage_ ∧ b.mechanisms_ = a.mechanisms_

/-! ## Sample data for the time stepping -/

/-- Kinetics used for the worked examples: a clamp is on from `delay` for `duration`, a
mechanism adds a leak current proportional to the deviation of the voltage from -65 and
keeps its state. -/
def sample_stepping : stepping :=
  { amplitude := fun c t => if c.delay ≤ t ∧ t < c.delay + c.duration then c.amplitude else 0
    nrn_current := fun m _ _ v => m.node_index.map (fun i => (v.getD i 0 + 65) / 1000)
    nrn_state := fun m _ _ _ => m.state }

/-- The sample engine with two clamps on CV 1. -/
def sample_clamped_engine : fvm_multicell :=
  { sample_engine with stimulii_ := [(1, ⟨0, 10, 3⟩), (1, ⟨0, 1, 1⟩)] }

/-- Collaborators whose `nrn_init` sets the state of a mechanism to the voltages of its
CVs. -/
def voltage_init_externals : externals :=
  { sample_externals with nrn_init := fun m v => m.node_index.map (fun i => v.getD i 0) }

/-- The sample engine with one mechanism on CVs 0 and 2 that holds a stale state. -/
def sample_engine_with_mechanism : fvm_multicell :=
  { sample_engine with
    mechanisms_ := [{ name := "pas", node_index := [0, 2], areas := none, ions := [], state := [1, 2, 3] }] }

/-! ## Closed forms of the geometry pass -/

/-- The compartment `compartments[o]` of a cable. -/
def segment.compartment_at (seg : segment) (o : Nat) : compartment :=
  (seg.compartments)[o]?.getD ⟨(0, 0), 0⟩

/-- The lateral area of the left (parent-side) half-frustum of a compartment:
`area_frustrum(halflen, left(c.radius), radius_center)`. -/
def compartment.area_left (x : externals) (c : compartment) : ℚ :=
  x.area_frustrum (c.length / 2) c.radius.1 (math.mean c.radius)

/-- The lateral area of the right half-frustum of a compartment:
`area_frustrum(halflen, right(c.radius), radius_center)`. -/
def compartment.area_right (x : externals) (c : compartment) : ℚ :=
  x.area_frustrum (c.length / 2) c.radius.2 (math.mean c.radius)

/-- The coefficient `area_face / (c_m * r_L * c.length)` of the compartment at offset `o`
of a cable, with `area_face` the area of the circle of the mean radius. -/
def segment.face_alpha_at (x : externals) (seg : segment) (o : Nat) : ℚ :=
  math.area_circle x (math.mean (seg.compartment_at o).radius) /
    (seg.c_m * seg.r_L * (seg.compartment_at o).length)

/-- The area that a segment laid out from CV `lo` contributes to CV `k`: for a soma of
radius `r` the area `4 pi r^2` of the sphere on its CV; for a cable the right half-frustum
of compartment `k` when `k` is one of its compartments, and the left half-frusta of its
compartments whose parent is `k`. -/
def segment_area_at (x : externals) (parent : Nat → Nat) (lo : Nat) (seg : segment) (k : Nat) : ℚ :=
  match seg.kind with
  | segmentKind.soma => if k = lo then math.area_sphere x seg.radius else 0
  | segmentKind.cable =>
    (if lo ≤ k ∧ k < lo + seg.num_compartments
      then (seg.compartment_at (k - lo)).area_right x else 0) +
    ∑ i ∈ (Finset.Ico lo (lo + seg.num_compartments)).filter (fun i => parent i = k),
      (seg.compartment_at (i - lo)).area_left x
  | segmentKind.none => 0

/-- The area that the segments of a cell, laid out one after the other from CV `lo`,
contribute to CV `k`. -/
def cell_area_at (x : externals) (parent : Nat → Nat) : Nat → List segment → Nat → ℚ
  | _, [], _ => 0
  | lo, seg :: segs, k =>
    segment_area_at x parent lo seg k +
      cell_area_at x parent (lo + seg.num_compartments) segs k

/-- The unnormalized capacitance that the segments of a cell contribute to CV `k`: the
area contributed by each segment times the `c_m` of that segment. -/
def cell_capacitance_at (x : externals) (parent : Nat → Nat) : Nat → List segment → Nat → ℚ
  | _, [], _ => 0
  | lo, seg :: segs, k =>
    segment_area_at x parent lo seg k * seg.c_m +
      cell_capacitance_at x parent (lo + seg.num_compartments) segs k

/-- The coefficient `face_alpha[i]` after the segments of a cell, laid out from CV `lo`,
have been processed: the coefficient of the cable compartment that `i` is, or else the
value `dflt` that the entry held before. -/
def cell_face_alpha_at (x : externals) : Nat → List segment → ℚ → Nat → ℚ
  | _, [], dflt, _ => dflt
  | lo, seg :: segs, dflt, i =>
    if seg.kind = segmentKind.cable ∧ lo ≤ i ∧ i < lo + seg.num_compartments
    then seg.face_alpha_at x (i - lo)
    else cell_face_alpha_at x (lo + seg.num_compartments) segs dflt i

/-- The membrane area of a segment: the sphere of a soma, the two half-frusta of every
compartment of a cable. -/
def segment.membrane_area (x : externals) (seg : segment) : ℚ :=
  match seg.kind with
  | segmentKind.soma => math.area_sphere x seg.radius
  | segmentKind.cable =>
    ∑ o ∈ Finset.range seg.num_compartments,
      ((seg.compartment_at o).area_left x + (seg.compartment_at o).area_right x)
  | segmentKind.none => 0

/-- The segments of the cell partition its compartment range, and every compartment has
its parent at or before itself. -/
def cell.well_formed (c : cell) : Prop :=
  (c.segments.map (fun s => s.num_compartments)).sum = c.num_compartments ∧
  ∀ k, k < c.num_compartments → c.parent_index.getD k 0 ≤ k

/-- A segment with physical dimensions: a soma with a non-zero radius, or a cable all of
whose compartments have strictly positive radii and length; and a strictly positive
`c_m`. -/
def segment.positive (seg : segment) : Prop :=
  0 < seg.c_m ∧
  match seg.kind with
  | segmentKind.soma => 0 < seg.radius
  | segmentKind.cable =>
    ∀ c ∈ seg.compartments, 0 < c.radius.1 ∧ 0 < c.radius.2 ∧ 0 < c.length
  | segmentKind.none => False

/-- The intervals `j, j+1, ...` of a partition are ranges of the given sizes laid out one
after the other from `lo`. -/
def laid_out (part : util.partition_range) (j lo : Nat) (sizes : List Nat) : Prop :=
  ∀ t, t < sizes.length →
    part.get (j + t) = (lo + (sizes.take t).sum, lo + (sizes.take t).sum + sizes.getD t 0)

/-! ## Decidability of the input predicates, and further sample data -/

instance segment_malformed_decidable (s : segment) : Decidable s.malformed := by
  unfold segment.malformed
  split <;> infer_instance

instance cell_well_formed_decidable (c : cell) : Decidable c.well_formed := by
  unfold cell.well_formed
  infer_instance

/-- The soma of the soma validation test: radius `9.4`, with `c_m = 1/100`. -/
def test_soma : segment :=
  { kind := segmentKind.soma, num_compartments := 1, radius := 47 / 5, c_m := 1 / 100,
    r_L := 100, compartments := [], mechanisms := ["membrane", "hh"] }

/-- The soma-only cell of the soma validation test. -/
def soma_only_cell : cell :=
  { num_compartments := 1, parent_index := [0], segments := [test_soma], synapses := [],
    stimulii := [], detectors := [], probes := [] }

/-! ## util: validation of a partition and search in it -/

namespace util

/-- The error `invalid_partition(what)` thrown by `validate()`. -/
structure invalid_partition where
  what : String
deriving DecidableEq, Repr

/-- The standard algorithm `std::is_sorted(first, last)` on the elements between the two
positions: no element is less than the one before it. -/
def is_sorted : List Nat → Bool
  | [] => true
  | [_] => true
  | a :: b :: rest => !decide (b < a) && is_sorted (b :: rest)

/-- The private method `is_valid()`: `std::is_sorted(left.get(), right.get())`.  The
position `left.get()` is that of the first division and `right.get()` that of the last
one (`right` is `upto(begin, end)`, and `divisions()` ends at `std::next(right.get())`),
so the range handed to `std::is_sorted` holds the divisions without the last one.  The
result is either `true` or the message. -/
def partition_range.is_valid (part : partition_range) : Bool ⊕ String :=
  if !is_sorted (part.divisions.take part.size) then
    Sum.inr "offsets are not monotonically increasing"
  else Sum.inl true

/-- The method `validate()`: throws `invalid_partition` with the message when `is_valid()`
does not hold `true`. -/
def partition_range.validate (part : partition_range) : Except invalid_partition Unit :=
  match part.is_valid with
  | Sum.inr what => Except.error ⟨what⟩
  | Sum.inl _ => Except.ok ()

/-- The standard algorithm `std::upper_bound` as the usual binary search on the `len`
positions from `first`: the step looks at the middle position and keeps the half before it
when `x` is less than the element there, the half after it otherwise.  The first argument
bounds the number of steps; `len` steps always suffice. -/
def upper_bound_loop (divs : List Nat) (x : Nat) : Nat → Nat → Nat → Nat
  | 0, first, _ => first
  | fuel + 1, first, len =>
    if len = 0 then first
    else
      let half := len / 2
      let mid := first + half
      if x < divs.getD mid 0 then upper_bound_loop divs x fuel first half
      else upper_bound_loop divs x fuel (mid + 1) (len - half - 1)

/-- The call `std::upper_bound(divs.left, divs.right, x)` on all the divisions: the
position of the first division greater than `x`, or the end position. -/
def upper_bound (divs : List Nat) (x : Nat) : Nat :=
  upper_bound_loop divs x divs.length 0 divs.length

/-- The value `npos = static_cast<size_type>(-1)` of a 64-bit `size_type`. -/
def partition_range.npos : Nat := 2 ^ 64 - 1

/-- The method `empty()` of the range: `left == right`. -/
def partition_range.empty (part : partition_range) : Bool := part.size == 0

/-- The method `find(x)`, as the position of the interval it returns; the position `size`
is the sentinel `right`. -/
def partition_range.find (part : partition_range) (x : Nat) : Nat :=
  if part.empty then part.size
  else
    let i := upper_bound part.divisions x
    if i = 0 ∨ i = part.divisions.length then part.size
    else i - 1

/-- The method `index(x)`: `npos` when `find` returns `right`, the position otherwise. -/
def partition_range.index (part : partition_range) (x : Nat) : Nat :=
  if part.find x = part.size then partition_range.npos else part.find x - 0

end util

/-! ## Sample data with probes and detectors -/

/-- The sample cell with a voltage probe on segment 0, a current probe on segment 1 and a
detector on segment 1. -/
def probed_cell : cell :=
  { sample_cell with
    probes := [⟨⟨0, 0⟩, probeKind.membrane_voltage⟩, ⟨⟨1, 0⟩, probeKind.membrane_current⟩]
    detectors := [⟨⟨1, 0⟩, 0⟩] }

/-- The sample cell with one probe of an unsupported kind. -/
def bad_probe_cell : cell :=
  { sample_cell with probes := [⟨⟨0, 0⟩, probeKind.other⟩] }

/-- Collaborators whose catalogue declares that "hh" uses sodium and potassium. -/
def hh_externals : externals :=
  { sample_externals with
    uses_ion := fun name kind =>
      name == "hh" && (decide (kind = ionKind.na) || decide (kind = ionKind.k)) }

/-- An engine whose only mechanism is an "hh" bound to an empty index set, as the lowering
of the soma-only cell instantiates it. -/
def hh_unbound_engine : fvm_multicell :=
  { fvm_multicell.fresh with
    mechanisms_ := [{ name := "hh", node_index := [], areas := none, ions := [], state := [] }] }

/-! ## Normalization once for all cells -/

/-- The loop over the cells with the normalization loop of each cell left out: the
alternative that processes the segments of all cells first. -/
def cells_loop_unnormalized (x : externals) (cell_comp_part : util.partition_range) :
    Nat → List cell → lowering_locals → fvm_multicell →
    lowering_locals × fvm_multicell × Option error
  | _, [], loc, e => (loc, e, none)
  | i, c :: cs, loc, e =>
    let comps := cell_comp_part.get i
    let gpi := relocate_parents c.parent_index comps loc.group_parent_index
    let seg_comp_part :=
      util.make_partition_view (c.segments.map (fun s => s.num_compartments)) comps.1
    match segments_loop x seg_comp_part gpi 0 c.segments e with
    | (e1, some err) => ({ loc with group_parent_index := gpi }, e1, some err)
    | (e1, none) =>
      cells_loop_unnormalized x cell_comp_part (i + 1) cs
        { group_parent_index := gpi
          detectors_total := loc.detectors_total + c.detectors.length
          targets_total := loc.targets_total + c.synapses.length
          probess_total := loc.probess_total + c.probes.length } e1

/-- The geometry pass as the lowering runs it: storage allocated, then the loop over the
cells, the capacitance of each cell normalized right after its segments. -/
def geometry_per_cell (x : externals) (cells : List cell) (e : fvm_multicell) :
    lowering_locals × fvm_multicell × Option error :=
  cells_loop x (cell_comp_part cells) 0 cells (lowering_locals.start (ncomp cells))
    (allocate_storage (ncomp cells) e)

/-- The alternative geometry pass: storage allocated, the segments of all cells processed,
and then one normalization loop `cv_capacitance[k] /= area[k]` over every CV in
`[0, N)`. -/
def geometry_global (x : externals) (cells : List cell) (e : fvm_multicell) :
    lowering_locals × fvm_multicell × Option error :=
  match cells_loop_unnormalized x (cell_comp_part cells) 0 cells
      (lowering_locals.start (ncomp cells)) (allocate_storage (ncomp cells) e) with
  | (loc, e1, some err) => (loc, e1, some err)
  | (loc, e1, none) => (loc, normalize_capacitance (0, ncomp cells) e1, none)

/-! ## The linear system of a step -/

/-- The product of row `k` of the matrix with the vector `x`: the sum over the columns `c`
of the entry `(k, c)` times `x[c]`. -/
def matrix.row_apply (m : matrix) (x : List ℚ) (k : Nat) : ℚ :=
  ∑ c ∈ Finset.range m.d.length, m.entry k c * x.getD c 0

/-- The vector `x` is an exact solution of the system held in the matrix: `M x = rhs`. -/
def matrix.solved_by (m : matrix) (x : List ℚ) : Prop :=
  x.length = m.d.length ∧ ∀ k, k < m.d.length → m.row_apply x k = m.rhs.getD k 0

/-- The solver is exact on the coefficients of `m`: whatever the right-hand side `b`, the
vector that `solve()` leaves in `rhs` is the exact solution of `M x = b`, and the only
one. -/
def matrix.exact_solver (m : matrix) : Prop :=
  ∀ b x : List ℚ, b.length = m.d.length →
    (matrix.solved_by { m with rhs := b } x ↔ x = (matrix.solve { m with rhs := b }).rhs)

/-- The engine with the amplitude of every current clamp doubled. -/
def double_stimuli (e : fvm_multicell) : fvm_multicell :=
  { e with
    stimulii_ :=
      e.stimulii_.map (fun st => (st.1, { st.2 with amplitude := 2 * st.2.amplitude })) }

/-- The parent array describes a forest laid out parents first: every CV from 1 on has its
parent before itself, or is a root (its own parent) without a face to a parent, its face
coefficient being zero. -/
def forest (e : fvm_multicell) : Prop :=
  ∀ i, 1 ≤ i → i < e.matrix_.d.length →
    e.matrix_.p.getD i 0 < i ∨ (e.matrix_.p.getD i 0 = i ∧ e.face_alpha_.getD i 0 = 0)

/-- Engine `b` has the data from which `setup_matrix` builds the coefficients `l`, `d`,
`u` of engine `a`: the same areas, face coefficients, capacitances, parent array and
resting potential, containers of the same sizes, and the same entries `l[0]`, `u[0]`. -/
def same_coefficients (a b : fvm_multicell) : Prop :=
  b.cv_areas_ = a.cv_areas_ ∧ b.face_alpha_ = a.face_alpha_ ∧
  b.cv_capacitance_ = a.cv_capacitance_ ∧ b.matrix_.p = a.matrix_.p ∧
  b.matrix_.l.length = a.matrix_.l.length ∧ b.matrix_.d.length = a.matrix_.d.length ∧
  b.matrix_.u.length = a.matrix_.u.length ∧ b.matrix_.rhs.length = a.matrix_.rhs.length ∧
  b.matrix_.l.getD 0 0 = a.matrix_.l.getD 0 0 ∧ b.matrix_.u.getD 0 0 = a.matrix_.u.getD 0 0 ∧
  b.voltage_.length = a.voltage_.length ∧ b.current_.length = a.current_.length ∧
  b.resting_potential_ = a.resting_potential_

/-- A passive engine of two CVs on a chain `0 - 1`, with unit areas and capacitances and a
face coefficient that gives the coupling `1` for `dt = 1`; no mechanisms, no stimuli. -/
def passive_engine : fvm_multicell :=
  { fvm_multicell.fresh with
    matrix_ := matrix.of_parent_index [0, 0]
    cv_areas_ := [1, 1]
    face_alpha_ := [0, 1 / 100000]
    cv_capacitance_ := [1, 1]
    current_ := [0, 0]
    voltage_ := [-65, -65] }

/-- The passive engine with one current clamp on CV 1. -/
def clamped_passive_engine : fvm_multicell :=
  { passive_engine with stimulii_ := [(1, ⟨0, 10, 3⟩)] }

/-- The number of distinct names that first appear in `names` before `name` first appears
(the number of distinct names of the whole list when `name` does not appear). -/
def names_before (names : List String) (name : String) : Nat :=
  (names.take (names.indexOf name)).toFinset.card

/-- The number of entries before position `k` that carry the same name as entry `k`. -/
def earlier_same (names : List String) (k : Nat) : Nat :=
  (names.take k).count (names.getD k "")

/-- The sample cell with three synapses, the first and the last of the same mechanism. -/
def three_synapse_cell : cell :=
  { sample_cell with
    synapses := [⟨"expsyn", ⟨0, 0⟩⟩, ⟨"exp2syn", ⟨1, 0⟩⟩, ⟨"expsyn", ⟨1, 0⟩⟩] }

/-- The kind of the segment that holds the first compartment of a cell: the first segment
with at least one compartment. -/
def root_segment_kind : List segment → Option segmentKind
  | [] => none
  | seg :: segs =>
    if 0 < seg.num_compartments then some seg.kind else root_segment_kind segs

/-- The root compartment of the cell belongs to a soma segment. -/
def cell.soma_root (c : cell) : Prop :=
  root_segment_kind c.segments = some segmentKind.soma

instance cell.soma_root_decidable (c : cell) : Decidable c.soma_root := by
  unfold cell.soma_root
  infer_instance

/-! ## Container lemmas -/

theorem getD_set_eq {α : Type} (xs : List α) (i j : Nat) (a d : α) :
    (xs.set i a).getD j d = if i = j ∧ i < xs.length then a else xs.getD j d := by
  simp only [List.getD_eq_getElem?_getD, List.getElem?_set]
  by_cases hij : i = j
  · subst hij
    by_cases hlt : i < xs.length
    · simp [hlt]
    · have hn : xs[i]? = none := List.getElem?_eq_none (by omega)
      simp [hlt, hn]
  · simp [hij]

theorem getD_add_at (xs : List ℚ) (i j : Nat) (a : ℚ) :
    (add_at xs i a).getD j 0 =
      if i = j ∧ i < xs.length then xs.getD j 0 + a else xs.getD j 0 := by
  unfold add_at
  rw [getD_set_eq]
  by_cases h : i = j ∧ i < xs.length
  · obtain ⟨h1, h2⟩ := h
    subst h1
    simp [h2]
  · simp [h]

theorem length_add_at (xs : List ℚ) (i : Nat) (a : ℚ) : (add_at xs i a).length = xs.length := by
  simp [add_at]

theorem length_div_at (xs : List ℚ) (i : Nat) (a : ℚ) : (div_at xs i a).length = xs.length := by
  simp [div_at]

theorem foldl_set_length {α : Type} (f : Nat → α) (ks : List Nat) (g : List α) :
    (ks.foldl (fun g k => g.set k (f k)) g).length = g.length := by
  induction ks generalizing g with
  | nil => rfl
  | cons k ks ih => simp [List.foldl_cons, ih]

theorem foldl_set_getD {α : Type} (f : Nat → α) (ks : List Nat) (g : List α) (j : Nat) (d : α) :
    (ks.foldl (fun g k => g.set k (f k)) g).getD j d =
      if j ∈ ks ∧ j < g.length then f j else g.getD j d := by
  induction ks generalizing g with
  | nil => simp
  | cons k ks ih =>
    rw [List.foldl_cons, ih, List.length_set, getD_set_eq]
    by_cases hmem : j ∈ ks
    · by_cases hlt : j < g.length
      · simp [hmem, hlt]
      · have : ¬ (k = j ∧ k < g.length) := by
          rintro ⟨h1, h2⟩
          omega
        simp [hmem, hlt, this]
    · by_cases hk : k = j
      · subst hk
        by_cases hlt : k < g.length
        · simp [hmem, hlt]
        · simp [hmem, hlt]
      · have hk2 : ¬ j = k := fun h => hk h.symm
        simp [hmem, hk, hk2]

theorem mem_make_span (comps : Nat × Nat) (j : Nat) :
    j ∈ make_span comps ↔ comps.1 ≤ j ∧ j < comps.2 := by
  unfold make_span
  rw [List.mem_range'_1]
  omega

/-! ## Partitions -/

theorem make_partition_length (sizes : List Nat) (frm : Nat) :
    (util.make_partition sizes frm).length = sizes.length + 1 := by
  induction sizes generalizing frm with
  | nil => rfl
  | cons s sizes ih => simp [util.make_partition, ih]

theorem make_partition_getD (sizes : List Nat) (frm k : Nat) (hk : k ≤ sizes.length) :
    (util.make_partition sizes frm).getD k 0 = frm + (sizes.take k).sum := by
  induction sizes generalizing frm k with
  | nil =>
    have : k = 0 := by simpa using hk
    subst this
    simp [util.make_partition]
  | cons s sizes ih =>
    cases k with
    | zero => simp [util.make_partition]
    | succ k =>
      have hk1 : k ≤ sizes.length := by simpa using hk
      simp only [util.make_partition, List.getD_cons_succ, List.take_succ_cons, List.sum_cons]
      rw [ih (frm + s) k hk1]
      omega

theorem make_partition_get (sizes : List Nat) (frm k : Nat) (hk : k < sizes.length) :
    (util.make_partition_view sizes frm).get k =
      (frm + (sizes.take k).sum, frm + (sizes.take k).sum + sizes.getD k 0) := by
  unfold util.make_partition_view util.partition_range.get
  simp only
  rw [make_partition_getD sizes frm k (by omega), make_partition_getD sizes frm (k + 1) (by omega),
    List.sum_take_succ sizes k hk, List.getD_eq_getElem sizes 0 hk]
  simp [Nat.add_assoc]

theorem make_partition_bounds (sizes : List Nat) (frm : Nat) (hn : 1 ≤ sizes.length) :
    (util.make_partition_view sizes frm).bounds = (frm, frm + sizes.sum) := by
  unfold util.partition_range.bounds util.partition_range.front util.partition_range.back
  have hsz : (util.make_partition_view sizes frm).size = sizes.length := by
    simp [util.partition_range.size, util.make_partition_view, make_partition_length]
  rw [hsz, make_partition_get sizes frm 0 (by omega),
    make_partition_get sizes frm (sizes.length - 1) (by omega)]
  have hlast : (sizes.take (sizes.length - 1)).sum + sizes.getD (sizes.length - 1) 0 = sizes.sum := by
    have h1 := List.sum_take_succ sizes (sizes.length - 1) (by omega)
    rw [List.getD_eq_getElem sizes 0 (by omega), ← h1]
    have : sizes.length - 1 + 1 = sizes.length := by omega
    rw [this, List.take_length]
  simp only [List.take_zero, List.sum_nil, Nat.add_zero, Prod.mk.injEq, true_and]
  omega

/-! ## Geometry pass -/

theorem geometry_frame_refl (a : fvm_multicell) : geometry_frame a a := by
  simp [geometry_frame]

theorem geometry_frame_trans {a b c : fvm_multicell} (h1 : geometry_frame a b)
    (h2 : geometry_frame b c) : geometry_frame a c := by
  unfold geometry_frame at *
  obtain ⟨a1, a2, a3, a4, a5, a6, a7, a8, a9, a10, a11, a12, a13, a14⟩ := h1
  obtain ⟨b1, b2, b3, b4, b5, b6, b7, b8, b9, b10, b11, b12, b13, b14⟩ := h2
  refine ⟨?_, ?_, ?_, ?_, ?_, ?_, ?_, ?_, ?_, ?_, ?_, ?_, ?_, ?_⟩ <;> simp [*]

theorem cable_compartment_step_frame (x : externals) (seg : segment) (comps : Nat × Nat)
    (parent : List Nat) (e : fvm_multicell) (i : Nat) :
    geometry_frame e (cable_compartment_step x seg comps parent e i) := by
  simp [geometry_frame, cable_compartment_step, length_add_at]

theorem cable_loop_frame (x : externals) (seg : segment) (comps : Nat × Nat)
    (parent : List Nat) (ks : List Nat) (e : fvm_multicell) :
    geometry_frame e (ks.foldl (cable_compartment_step x seg comps parent) e) := by
  induction ks generalizing e with
  | nil => exact geometry_frame_refl e
  | cons k ks ih =>
    rw [List.foldl_cons]
    exact geometry_frame_trans (cable_compartment_step_frame x seg comps parent e k) (ih _)

theorem compute_frame (x : externals) (comps : Nat × Nat) (seg : segment) (parent : List Nat)
    (e e1 : fvm_multicell)
    (h : compute_cv_area_unnormalized_capacitance x comps seg parent e = Except.ok e1) :
    geometry_frame e e1 := by
  unfold compute_cv_area_unnormalized_capacitance at h
  split at h
  · split at h
    · cases h
    · cases h
      simp [geometry_frame, length_add_at]
  · split at h
    · cases h
    · cases h
      exact cable_loop_frame x seg comps parent _ e
  · cases h

theorem compute_fails_iff (x : externals) (comps : Nat × Nat) (seg : segment)
    (parent : List Nat) (e : fvm_multicell) :
    (∃ err, compute_cv_area_unnormalized_capacitance x comps seg parent e = Except.error err) ↔
      (match seg.kind with
        | segmentKind.soma => comps.2 - comps.1 ≠ 1
        | segmentKind.cable => seg.compartments.length ≠ comps.2 - comps.1
        | segmentKind.none => True) := by
  unfold compute_cv_area_unnormalized_capacitance
  cases hk : seg.kind with
  | soma =>
    by_cases h : comps.2 - comps.1 = 1 <;> simp [h]
  | cable =>
    by_cases h : seg.compartments.length = comps.2 - comps.1 <;> simp [h]
  | none => simp

theorem segments_loop_frame (x : externals) (part : util.partition_range) (parent : List Nat)
    (segs : List segment) (j : Nat) (e : fvm_multicell) :
    geometry_frame e (segments_loop x part parent j segs e).1 := by
  induction segs generalizing j e with
  | nil => exact geometry_frame_refl e
  | cons s segs ih =>
    unfold segments_loop
    cases hc : compute_cv_area_unnormalized_capacitance x (part.get j) s parent e with
    | error err => exact geometry_frame_refl e
    | ok e1 =>
      exact geometry_frame_trans (compute_frame x _ s parent e e1 hc) (ih (j + 1) e1)

theorem segments_loop_fails_iff (x : externals) (sizes : List Nat) (lo : Nat) (parent : List Nat)
    (segs : List segment) (j : Nat) (e : fvm_multicell)
    (hsz : ∀ t, t < segs.length →
      ((util.make_partition_view sizes lo).get (j + t)).2 -
        ((util.make_partition_view sizes lo).get (j + t)).1 =
          (segs.getD t ⟨segmentKind.none, 0, 0, 0, 0, [], []⟩).num_compartments) :
    (segments_loop x (util.make_partition_view sizes lo) parent j segs e).2 ≠ none ↔
      ∃ s ∈ segs, s.malformed := by
  induction segs generalizing j e with
  | nil => simp [segments_loop]
  | cons s segs ih =>
    have h0 := hsz 0 (by simp)
    simp only [Nat.add_zero, List.getD_cons_zero] at h0
    have hrest : ∀ t, t < segs.length →
        ((util.make_partition_view sizes lo).get (j + 1 + t)).2 -
          ((util.make_partition_view sizes lo).get (j + 1 + t)).1 =
            (segs.getD t ⟨segmentKind.none, 0, 0, 0, 0, [], []⟩).num_compartments := by
      intro t ht
      have := hsz (t + 1) (by simpa using ht)
      simp only [List.getD_cons_succ] at this
      rw [← this]
      have e1 : j + 1 + t = j + (t + 1) := by omega
      rw [e1]
    have hf := compute_fails_iff x ((util.make_partition_view sizes lo).get j) s parent e
    rw [h0] at hf
    unfold segments_loop
    cases hc : compute_cv_area_unnormalized_capacitance x
        ((util.make_partition_view sizes lo).get j) s parent e with
    | error err =>
      have hm : s.malformed := by
        unfold segment.malformed
        exact hf.mp ⟨err, hc⟩
      simp only [ne_eq, reduceCtorEq, not_false_eq_true, true_iff]
      exact ⟨s, by simp, hm⟩
    | ok e1 =>
      have hm : ¬ s.malformed := by
        unfold segment.malformed
        intro hbad
        obtain ⟨err, herr⟩ := hf.mpr hbad
        rw [hc] at herr
        cases herr
      simp only
      rw [ih (j + 1) e1 hrest]
      constructor
      · rintro ⟨s1, hs1, hb⟩
        exact ⟨s1, by simp [hs1], hb⟩
      · rintro ⟨s1, hs1, hb⟩
        rcases List.mem_cons.mp hs1 with h | h
        · subst h
          exact absurd hb hm
        · exact ⟨s1, h, hb⟩

theorem cell_segments_fail_iff (x : externals) (lo : Nat) (parent : List Nat)
    (segs : List segment) (e : fvm_multicell) :
    (segments_loop x
        (util.make_partition_view (segs.map (fun s => s.num_compartments)) lo) parent 0 segs e).2
          ≠ none ↔ ∃ s ∈ segs, s.malformed := by
  apply segments_loop_fails_iff
  intro t ht
  have hlen : t < (segs.map (fun s => s.num_compartments)).length := by simpa using ht
  rw [Nat.zero_add, make_partition_get _ lo t hlen]
  simp only [add_tsub_cancel_left]
  rw [List.getD_eq_getElem _ 0 hlen, List.getD_eq_getElem segs _ ht]
  simp

theorem normalize_capacitance_frame (comps : Nat × Nat) (e : fvm_multicell) :
    geometry_frame e (normalize_capacitance comps e) := by
  unfold normalize_capacitance
  generalize make_span comps = ks
  induction ks generalizing e with
  | nil => exact geometry_frame_refl e
  | cons k ks ih =>
    rw [List.foldl_cons]
    refine geometry_frame_trans ?_ (ih _)
    simp [geometry_frame, length_div_at]

theorem cells_loop_frame (x : externals) (part : util.partition_range) (cs : List cell)
    (i : Nat) (loc : lowering_locals) (e : fvm_multicell) :
    geometry_frame e (cells_loop x part i cs loc e).2.1 := by
  induction cs generalizing i loc e with
  | nil => exact geometry_frame_refl e
  | cons c cs ih =>
    simp only [cells_loop]
    have hf := segments_loop_frame x
      (util.make_partition_view (c.segments.map (fun s => s.num_compartments)) (part.get i).1)
      (relocate_parents c.parent_index (part.get i) loc.group_parent_index) c.segments 0 e
    rcases hs : segments_loop x
      (util.make_partition_view (c.segments.map (fun s => s.num_compartments)) (part.get i).1)
      (relocate_parents c.parent_index (part.get i) loc.group_parent_index) 0 c.segments e
      with ⟨e1, _ | err⟩
    · rw [hs] at hf
      simp only [hs]
      exact geometry_frame_trans (geometry_frame_trans hf (normalize_capacitance_frame _ e1))
        (ih _ _ _)
    · rw [hs] at hf
      simp only [hs]
      exact hf

theorem cells_loop_fails_iff (x : externals) (part : util.partition_range) (cs : List cell)
    (i : Nat) (loc : lowering_locals) (e : fvm_multicell) :
    (cells_loop x part i cs loc e).2.2 ≠ none ↔
      ∃ c ∈ cs, ∃ s ∈ c.segments, s.malformed := by
  induction cs generalizing i loc e with
  | nil => simp [cells_loop]
  | cons c cs ih =>
    simp only [cells_loop]
    have hf := cell_segments_fail_iff x (part.get i).1
      (relocate_parents c.parent_index (part.get i) loc.group_parent_index) c.segments e
    rcases hs : segments_loop x
      (util.make_partition_view (c.segments.map (fun s => s.num_compartments)) (part.get i).1)
      (relocate_parents c.parent_index (part.get i) loc.group_parent_index) 0 c.segments e
      with ⟨e1, _ | err⟩
    · rw [hs] at hf
      simp only [ne_eq, not_true_eq_false, false_iff, not_exists, not_and] at hf
      simp only [hs]
      rw [ih]
      constructor
      · rintro ⟨c1, hc1, hb⟩
        exact ⟨c1, by simp [hc1], hb⟩
      · rintro ⟨c1, hc1, s, hs1, hb⟩
        rcases List.mem_cons.mp hc1 with h | h
        · subst h
          exact absurd hb (hf s hs1)
        · exact ⟨c1, h, s, hs1, hb⟩
    · rw [hs] at hf
      simp only [ne_eq, reduceCtorEq, not_false_eq_true, true_iff] at hf
      simp only [hs, ne_eq, reduceCtorEq, not_false_eq_true, true_iff]
      exact ⟨c, by simp, hf⟩

theorem relocate_parents_length (p : List Nat) (comps : Nat × Nat) (g : List Nat) :
    (relocate_parents p comps g).length = g.length := by
  unfold relocate_parents
  exact foldl_set_length (fun k => p.getD (k - comps.1) 0 + comps.1) (make_span comps) g

theorem relocate_parents_getD (p : List Nat) (comps : Nat × Nat) (g : List Nat) (j : Nat) :
    (relocate_parents p comps g).getD j 0 =
      if (comps.1 ≤ j ∧ j < comps.2) ∧ j < g.length then p.getD (j - comps.1) 0 + comps.1
      else g.getD j 0 := by
  unfold relocate_parents
  rw [foldl_set_getD (fun k => p.getD (k - comps.1) 0 + comps.1) (make_span comps) g j 0]
  simp only [mem_make_span]

/-- On success the loop over the cells has relocated the parents of every cell: an index
that lies in the range of cell `t` and in no later range holds the relocated local parent;
an index in no range is unchanged; the totals are the sums over the cells. -/
theorem cells_loop_parents (x : externals) (part : util.partition_range) (cs : List cell)
    (i : Nat) (loc loc1 : lowering_locals) (e e1 : fvm_multicell)
    (h : cells_loop x part i cs loc e = (loc1, e1, none)) :
    loc1.group_parent_index.length = loc.group_parent_index.length ∧
    (∀ j, (∀ t, t < cs.length → ¬ ((part.get (i + t)).1 ≤ j ∧ j < (part.get (i + t)).2)) →
      loc1.group_parent_index.getD j 0 = loc.group_parent_index.getD j 0) ∧
    (∀ t (ht : t < cs.length) j, (part.get (i + t)).1 ≤ j → j < (part.get (i + t)).2 →
      j < loc.group_parent_index.length →
      (∀ t1, t < t1 → t1 < cs.length →
        ¬ ((part.get (i + t1)).1 ≤ j ∧ j < (part.get (i + t1)).2)) →
      loc1.group_parent_index.getD j 0 =
        (cs[t]).parent_index.getD (j - (part.get (i + t)).1) 0 + (part.get (i + t)).1) := by
  induction cs generalizing i loc e with
  | nil =>
    simp only [cells_loop, Prod.mk.injEq] at h
    obtain ⟨h1, _, _⟩ := h
    subst h1
    simp
  | cons c cs ih =>
    simp only [cells_loop] at h
    rcases hs : segments_loop x
      (util.make_partition_view (c.segments.map (fun s => s.num_compartments)) (part.get i).1)
      (relocate_parents c.parent_index (part.get i) loc.group_parent_index) 0 c.segments e
      with ⟨e2, _ | err⟩
    · rw [hs] at h
      simp only at h
      obtain ⟨ihlen, ihout, ihin⟩ := ih (i + 1) _ _ h
      simp only at ihlen ihout ihin
      have hshift : ∀ t, i + 1 + t = i + (t + 1) := fun t => by omega
      refine ⟨?_, ?_, ?_⟩
      · rw [ihlen, relocate_parents_length]
      · intro j hj
        rw [ihout j, relocate_parents_getD]
        · have h0 := hj 0 (by simp)
          simp only [Nat.add_zero] at h0
          simp [h0]
        · intro t ht
          rw [hshift]
          exact hj (t + 1) (by simpa using ht)
      · intro t ht j hlo hhi hlen hlater
        cases t with
        | zero =>
          simp only [Nat.add_zero] at hlo hhi
          rw [ihout j, relocate_parents_getD]
          · simp [hlo, hhi, hlen]
          · intro t1 ht1
            rw [hshift]
            exact hlater (t1 + 1) (by omega) (by simpa using ht1)
        | succ t =>
          have ht2 : t < cs.length := by simpa using ht
          have := ihin t ht2 j (by rw [hshift]; exact hlo) (by rw [hshift]; exact hhi)
            (by rw [relocate_parents_length]; exact hlen)
            (by
              intro t1 h1 h2
              rw [hshift]
              exact hlater (t1 + 1) (by omega) (by simpa using h2))
          rw [this, hshift]
          simp
    · rw [hs] at h
      simp at h

/-! ## Binder: what it leaves alone and how it can fail -/

theorem density_loop_error (x : externals) (si : List Nat) (mm : std_map (List Nat))
    (ms ms1 : List mechanism) (err : error)
    (h : density_loop x si mm ms = (ms1, some err)) : ∃ n, err = error.unknown_mechanism n := by
  induction mm generalizing ms with
  | nil => simp [density_loop] at h
  | cons kv mm ih =>
    obtain ⟨name, segs⟩ := kv
    simp only [density_loop, mechanism_catalogue.make] at h
    by_cases hk : x.known name = true
    · simp only [hk, if_true] at h
      exact ih _ h
    · simp only [hk] at h
      simp only [Bool.false_eq_true, if_false, Prod.mk.injEq, Option.some.injEq] at h
      exact ⟨name, h.2.symm⟩

theorem synapse_mechanism_loop_error (x : externals) (smm : List (List Nat)) (areas : List ℚ)
    (idx : std_map Nat) (ms ms1 : List mechanism) (err : error)
    (h : synapse_mechanism_loop x smm areas idx ms = (ms1, some err)) :
    ∃ n, err = error.unknown_mechanism n := by
  induction idx generalizing ms with
  | nil => simp [synapse_mechanism_loop] at h
  | cons kv idx ih =>
    obtain ⟨name, index⟩ := kv
    simp only [synapse_mechanism_loop, mechanism_catalogue.make] at h
    by_cases hk : x.known name = true
    · simp only [hk, if_true] at h
      exact ih _ h
    · simp only [hk] at h
      simp only [Bool.false_eq_true, if_false, Prod.mk.injEq, Option.some.injEq] at h
      exact ⟨name, h.2.symm⟩

theorem probe_loop_error (x : externals) (prs : List probe) (hs hs1 : List (field_selector × Nat))
    (hi : Nat) (err : error) (h : probe_loop x prs hs hi = (hs1, some err)) :
    err = error.logic_error "unrecognized probeKind" := by
  induction prs generalizing hs hi with
  | nil => simp [probe_loop] at h
  | cons pr prs ih =>
    simp only [probe_loop] at h
    split at h
    · exact ih _ _ h
    · exact ih _ _ h
    · simp only [Prod.mk.injEq, Option.some.injEq] at h
      exact h.2.symm

theorem ion_fold_frame (x : externals) (e : fvm_multicell) :
    binder_frame e (ion_kinds.foldl (ion_step x) e) := by
  simp [binder_frame, ion_kinds, ion_step]

theorem bind_mechanisms_frame (x : externals) (cell : cell) (dh : List Nat)
    (th : List (Nat × Nat)) (ph : List (field_selector × Nat)) (e : fvm_multicell) :
    binder_frame e (bind_mechanisms x cell dh th ph e).engine := by
  unfold bind_mechanisms
  simp only
  split
  · simp [binder_frame]
  · split
    · simp [binder_frame]
    · split
      · simp [binder_frame, ion_kinds, ion_step]
      · simp [binder_frame, ion_kinds, ion_step, fvm_multicell.reset]

theorem bind_mechanisms_error (x : externals) (cell : cell) (dh : List Nat)
    (th : List (Nat × Nat)) (ph : List (field_selector × Nat)) (e : fvm_multicell) (err : error)
    (h : (bind_mechanisms x cell dh th ph e).failure = some err) :
    (∃ n, err = error.unknown_mechanism n) ∨ err = error.logic_error "unrecognized probeKind" := by
  unfold bind_mechanisms at h
  simp only at h
  split at h
  · rename_i ms err1 hd
    simp only [Option.some.injEq] at h
    subst h
    exact Or.inl (density_loop_error x _ _ _ _ _ hd)
  · split at h
    · rename_i ms1 err1 hd
      simp only [Option.some.injEq] at h
      subst h
      exact Or.inl (synapse_mechanism_loop_error x _ _ _ _ _ _ hd)
    · split at h
      · rename_i ph1 err1 hd
        simp only [Option.some.injEq] at h
        subst h
        exact Or.inr (probe_loop_error x _ _ _ _ _ hd)
      · simp at h

/-! ## The lowering method as a whole -/

/-- The three ways in which the lowering method ends: a failure in the loop over the
cells, a failed size check, or the result of the binder. -/
theorem initialize_cases (x : externals) (cells : List cell) (cell : cell) (dh : List Nat)
    (th : List (Nat × Nat)) (ph : List (field_selector × Nat)) (e : fvm_multicell) :
    ∃ loc e1 r,
      cells_loop x (cell_comp_part cells) 0 cells (lowering_locals.start (ncomp cells))
        (allocate_storage (ncomp cells) e) = (loc, e1, r) ∧
      ((∃ err, r = some err ∧
          ( fvm_multicell.initialize x cells cell dh th ph e) = ⟨e1, dh, th, ph, some err⟩) ∨
       (r = none ∧ ∃ what,
          ( fvm_multicell.initialize x cells cell dh th ph e) =
            ⟨e1, dh, th, ph, some (error.assertion what)⟩) ∨
       (r = none ∧
          ( fvm_multicell.initialize x cells cell dh th ph e) =
            bind_mechanisms x cell dh th ph
              { e1 with matrix_ := matrix.of_parent_index loc.group_parent_index })) := by
  rcases hc : cells_loop x (cell_comp_part cells) 0 cells (lowering_locals.start (ncomp cells))
      (allocate_storage (ncomp cells) e) with ⟨loc, e1, _ | err⟩
  · refine ⟨loc, e1, none, rfl, Or.inr ?_⟩
    unfold fvm_multicell.initialize
    simp only [hc]
    by_cases h1 : dh.length ≠ loc.detectors_total
    · exact Or.inl ⟨trivial, _, by rw [if_pos h1]⟩
    · by_cases h2 : th.length ≠ loc.targets_total
      · exact Or.inl ⟨trivial, _, by rw [if_neg h1, if_pos h2]⟩
      · by_cases h3 : ph.length ≠ loc.probess_total
        · exact Or.inl ⟨trivial, _, by rw [if_neg h1, if_neg h2, if_pos h3]⟩
        · exact Or.inr ⟨trivial, by rw [if_neg h1, if_neg h2, if_neg h3]⟩
  · refine ⟨loc, e1, some err, rfl, Or.inl ⟨err, rfl, ?_⟩⟩
    unfold fvm_multicell.initialize
    simp only [hc]

theorem sum_take_mono (l : List Nat) (a b : Nat) (h : a ≤ b) :
    (l.take a).sum ≤ (l.take b).sum := by
  obtain ⟨c, rfl⟩ := Nat.exists_eq_add_of_le h
  rw [List.take_add, List.sum_append]
  omega

theorem cell_comp_part_get (cells : List cell) (t : Nat) (ht : t < cells.length) :
    (cell_comp_part cells).get t =
      (((cells.map (fun c => c.num_compartments)).take t).sum,
       ((cells.map (fun c => c.num_compartments)).take t).sum + (cells[t]).num_compartments) := by
  unfold cell_comp_part
  have hlen : t < (cells.map (fun c => c.num_compartments)).length := by simpa using ht
  rw [make_partition_get _ 0 t hlen, List.getD_eq_getElem _ 0 hlen]
  simp

theorem ncomp_eq_sum (cells : List cell) (h : 1 ≤ cells.length) :
    ncomp cells = (cells.map (fun c => c.num_compartments)).sum := by
  unfold ncomp cell_comp_part
  rw [make_partition_bounds _ 0 (by simpa using h)]
  simp

/-! ## Claims on partitions and the geometry pass -/

theorem unsigned_add_of_nat (w a b : Nat) :
    util.unsigned.of_nat w a + util.unsigned.of_nat w b = util.unsigned.of_nat w (a + b) := by
  show (⟨(a % 2 ^ w + b % 2 ^ w) % 2 ^ w⟩ : util.unsigned w) = ⟨(a + b) % 2 ^ w⟩
  rw [← Nat.add_mod]

theorem make_partition_unsigned (w : Nat) (sizes : List Nat) (frm : Nat) :
    (util.make_partition_view_unsigned w sizes frm).divisions =
      (util.make_partition sizes frm).map (fun d => d % 2 ^ w) := by
  unfold util.make_partition_view_unsigned
  simp only
  induction sizes generalizing frm with
  | nil => rfl
  | cons s sizes ih =>
    simp only [List.map_cons, util.make_partition]
    rw [unsigned_add_of_nat, ih]
    rfl

theorem make_partition_le (sizes : List Nat) (frm : Nat) :
    ∀ d ∈ util.make_partition sizes frm, d ≤ frm + sizes.sum := by
  induction sizes generalizing frm with
  | nil => simp [util.make_partition]
  | cons s sizes ih =>
    intro d hd
    simp only [util.make_partition, List.mem_cons] at hd
    rw [List.sum_cons]
    rcases hd with hd | hd
    · omega
    · have := ih (frm + s) d hd
      omega

theorem make_partition_unsigned_fits (w : Nat) (sizes : List Nat) (frm : Nat)
    (hfit : frm + sizes.sum < 2 ^ w) :
    util.make_partition_view_unsigned w sizes frm = util.make_partition_view sizes frm := by
  have h : (util.make_partition_view_unsigned w sizes frm).divisions =
      (util.make_partition_view sizes frm).divisions := by
    rw [make_partition_unsigned]
    show _ = util.make_partition sizes frm
    conv_rhs => rw [← List.map_id (util.make_partition sizes frm)]
    apply List.map_congr_left
    intro d hd
    have := make_partition_le sizes frm d hd
    exact Nat.mod_eq_of_lt (by omega)
  cases hu : util.make_partition_view_unsigned w sizes frm
  cases hv : util.make_partition_view sizes frm
  rw [hu, hv] at h
  simp only at h
  rw [h]

/-- C4 (counterexample): with divisions held in a 32-bit unsigned type, the sizes
`4294967295, 2` from `0` give the divisions `0, 4294967295, 1`: the last division is not
the sum of the sizes, the second interval is `[4294967295, 1)` and `bounds()` is `(0, 1)`. -/
theorem make_partition_wraps_around :
    (util.make_partition_view_unsigned 32 [4294967295, 2] 0).divisions = [0, 4294967295, 1] ∧
    (util.make_partition_view_unsigned 32 [4294967295, 2] 0).divisions.getD 2 0 ≠
      0 + ([4294967295, 2].take 2).sum ∧
    (util.make_partition_view_unsigned 32 [4294967295, 2] 0).get 1 = (4294967295, 1) ∧
    (util.make_partition_view_unsigned 32 [4294967295, 2] 0).bounds = (0, 1) ∧
    (util.make_partition_view_unsigned 32 [4294967295, 2] 0).bounds ≠
      (0, 0 + [4294967295, 2].sum) := by
  refine ⟨by decide, by decide, by decide, by decide, by decide⟩

/-- C4 (amended): with divisions held in an unsigned type of `w` bits,
`make_partition(divisions, sizes, from)` leaves `size(sizes)+1` divisions, division `k`
being `from` plus the sum of the first `k` sizes, reduced modulo `2^w`.  When `from` plus
the sum of all sizes is below `2^w`, division `k` is `from` plus the sum of the first `k`
sizes, interval `k` of the returned view is `[divisions[k], divisions[k+1])` and has
length `sizes[k]`, and for a non-empty sequence of sizes `bounds()` is
`(from, from + sum of the sizes)`; and for cells whose total compartment count is below
`2^w`, `ncomp` is the upper bound of that partition and the total compartment count,
which is the size of the storage that the lowering method allocates. -/
theorem make_partition_prefix_sums_when_fits (w : Nat) (sizes : List Nat) (frm : Nat) :
    (util.make_partition_view_unsigned w sizes frm).divisions.length = sizes.length + 1 ∧
    (∀ k, k ≤ sizes.length →
      (util.make_partition_view_unsigned w sizes frm).divisions.getD k 0 =
        (frm + (sizes.take k).sum) % 2 ^ w) ∧
    (frm + sizes.sum < 2 ^ w →
      (∀ k, k ≤ sizes.length →
        (util.make_partition_view_unsigned w sizes frm).divisions.getD k 0 =
          frm + (sizes.take k).sum) ∧
      (∀ k, k < sizes.length →
        (util.make_partition_view_unsigned w sizes frm).get k =
          ((util.make_partition_view_unsigned w sizes frm).divisions.getD k 0,
            (util.make_partition_view_unsigned w sizes frm).divisions.getD (k + 1) 0) ∧
        (util.make_partition_view_unsigned w sizes frm).divisions.getD (k + 1) 0 =
          (util.make_partition_view_unsigned w sizes frm).divisions.getD k 0 +
            sizes.getD k 0) ∧
      (1 ≤ sizes.length →
        (util.make_partition_view_unsigned w sizes frm).bounds = (frm, frm + sizes.sum))) ∧
    (∀ (x : externals) (cells : List cell) (cell : cell) (dh : List Nat) (th : List (Nat × Nat))
      (ph : List (field_selector × Nat)) (e : fvm_multicell),
      (cells.map (fun c => c.num_compartments)).sum < 2 ^ w →
      ncomp cells =
        (util.make_partition_view_unsigned w (cells.map (fun c => c.num_compartments))
          0).bounds.2 ∧
      ncomp cells = (cells.map (fun c => c.num_compartments)).sum ∧
      ( fvm_multicell.initialize x cells cell dh th ph e).engine.cv_areas_.length =
        (cells.map (fun c => c.num_compartments)).sum ∧
      ( fvm_multicell.initialize x cells cell dh th ph e).engine.voltage_.length =
        (cells.map (fun c => c.num_compartments)).sum) := by
  refine ⟨?_, ?_, ?_, ?_⟩
  · rw [make_partition_unsigned, List.length_map, make_partition_length]
  · intro k hk
    rw [make_partition_unsigned, List.getD_eq_getElem?_getD, List.getElem?_map,
      List.getElem?_eq_getElem (by rw [make_partition_length]; omega)]
    have := make_partition_getD sizes frm k hk
    rw [List.getD_eq_getElem?_getD,
      List.getElem?_eq_getElem (by rw [make_partition_length]; omega)] at this
    simp only [Option.getD_some] at this
    simp only [Option.map_some', Option.getD_some]
    rw [this]
  · intro hfit
    rw [make_partition_unsigned_fits w sizes frm hfit]
    refine ⟨fun k hk => make_partition_getD sizes frm k hk, ?_,
      fun h => make_partition_bounds sizes frm h⟩
    intro k hk
    refine ⟨rfl, ?_⟩
    show (util.make_partition sizes frm).getD (k + 1) 0 =
      (util.make_partition sizes frm).getD k 0 + sizes.getD k 0
    rw [make_partition_getD sizes frm k (by omega), make_partition_getD sizes frm (k + 1) (by omega),
      List.sum_take_succ sizes k hk, List.getD_eq_getElem sizes 0 hk]
    omega
  · intro x cells cell dh th ph e hfit
    have hsum : ncomp cells = (cells.map (fun c => c.num_compartments)).sum := by
      by_cases hn : 1 ≤ cells.length
      · exact ncomp_eq_sum cells hn
      · have : cells = [] := List.length_eq_zero.mp (by omega)
        subst this
        rfl
    refine ⟨?_, hsum, ?_⟩
    · rw [make_partition_unsigned_fits w _ 0 (by omega)]
      rfl
    rw [← hsum]
    obtain ⟨loc, e1, r, hc, hcase⟩ := initialize_cases x cells cell dh th ph e
    have hfr := cells_loop_frame x (cell_comp_part cells) cells 0
      (lowering_locals.start (ncomp cells)) (allocate_storage (ncomp cells) e)
    rw [hc] at hfr
    have ha : e1.cv_areas_.length = ncomp cells := by
      have := hfr.2.2.2.2.2.2.2.2.2.2.2.1
      simpa [allocate_storage] using this
    have hv : e1.voltage_.length = ncomp cells := by
      have := hfr.2.2.2.2.2.1
      simp only at this
      rw [this]
      simp [allocate_storage]
    rcases hcase with ⟨err, _, hout⟩ | ⟨_, what, hout⟩ | ⟨_, hout⟩
    · rw [hout]
      exact ⟨ha, hv⟩
    · rw [hout]
      exact ⟨ha, hv⟩
    · rw [hout]
      have hb := bind_mechanisms_frame x cell dh th ph
        { e1 with matrix_ := matrix.of_parent_index loc.group_parent_index }
      obtain ⟨_, _, hb3, _, _, _, hb7, _, _⟩ := hb
      rw [hb3, hb7]
      exact ⟨ha, hv⟩

/-- C4 (worked example): with 32-bit divisions the sizes `2, 3` from `5` give the
divisions `5, 7, 10`, and two copies of the sample cell have six compartments. -/
theorem make_partition_prefix_sums_when_fits_witness :
    5 + [2, 3].sum < 2 ^ 32 ∧
    (util.make_partition_view_unsigned 32 [2, 3] 5).divisions.getD 2 0 = 5 + ([2, 3].take 2).sum ∧
    (util.make_partition_view_unsigned 32 [2, 3] 5).bounds = (5, 5 + [2, 3].sum) ∧
    ncomp [sample_cell, sample_cell] = 6 :=
  ⟨by decide,
   ((make_partition_prefix_sums_when_fits 32 [2, 3] 5).2.2.1 (by decide)).1 2 (by decide),
   ((make_partition_prefix_sums_when_fits 32 [2, 3] 5).2.2.1 (by decide)).2.2 (by decide),
   ((make_partition_prefix_sums_when_fits 32 [2, 3] 5).2.2.2 sample_externals
      [sample_cell, sample_cell] sample_cell [] [] [] fvm_multicell.fresh (by decide)).2.1⟩

/-- C7: for a soma segment `compute_cv_area_unnormalized_capacitance` fails, with the
logic error, exactly when the range allotted to the segment does not hold exactly one CV;
for a segment that is neither a soma nor a cable it always fails, with the domain error. -/
theorem compute_cv_area_failure (x : externals) (comps : Nat × Nat) (seg : segment)
    (parent : List Nat) (e : fvm_multicell) :
    (seg.kind = segmentKind.soma →
      (((∃ err, compute_cv_area_unnormalized_capacitance x comps seg parent e = Except.error err) ↔
          (make_span comps).length ≠ 1) ∧
       ((make_span comps).length ≠ 1 →
          compute_cv_area_unnormalized_capacitance x comps seg parent e =
            Except.error (error.logic_error "soma allocated more than one compartment")))) ∧
    (seg.kind ≠ segmentKind.soma → seg.kind ≠ segmentKind.cable →
      compute_cv_area_unnormalized_capacitance x comps seg parent e =
        Except.error (error.domain_error "FVM lowering encountered unsuported segment type")) := by
  have hlen : (make_span comps).length = comps.2 - comps.1 := by
    simp [make_span]
  constructor
  · intro hk
    rw [hlen]
    constructor
    · have := compute_fails_iff x comps seg parent e
      rw [hk] at this
      exact this
    · intro hne
      unfold compute_cv_area_unnormalized_capacitance
      simp [hk, hne]
  · intro h1 h2
    unfold compute_cv_area_unnormalized_capacitance
    cases hk : seg.kind with
    | soma => exact absurd hk h1
    | cable => exact absurd hk h2
    | none => rfl

/-- C7 (worked example): a soma allotted the empty range `[3, 3)` or the range `[3, 5)` is
rejected, and a placeholder segment is rejected. -/
theorem compute_cv_area_failure_witness :
    compute_cv_area_unnormalized_capacitance sample_externals (3, 3) sample_soma [] fvm_multicell.fresh
      = Except.error (error.logic_error "soma allocated more than one compartment") ∧
    compute_cv_area_unnormalized_capacitance sample_externals (3, 5) sample_soma [] fvm_multicell.fresh
      = Except.error (error.logic_error "soma allocated more than one compartment") ∧
    compute_cv_area_unnormalized_capacitance sample_externals (3, 4) placeholder_segment []
        fvm_multicell.fresh
      = Except.error (error.domain_error "FVM lowering encountered unsuported segment type") :=
  ⟨((compute_cv_area_failure sample_externals (3, 3) sample_soma [] fvm_multicell.fresh).1 rfl).2
      (by decide),
   ((compute_cv_area_failure sample_externals (3, 5) sample_soma [] fvm_multicell.fresh).1 rfl).2
      (by decide),
   (compute_cv_area_failure sample_externals (3, 4) placeholder_segment [] fvm_multicell.fresh).2
      (by decide) (by decide)⟩

/-- On success the parent index of the matrix is the `group_parent_index` that the loop
over the cells has built. -/
theorem initialize_success (x : externals) (cells : List cell) (cell : cell) (dh : List Nat)
    (th : List (Nat × Nat)) (ph : List (field_selector × Nat)) (e : fvm_multicell)
    (hok : ( fvm_multicell.initialize x cells cell dh th ph e).failure = none) :
    ∃ loc e1,
      cells_loop x (cell_comp_part cells) 0 cells (lowering_locals.start (ncomp cells))
        (allocate_storage (ncomp cells) e) = (loc, e1, none) ∧
      ( fvm_multicell.initialize x cells cell dh th ph e).engine.matrix_.p =
        loc.group_parent_index := by
  obtain ⟨loc, e1, r, hc, hcase⟩ := initialize_cases x cells cell dh th ph e
  rcases hcase with ⟨err, _, hout⟩ | ⟨_, what, hout⟩ | ⟨hr, hout⟩
  · rw [hout] at hok
    cases hok
  · rw [hout] at hok
    cases hok
  · subst hr
    refine ⟨loc, e1, hc, ?_⟩
    rw [hout]
    have hb := bind_mechanisms_frame x cell dh th ph
      { e1 with matrix_ := matrix.of_parent_index loc.group_parent_index }
    rw [hb.1]
    rfl

/-- C3: when the local parent arrays satisfy `p[k] <= k` (hence `p[0] = 0`), the flat
parent array of a successfully lowered engine satisfies, for the cell `t` occupying the
range `[lo, hi)` of the cell partition and every `i` in that range:
`parent[i] = p_local[i - lo] + lo`, `lo <= parent[i] <= i` and `parent[lo] = lo`. -/
theorem initialize_parent_index (x : externals) (cells : List cell) (cell : cell)
    (dh : List Nat) (th : List (Nat × Nat)) (ph : List (field_selector × Nat))
    (e : fvm_multicell)
    (hp : ∀ c ∈ cells, ∀ k, k < c.num_compartments → c.parent_index.getD k 0 ≤ k)
    (hok : ( fvm_multicell.initialize x cells cell dh th ph e).failure = none)
    (t : Nat) (ht : t < cells.length) (i : Nat)
    (hlo : ((cell_comp_part cells).get t).1 ≤ i) (hhi : i < ((cell_comp_part cells).get t).2) :
    ( fvm_multicell.initialize x cells cell dh th ph e).engine.matrix_.p.getD i 0 =
        (cells[t]).parent_index.getD (i - ((cell_comp_part cells).get t).1) 0 +
          ((cell_comp_part cells).get t).1 ∧
    ((cell_comp_part cells).get t).1 ≤
        ( fvm_multicell.initialize x cells cell dh th ph e).engine.matrix_.p.getD i 0 ∧
    ( fvm_multicell.initialize x cells cell dh th ph e).engine.matrix_.p.getD i 0 ≤ i ∧
    ( fvm_multicell.initialize x cells cell dh th ph e).engine.matrix_.p.getD
        ((cell_comp_part cells).get t).1 0 = ((cell_comp_part cells).get t).1 := by
  obtain ⟨loc, e1, hc, hpar⟩ := initialize_success x cells cell dh th ph e hok
  rw [hpar]
  obtain ⟨_, _, hin⟩ := cells_loop_parents x (cell_comp_part cells) cells 0 _ loc _ e1 hc
  have hget := cell_comp_part_get cells t ht
  have hn : 1 ≤ cells.length := by omega
  have hlen0 : (lowering_locals.start (ncomp cells)).group_parent_index.length =
      (cells.map (fun c => c.num_compartments)).sum := by
    rw [← ncomp_eq_sum cells hn]
    simp [lowering_locals.start]
  have htot : ((cells.map (fun c => c.num_compartments)).take (t + 1)).sum ≤
      (cells.map (fun c => c.num_compartments)).sum := by
    have := sum_take_mono (cells.map (fun c => c.num_compartments)) (t + 1)
      (cells.map (fun c => c.num_compartments)).length (by simp; omega)
    rwa [List.take_length] at this
  have hsucc : ((cells.map (fun c => c.num_compartments)).take (t + 1)).sum =
      ((cells.map (fun c => c.num_compartments)).take t).sum + (cells[t]).num_compartments := by
    rw [List.sum_take_succ _ t (by simpa using ht)]
    simp
  -- the facts hold for every index of the range of cell `t`
  have key : ∀ j, ((cell_comp_part cells).get t).1 ≤ j → j < ((cell_comp_part cells).get t).2 →
      loc.group_parent_index.getD j 0 =
        (cells[t]).parent_index.getD (j - ((cell_comp_part cells).get t).1) 0 +
          ((cell_comp_part cells).get t).1 := by
    intro j hjlo hjhi
    have := hin t ht j (by simpa using hjlo) (by simpa using hjhi)
      (by
        rw [hlen0]
        rw [hget] at hjhi
        simp only at hjhi
        omega)
      (by
        intro t1 h1 h2
        rw [Nat.zero_add, cell_comp_part_get cells t1 h2]
        simp only
        rw [hget] at hjhi
        simp only at hjhi
        have hm := sum_take_mono (cells.map (fun c => c.num_compartments)) (t + 1) t1 (by omega)
        omega)
    simpa using this
  have hbound : ∀ j, ((cell_comp_part cells).get t).1 ≤ j → j < ((cell_comp_part cells).get t).2 →
      (cells[t]).parent_index.getD (j - ((cell_comp_part cells).get t).1) 0 ≤
        j - ((cell_comp_part cells).get t).1 := by
    intro j hjlo hjhi
    apply hp (cells[t]) (List.getElem_mem _)
    rw [hget] at hjlo hjhi ⊢
    simp only at hjlo hjhi ⊢
    omega
  have hi1 := key i hlo hhi
  have hb1 := hbound i hlo hhi
  have hlo0 := key _ (le_refl _) (by omega)
  have hb0 := hbound _ (le_refl _) (by omega)
  refine ⟨hi1, ?_, ?_, ?_⟩
  · omega
  · omega
  · rw [hlo0]
    simp only [Nat.sub_self] at hb0 ⊢
    omega

/-- C3 (worked example): two copies of the sample cell; the second occupies `[3, 6)` and
CV 5 has parent `1 + 3`. -/
theorem initialize_parent_index_witness :
    ( fvm_multicell.initialize sample_externals [sample_cell, sample_cell] sample_cell []
        [(0, 0), (0, 0), (0, 0), (0, 0)] [] fvm_multicell.fresh).engine.matrix_.p.getD 5 0 =
      (sample_cell.parent_index.getD (5 - 3) 0) + 3 ∧
    ( fvm_multicell.initialize sample_externals [sample_cell, sample_cell] sample_cell []
        [(0, 0), (0, 0), (0, 0), (0, 0)] [] fvm_multicell.fresh).engine.matrix_.p.getD 3 0 = 3 :=
  have h := initialize_parent_index sample_externals [sample_cell, sample_cell] sample_cell []
    [(0, 0), (0, 0), (0, 0), (0, 0)] [] fvm_multicell.fresh (by decide) (by decide) 1 (by decide) 5
    (by decide) (by decide)
  ⟨h.1, h.2.2.2⟩

/-- C5 (counterexample): a cell with zero compartments (and no segments) is lowered
without any failure, so not every input with a zero-compartment cell is rejected. -/
theorem initialize_accepts_empty_cell :
    ¬ (∀ (x : externals) (cells : List cell) (cell : cell) (dh : List Nat)
        (th : List (Nat × Nat)) (ph : List (field_selector × Nat)) (e : fvm_multicell),
        (∃ c ∈ cells, c.num_compartments = 0) →
        ( fvm_multicell.initialize x cells cell dh th ph e).failure ≠ none) := by
  intro h
  exact h sample_externals [empty_cell] empty_cell [] [] [] fvm_multicell.fresh
    ⟨empty_cell, by simp, rfl⟩ (by decide)

/-- C5 (amended): the lowering method fails on every sequence of cells that contains a
cell with zero compartments one of whose segments is a soma or of unsupported kind (the
compartment counts of the segments of that cell adding up to the count of the cell). -/
theorem initialize_rejects_empty_cell_with_soma (x : externals) (cells : List cell)
    (cell : cell) (dh : List Nat) (th : List (Nat × Nat)) (ph : List (field_selector × Nat))
    (e : fvm_multicell) (c : nest.mc.cell) (hc : c ∈ cells) (h0 : c.num_compartments = 0)
    (hsum : (c.segments.map (fun s => s.num_compartments)).sum = c.num_compartments)
    (s : segment) (hs : s ∈ c.segments)
    (hk : s.kind = segmentKind.soma ∨ s.kind = segmentKind.none) :
    ∃ err, ( fvm_multicell.initialize x cells cell dh th ph e).failure = some err := by
  have hzero : s.num_compartments = 0 := by
    rw [h0] at hsum
    have := List.sum_eq_zero_iff.mp hsum s.num_compartments
      (List.mem_map.mpr ⟨s, hs, rfl⟩)
    exact this
  have hbad : s.malformed := by
    unfold segment.malformed
    rcases hk with hk | hk
    · rw [hk]
      simp [hzero]
    · rw [hk]
      trivial
  obtain ⟨loc, e1, r, hcl, hcase⟩ := initialize_cases x cells cell dh th ph e
  have hfail := (cells_loop_fails_iff x (cell_comp_part cells) cells 0
    (lowering_locals.start (ncomp cells)) (allocate_storage (ncomp cells) e)).mpr
    ⟨c, hc, s, hs, hbad⟩
  rw [hcl] at hfail
  simp only [ne_eq] at hfail
  rcases hcase with ⟨err, _, hout⟩ | ⟨hr, _⟩ | ⟨hr, _⟩
  · exact ⟨err, by rw [hout]⟩
  · exact absurd hr hfail
  · exact absurd hr hfail

/-- C5 (worked example): a zero-compartment cell whose only segment is a placeholder is
rejected, also after a well-formed cell. -/
theorem initialize_rejects_empty_cell_with_soma_witness :
    ∃ err, ( fvm_multicell.initialize sample_externals [sample_cell, placeholder_cell] sample_cell
      [] [] [] fvm_multicell.fresh).failure = some err :=
  initialize_rejects_empty_cell_with_soma sample_externals [sample_cell, placeholder_cell]
    sample_cell [] [] [] fvm_multicell.fresh placeholder_cell (by simp) rfl rfl
    placeholder_segment (by simp [placeholder_cell]) (Or.inr rfl)

/-- C6 (counterexample): lowering a cell whose soma is allotted two compartments fails on
a fresh engine, and the engine is not what it was: the value arrays now have two
entries. -/
theorem initialize_failure_changes_engine :
    ( fvm_multicell.initialize sample_externals [two_compartment_soma_cell]
        two_compartment_soma_cell [] [] [] fvm_multicell.fresh).failure =
      some (error.logic_error "soma allocated more than one compartment") ∧
    fvm_multicell.fresh.cv_areas_.length = 0 ∧
    ( fvm_multicell.initialize sample_externals [two_compartment_soma_cell]
        two_compartment_soma_cell [] [] [] fvm_multicell.fresh).engine.cv_areas_.length = 2 ∧
    fvm_multicell.fresh.voltage_.length = 0 ∧
    ( fvm_multicell.initialize sample_externals [two_compartment_soma_cell]
        two_compartment_soma_cell [] [] [] fvm_multicell.fresh).engine.voltage_.length = 2 ∧
    ( fvm_multicell.initialize sample_externals [two_compartment_soma_cell]
        two_compartment_soma_cell [] [] [] fvm_multicell.fresh).engine ≠ fvm_multicell.fresh := by
  refine ⟨by decide, by decide, by decide, by decide, by decide, ?_⟩
  intro h
  have h2 : ( fvm_multicell.initialize sample_externals [two_compartment_soma_cell]
      two_compartment_soma_cell [] [] [] fvm_multicell.fresh).engine.voltage_.length =
      fvm_multicell.fresh.voltage_.length := by rw [h]
  revert h2
  decide

/-- C6 (amended): when the lowering method fails with one of the two errors of the
geometry pass (a soma not allotted exactly one compartment, a segment of unsupported
kind), the time, the resting potential, the matrix and its size, the mechanisms,
`synapse_base_`, the ions, the stimuli, the probes and the handle containers are what they
were before the call, while the five value arrays have been replaced by arrays of `ncomp`
entries, `current` and `voltage` holding zeros. -/
theorem initialize_failure_frame (x : externals) (cells : List cell) (cell : cell)
    (dh : List Nat) (th : List (Nat × Nat)) (ph : List (field_selector × Nat))
    (e : fvm_multicell)
    (hfail :
      ( fvm_multicell.initialize x cells cell dh th ph e).failure =
          some (error.logic_error "soma allocated more than one compartment") ∨
      ( fvm_multicell.initialize x cells cell dh th ph e).failure =
          some (error.domain_error "FVM lowering encountered unsuported segment type")) :
    ( fvm_multicell.initialize x cells cell dh th ph e).engine.t_ = e.t_ ∧
    ( fvm_multicell.initialize x cells cell dh th ph e).engine.resting_potential_ =
      e.resting_potential_ ∧
    ( fvm_multicell.initialize x cells cell dh th ph e).engine.matrix_ = e.matrix_ ∧
    ( fvm_multicell.initialize x cells cell dh th ph e).engine.matrix_.size = e.matrix_.size ∧
    ( fvm_multicell.initialize x cells cell dh th ph e).engine.mechanisms_ = e.mechanisms_ ∧
    ( fvm_multicell.initialize x cells cell dh th ph e).engine.synapse_base_ = e.synapse_base_ ∧
    ( fvm_multicell.initialize x cells cell dh th ph e).engine.ions_ = e.ions_ ∧
    ( fvm_multicell.initialize x cells cell dh th ph e).engine.stimulii_ = e.stimulii_ ∧
    ( fvm_multicell.initialize x cells cell dh th ph e).engine.probes_ = e.probes_ ∧
    ( fvm_multicell.initialize x cells cell dh th ph e).detector_handles = dh ∧
    ( fvm_multicell.initialize x cells cell dh th ph e).target_handles = th ∧
    ( fvm_multicell.initialize x cells cell dh th ph e).probe_handles = ph ∧
    ( fvm_multicell.initialize x cells cell dh th ph e).engine.cv_areas_.length = ncomp cells ∧
    ( fvm_multicell.initialize x cells cell dh th ph e).engine.face_alpha_.length = ncomp cells ∧
    ( fvm_multicell.initialize x cells cell dh th ph e).engine.cv_capacitance_.length =
      ncomp cells ∧
    ( fvm_multicell.initialize x cells cell dh th ph e).engine.current_ =
      List.replicate (ncomp cells) 0 ∧
    ( fvm_multicell.initialize x cells cell dh th ph e).engine.voltage_ =
      List.replicate (ncomp cells) 0 := by
  obtain ⟨loc, e1, r, hcl, hcase⟩ := initialize_cases x cells cell dh th ph e
  rcases hcase with ⟨err, _, hout⟩ | ⟨_, what, hout⟩ | ⟨_, hout⟩
  · have hfr := cells_loop_frame x (cell_comp_part cells) cells 0
      (lowering_locals.start (ncomp cells)) (allocate_storage (ncomp cells) e)
    rw [hcl] at hfr
    obtain ⟨f1, f2, f3, f4, f5, f6, f7, f8, f9, f10, f11, f12, f13, f14⟩ := hfr
    simp only [allocate_storage, List.length_replicate] at f1 f2 f3 f4 f5 f6 f7 f8 f9 f10 f11 f12 f13 f14
    rw [hout]
    simp only
    exact ⟨f1, f2, f3, by rw [f3], f8, f7, f9, f10, f11, trivial, trivial, trivial, f12, f13, f14, f5, f6⟩
  · rw [hout] at hfail
    simp at hfail
  · rw [hout] at hfail
    rcases hfail with h | h
    · rcases bind_mechanisms_error x cell dh th ph _ _ h with ⟨n, hn⟩ | hn
      · cases hn
      · simp only [error.logic_error.injEq] at hn
        exact absurd hn (by decide)
    · rcases bind_mechanisms_error x cell dh th ph _ _ h with ⟨n, hn⟩ | hn
      · cases hn
      · cases hn

/-- C6 (worked example): the failing call on the cell whose soma is allotted two
compartments leaves the time and the (empty) matrix and mechanism list of the fresh
engine. -/
theorem initialize_failure_frame_witness :
    ( fvm_multicell.initialize sample_externals [two_compartment_soma_cell]
        two_compartment_soma_cell [] [] [] fvm_multicell.fresh).engine.t_ = fvm_multicell.fresh.t_ ∧
    ( fvm_multicell.initialize sample_externals [two_compartment_soma_cell]
        two_compartment_soma_cell [] [] [] fvm_multicell.fresh).engine.matrix_.size =
      fvm_multicell.fresh.matrix_.size ∧
    ( fvm_multicell.initialize sample_externals [two_compartment_soma_cell]
        two_compartment_soma_cell [] [] [] fvm_multicell.fresh).engine.mechanisms_ =
      fvm_multicell.fresh.mechanisms_ :=
  have h := initialize_failure_frame sample_externals [two_compartment_soma_cell]
    two_compartment_soma_cell [] [] [] fvm_multicell.fresh (Or.inl (by decide))
  ⟨h.1, h.2.2.2.1, h.2.2.2.2.1⟩

/-! ## Matrix assembly -/

theorem copy_into_length (d src : List ℚ) : (copy_into d src).length = d.length := by
  simp [copy_into]

theorem copy_into_getD (d src : List ℚ) (k : Nat) (hk : k < d.length) :
    (copy_into d src).getD k 0 = src.getD k 0 := by
  unfold copy_into
  rw [List.getD_eq_getElem _ 0 (by simpa using hk)]
  simp

theorem setup_matrix_loop_l (dt : ℚ) (fa : List ℚ) (ks : List Nat) (m : matrix) :
    (ks.foldl (setup_matrix_step dt fa) m).l =
      ks.foldl (fun l i => l.set i (-(100000 * dt * fa.getD i 0))) m.l := by
  induction ks generalizing m with
  | nil => rfl
  | cons k ks ih =>
    rw [List.foldl_cons, List.foldl_cons, ih]
    rfl

theorem setup_matrix_loop_u (dt : ℚ) (fa : List ℚ) (ks : List Nat) (m : matrix) :
    (ks.foldl (setup_matrix_step dt fa) m).u =
      ks.foldl (fun u i => u.set i (-(100000 * dt * fa.getD i 0))) m.u := by
  induction ks generalizing m with
  | nil => rfl
  | cons k ks ih =>
    rw [List.foldl_cons, List.foldl_cons, ih]
    rfl

theorem setup_matrix_loop_p (dt : ℚ) (fa : List ℚ) (ks : List Nat) (m : matrix) :
    (ks.foldl (setup_matrix_step dt fa) m).p = m.p ∧
    (ks.foldl (setup_matrix_step dt fa) m).rhs = m.rhs ∧
    (ks.foldl (setup_matrix_step dt fa) m).d.length = m.d.length := by
  induction ks generalizing m with
  | nil => exact ⟨rfl, rfl, rfl⟩
  | cons k ks ih =>
    rw [List.foldl_cons]
    obtain ⟨h1, h2, h3⟩ := ih (setup_matrix_step dt fa m k)
    refine ⟨h1, h2, ?_⟩
    rw [h3]
    simp [setup_matrix_step, length_add_at]

/-- The diagonal after the first loop over an arbitrary list of indices: every index `i`
of the list adds its coefficient to entry `i` and to entry `p[i]`. -/
theorem setup_matrix_loop_d (dt : ℚ) (fa : List ℚ) (ks : List Nat) (m : matrix) (k : Nat)
    (hk : k < m.d.length) :
    (ks.foldl (setup_matrix_step dt fa) m).d.getD k 0 =
      m.d.getD k 0 +
        (ks.map (fun i =>
          (if i = k then 100000 * dt * fa.getD i 0 else 0) +
          (if m.p.getD i 0 = k then 100000 * dt * fa.getD i 0 else 0))).sum := by
  induction ks generalizing m with
  | nil => simp
  | cons i ks ih =>
    rw [List.foldl_cons, ih (setup_matrix_step dt fa m i)
      (by simpa [setup_matrix_step, length_add_at] using hk)]
    have hd : (setup_matrix_step dt fa m i).d.getD k 0 =
        m.d.getD k 0 + (if i = k then 100000 * dt * fa.getD i 0 else 0) +
          (if m.p.getD i 0 = k then 100000 * dt * fa.getD i 0 else 0) := by
      simp only [setup_matrix_step]
      rw [getD_add_at, getD_add_at, length_add_at]
      have c1 : (i = k ∧ i < m.d.length) ↔ i = k :=
        ⟨fun h => h.1, fun h => ⟨h, by omega⟩⟩
      have c2 : (m.p.getD i 0 = k ∧ m.p.getD i 0 < m.d.length) ↔ m.p.getD i 0 = k :=
        ⟨fun h => h.1, fun h => ⟨h, by omega⟩⟩
      simp only [c1, c2]
      split_ifs <;> ring
    have hp : (setup_matrix_step dt fa m i).p = m.p := rfl
    rw [hd, hp, List.map_cons, List.sum_cons]
    ring

theorem setup_rhs_loop (factor : ℚ) (e : fvm_multicell) (ks : List Nat) (m : matrix) :
    (ks.foldl (setup_rhs_step factor e) m).l = m.l ∧
    (ks.foldl (setup_rhs_step factor e) m).d = m.d ∧
    (ks.foldl (setup_rhs_step factor e) m).u = m.u ∧
    (ks.foldl (setup_rhs_step factor e) m).p = m.p ∧
    (ks.foldl (setup_rhs_step factor e) m).rhs =
      ks.foldl (fun r i => r.set i
        (e.cv_areas_.getD i 0 *
          (e.voltage_.getD i 0 - factor / e.cv_capacitance_.getD i 0 * e.current_.getD i 0)))
        m.rhs := by
  induction ks generalizing m with
  | nil => exact ⟨rfl, rfl, rfl, rfl, rfl⟩
  | cons k ks ih =>
    rw [List.foldl_cons, List.foldl_cons]
    obtain ⟨h1, h2, h3, h4, h5⟩ := ih (setup_rhs_step factor e m k)
    exact ⟨h1, h2, h3, h4, h5⟩

theorem sum_edge_split (N k : Nat) (hk : k < N) (a : Nat → ℚ) (p : Nat → Nat) :
    (∑ i ∈ Finset.Ico 1 N, ((if i = k then a i else 0) + (if p i = k then a i else 0))) =
      (if 1 ≤ k then a k else 0) + ∑ i ∈ (Finset.Ico 1 N).filter (fun i => p i = k), a i := by
  rw [Finset.sum_add_distrib, Finset.sum_ite_eq', Finset.sum_filter]
  simp [Finset.mem_Ico, hk]

/-- The three arrays `l`, `d`, `u` of the matrix after `setup_matrix(dt)`. -/
theorem setup_matrix_ldu (dt : ℚ) (e : fvm_multicell) :
    ( fvm_multicell.setup_matrix dt e).matrix_.d.length = e.matrix_.d.length ∧
    ( fvm_multicell.setup_matrix dt e).matrix_.p = e.matrix_.p ∧
    (∀ k, k < e.matrix_.d.length →
      ( fvm_multicell.setup_matrix dt e).matrix_.d.getD k 0 =
        e.cv_areas_.getD k 0 + (if 1 ≤ k then 100000 * dt * e.face_alpha_.getD k 0 else 0) +
          ∑ i ∈ (Finset.Ico 1 e.matrix_.d.length).filter (fun i => e.matrix_.p.getD i 0 = k),
            100000 * dt * e.face_alpha_.getD i 0) ∧
    (∀ i, 1 ≤ i → i < e.matrix_.d.length →
      (i < e.matrix_.l.length →
        ( fvm_multicell.setup_matrix dt e).matrix_.l.getD i 0 =
          -(100000 * dt * e.face_alpha_.getD i 0)) ∧
      (i < e.matrix_.u.length →
        ( fvm_multicell.setup_matrix dt e).matrix_.u.getD i 0 =
          -(100000 * dt * e.face_alpha_.getD i 0))) := by
  unfold fvm_multicell.setup_matrix
  simp only
  obtain ⟨r1, r2, r3, r4, _⟩ := setup_rhs_loop (10 * dt) e
    (List.range' 0 (List.foldl (setup_matrix_step dt e.face_alpha_)
      { e.matrix_ with d := copy_into e.matrix_.d e.cv_areas_ }
      (List.range' 1 ((copy_into e.matrix_.d e.cv_areas_).length - 1))).d.length)
    (List.foldl (setup_matrix_step dt e.face_alpha_)
      { e.matrix_ with d := copy_into e.matrix_.d e.cv_areas_ }
      (List.range' 1 ((copy_into e.matrix_.d e.cv_areas_).length - 1)))
  rw [r1, r2, r3, r4]
  obtain ⟨p1, _, p3⟩ := setup_matrix_loop_p dt e.face_alpha_
    (List.range' 1 ((copy_into e.matrix_.d e.cv_areas_).length - 1))
    { e.matrix_ with d := copy_into e.matrix_.d e.cv_areas_ }
  refine ⟨?_, p1, ?_, ?_⟩
  · rw [p3]
    exact copy_into_length _ _
  · intro k hk
    rw [setup_matrix_loop_d dt e.face_alpha_ _ _ k (by simpa [copy_into_length] using hk)]
    simp only
    rw [copy_into_getD _ _ k hk, copy_into_length]
    have hsum : ∀ f : Nat → ℚ, ((List.range' 1 (e.matrix_.d.length - 1)).map f).sum =
        ∑ i ∈ Finset.Ico 1 e.matrix_.d.length, f i := fun f => rfl
    rw [hsum, sum_edge_split e.matrix_.d.length k hk
      (fun i => 100000 * dt * e.face_alpha_.getD i 0) (fun i => e.matrix_.p.getD i 0)]
    ring
  · intro i h1 hi
    have hmem : i ∈ List.range' 1 ((copy_into e.matrix_.d e.cv_areas_).length - 1) := by
      rw [List.mem_range'_1, copy_into_length]
      omega
    constructor
    · intro hl
      rw [setup_matrix_loop_l, foldl_set_getD (fun i => -(100000 * dt * e.face_alpha_.getD i 0))]
      simp only
      rw [if_pos ⟨hmem, hl⟩]
    · intro hu
      rw [setup_matrix_loop_u, foldl_set_getD (fun i => -(100000 * dt * e.face_alpha_.getD i 0))]
      simp only
      rw [if_pos ⟨hmem, hu⟩]

/-- C8: after `setup_matrix(dt)`, with `a_i = 1e5 * dt * face_alpha[i]`: every diagonal
entry is `d[k] = area[k] + (a_k if k >= 1) + sum of a_i over the i in [1, N) with
p[i] = k`, and `l[i] = u[i] = -a_i` for every `i` in `[1, N)`; the assembled matrix is
the same whatever `d` held before and whatever `face_alpha[0]` is. -/
theorem setup_matrix_entries (dt : ℚ) (e : fvm_multicell)
    (hl : e.matrix_.l.length = e.matrix_.d.length)
    (hu : e.matrix_.u.length = e.matrix_.d.length) :
    (∀ k, k < e.matrix_.d.length →
      ( fvm_multicell.setup_matrix dt e).matrix_.d.getD k 0 =
        e.cv_areas_.getD k 0 + (if 1 ≤ k then 100000 * dt * e.face_alpha_.getD k 0 else 0) +
          ∑ i ∈ (Finset.Ico 1 e.matrix_.d.length).filter (fun i => e.matrix_.p.getD i 0 = k),
            100000 * dt * e.face_alpha_.getD i 0) ∧
    (∀ i, 1 ≤ i → i < e.matrix_.d.length →
      ( fvm_multicell.setup_matrix dt e).matrix_.l.getD i 0 =
          -(100000 * dt * e.face_alpha_.getD i 0) ∧
      ( fvm_multicell.setup_matrix dt e).matrix_.u.getD i 0 =
          -(100000 * dt * e.face_alpha_.getD i 0)) ∧
    (∀ (d0 : List ℚ) (v : ℚ), d0.length = e.matrix_.d.length →
      ( fvm_multicell.setup_matrix dt
          { e with matrix_ := { e.matrix_ with d := d0 }, face_alpha_ := e.face_alpha_.set 0 v }).matrix_
        = ( fvm_multicell.setup_matrix dt e).matrix_) := by
  obtain ⟨_, _, hd, hlu⟩ := setup_matrix_ldu dt e
  refine ⟨hd, ?_, ?_⟩
  · intro i h1 hi
    exact ⟨(hlu i h1 hi).1 (by omega), (hlu i h1 hi).2 (by omega)⟩
  · intro d0 v hlen
    unfold fvm_multicell.setup_matrix
    simp only
    have hcopy : copy_into d0 e.cv_areas_ = copy_into e.matrix_.d e.cv_areas_ := by
      simp [copy_into, hlen]
    have hstep : List.foldl (setup_matrix_step dt (e.face_alpha_.set 0 v))
          { e.matrix_ with d := copy_into e.matrix_.d e.cv_areas_ }
          (List.range' 1 ((copy_into e.matrix_.d e.cv_areas_).length - 1)) =
        List.foldl (setup_matrix_step dt e.face_alpha_)
          { e.matrix_ with d := copy_into e.matrix_.d e.cv_areas_ }
          (List.range' 1 ((copy_into e.matrix_.d e.cv_areas_).length - 1)) := by
      apply List.foldl_ext
      intro m i hi
      have h1 : 1 ≤ i := (List.mem_range'_1.mp hi).1
      have hfa : (e.face_alpha_.set 0 v).getD i 0 = e.face_alpha_.getD i 0 := by
        rw [getD_set_eq, if_neg]
        omega
      simp only [setup_matrix_step, hfa]
    rw [hcopy, hstep]
    rfl

/-- C8 (worked example): on the chain `0 - 1 - 2` with `dt = 1/100`. -/
theorem setup_matrix_entries_witness :
    ( fvm_multicell.setup_matrix (1 / 100) sample_engine).matrix_.l.getD 2 0 =
      -(100000 * (1 / 100) * sample_engine.face_alpha_.getD 2 0) ∧
    ( fvm_multicell.setup_matrix (1 / 100) sample_engine).matrix_.u.getD 2 0 =
      -(100000 * (1 / 100) * sample_engine.face_alpha_.getD 2 0) :=
  ((setup_matrix_entries (1 / 100) sample_engine (by decide) (by decide)).2.1 2
    (by decide) (by decide))

/-- C10: after `setup_matrix(dt)` the right-hand side is
`rhs[i] = area[i] * (voltage[i] - (10 * dt / cv_capacitance[i]) * current[i])` for every
`i` in `[0, N)`, and `voltage`, `current`, `area`, `face_alpha` and `cv_capacitance` are
unchanged. -/
theorem setup_matrix_rhs (dt : ℚ) (e : fvm_multicell)
    (hr : e.matrix_.rhs.length = e.matrix_.d.length) :
    (∀ i, i < e.matrix_.d.length →
      ( fvm_multicell.setup_matrix dt e).matrix_.rhs.getD i 0 =
        e.cv_areas_.getD i 0 *
          (e.voltage_.getD i 0 - (10 * dt / e.cv_capacitance_.getD i 0) * e.current_.getD i 0)) ∧
    ( fvm_multicell.setup_matrix dt e).voltage_ = e.voltage_ ∧
    ( fvm_multicell.setup_matrix dt e).current_ = e.current_ ∧
    ( fvm_multicell.setup_matrix dt e).cv_areas_ = e.cv_areas_ ∧
    ( fvm_multicell.setup_matrix dt e).face_alpha_ = e.face_alpha_ ∧
    ( fvm_multicell.setup_matrix dt e).cv_capacitance_ = e.cv_capacitance_ := by
  refine ⟨?_, rfl, rfl, rfl, rfl, rfl⟩
  intro i hi
  unfold fvm_multicell.setup_matrix
  simp only
  obtain ⟨_, _, _, _, r5⟩ := setup_rhs_loop (10 * dt) e
    (List.range' 0 (List.foldl (setup_matrix_step dt e.face_alpha_)
      { e.matrix_ with d := copy_into e.matrix_.d e.cv_areas_ }
      (List.range' 1 ((copy_into e.matrix_.d e.cv_areas_).length - 1))).d.length)
    (List.foldl (setup_matrix_step dt e.face_alpha_)
      { e.matrix_ with d := copy_into e.matrix_.d e.cv_areas_ }
      (List.range' 1 ((copy_into e.matrix_.d e.cv_areas_).length - 1)))
  obtain ⟨_, p2, p3⟩ := setup_matrix_loop_p dt e.face_alpha_
    (List.range' 1 ((copy_into e.matrix_.d e.cv_areas_).length - 1))
    { e.matrix_ with d := copy_into e.matrix_.d e.cv_areas_ }
  rw [r5, p2, p3,
    foldl_set_getD (fun i => e.cv_areas_.getD i 0 *
      (e.voltage_.getD i 0 - 10 * dt / e.cv_capacitance_.getD i 0 * e.current_.getD i 0))]
  simp only
  rw [if_pos]
  rw [List.mem_range'_1, copy_into_length]
  omega

/-- C10 (worked example): on the chain `0 - 1 - 2` with `dt = 1/100`. -/
theorem setup_matrix_rhs_witness :
    ( fvm_multicell.setup_matrix (1 / 100) sample_engine).matrix_.rhs.getD 1 0 =
      sample_engine.cv_areas_.getD 1 0 *
        (sample_engine.voltage_.getD 1 0 -
          (10 * (1 / 100) / sample_engine.cv_capacitance_.getD 1 0) *
            sample_engine.current_.getD 1 0) :=
  (setup_matrix_rhs (1 / 100) sample_engine (by decide)).1 1 (by decide)

/-! ## The assembled matrix is symmetric and diagonally dominant -/

theorem entry_symmetric (m : matrix) (N : Nat)
    (hlu : ∀ i, 1 ≤ i → i < N → m.l.getD i 0 = m.u.getD i 0)
    (htree : ∀ i, 1 ≤ i → i < N → m.p.getD i 0 < i)
    (r c : Nat) (hr : r < N) (hc : c < N) : m.entry r c = m.entry c r := by
  unfold matrix.entry
  by_cases hrc : r = c
  · subst hrc
    simp
  · have hcr : ¬ c = r := fun h => hrc h.symm
    rw [if_neg hrc, if_neg hcr]
    by_cases hA : 1 ≤ r ∧ m.p.getD r 0 = c
    · have hB : ¬ (1 ≤ c ∧ m.p.getD c 0 = r) := by
        rintro ⟨h1, h2⟩
        have := htree r hA.1 hr
        have := htree c h1 hc
        omega
      rw [if_pos hA, if_neg hB, if_pos hA]
      exact hlu r hA.1 hr
    · rw [if_neg hA]
      by_cases hB : 1 ≤ c ∧ m.p.getD c 0 = r
      · rw [if_pos hB, if_pos hB]
        exact (hlu c hB.1 hc).symm
      · rw [if_neg hB, if_neg hB, if_neg hA]

theorem entry_offdiag_abs (m : matrix) (N : Nat)
    (htree : ∀ i, 1 ≤ i → i < N → m.p.getD i 0 < i)
    (k c : Nat) (hk : k < N) (hc : c < N) (hkc : c ≠ k) :
    |m.entry k c| =
      (if 1 ≤ k ∧ m.p.getD k 0 = c then |m.l.getD k 0| else 0) +
      (if 1 ≤ c ∧ m.p.getD c 0 = k then |m.u.getD c 0| else 0) := by
  unfold matrix.entry
  have hne : ¬ k = c := fun h => hkc h.symm
  rw [if_neg hne]
  by_cases hA : 1 ≤ k ∧ m.p.getD k 0 = c
  · have hB : ¬ (1 ≤ c ∧ m.p.getD c 0 = k) := by
      rintro ⟨h1, h2⟩
      have := htree k hA.1 hk
      have := htree c h1 hc
      omega
    rw [if_pos hA, if_pos hA, if_neg hB, add_zero]
  · rw [if_neg hA, if_neg hA, zero_add]
    by_cases hB : 1 ≤ c ∧ m.p.getD c 0 = k
    · rw [if_pos hB, if_pos hB]
    · rw [if_neg hB, if_neg hB, abs_zero]

/-- The sum of the absolute values of the off-diagonal entries of row `k` is the sum over
the edges at `k`: the edge to the parent of `k` and the edges from the children of `k`. -/
theorem row_offdiag_sum (m : matrix) (N : Nat)
    (htree : ∀ i, 1 ≤ i → i < N → m.p.getD i 0 < i) (k : Nat) (hk : k < N) :
    (∑ c ∈ (Finset.range N).erase k, |m.entry k c|) =
      (if 1 ≤ k then |m.l.getD k 0| else 0) +
        ∑ i ∈ (Finset.Ico 1 N).filter (fun i => m.p.getD i 0 = k), |m.u.getD i 0| := by
  have hcongr : (∑ c ∈ (Finset.range N).erase k, |m.entry k c|) =
      ∑ c ∈ (Finset.range N).erase k,
        ((if 1 ≤ k ∧ m.p.getD k 0 = c then |m.l.getD k 0| else 0) +
         (if 1 ≤ c ∧ m.p.getD c 0 = k then |m.u.getD c 0| else 0)) := by
    apply Finset.sum_congr rfl
    intro c hc
    rw [Finset.mem_erase, Finset.mem_range] at hc
    exact entry_offdiag_abs m N htree k c hk hc.2 hc.1
  rw [hcongr, Finset.sum_add_distrib]
  congr 1
  · by_cases h1 : 1 ≤ k
    · have hpk := htree k h1 hk
      have hmem : m.p.getD k 0 ∈ (Finset.range N).erase k := by
        rw [Finset.mem_erase, Finset.mem_range]
        constructor
        · omega
        · omega
      simp only [h1, true_and, if_true]
      rw [Finset.sum_ite_eq, if_pos hmem]
    · simp [h1]
  · rw [← Finset.sum_filter]
    apply Finset.sum_congr _ (fun _ _ => rfl)
    ext c
    simp only [Finset.mem_filter, Finset.mem_erase, Finset.mem_range, Finset.mem_Ico]
    constructor
    · rintro ⟨⟨_, h2⟩, h3, h4⟩
      exact ⟨⟨h3, h2⟩, h4⟩
    · rintro ⟨⟨h1, h2⟩, h3⟩
      refine ⟨⟨?_, h2⟩, h1, h3⟩
      have := htree c h1 h2
      omega

theorem unique_solution_of_dominant (N : Nat) (A : Nat → Nat → ℚ)
    (hdom : ∀ k, k < N → (∑ c ∈ (Finset.range N).erase k, |A k c|) < |A k k|)
    (b : Fin N → ℚ) :
    ∃! v : Fin N → ℚ, ∀ r : Fin N, (∑ c : Fin N, A r c * v c) = b r := by
  let M : Matrix (Fin N) (Fin N) ℚ := Matrix.of (fun r c => A r c)
  have hdet : M.det ≠ 0 := by
    apply det_ne_zero_of_sum_row_lt_diag
    intro k
    have hq := hdom k k.isLt
    have hnorm : ∀ q : ℚ, ‖q‖ = ((|q| : ℚ) : ℝ) := by
      intro q
      rw [← Rat.norm_cast_real, Real.norm_eq_abs, Rat.cast_abs]
    have hsum : (∑ j ∈ Finset.univ.erase k, ‖M k j‖) =
        (((∑ c ∈ (Finset.range N).erase (k : Nat), |A k c|) : ℚ) : ℝ) := by
      rw [Rat.cast_sum]
      have h1 : (∑ j ∈ Finset.univ.erase k, ‖M k j‖) =
          ∑ j : Fin N, (if (j : Nat) = k then (0 : ℝ) else ((|A k j| : ℚ) : ℝ)) := by
        rw [← Finset.sum_erase (Finset.univ) (a := k)
          (f := fun j : Fin N => if (j : Nat) = k then (0 : ℝ) else ((|A k j| : ℚ) : ℝ)) (by simp)]
        apply Finset.sum_congr rfl
        intro j hj
        have hjk : (j : Nat) ≠ k := by
          intro h
          exact (Finset.mem_erase.mp hj).1 (Fin.ext h)
        rw [if_neg hjk, hnorm]
        rfl
      have h2 : (∑ c ∈ (Finset.range N).erase (k : Nat), ((|A k c| : ℚ) : ℝ)) =
          ∑ c ∈ Finset.range N, (if c = k then (0 : ℝ) else ((|A k c| : ℚ) : ℝ)) := by
        rw [← Finset.sum_erase (Finset.range N) (a := (k : Nat))
          (f := fun c : Nat => if c = k then (0 : ℝ) else ((|A k c| : ℚ) : ℝ)) (by simp)]
        apply Finset.sum_congr rfl
        intro c hc
        rw [if_neg (Finset.mem_erase.mp hc).1]
      rw [h1, h2, Fin.sum_univ_eq_sum_range
        (fun c : Nat => if c = k then (0 : ℝ) else ((|A k c| : ℚ) : ℝ)) N]
    rw [hsum, hnorm]
    exact_mod_cast hq
  have hunit : IsUnit M := (Matrix.isUnit_iff_isUnit_det M).mpr (isUnit_iff_ne_zero.mpr hdet)
  have hinj := Matrix.mulVec_injective_iff_isUnit.mpr hunit
  have hsurj := Matrix.mulVec_surjective_iff_isUnit.mpr hunit
  obtain ⟨v, hv⟩ := hsurj b
  refine ⟨v, ?_, ?_⟩
  · intro r
    have := congrFun hv r
    simpa [Matrix.mulVec, Matrix.dotProduct, M] using this
  · intro w hw
    apply hinj
    rw [hv]
    funext r
    have := hw r
    simpa [Matrix.mulVec, Matrix.dotProduct, M] using this

/-- C9: if every area is positive, every `face_alpha` is non-negative, `dt >= 0` and
`p[i] < i` for `i >= 1`, the matrix assembled by `setup_matrix(dt)` is symmetric, has a
strictly positive diagonal, and is strictly diagonally dominant: in every row `k`, `d[k]`
minus the absolute values of the off-diagonal entries (the `l` entry on the edge to the
parent of `k`, the `u` entries on the edges from the children of `k`) is `area[k] > 0`;
hence the linear system has exactly one solution for every right-hand side. -/
theorem setup_matrix_diagonally_dominant (dt : ℚ) (e : fvm_multicell)
    (hl : e.matrix_.l.length = e.matrix_.d.length)
    (hu : e.matrix_.u.length = e.matrix_.d.length)
    (harea : ∀ i, i < e.matrix_.d.length → 0 < e.cv_areas_.getD i 0)
    (hfa : ∀ i, i < e.matrix_.d.length → 0 ≤ e.face_alpha_.getD i 0)
    (hdt : 0 ≤ dt)
    (htree : ∀ i, 1 ≤ i → i < e.matrix_.d.length → e.matrix_.p.getD i 0 < i) :
    (∀ r c, r < e.matrix_.d.length → c < e.matrix_.d.length →
      ( fvm_multicell.setup_matrix dt e).matrix_.entry r c =
        ( fvm_multicell.setup_matrix dt e).matrix_.entry c r) ∧
    (∀ k, k < e.matrix_.d.length → 0 < ( fvm_multicell.setup_matrix dt e).matrix_.d.getD k 0) ∧
    (∀ k, k < e.matrix_.d.length →
      ( fvm_multicell.setup_matrix dt e).matrix_.d.getD k 0 -
        ((if 1 ≤ k then |( fvm_multicell.setup_matrix dt e).matrix_.l.getD k 0| else 0) +
          ∑ i ∈ (Finset.Ico 1 e.matrix_.d.length).filter (fun i => e.matrix_.p.getD i 0 = k),
            |( fvm_multicell.setup_matrix dt e).matrix_.u.getD i 0|) = e.cv_areas_.getD k 0) ∧
    (∀ k, k < e.matrix_.d.length →
      ( fvm_multicell.setup_matrix dt e).matrix_.entry k k -
        ∑ c ∈ (Finset.range e.matrix_.d.length).erase k,
          |( fvm_multicell.setup_matrix dt e).matrix_.entry k c| = e.cv_areas_.getD k 0) ∧
    (∀ b : Fin e.matrix_.d.length → ℚ,
      ∃! v : Fin e.matrix_.d.length → ℚ, ∀ r : Fin e.matrix_.d.length,
        (∑ c : Fin e.matrix_.d.length,
          ( fvm_multicell.setup_matrix dt e).matrix_.entry r c * v c) = b r) := by
  obtain ⟨_, hp, hd, hlu⟩ := setup_matrix_ldu dt e
  have ha : ∀ i, i < e.matrix_.d.length → 0 ≤ 100000 * dt * e.face_alpha_.getD i 0 := by
    intro i hi
    have := hfa i hi
    positivity
  have hlv : ∀ i, 1 ≤ i → i < e.matrix_.d.length →
      ( fvm_multicell.setup_matrix dt e).matrix_.l.getD i 0 =
        -(100000 * dt * e.face_alpha_.getD i 0) :=
    fun i h1 hi => (hlu i h1 hi).1 (by omega)
  have huv : ∀ i, 1 ≤ i → i < e.matrix_.d.length →
      ( fvm_multicell.setup_matrix dt e).matrix_.u.getD i 0 =
        -(100000 * dt * e.face_alpha_.getD i 0) :=
    fun i h1 hi => (hlu i h1 hi).2 (by omega)
  have htree1 : ∀ i, 1 ≤ i → i < e.matrix_.d.length →
      ( fvm_multicell.setup_matrix dt e).matrix_.p.getD i 0 < i := by
    intro i h1 hi
    rw [hp]
    exact htree i h1 hi
  have hedge : ∀ k, k < e.matrix_.d.length →
      ((if 1 ≤ k then |( fvm_multicell.setup_matrix dt e).matrix_.l.getD k 0| else 0) +
        ∑ i ∈ (Finset.Ico 1 e.matrix_.d.length).filter (fun i => e.matrix_.p.getD i 0 = k),
          |( fvm_multicell.setup_matrix dt e).matrix_.u.getD i 0|) =
      (if 1 ≤ k then 100000 * dt * e.face_alpha_.getD k 0 else 0) +
        ∑ i ∈ (Finset.Ico 1 e.matrix_.d.length).filter (fun i => e.matrix_.p.getD i 0 = k),
          100000 * dt * e.face_alpha_.getD i 0 := by
    intro k hk
    congr 1
    · by_cases h1 : 1 ≤ k
      · rw [if_pos h1, if_pos h1, hlv k h1 hk, abs_neg, abs_of_nonneg (ha k hk)]
      · rw [if_neg h1, if_neg h1]
    · apply Finset.sum_congr rfl
      intro i hi
      rw [Finset.mem_filter, Finset.mem_Ico] at hi
      rw [huv i hi.1.1 hi.1.2, abs_neg, abs_of_nonneg (ha i hi.1.2)]
  have hedge_nonneg : ∀ k, k < e.matrix_.d.length →
      0 ≤ (if 1 ≤ k then 100000 * dt * e.face_alpha_.getD k 0 else 0) +
        ∑ i ∈ (Finset.Ico 1 e.matrix_.d.length).filter (fun i => e.matrix_.p.getD i 0 = k),
          100000 * dt * e.face_alpha_.getD i 0 := by
    intro k hk
    apply add_nonneg
    · split_ifs
      · exact ha k hk
      · exact le_refl 0
    · apply Finset.sum_nonneg
      intro i hi
      rw [Finset.mem_filter, Finset.mem_Ico] at hi
      exact ha i hi.1.2
  have hpos : ∀ k, k < e.matrix_.d.length →
      0 < ( fvm_multicell.setup_matrix dt e).matrix_.d.getD k 0 := by
    intro k hk
    rw [hd k hk, add_assoc]
    exact add_pos_of_pos_of_nonneg (harea k hk) (hedge_nonneg k hk)
  have hrow : ∀ k, k < e.matrix_.d.length →
      ( fvm_multicell.setup_matrix dt e).matrix_.d.getD k 0 -
        ((if 1 ≤ k then |( fvm_multicell.setup_matrix dt e).matrix_.l.getD k 0| else 0) +
          ∑ i ∈ (Finset.Ico 1 e.matrix_.d.length).filter (fun i => e.matrix_.p.getD i 0 = k),
            |( fvm_multicell.setup_matrix dt e).matrix_.u.getD i 0|) = e.cv_areas_.getD k 0 := by
    intro k hk
    rw [hedge k hk, hd k hk]
    ring
  have hdiag : ∀ k, ( fvm_multicell.setup_matrix dt e).matrix_.entry k k =
      ( fvm_multicell.setup_matrix dt e).matrix_.d.getD k 0 := by
    intro k
    simp [matrix.entry]
  have hdense : ∀ k, k < e.matrix_.d.length →
      ( fvm_multicell.setup_matrix dt e).matrix_.entry k k -
        ∑ c ∈ (Finset.range e.matrix_.d.length).erase k,
          |( fvm_multicell.setup_matrix dt e).matrix_.entry k c| = e.cv_areas_.getD k 0 := by
    intro k hk
    rw [hdiag, row_offdiag_sum _ e.matrix_.d.length htree1 k hk, hp]
    exact hrow k hk
  refine ⟨?_, hpos, hrow, hdense, ?_⟩
  · intro r c hr hc
    apply entry_symmetric _ e.matrix_.d.length _ htree1 r c hr hc
    intro i h1 hi
    rw [hlv i h1 hi, huv i h1 hi]
  · intro b
    apply unique_solution_of_dominant
    intro k hk
    have h1 := hdense k hk
    have h2 := harea k hk
    have h3 := hpos k hk
    rw [hdiag] at h1 ⊢
    rw [abs_of_pos h3]
    linarith

/-- C9 (worked example): on the chain `0 - 1 - 2` with `dt = 1/100` the assembled matrix
has positive diagonal and the system has exactly one solution. -/
theorem setup_matrix_diagonally_dominant_witness :
    0 < ( fvm_multicell.setup_matrix (1 / 100) sample_engine).matrix_.d.getD 1 0 ∧
    ( fvm_multicell.setup_matrix (1 / 100) sample_engine).matrix_.entry 1 2 =
      ( fvm_multicell.setup_matrix (1 / 100) sample_engine).matrix_.entry 2 1 :=
  have h := setup_matrix_diagonally_dominant (1 / 100) sample_engine (by decide) (by decide)
    (by
      intro i hi
      have hi3 : i < 3 := hi
      interval_cases i <;> simp [sample_engine])
    (by
      intro i hi
      have hi3 : i < 3 := hi
      interval_cases i <;> simp [sample_engine])
    (by norm_num)
    (by decide)
  ⟨h.2.1 1 (by decide), h.1 1 2 (by decide) (by decide)⟩

/-! ## The ordered map of mechanism names -/

theorem name_less_irrefl (a : String) : ¬ name_less a a := by
  unfold name_less
  exact lt_irrefl a.data

theorem name_less_trans {a b c : String} (h1 : name_less a b) (h2 : name_less b c) :
    name_less a c := by
  unfold name_less at *
  exact lt_trans h1 h2

theorem name_eq_of_not_less {a b : String} (h1 : ¬ name_less a b) (h2 : ¬ name_less b a) :
    a = b := by
  unfold name_less at *
  rcases lt_trichotomy a.data b.data with h | h | h
  · exact absurd h h1
  · exact String.ext h
  · exact absurd h h2

/-- C1 (the code at the failing input): the first synapse of the sample cell is an
"expsyn" on CV 0 and the second an "exp2syn" on CV 1.  The handle emitted for the first
synapse is `(0, 0)`, but `mechanisms_[synapse_base_ + 0]` is the "exp2syn" mechanism,
whose index vector holds CV 1; `deliver_event((0, 0), w)` therefore reaches the
"exp2syn" mechanism and leaves the "expsyn" mechanism untouched. -/
theorem deliver_event_reaches_other_mechanism :
    sample_cell.synapses.map (fun s => (s.mechanism, sample_externals.find_compartment_index s.location))
      = [("expsyn", 0), ("exp2syn", 1)] ∧
    ( fvm_multicell.initialize sample_externals [sample_cell] sample_cell [] [(0, 0), (0, 0)] []
        fvm_multicell.fresh).failure = none ∧
    ( fvm_multicell.initialize sample_externals [sample_cell] sample_cell [] [(0, 0), (0, 0)] []
        fvm_multicell.fresh).target_handles = [(0, 0), (1, 0)] ∧
    (( fvm_multicell.initialize sample_externals [sample_cell] sample_cell [] [(0, 0), (0, 0)] []
        fvm_multicell.fresh).engine.mechanisms_.drop
      ( fvm_multicell.initialize sample_externals [sample_cell] sample_cell [] [(0, 0), (0, 0)] []
        fvm_multicell.fresh).engine.synapse_base_).map (fun m => (m.name, m.node_index))
      = [("exp2syn", [1]), ("expsyn", [0])] ∧
    ( fvm_multicell.deliver_event sample_externals (0, 0) 1
      ( fvm_multicell.initialize sample_externals [sample_cell] sample_cell [] [(0, 0), (0, 0)] []
        fvm_multicell.fresh).engine).mechanisms_.map (fun m => (m.name, m.state.length))
      = [("hh", 0), ("pas", 0), ("exp2syn", 2), ("expsyn", 0)] := by
  refine ⟨by decide, by decide, by decide, by decide, by decide⟩

/-! ## Stimulus injection -/

theorem getD_sub_at (xs : List ℚ) (i j : Nat) (a : ℚ) :
    (sub_at xs i a).getD j 0 =
      if i = j ∧ i < xs.length then xs.getD j 0 - a else xs.getD j 0 := by
  unfold sub_at
  rw [getD_set_eq]
  by_cases h : i = j ∧ i < xs.length
  · obtain ⟨h1, h2⟩ := h
    subst h1
    simp [h2]
  · simp [h]

theorem length_sub_at (xs : List ℚ) (i : Nat) (a : ℚ) : (sub_at xs i a).length = xs.length := by
  simp [sub_at]

theorem stimulus_loop_length (s : stepping) (e : fvm_multicell) (stims : List (Nat × i_clamp))
    (cur : List ℚ) : (stims.foldl (stimulus_step s e) cur).length = cur.length := by
  induction stims generalizing cur with
  | nil => rfl
  | cons st stims ih =>
    rw [List.foldl_cons, ih]
    exact length_sub_at _ _ _

/-- The loop over the stimuli subtracts from entry `k` the contribution of every clamp
located at `k`. -/
theorem stimulus_loop_getD (s : stepping) (e : fvm_multicell) (stims : List (Nat × i_clamp))
    (cur : List ℚ) (k : Nat) (hk : k < cur.length) :
    (stims.foldl (stimulus_step s e) cur).getD k 0 =
      cur.getD k 0 -
        ((stims.filter (fun st => st.1 = k)).map
          (fun st => 100 * s.amplitude st.2 e.t_ / e.cv_areas_.getD k 0)).sum := by
  induction stims generalizing cur with
  | nil => simp
  | cons st stims ih =>
    rw [List.foldl_cons, ih _ (by rw [stimulus_step, length_sub_at]; exact hk)]
    unfold stimulus_step
    rw [getD_sub_at]
    by_cases h : st.1 = k
    · have hc : st.1 = k ∧ st.1 < cur.length := ⟨h, by omega⟩
      rw [if_pos hc, List.filter_cons_of_pos (by simpa using h), List.map_cons, List.sum_cons, h]
      ring
    · have hc : ¬ (st.1 = k ∧ st.1 < cur.length) := fun hh => h hh.1
      rw [if_neg hc, List.filter_cons_of_neg (by simpa using h)]

theorem advance_current (s : stepping) (dt : ℚ) (e : fvm_multicell) :
    ( fvm_multicell.advance s dt e).current_ = step_current s dt e := rfl

/-- C11: for an engine without mechanisms, after `advance(dt)` the current of every CV `k`
is minus the sum, over the stimuli located at `k`, of `100 * amplitude(t) / area[k]` with
`t` the time before the step; it is zero on a CV without stimulus; a current probe at `k`
returns this value; and the result is the same whatever `current` held before. -/
theorem advance_current_without_mechanisms (s : stepping) (dt : ℚ) (e : fvm_multicell)
    (hm : e.mechanisms_ = []) :
    (∀ k, k < e.current_.length →
      ( fvm_multicell.advance s dt e).current_.getD k 0 =
        -((e.stimulii_.filter (fun st => st.1 = k)).map
            (fun st => 100 * s.amplitude st.2 e.t_ / e.cv_areas_.getD k 0)).sum ∧
      ((∀ st ∈ e.stimulii_, st.1 ≠ k) → ( fvm_multicell.advance s dt e).current_.getD k 0 = 0) ∧
      fvm_multicell.probe (field_selector.current_, k) ( fvm_multicell.advance s dt e) =
        -((e.stimulii_.filter (fun st => st.1 = k)).map
            (fun st => 100 * s.amplitude st.2 e.t_ / e.cv_areas_.getD k 0)).sum) ∧
    (∀ c : List ℚ, c.length = e.current_.length →
      ( fvm_multicell.advance s dt { e with current_ := c }).current_ =
        ( fvm_multicell.advance s dt e).current_) := by
  have hcur : ∀ k, k < e.current_.length →
      ( fvm_multicell.advance s dt e).current_.getD k 0 =
        -((e.stimulii_.filter (fun st => st.1 = k)).map
            (fun st => 100 * s.amplitude st.2 e.t_ / e.cv_areas_.getD k 0)).sum := by
    intro k hk
    rw [advance_current]
    unfold step_current
    simp only [hm, List.foldl_nil]
    rw [stimulus_loop_getD s e _ _ k (by simpa using hk)]
    have hz : (List.map (fun _ => (0 : ℚ)) e.current_).getD k 0 = 0 := by
      rw [List.getD_eq_getElem _ 0 (by simpa using hk)]
      simp
    rw [hz, zero_sub]
  constructor
  · intro k hk
    refine ⟨hcur k hk, ?_, hcur k hk⟩
    intro hnone
    rw [hcur k hk]
    have hf : e.stimulii_.filter (fun st => st.1 = k) = [] := by
      rw [List.filter_eq_nil_iff]
      intro st hst
      simpa using hnone st hst
    rw [hf]
    simp
  · intro c hc
    rw [advance_current, advance_current]
    unfold step_current
    simp only
    have hzero : List.map (fun _ => (0 : ℚ)) c = List.map (fun _ => (0 : ℚ)) e.current_ := by
      rw [List.map_const', List.map_const', hc]
    rw [hzero]
    rfl

/-- C11 (worked example): two clamps of 3 nA and 1 nA on CV 1 of area 20 give the current
`-(100*3/20 + 100*1/20)` on CV 1 and no current on CV 2. -/
theorem advance_current_without_mechanisms_witness :
    ( fvm_multicell.advance sample_stepping (1 / 100) sample_clamped_engine).current_.getD 1 0 =
      -((sample_clamped_engine.stimulii_.filter (fun st => st.1 = 1)).map
          (fun st => 100 * sample_stepping.amplitude st.2 sample_clamped_engine.t_ /
            sample_clamped_engine.cv_areas_.getD 1 0)).sum ∧
    ( fvm_multicell.advance sample_stepping (1 / 100) sample_clamped_engine).current_.getD 2 0 = 0 :=
  ⟨((advance_current_without_mechanisms sample_stepping (1 / 100) sample_clamped_engine rfl).1 1
      (by decide)).1,
   ((advance_current_without_mechanisms sample_stepping (1 / 100) sample_clamped_engine rfl).1 2
      (by decide)).2.1 (by decide)⟩

/-! ## Reset -/

theorem reset_voltage_getD (x : externals) (e : fvm_multicell) (i : Nat)
    (hi : i < e.voltage_.length) :
    ( fvm_multicell.reset x e).voltage_.getD i 0 = e.resting_potential_ := by
  unfold fvm_multicell.reset
  simp only
  rw [List.getD_eq_getElem _ 0 (by simpa using hi)]
  simp

/-- C17: after `reset()` every voltage is the resting potential, the time is zero, every
mechanism holds the state that `nrn_init` gives it for the new voltage, and the structure
is unchanged: areas, `face_alpha`, capacitances, the matrix with its parent array,
`synapse_base_`, the stimuli, the probes, the ions, the resting potential, and the number
and order of the mechanisms with their names, index sets and areas. -/
theorem reset_frame (x : externals) (e : fvm_multicell) :
    (∀ i, i < e.voltage_.length →
      ( fvm_multicell.reset x e).voltage_.getD i 0 = e.resting_potential_) ∧
    ( fvm_multicell.reset x e).voltage_.length = e.voltage_.length ∧
    ( fvm_multicell.reset x e).time = 0 ∧
    ( fvm_multicell.reset x e).mechanisms_ =
      e.mechanisms_.map
        (fun m => { m with state := x.nrn_init m ( fvm_multicell.reset x e).voltage_ }) ∧
    ( fvm_multicell.reset x e).mechanisms_.length = e.mechanisms_.length ∧
    ( fvm_multicell.reset x e).mechanisms_.map (fun m => (m.name, m.node_index, m.areas, m.ions)) =
      e.mechanisms_.map (fun m => (m.name, m.node_index, m.areas, m.ions)) ∧
    ( fvm_multicell.reset x e).cv_areas_ = e.cv_areas_ ∧
    ( fvm_multicell.reset x e).face_alpha_ = e.face_alpha_ ∧
    ( fvm_multicell.reset x e).cv_capacitance_ = e.cv_capacitance_ ∧
    ( fvm_multicell.reset x e).matrix_ = e.matrix_ ∧
    ( fvm_multicell.reset x e).synapse_base_ = e.synapse_base_ ∧
    ( fvm_multicell.reset x e).stimulii_ = e.stimulii_ ∧
    ( fvm_multicell.reset x e).probes_ = e.probes_ ∧
    ( fvm_multicell.reset x e).ions_ = e.ions_ ∧
    ( fvm_multicell.reset x e).current_ = e.current_ ∧
    ( fvm_multicell.reset x e).resting_potential_ = e.resting_potential_ := by
  refine ⟨fun i hi => reset_voltage_getD x e i hi, ?_, rfl, rfl, ?_, ?_, rfl, rfl, rfl, rfl, rfl,
    rfl, rfl, rfl, rfl, rfl⟩
  · simp [fvm_multicell.reset]
  · simp [fvm_multicell.reset]
  · simp only [fvm_multicell.reset, List.map_map]
    apply List.map_congr_left
    intro m _
    rfl

theorem reset_idem (x : externals) (e : fvm_multicell)
    (hinit : ∀ (m : mechanism) (st : List ℚ) (v : List ℚ),
      x.nrn_init { m with state := st } v = x.nrn_init m v) :
    fvm_multicell.reset x ( fvm_multicell.reset x e) = fvm_multicell.reset x e := by
  unfold fvm_multicell.reset
  simp only [List.map_map]
  have hv : List.map ((fun _ => e.resting_potential_) ∘ fun _ => e.resting_potential_) e.voltage_ =
      List.map (fun _ => e.resting_potential_) e.voltage_ := by
    apply List.map_congr_left
    intro _ _
    rfl
  rw [hv]
  congr 1
  apply List.map_congr_left
  intro m _
  simp only [Function.comp]
  rw [hinit]

/-- C18: `reset()` is idempotent, each mechanism's `nrn_init` being a function of the
structure of the mechanism and of the engine voltage only (not of the state the mechanism
holds). -/
theorem reset_idempotent (x : externals) (e : fvm_multicell)
    (hinit : ∀ (m : mechanism) (st : List ℚ) (v : List ℚ),
      x.nrn_init { m with state := st } v = x.nrn_init m v) :
    fvm_multicell.reset x ( fvm_multicell.reset x e) = fvm_multicell.reset x e :=
  reset_idem x e hinit

/-- C18 (worked example): resetting twice an engine whose mechanism takes its state from
the voltage. -/
theorem reset_idempotent_witness :
    fvm_multicell.reset voltage_init_externals
        ( fvm_multicell.reset voltage_init_externals sample_engine_with_mechanism) =
      fvm_multicell.reset voltage_init_externals sample_engine_with_mechanism :=
  reset_idempotent voltage_init_externals sample_engine_with_mechanism (fun _ _ _ => rfl)

theorem initialize_resting_potential (x : externals) (cells : List cell) (cell : cell)
    (dh : List Nat) (th : List (Nat × Nat)) (ph : List (field_selector × Nat))
    (e : fvm_multicell) :
    ( fvm_multicell.initialize x cells cell dh th ph e).engine.resting_potential_ =
      e.resting_potential_ := by
  obtain ⟨loc, e1, r, hcl, hcase⟩ := initialize_cases x cells cell dh th ph e
  have hfr := cells_loop_frame x (cell_comp_part cells) cells 0
    (lowering_locals.start (ncomp cells)) (allocate_storage (ncomp cells) e)
  rw [hcl] at hfr
  have h1 : e1.resting_potential_ = e.resting_potential_ := hfr.2.1
  rcases hcase with ⟨err, _, hout⟩ | ⟨_, what, hout⟩ | ⟨_, hout⟩
  · rw [hout]
    exact h1
  · rw [hout]
    exact h1
  · rw [hout]
    have hb := bind_mechanisms_frame x cell dh th ph
      { e1 with matrix_ := matrix.of_parent_index loc.group_parent_index }
    rw [hb.2.2.2.2.2.2.2.2]
    exact h1

theorem is_physical_after_reset (x : externals) (e : fvm_multicell)
    (hN : 1 ≤ e.voltage_.length) :
    fvm_multicell.is_physical_solution ( fvm_multicell.reset x e) = true ↔
      -1000 < e.resting_potential_ ∧ e.resting_potential_ < 1000 := by
  unfold fvm_multicell.is_physical_solution
  rw [reset_voltage_getD x e 0 (by omega)]
  simp

/-- C20 (counterexample): after `resting_potential(5000)` on a fresh engine and the
lowering of the sample cell, `reset()` leaves a voltage of 5000 mV on CV 0 and
`is_physical_solution()` returns false. -/
theorem reset_not_physical_for_large_resting_potential :
    ( fvm_multicell.initialize sample_externals [sample_cell] sample_cell [] [(0, 0), (0, 0)] []
        ( fvm_multicell.resting_potential 5000 fvm_multicell.fresh)).failure = none ∧
    fvm_multicell.is_physical_solution
      ( fvm_multicell.reset sample_externals
        ( fvm_multicell.initialize sample_externals [sample_cell] sample_cell [] [(0, 0), (0, 0)] []
          ( fvm_multicell.resting_potential 5000 fvm_multicell.fresh)).engine) = false := by
  refine ⟨by decide, ?_⟩
  rw [Bool.eq_false_iff]
  intro h
  have h1 := (is_physical_after_reset sample_externals _ (by decide)).mp h
  rw [initialize_resting_potential] at h1
  have h2 : ( fvm_multicell.resting_potential 5000 fvm_multicell.fresh).resting_potential_ = 5000 :=
    rfl
  rw [h2] at h1
  norm_num at h1

/-- C20 (amended): immediately after `reset()` on an engine with at least one CV,
`is_physical_solution()` returns true exactly when the resting potential lies strictly
between -1000 and 1000; so it holds for the default resting potential -65 and after
`resting_potential(v)` exactly for `-1000 < v < 1000`. -/
theorem reset_physical_iff_resting_potential_in_range (x : externals) (e : fvm_multicell)
    (hN : 1 ≤ e.voltage_.length) :
    ( fvm_multicell.is_physical_solution ( fvm_multicell.reset x e) = true ↔
      -1000 < e.resting_potential_ ∧ e.resting_potential_ < 1000) ∧
    (e.resting_potential_ = -65 →
      fvm_multicell.is_physical_solution ( fvm_multicell.reset x e) = true) ∧
    (∀ v : ℚ,
      fvm_multicell.is_physical_solution
        ( fvm_multicell.reset x ( fvm_multicell.resting_potential v e)) = true ↔
      -1000 < v ∧ v < 1000) := by
  refine ⟨is_physical_after_reset x e hN, ?_, ?_⟩
  · intro h65
    rw [is_physical_after_reset x e hN, h65]
    norm_num
  · intro v
    exact is_physical_after_reset x ( fvm_multicell.resting_potential v e) hN

/-- C20 (worked example): the sample engine, whose resting potential is the default. -/
theorem reset_physical_iff_resting_potential_in_range_witness :
    fvm_multicell.is_physical_solution ( fvm_multicell.reset sample_externals sample_engine) = true :=
  (reset_physical_iff_resting_potential_in_range sample_externals sample_engine (by decide)).2.1 rfl

/-! ## A step does not depend on stale data -/

theorem list_ext_getD (l1 l2 : List ℚ) (hlen : l1.length = l2.length)
    (h : ∀ i, i < l1.length → l1.getD i 0 = l2.getD i 0) : l1 = l2 := by
  apply List.ext_getElem hlen
  intro i h1 h2
  have := h i h1
  rwa [List.getD_eq_getElem _ 0 h1, List.getD_eq_getElem _ 0 h2] at this

theorem matrix_ext (a b : matrix) (hl : a.l = b.l) (hd : a.d = b.d) (hu : a.u = b.u)
    (hr : a.rhs = b.rhs) (hp : a.p = b.p) : a = b := by
  cases a
  cases b
  simp_all

theorem hines_backward_frame (ks : List Nat) (m : matrix) :
    (ks.foldl hines_backward_step m).l = m.l ∧ (ks.foldl hines_backward_step m).u = m.u ∧
    (ks.foldl hines_backward_step m).p = m.p ∧
    (ks.foldl hines_backward_step m).d.length = m.d.length ∧
    (ks.foldl hines_backward_step m).rhs.length = m.rhs.length := by
  induction ks generalizing m with
  | nil => exact ⟨rfl, rfl, rfl, rfl, rfl⟩
  | cons k ks ih =>
    rw [List.foldl_cons]
    obtain ⟨h1, h2, h3, h4, h5⟩ := ih (hines_backward_step m k)
    refine ⟨h1, h2, h3, ?_, ?_⟩
    · rw [h4]
      simp [hines_backward_step, length_sub_at]
    · rw [h5]
      simp [hines_backward_step, length_sub_at]

theorem hines_forward_frame (ks : List Nat) (m : matrix) :
    (ks.foldl hines_forward_step m).l = m.l ∧ (ks.foldl hines_forward_step m).u = m.u ∧
    (ks.foldl hines_forward_step m).p = m.p ∧
    (ks.foldl hines_forward_step m).d = m.d ∧
    (ks.foldl hines_forward_step m).rhs.length = m.rhs.length := by
  induction ks generalizing m with
  | nil => exact ⟨rfl, rfl, rfl, rfl, rfl⟩
  | cons k ks ih =>
    rw [List.foldl_cons]
    obtain ⟨h1, h2, h3, h4, h5⟩ := ih (hines_forward_step m k)
    refine ⟨h1, h2, h3, h4, ?_⟩
    rw [h5]
    simp [hines_forward_step, length_sub_at, length_div_at]

/-- The solver writes `d` and `rhs` only. -/
theorem solve_frame (m : matrix) :
    m.solve.l = m.l ∧ m.solve.u = m.u ∧ m.solve.p = m.p ∧
    m.solve.d.length = m.d.length ∧ m.solve.rhs.length = m.rhs.length := by
  unfold matrix.solve
  simp only
  obtain ⟨b1, b2, b3, b4, b5⟩ :=
    hines_backward_frame (List.range' 1 (m.size - 1)).reverse m
  obtain ⟨f1, f2, f3, f4, f5⟩ := hines_forward_frame (List.range' 1 (m.size - 1))
    { (List.foldl hines_backward_step m (List.range' 1 (m.size - 1)).reverse) with
      rhs := div_at (List.foldl hines_backward_step m (List.range' 1 (m.size - 1)).reverse).rhs 0
        ((List.foldl hines_backward_step m (List.range' 1 (m.size - 1)).reverse).d.getD 0 0) }
  refine ⟨f1.trans b1, f2.trans b2, f3.trans b3, ?_, ?_⟩
  · rw [f4]
    exact b4
  · rw [f5]
    simp only [length_div_at]
    exact b5

/-- Everything that `setup_matrix(dt)` leaves in the matrix. -/
theorem setup_matrix_full (dt : ℚ) (e : fvm_multicell) :
    ( fvm_multicell.setup_matrix dt e).matrix_.l.length = e.matrix_.l.length ∧
    ( fvm_multicell.setup_matrix dt e).matrix_.u.length = e.matrix_.u.length ∧
    ( fvm_multicell.setup_matrix dt e).matrix_.rhs.length = e.matrix_.rhs.length ∧
    (∀ i, ( fvm_multicell.setup_matrix dt e).matrix_.l.getD i 0 =
      if (1 ≤ i ∧ i < e.matrix_.d.length) ∧ i < e.matrix_.l.length
      then -(100000 * dt * e.face_alpha_.getD i 0) else e.matrix_.l.getD i 0) ∧
    (∀ i, ( fvm_multicell.setup_matrix dt e).matrix_.u.getD i 0 =
      if (1 ≤ i ∧ i < e.matrix_.d.length) ∧ i < e.matrix_.u.length
      then -(100000 * dt * e.face_alpha_.getD i 0) else e.matrix_.u.getD i 0) ∧
    (∀ i, ( fvm_multicell.setup_matrix dt e).matrix_.rhs.getD i 0 =
      if i < e.matrix_.d.length ∧ i < e.matrix_.rhs.length
      then e.cv_areas_.getD i 0 *
        (e.voltage_.getD i 0 - 10 * dt / e.cv_capacitance_.getD i 0 * e.current_.getD i 0)
      else e.matrix_.rhs.getD i 0) := by
  unfold fvm_multicell.setup_matrix
  simp only
  obtain ⟨r1, r2, r3, r4, r5⟩ := setup_rhs_loop (10 * dt) e
    (List.range' 0 (List.foldl (setup_matrix_step dt e.face_alpha_)
      { e.matrix_ with d := copy_into e.matrix_.d e.cv_areas_ }
      (List.range' 1 ((copy_into e.matrix_.d e.cv_areas_).length - 1))).d.length)
    (List.foldl (setup_matrix_step dt e.face_alpha_)
      { e.matrix_ with d := copy_into e.matrix_.d e.cv_areas_ }
      (List.range' 1 ((copy_into e.matrix_.d e.cv_areas_).length - 1)))
  obtain ⟨p1, p2, p3⟩ := setup_matrix_loop_p dt e.face_alpha_
    (List.range' 1 ((copy_into e.matrix_.d e.cv_areas_).length - 1))
    { e.matrix_ with d := copy_into e.matrix_.d e.cv_areas_ }
  rw [r1, r3, r5, p2, p3, setup_matrix_loop_l, setup_matrix_loop_u]
  simp only [copy_into_length]
  have hmem : ∀ i, i ∈ List.range' 1 (e.matrix_.d.length - 1) ↔ (1 ≤ i ∧ i < e.matrix_.d.length) := by
    intro i
    rw [List.mem_range'_1]
    omega
  have hmem0 : ∀ i, i ∈ List.range' 0 e.matrix_.d.length ↔ i < e.matrix_.d.length := by
    intro i
    rw [List.mem_range'_1]
    omega
  refine ⟨?_, ?_, ?_, ?_, ?_, ?_⟩
  · exact foldl_set_length (fun i => -(100000 * dt * e.face_alpha_.getD i 0)) _ _
  · exact foldl_set_length (fun i => -(100000 * dt * e.face_alpha_.getD i 0)) _ _
  · exact foldl_set_length (fun i => e.cv_areas_.getD i 0 *
      (e.voltage_.getD i 0 - 10 * dt / e.cv_capacitance_.getD i 0 * e.current_.getD i 0)) _ _
  · intro i
    rw [foldl_set_getD (fun i => -(100000 * dt * e.face_alpha_.getD i 0))]
    simp only [hmem]
  · intro i
    rw [foldl_set_getD (fun i => -(100000 * dt * e.face_alpha_.getD i 0))]
    simp only [hmem]
  · intro i
    rw [foldl_set_getD (fun i => e.cv_areas_.getD i 0 *
      (e.voltage_.getD i 0 - 10 * dt / e.cv_capacitance_.getD i 0 * e.current_.getD i 0))]
    simp only [hmem0]

/-- Two engines that agree on what `setup_matrix` reads, up to stale matrix data, get the
same matrix. -/
theorem setup_matrix_stale (dt : ℚ) (a b : fvm_multicell) (hw : a.matrix_.well_sized)
    (ha : b.cv_areas_ = a.cv_areas_) (hf : b.face_alpha_ = a.face_alpha_)
    (hc : b.cv_capacitance_ = a.cv_capacitance_) (hv : b.voltage_ = a.voltage_)
    (hi : b.current_ = a.current_) (hp : b.matrix_.p = a.matrix_.p)
    (hl : b.matrix_.l.length = a.matrix_.l.length) (hd : b.matrix_.d.length = a.matrix_.d.length)
    (hu : b.matrix_.u.length = a.matrix_.u.length)
    (hr : b.matrix_.rhs.length = a.matrix_.rhs.length)
    (hl0 : b.matrix_.l.getD 0 0 = a.matrix_.l.getD 0 0)
    (hu0 : b.matrix_.u.getD 0 0 = a.matrix_.u.getD 0 0) :
    ( fvm_multicell.setup_matrix dt b).matrix_ = ( fvm_multicell.setup_matrix dt a).matrix_ := by
  obtain ⟨w1, w2, w3⟩ := hw
  obtain ⟨al, au, ar, afl, afu, afr⟩ := setup_matrix_full dt a
  obtain ⟨bl, bu, br, bfl, bfu, bfr⟩ := setup_matrix_full dt b
  obtain ⟨ad, ap, adf, _⟩ := setup_matrix_ldu dt a
  obtain ⟨bd, bp, bdf, _⟩ := setup_matrix_ldu dt b
  apply matrix_ext
  · apply list_ext_getD _ _ (by rw [bl, al, hl])
    intro i hi1
    rw [bfl, afl, hd, hl, hf]
    by_cases h0 : i = 0
    · subst h0
      rw [if_neg (by omega), if_neg (by omega)]
      exact hl0
    · have hlt : i < a.matrix_.l.length := by rw [bl, hl] at hi1; exact hi1
      have hc1 : (1 ≤ i ∧ i < a.matrix_.d.length) ∧ i < a.matrix_.l.length :=
        ⟨⟨by omega, by omega⟩, hlt⟩
      rw [if_pos hc1, if_pos hc1]
  · apply list_ext_getD _ _ (by rw [bd, ad, hd])
    intro i hi1
    rw [bd] at hi1
    rw [bdf i hi1, adf i (by omega), ha, hf, hp, hd]
  · apply list_ext_getD _ _ (by rw [bu, au, hu])
    intro i hi1
    rw [bfu, afu, hd, hu, hf]
    by_cases h0 : i = 0
    · subst h0
      rw [if_neg (by omega), if_neg (by omega)]
      exact hu0
    · have hlt : i < a.matrix_.u.length := by rw [bu, hu] at hi1; exact hi1
      have hc1 : (1 ≤ i ∧ i < a.matrix_.d.length) ∧ i < a.matrix_.u.length :=
        ⟨⟨by omega, by omega⟩, hlt⟩
      rw [if_pos hc1, if_pos hc1]
  · apply list_ext_getD _ _ (by rw [br, ar, hr])
    intro i hi1
    rw [bfr, afr, hd, hr, ha, hv, hc, hi]
    have hlt : i < a.matrix_.rhs.length := by rw [br, hr] at hi1; exact hi1
    have hc1 : i < a.matrix_.d.length ∧ i < a.matrix_.rhs.length := ⟨by omega, hlt⟩
    rw [if_pos hc1, if_pos hc1]
  · rw [bp, ap, hp]

theorem mechanism_current_step_length (s : stepping) (dt : ℚ) (e : fvm_multicell)
    (cur : List ℚ) (m : mechanism) :
    (mechanism_current_step s dt e cur m).length = cur.length := by
  unfold mechanism_current_step
  generalize m.node_index.zip (s.nrn_current m e.t_ dt e.voltage_) = zs
  induction zs generalizing cur with
  | nil => rfl
  | cons z zs ih =>
    rw [List.foldl_cons, ih, length_add_at]

theorem step_current_length (s : stepping) (dt : ℚ) (e : fvm_multicell) :
    (step_current s dt e).length = e.current_.length := by
  unfold step_current
  simp only
  rw [stimulus_loop_length]
  generalize hc : List.map (fun _ => (0 : ℚ)) e.current_ = cur
  have hlen : cur.length = e.current_.length := by
    rw [← hc]
    simp
  rw [← hlen]
  clear hlen hc
  induction e.mechanisms_ generalizing cur with
  | nil => rfl
  | cons m ms ih =>
    rw [List.foldl_cons, ih, mechanism_current_step_length]

theorem advance_fields (s : stepping) (dt : ℚ) (e : fvm_multicell) :
    fvm_multicell.advance s dt e =
      { t_ := e.t_ + dt
        resting_potential_ := e.resting_potential_
        matrix_ :=
          ( fvm_multicell.setup_matrix dt { e with current_ := step_current s dt e }).matrix_.solve
        segment_index_ := e.segment_index_
        cv_areas_ := e.cv_areas_
        face_alpha_ := e.face_alpha_
        cv_capacitance_ := e.cv_capacitance_
        current_ := step_current s dt e
        voltage_ := copy_into e.voltage_
          ( fvm_multicell.setup_matrix dt { e with current_ := step_current s dt e }).matrix_.solve.rhs
        synapse_base_ := e.synapse_base_
        mechanisms_ := e.mechanisms_.map (fun mech =>
          { mech with state := s.nrn_state mech e.t_ dt (copy_into e.voltage_
            ( fvm_multicell.setup_matrix dt
              { e with current_ := step_current s dt e }).matrix_.solve.rhs) })
        ions_ := e.ions_
        stimulii_ := e.stimulii_
        probes_ := e.probes_ } := rfl

theorem same_structure_refl (a : fvm_multicell) : same_structure a a := by
  simp [same_structure]

theorem same_structure_trans {a b c : fvm_multicell} (h1 : same_structure a b)
    (h2 : same_structure b c) : same_structure a c := by
  unfold same_structure at *
  obtain ⟨a1, a2, a3, a4, a5, a6, a7, a8, a9, a10, a11, a12, a13, a14, a15, a16, a17, a18, a19⟩ := h1
  obtain ⟨b1, b2, b3, b4, b5, b6, b7, b8, b9, b10, b11, b12, b13, b14, b15, b16, b17, b18, b19⟩ := h2
  exact ⟨b1.trans a1, b2.trans a2, b3.trans a3, b4.trans a4, b5.trans a5, b6.trans a6,
    b7.trans a7, b8.trans a8, b9.trans a9, b10.trans a10, b11.trans a11, b12.trans a12,
    b13.trans a13, b14.trans a14, b15.trans a15, b16.trans a16, b17.trans a17, b18.trans a18,
    b19.trans a19⟩

theorem same_structure_reset (x : externals) (e : fvm_multicell) :
    same_structure e ( fvm_multicell.reset x e) := by
  unfold same_structure fvm_multicell.reset
  simp only [List.length_map, List.map_map, true_and]
  apply List.map_congr_left
  intro m _
  rfl

theorem same_structure_advance (s : stepping) (dt : ℚ) (e : fvm_multicell) :
    same_structure e ( fvm_multicell.advance s dt e) := by
  rw [advance_fields]
  obtain ⟨s1, s2, s3, s4, s5⟩ := solve_frame
    ( fvm_multicell.setup_matrix dt { e with current_ := step_current s dt e }).matrix_
  obtain ⟨f1, f2, f3, f4, f5, f6⟩ :=
    setup_matrix_full dt { e with current_ := step_current s dt e }
  obtain ⟨d1, d2, _, _⟩ := setup_matrix_ldu dt { e with current_ := step_current s dt e }
  unfold same_structure
  simp only [true_and]
  refine ⟨?_, ?_, ?_, ?_, ?_, ?_, ?_, ?_, ?_, ?_⟩
  · rw [s3, d2]
  · exact step_current_length s dt e
  · exact copy_into_length _ _
  · rw [s1, f1]
  · rw [s4, d1]
  · rw [s2, f2]
  · rw [s5, f3]
  · rw [s1, f4, if_neg (by omega)]
  · rw [s2, f5, if_neg (by omega)]
  · rw [List.map_map]
    apply List.map_congr_left
    intro m _
    rfl

theorem same_structure_advance_steps (s : stepping) (dts : List ℚ) (e : fvm_multicell) :
    same_structure e (advance_steps s dts e) := by
  unfold advance_steps
  induction dts generalizing e with
  | nil => exact same_structure_refl e
  | cons dt dts ih =>
    rw [List.foldl_cons]
    exact same_structure_trans (same_structure_advance s dt e) (ih _)

theorem step_current_stale (s : stepping) (dt : ℚ) (a b : fvm_multicell)
    (h : stale_equiv a b) : step_current s dt b = step_current s dt a := by
  obtain ⟨hs, ht, hv, hm⟩ := h
  obtain ⟨a1, a2, a3, a4, a5, a6, a7, a8, a9, a10, a11, a12, a13, a14, a15, a16, a17, a18, a19⟩ := hs
  unfold step_current
  simp only
  have hzero : List.map (fun _ => (0 : ℚ)) b.current_ = List.map (fun _ => (0 : ℚ)) a.current_ := by
    rw [List.map_const', List.map_const', a11]
  have hstim : stimulus_step s b = stimulus_step s a := by
    funext cur stim
    unfold stimulus_step
    rw [ht, a3]
  have hmech : mechanism_current_step s dt b = mechanism_current_step s dt a := by
    funext cur m
    unfold mechanism_current_step
    rw [ht, hv]
  rw [hzero, hstim, hmech, hm, a8]

/-- A step started on an engine that differs only in stale data gives the same engine. -/
theorem advance_stale (s : stepping) (dt : ℚ) (a b : fvm_multicell) (hw : a.matrix_.well_sized)
    (h : stale_equiv a b) : fvm_multicell.advance s dt b = fvm_multicell.advance s dt a := by
  have hcur := step_current_stale s dt a b h
  obtain ⟨hs, ht, hv, hm⟩ := h
  obtain ⟨a1, a2, a3, a4, a5, a6, a7, a8, a9, a10, a11, a12, a13, a14, a15, a16, a17, a18, a19⟩ := hs
  have hmat : ( fvm_multicell.setup_matrix dt { b with current_ := step_current s dt b }).matrix_ =
      ( fvm_multicell.setup_matrix dt { a with current_ := step_current s dt a }).matrix_ := by
    exact setup_matrix_stale dt { a with current_ := step_current s dt a }
      { b with current_ := step_current s dt b } hw a3 a4 a5 hv hcur a10 a13 a14 a15 a16 a17 a18
  rw [advance_fields, advance_fields, hmat, hcur, ht, hv, hm, a1, a2, a3, a4, a5, a6, a7, a8, a9]

theorem reinit_congr (x : externals)
    (hinit : ∀ (m : mechanism) (st : List ℚ) (v : List ℚ),
      x.nrn_init { m with state := st } v = x.nrn_init m v)
    (v : List ℚ) (ms1 ms2 : List mechanism)
    (h : ms1.map mechanism.structure = ms2.map mechanism.structure) :
    ms1.map (fun m => { m with state := x.nrn_init m v }) =
      ms2.map (fun m => { m with state := x.nrn_init m v }) := by
  have hfun : (fun m : mechanism => { m with state := x.nrn_init m v }) =
      (fun m : mechanism => { m with state := x.nrn_init m v }) ∘ mechanism.structure := by
    funext m
    have := hinit m [] v
    simp only [Function.comp, mechanism.structure]
    rw [this]
  rw [hfun, ← List.map_map, ← List.map_map, h]

theorem reset_mechanisms (x : externals) (e : fvm_multicell) :
    ( fvm_multicell.reset x e).mechanisms_ =
      e.mechanisms_.map (fun m => { m with state := x.nrn_init m ( fvm_multicell.reset x e).voltage_ }) :=
  rfl

theorem reset_voltage (x : externals) (e : fvm_multicell) :
    ( fvm_multicell.reset x e).voltage_ = List.replicate e.voltage_.length e.resting_potential_ := by
  unfold fvm_multicell.reset
  simp only
  rw [List.map_const']

/-- After any number of steps, `reset()` gives an engine that differs from a freshly reset
one only in stale data. -/
theorem reset_after_steps_stale (x : externals) (s : stepping) (e0 : fvm_multicell)
    (hinit : ∀ (m : mechanism) (st : List ℚ) (v : List ℚ),
      x.nrn_init { m with state := st } v = x.nrn_init m v)
    (hfresh : fvm_multicell.reset x e0 = e0) (dts : List ℚ) :
    stale_equiv e0 ( fvm_multicell.reset x (advance_steps s dts e0)) := by
  have hs := same_structure_advance_steps s dts e0
  have hs2 := same_structure_trans hs (same_structure_reset x (advance_steps s dts e0))
  have hrp : (advance_steps s dts e0).resting_potential_ = e0.resting_potential_ := hs.1
  have hvl : (advance_steps s dts e0).voltage_.length = e0.voltage_.length :=
    hs.2.2.2.2.2.2.2.2.2.2.2.1
  have hst : (advance_steps s dts e0).mechanisms_.map mechanism.structure =
      e0.mechanisms_.map mechanism.structure := hs.2.2.2.2.2.2.2.2.2.2.2.2.2.2.2.2.2.2
  have hv0 : e0.voltage_ = List.replicate e0.voltage_.length e0.resting_potential_ := by
    have := reset_voltage x e0
    rwa [hfresh] at this
  have hv : ( fvm_multicell.reset x (advance_steps s dts e0)).voltage_ = e0.voltage_ := by
    rw [reset_voltage, hrp, hvl, ← hv0]
  have hm0 := reset_mechanisms x e0
  rw [hfresh] at hm0
  refine ⟨hs2, ?_, hv, ?_⟩
  · rw [← hfresh]
    rfl
  · rw [reset_mechanisms, hv, hm0]
    exact reinit_congr x hinit e0.voltage_ _ _ hst

theorem bind_mechanisms_ends_with_reset (x : externals) (cell : cell) (dh : List Nat)
    (th : List (Nat × Nat)) (ph : List (field_selector × Nat)) (e : fvm_multicell)
    (hok : (bind_mechanisms x cell dh th ph e).failure = none) :
    ∃ e5, (bind_mechanisms x cell dh th ph e).engine = fvm_multicell.reset x e5 := by
  unfold bind_mechanisms at hok ⊢
  simp only at hok ⊢
  rcases hd : density_loop x e.segment_index_ (mech_map_loop 0 cell.segments []) e.mechanisms_
    with ⟨ms, _ | err⟩
  · simp only [hd] at hok ⊢
    rcases hs : synapse_mechanism_loop x (synapse_pass x cell.synapses th).syn_mech_map
      e.cv_areas_ (synapse_pass x cell.synapses th).syn_mech_indices ms with ⟨ms1, _ | err⟩
    · simp only [hs] at hok ⊢
      rcases hp : probe_loop x cell.probes ph 0 with ⟨ph1, _ | err⟩
      · simp only [hp] at hok ⊢
        exact ⟨_, rfl⟩
      · simp only [hp] at hok
        cases hok
    · simp only [hs] at hok
      cases hok
  · simp only [hd] at hok
    cases hok

/-- A successfully lowered engine is a freshly reset one, and its matrix arrays have one
size. -/
theorem initialize_fresh (x : externals) (cells : List cell) (cell : cell) (dh : List Nat)
    (th : List (Nat × Nat)) (ph : List (field_selector × Nat)) (e : fvm_multicell)
    (hinit : ∀ (m : mechanism) (st : List ℚ) (v : List ℚ),
      x.nrn_init { m with state := st } v = x.nrn_init m v)
    (hok : ( fvm_multicell.initialize x cells cell dh th ph e).failure = none) :
    fvm_multicell.reset x ( fvm_multicell.initialize x cells cell dh th ph e).engine =
      ( fvm_multicell.initialize x cells cell dh th ph e).engine ∧
    ( fvm_multicell.initialize x cells cell dh th ph e).engine.matrix_.well_sized := by
  obtain ⟨loc, e1, r, hcl, hcase⟩ := initialize_cases x cells cell dh th ph e
  rcases hcase with ⟨err, _, hout⟩ | ⟨_, what, hout⟩ | ⟨_, hout⟩
  · rw [hout] at hok
    cases hok
  · rw [hout] at hok
    cases hok
  · rw [hout] at hok ⊢
    constructor
    · obtain ⟨e5, h5⟩ := bind_mechanisms_ends_with_reset x cell dh th ph _ hok
      rw [h5]
      exact reset_idem x e5 hinit
    · have hb := bind_mechanisms_frame x cell dh th ph
        { e1 with matrix_ := matrix.of_parent_index loc.group_parent_index }
      rw [hb.1]
      simp [matrix.well_sized, matrix.of_parent_index]

/-- C19: on a successfully lowered engine, whatever steps are taken, a `reset()` followed
by `advance(dt)` gives the same voltage, the same current and the same time as
`advance(dt)` on the freshly lowered engine; more generally a step on any engine that
differs from the freshly lowered one only in stale data (the contents of `current`, `d`,
`rhs` and of `l`, `u` from index 1 on) gives the same engine.  Each mechanism's
`nrn_init` is a function of the structure of the mechanism and of the voltage. -/
theorem reset_then_advance_matches_fresh (x : externals) (s : stepping) (cells : List cell)
    (cell : cell) (dh : List Nat) (th : List (Nat × Nat)) (ph : List (field_selector × Nat))
    (e : fvm_multicell)
    (hinit : ∀ (m : mechanism) (st : List ℚ) (v : List ℚ),
      x.nrn_init { m with state := st } v = x.nrn_init m v)
    (hok : ( fvm_multicell.initialize x cells cell dh th ph e).failure = none)
    (dts : List ℚ) (dt : ℚ) :
    ( fvm_multicell.advance s dt ( fvm_multicell.reset x
        (advance_steps s dts ( fvm_multicell.initialize x cells cell dh th ph e).engine))).voltage_ =
      ( fvm_multicell.advance s dt ( fvm_multicell.initialize x cells cell dh th ph e).engine).voltage_ ∧
    ( fvm_multicell.advance s dt ( fvm_multicell.reset x
        (advance_steps s dts ( fvm_multicell.initialize x cells cell dh th ph e).engine))).current_ =
      ( fvm_multicell.advance s dt ( fvm_multicell.initialize x cells cell dh th ph e).engine).current_ ∧
    ( fvm_multicell.advance s dt ( fvm_multicell.reset x
        (advance_steps s dts ( fvm_multicell.initialize x cells cell dh th ph e).engine))).time =
      ( fvm_multicell.advance s dt ( fvm_multicell.initialize x cells cell dh th ph e).engine).time ∧
    (∀ b, stale_equiv ( fvm_multicell.initialize x cells cell dh th ph e).engine b →
      fvm_multicell.advance s dt b =
        fvm_multicell.advance s dt ( fvm_multicell.initialize x cells cell dh th ph e).engine) := by
  obtain ⟨hfresh, hw⟩ := initialize_fresh x cells cell dh th ph e hinit hok
  have hst := reset_after_steps_stale x s _ hinit hfresh dts
  have heq := advance_stale s dt _ _ hw hst
  refine ⟨by rw [heq], by rw [heq], by rw [heq], ?_⟩
  intro b hb
  exact advance_stale s dt _ b hw hb

/-- C19 (worked example): the sample cell, stepped twice, reset and stepped again. -/
theorem reset_then_advance_matches_fresh_witness :
    ( fvm_multicell.advance sample_stepping (1 / 100) ( fvm_multicell.reset voltage_init_externals
        (advance_steps sample_stepping [1 / 100, 1 / 50]
          ( fvm_multicell.initialize voltage_init_externals [sample_cell] sample_cell []
            [(0, 0), (0, 0)] [] fvm_multicell.fresh).engine))).voltage_ =
      ( fvm_multicell.advance sample_stepping (1 / 100)
        ( fvm_multicell.initialize voltage_init_externals [sample_cell] sample_cell []
          [(0, 0), (0, 0)] [] fvm_multicell.fresh).engine).voltage_ :=
  (reset_then_advance_matches_fresh voltage_init_externals sample_stepping [sample_cell] sample_cell
    [] [(0, 0), (0, 0)] [] fvm_multicell.fresh (fun _ _ _ => rfl) (by decide)
    [1 / 100, 1 / 50] (1 / 100)).1

/-! ## What one segment adds to the arrays -/

theorem sum_range'_eq_sum_Ico (f : Nat → ℚ) (lo n : Nat) :
    ((List.range' lo n).map f).sum = ∑ i ∈ Finset.Ico lo (lo + n), f i := by
  induction n with
  | zero => simp
  | succ n ih =>
    rw [List.range'_concat, List.map_append, List.sum_append, ih, ← Nat.add_assoc,
      Finset.sum_Ico_succ_top (by omega)]
    simp

theorem foldl_add_pair_length (jf : Nat → Nat) (af bf : Nat → ℚ) (ks : List Nat) (xs : List ℚ) :
    (ks.foldl (fun ys i => add_at (add_at ys (jf i) (af i)) i (bf i)) xs).length = xs.length := by
  induction ks generalizing xs with
  | nil => rfl
  | cons i ks ih =>
    rw [List.foldl_cons, ih, length_add_at, length_add_at]

/-- A loop that adds `af i` at index `jf i` and `bf i` at index `i`. -/
theorem foldl_add_pair_getD (jf : Nat → Nat) (af bf : Nat → ℚ) (ks : List Nat) (xs : List ℚ)
    (k : Nat) (hk : k < xs.length) :
    (ks.foldl (fun ys i => add_at (add_at ys (jf i) (af i)) i (bf i)) xs).getD k 0 =
      xs.getD k 0 +
        (ks.map (fun i => (if jf i = k then af i else 0) + (if i = k then bf i else 0))).sum := by
  induction ks generalizing xs with
  | nil => simp
  | cons i ks ih =>
    rw [List.foldl_cons, ih _ (by rw [length_add_at, length_add_at]; exact hk),
      getD_add_at, getD_add_at, length_add_at, List.map_cons, List.sum_cons]
    have c1 : (i = k ∧ i < xs.length) ↔ i = k := ⟨fun h => h.1, fun h => ⟨h, by omega⟩⟩
    have c2 : (jf i = k ∧ jf i < xs.length) ↔ jf i = k := ⟨fun h => h.1, fun h => ⟨h, by omega⟩⟩
    simp only [c1, c2]
    split_ifs <;> ring

theorem cable_loop_areas (x : externals) (seg : segment) (comps : Nat × Nat) (parent : List Nat)
    (ks : List Nat) (e : fvm_multicell) :
    (ks.foldl (cable_compartment_step x seg comps parent) e).cv_areas_ =
      ks.foldl (fun ys i =>
        add_at (add_at ys (parent.getD i 0) ((seg.compartment_at (i - comps.1)).area_left x)) i
          ((seg.compartment_at (i - comps.1)).area_right x)) e.cv_areas_ := by
  induction ks generalizing e with
  | nil => rfl
  | cons i ks ih =>
    rw [List.foldl_cons, List.foldl_cons, ih]
    rfl

theorem cable_loop_capacitance (x : externals) (seg : segment) (comps : Nat × Nat)
    (parent : List Nat) (ks : List Nat) (e : fvm_multicell) :
    (ks.foldl (cable_compartment_step x seg comps parent) e).cv_capacitance_ =
      ks.foldl (fun ys i =>
        add_at (add_at ys (parent.getD i 0)
          ((seg.compartment_at (i - comps.1)).area_left x * seg.c_m)) i
          ((seg.compartment_at (i - comps.1)).area_right x * seg.c_m)) e.cv_capacitance_ := by
  induction ks generalizing e with
  | nil => rfl
  | cons i ks ih =>
    rw [List.foldl_cons, List.foldl_cons, ih]
    rfl

theorem cable_loop_face_alpha (x : externals) (seg : segment) (comps : Nat × Nat)
    (parent : List Nat) (ks : List Nat) (e : fvm_multicell) :
    (ks.foldl (cable_compartment_step x seg comps parent) e).face_alpha_ =
      ks.foldl (fun ys i => ys.set i (seg.face_alpha_at x (i - comps.1))) e.face_alpha_ := by
  induction ks generalizing e with
  | nil => rfl
  | cons i ks ih =>
    rw [List.foldl_cons, List.foldl_cons, ih]
    rfl

theorem sum_pair_split (lo n k : Nat) (jf : Nat → Nat) (af bf : Nat → ℚ) :
    (∑ i ∈ Finset.Ico lo (lo + n), ((if jf i = k then af i else 0) + (if i = k then bf i else 0))) =
      (if lo ≤ k ∧ k < lo + n then bf k else 0) +
        ∑ i ∈ (Finset.Ico lo (lo + n)).filter (fun i => jf i = k), af i := by
  rw [Finset.sum_add_distrib, Finset.sum_ite_eq', Finset.sum_filter]
  simp only [Finset.mem_Ico]
  ring

/-- What `compute_cv_area_unnormalized_capacitance` adds to the areas and to the
capacitances, and what it leaves in `face_alpha`, for a segment allotted the range that
starts at `lo` and has `num_compartments()` entries. -/
theorem compute_arrays (x : externals) (lo : Nat) (seg : segment) (parent : List Nat)
    (e e1 : fvm_multicell)
    (h : compute_cv_area_unnormalized_capacitance x (lo, lo + seg.num_compartments) seg parent e
      = Except.ok e1) :
    (∀ k, k < e.cv_areas_.length →
      e1.cv_areas_.getD k 0 =
        e.cv_areas_.getD k 0 + segment_area_at x (fun i => parent.getD i 0) lo seg k) ∧
    (∀ k, k < e.cv_capacitance_.length →
      e1.cv_capacitance_.getD k 0 =
        e.cv_capacitance_.getD k 0 +
          segment_area_at x (fun i => parent.getD i 0) lo seg k * seg.c_m) ∧
    (∀ i, e1.face_alpha_.getD i 0 =
      if (seg.kind = segmentKind.cable ∧ lo ≤ i ∧ i < lo + seg.num_compartments) ∧
          i < e.face_alpha_.length
      then seg.face_alpha_at x (i - lo) else e.face_alpha_.getD i 0) := by
  unfold compute_cv_area_unnormalized_capacitance at h
  cases hk : seg.kind with
  | soma =>
    simp only [hk] at h
    split at h
    · cases h
    · cases h
      simp only [segment_area_at, hk]
      refine ⟨?_, ?_, ?_⟩
      · intro k hk1
        rw [getD_add_at]
        by_cases h1 : lo = k
        · have h2 : k = lo := h1.symm
          rw [if_pos ⟨h1, by omega⟩, if_pos h2]
        · have h2 : ¬ k = lo := fun hh => h1 hh.symm
          rw [if_neg (fun hh => h1 hh.1), if_neg h2, add_zero]
      · intro k hk1
        rw [getD_add_at]
        by_cases h1 : lo = k
        · have h2 : k = lo := h1.symm
          rw [if_pos ⟨h1, by omega⟩, if_pos h2]
        · have h2 : ¬ k = lo := fun hh => h1 hh.symm
          rw [if_neg (fun hh => h1 hh.1), if_neg h2, zero_mul, add_zero]
      · intro i
        rw [if_neg]
        rintro ⟨⟨hc, _⟩, _⟩
        cases hc
  | cable =>
    simp only [hk] at h
    split at h
    · cases h
    · cases h
      have hspan : make_span (lo, lo + seg.num_compartments) = List.range' lo seg.num_compartments := by
        simp [make_span]
      simp only [segment_area_at, hk]
      rw [hspan]
      refine ⟨?_, ?_, ?_⟩
      · intro k hk1
        rw [cable_loop_areas, foldl_add_pair_getD (fun i => parent.getD i 0) _ _ _ _ k hk1,
          sum_range'_eq_sum_Ico, sum_pair_split]
      · intro k hk1
        rw [cable_loop_capacitance, foldl_add_pair_getD (fun i => parent.getD i 0) _ _ _ _ k hk1,
          sum_range'_eq_sum_Ico, sum_pair_split, add_mul, Finset.sum_mul]
        congr 1
        split_ifs <;> simp
      · intro i
        rw [cable_loop_face_alpha,
          foldl_set_getD (fun i => seg.face_alpha_at x (i - lo)) _ _ i 0]
        simp only [List.mem_range'_1, true_and]
  | none =>
    simp only [hk] at h
    cases h

/-! ## What the segments of one cell add to the arrays -/

theorem laid_out_make_partition (sizes : List Nat) (lo : Nat) :
    laid_out (util.make_partition_view sizes lo) 0 lo sizes := by
  intro t ht
  rw [Nat.zero_add]
  exact make_partition_get sizes lo t ht

theorem laid_out_head (part : util.partition_range) (j lo n : Nat) (sizes : List Nat)
    (h : laid_out part j lo (n :: sizes)) : part.get j = (lo, lo + n) := by
  have := h 0 (by simp)
  simpa using this

theorem laid_out_tail (part : util.partition_range) (j lo n : Nat) (sizes : List Nat)
    (h : laid_out part j lo (n :: sizes)) : laid_out part (j + 1) (lo + n) sizes := by
  intro t ht
  have := h (t + 1) (by simpa using ht)
  have e1 : j + 1 + t = j + (t + 1) := by omega
  rw [e1, this]
  simp only [List.take_succ_cons, List.sum_cons, List.getD_cons_succ, Prod.mk.injEq]
  omega

/-- The arrays after the loop over the segments of a cell whose ranges are laid out from
`lo`. -/
theorem segments_loop_arrays (x : externals) (part : util.partition_range) (parent : List Nat)
    (segs : List segment) (j lo : Nat) (e e1 : fvm_multicell)
    (hl : laid_out part j lo (segs.map (fun s => s.num_compartments)))
    (h : segments_loop x part parent j segs e = (e1, none)) :
    (∀ k, k < e.cv_areas_.length →
      e1.cv_areas_.getD k 0 =
        e.cv_areas_.getD k 0 + cell_area_at x (fun i => parent.getD i 0) lo segs k) ∧
    (∀ k, k < e.cv_capacitance_.length →
      e1.cv_capacitance_.getD k 0 =
        e.cv_capacitance_.getD k 0 + cell_capacitance_at x (fun i => parent.getD i 0) lo segs k) ∧
    (∀ i, i < e.face_alpha_.length →
      e1.face_alpha_.getD i 0 = cell_face_alpha_at x lo segs (e.face_alpha_.getD i 0) i) := by
  induction segs generalizing j lo e with
  | nil =>
    simp only [segments_loop, Prod.mk.injEq, and_true] at h
    subst h
    simp [cell_area_at, cell_capacitance_at, cell_face_alpha_at]
  | cons seg segs ih =>
    rw [List.map_cons] at hl
    have hhead := laid_out_head part j lo _ _ hl
    have htail := laid_out_tail part j lo _ _ hl
    simp only [segments_loop, hhead] at h
    cases hc : compute_cv_area_unnormalized_capacitance x (lo, lo + seg.num_compartments) seg
        parent e with
    | error err =>
      rw [hc] at h
      simp at h
    | ok e2 =>
      rw [hc] at h
      simp only at h
      obtain ⟨ca, cc, cf⟩ := compute_arrays x lo seg parent e e2 hc
      have hfr := compute_frame x _ seg parent e e2 hc
      obtain ⟨ia, ic, ifa⟩ := ih (j + 1) (lo + seg.num_compartments) e2 htail h
      have hla : e2.cv_areas_.length = e.cv_areas_.length := hfr.2.2.2.2.2.2.2.2.2.2.2.1
      have hlf : e2.face_alpha_.length = e.face_alpha_.length := hfr.2.2.2.2.2.2.2.2.2.2.2.2.1
      have hlc : e2.cv_capacitance_.length = e.cv_capacitance_.length :=
        hfr.2.2.2.2.2.2.2.2.2.2.2.2.2
      refine ⟨?_, ?_, ?_⟩
      · intro k hk
        rw [ia k (by omega), ca k hk, cell_area_at]
        ring
      · intro k hk
        rw [ic k (by omega), cc k hk, cell_capacitance_at]
        ring
      · intro i hi
        rw [ifa i (by omega), cf i, cell_face_alpha_at]
        by_cases hcab : seg.kind = segmentKind.cable ∧ lo ≤ i ∧ i < lo + seg.num_compartments
        · rw [if_pos ⟨hcab, hi⟩, if_pos hcab]
          -- no later segment touches an index below its own range
          have hbelow : ∀ (segs : List segment) (lo1 : Nat) (d : ℚ), i < lo1 →
              cell_face_alpha_at x lo1 segs d i = d := by
            intro segs1
            induction segs1 with
            | nil => intro lo1 d _; rfl
            | cons s1 segs1 ih1 =>
              intro lo1 d hlt
              rw [cell_face_alpha_at, if_neg (by omega)]
              exact ih1 _ _ (by omega)
          exact hbelow segs _ _ hcab.2.2
        · rw [if_neg (fun hh => hcab hh.1), if_neg hcab]

/-! ## Contributions stay inside the range of the cell -/

theorem segment_area_outside (x : externals) (P : Nat → Nat) (lo : Nat) (seg : segment) (k : Nat)
    (hsoma : seg.kind = segmentKind.soma → 1 ≤ seg.num_compartments)
    (hout : k < lo ∨ lo + seg.num_compartments ≤ k)
    (hP : ∀ i, lo ≤ i → i < lo + seg.num_compartments → P i ≠ k) :
    segment_area_at x P lo seg k = 0 := by
  unfold segment_area_at
  cases hk : seg.kind with
  | soma =>
    have := hsoma hk
    simp only
    rw [if_neg (by omega)]
  | cable =>
    simp only
    rw [if_neg (by omega), zero_add]
    apply Finset.sum_eq_zero
    intro i hi
    rw [Finset.mem_filter, Finset.mem_Ico] at hi
    exact absurd hi.2 (hP i hi.1.1 hi.1.2)
  | none => rfl

theorem cell_area_outside (x : externals) (P : Nat → Nat) (segs : List segment) (lo k : Nat)
    (hsoma : ∀ s ∈ segs, s.kind = segmentKind.soma → 1 ≤ s.num_compartments)
    (hout : k < lo ∨ lo + (segs.map (fun s => s.num_compartments)).sum ≤ k)
    (hP : ∀ i, lo ≤ i → i < lo + (segs.map (fun s => s.num_compartments)).sum → P i ≠ k) :
    cell_area_at x P lo segs k = 0 ∧ cell_capacitance_at x P lo segs k = 0 := by
  induction segs generalizing lo with
  | nil => exact ⟨rfl, rfl⟩
  | cons seg segs ih =>
    simp only [List.map_cons, List.sum_cons] at hout hP
    have h1 := segment_area_outside x P lo seg k (hsoma seg (by simp)) (by omega)
      (fun i h1 h2 => hP i h1 (by omega))
    obtain ⟨h2, h3⟩ := ih (lo + seg.num_compartments) (fun s hs => hsoma s (by simp [hs]))
      (by omega) (fun i h1 h2 => hP i (by omega) (by omega))
    constructor
    · rw [cell_area_at, h1, h2, add_zero]
    · rw [cell_capacitance_at, h1, h3, zero_mul, add_zero]

theorem segment_area_congr (x : externals) (P Q : Nat → Nat) (lo : Nat) (seg : segment) (k : Nat)
    (hPQ : ∀ i, lo ≤ i → i < lo + seg.num_compartments → P i = Q i) :
    segment_area_at x P lo seg k = segment_area_at x Q lo seg k := by
  unfold segment_area_at
  cases hk : seg.kind with
  | soma => rfl
  | cable =>
    simp only
    congr 1
    apply Finset.sum_congr
    · ext i
      simp only [Finset.mem_filter, Finset.mem_Ico]
      constructor
      · rintro ⟨h1, h2⟩
        exact ⟨h1, by rw [← hPQ i h1.1 h1.2]; exact h2⟩
      · rintro ⟨h1, h2⟩
        exact ⟨h1, by rw [hPQ i h1.1 h1.2]; exact h2⟩
    · intro _ _
      rfl
  | none => rfl

theorem cell_area_congr (x : externals) (P Q : Nat → Nat) (segs : List segment) (lo k : Nat)
    (hPQ : ∀ i, lo ≤ i → i < lo + (segs.map (fun s => s.num_compartments)).sum → P i = Q i) :
    cell_area_at x P lo segs k = cell_area_at x Q lo segs k ∧
    cell_capacitance_at x P lo segs k = cell_capacitance_at x Q lo segs k := by
  induction segs generalizing lo with
  | nil => exact ⟨rfl, rfl⟩
  | cons seg segs ih =>
    simp only [List.map_cons, List.sum_cons] at hPQ
    have h1 := segment_area_congr x P Q lo seg k (fun i h1 h2 => hPQ i h1 (by omega))
    obtain ⟨h2, h3⟩ := ih (lo + seg.num_compartments) (fun i h1 h2 => hPQ i (by omega) (by omega))
    constructor
    · rw [cell_area_at, cell_area_at, h1, h2]
    · rw [cell_capacitance_at, cell_capacitance_at, h1, h3]

theorem cell_face_alpha_outside (x : externals) (segs : List segment) (lo i : Nat) (d : ℚ)
    (hout : i < lo ∨ lo + (segs.map (fun s => s.num_compartments)).sum ≤ i) :
    cell_face_alpha_at x lo segs d i = d := by
  induction segs generalizing lo with
  | nil => rfl
  | cons seg segs ih =>
    simp only [List.map_cons, List.sum_cons] at hout
    rw [cell_face_alpha_at, if_neg (by omega)]
    exact ih _ (by omega)

/-! ## Normalization -/

theorem normalize_areas (comps : Nat × Nat) (e : fvm_multicell) :
    (normalize_capacitance comps e).cv_areas_ = e.cv_areas_ ∧
    (normalize_capacitance comps e).face_alpha_ = e.face_alpha_ := by
  unfold normalize_capacitance
  generalize make_span comps = ks
  induction ks generalizing e with
  | nil => exact ⟨rfl, rfl⟩
  | cons k ks ih =>
    rw [List.foldl_cons]
    obtain ⟨h1, h2⟩ := ih { e with cv_capacitance_ := div_at e.cv_capacitance_ k (e.cv_areas_.getD k 0) }
    exact ⟨h1, h2⟩

theorem getD_div_at (xs : List ℚ) (i j : Nat) (a : ℚ) :
    (div_at xs i a).getD j 0 =
      if i = j ∧ i < xs.length then xs.getD j 0 / a else xs.getD j 0 := by
  unfold div_at
  rw [getD_set_eq]
  by_cases h : i = j ∧ i < xs.length
  · obtain ⟨h1, h2⟩ := h
    subst h1
    simp [h2]
  · simp [h]

theorem normalize_loop_capacitance (ks : List Nat) (hnd : ks.Nodup) (e : fvm_multicell) (j : Nat) :
    (ks.foldl (fun s k =>
      { s with cv_capacitance_ := div_at s.cv_capacitance_ k (s.cv_areas_.getD k 0) }) e
      ).cv_capacitance_.getD j 0 =
      if j ∈ ks ∧ j < e.cv_capacitance_.length
      then e.cv_capacitance_.getD j 0 / e.cv_areas_.getD j 0
      else e.cv_capacitance_.getD j 0 := by
  induction ks generalizing e with
  | nil => simp
  | cons k ks ih =>
    rw [List.nodup_cons] at hnd
    rw [List.foldl_cons, ih hnd.2]
    simp only [length_div_at]
    rw [getD_div_at]
    by_cases hjk : k = j
    · subst hjk
      have hnot : ¬ (k ∈ ks ∧ k < e.cv_capacitance_.length) := fun hh => hnd.1 hh.1
      rw [if_neg hnot]
      by_cases hlt : k < e.cv_capacitance_.length
      · rw [if_pos ⟨rfl, hlt⟩, if_pos ⟨by simp, hlt⟩]
      · rw [if_neg (fun hh => hlt hh.2), if_neg (fun hh => hlt hh.2)]
    · have hne : ¬ (k = j ∧ k < e.cv_capacitance_.length) := fun hh => hjk hh.1
      rw [if_neg hne]
      have hmem : (j ∈ k :: ks) ↔ j ∈ ks := by
        simp only [List.mem_cons]
        constructor
        · rintro (h | h)
          · exact absurd h.symm hjk
          · exact h
        · exact fun h => Or.inr h
      simp only [hmem]

theorem normalize_capacitance_getD (comps : Nat × Nat) (e : fvm_multicell) (j : Nat) :
    (normalize_capacitance comps e).cv_capacitance_.getD j 0 =
      if (comps.1 ≤ j ∧ j < comps.2) ∧ j < e.cv_capacitance_.length
      then e.cv_capacitance_.getD j 0 / e.cv_areas_.getD j 0
      else e.cv_capacitance_.getD j 0 := by
  unfold normalize_capacitance
  rw [normalize_loop_capacitance _ (by unfold make_span; exact List.nodup_range' _ _)]
  simp only [mem_make_span]

/-! ## One pass of the loop over the cells -/

theorem getD_beyond (xs : List ℚ) (k : Nat) (h : xs.length ≤ k) : xs.getD k 0 = 0 := by
  rw [List.getD_eq_default _ _ h]

/-- The arrays after the segments of one well-formed cell laid out from `lo` have been
processed and its capacitance normalized. -/
theorem cell_step_arrays (x : externals) (c : cell) (lo N : Nat) (g : List Nat)
    (e e1 : fvm_multicell) (hwf : c.well_formed)
    (hlen : e.cv_areas_.length = N ∧ e.cv_capacitance_.length = N ∧ e.face_alpha_.length = N ∧
      g.length = N)
    (hfit : lo + c.num_compartments ≤ N)
    (hs : segments_loop x
      (util.make_partition_view (c.segments.map (fun s => s.num_compartments)) lo)
      (relocate_parents c.parent_index (lo, lo + c.num_compartments) g) 0 c.segments e =
        (e1, none)) :
    ((normalize_capacitance (lo, lo + c.num_compartments) e1).cv_areas_.length = N ∧
     (normalize_capacitance (lo, lo + c.num_compartments) e1).cv_capacitance_.length = N ∧
     (normalize_capacitance (lo, lo + c.num_compartments) e1).face_alpha_.length = N) ∧
    (∀ k, k < N →
      (normalize_capacitance (lo, lo + c.num_compartments) e1).cv_areas_.getD k 0 =
        e.cv_areas_.getD k 0 +
          cell_area_at x
            (fun i => (relocate_parents c.parent_index (lo, lo + c.num_compartments) g).getD i 0)
            lo c.segments k) ∧
    (∀ k, k < N →
      (normalize_capacitance (lo, lo + c.num_compartments) e1).cv_capacitance_.getD k 0 =
        if lo ≤ k ∧ k < lo + c.num_compartments then
          (e.cv_capacitance_.getD k 0 +
            cell_capacitance_at x
              (fun i => (relocate_parents c.parent_index (lo, lo + c.num_compartments) g).getD i 0)
              lo c.segments k) /
            (normalize_capacitance (lo, lo + c.num_compartments) e1).cv_areas_.getD k 0
        else
          e.cv_capacitance_.getD k 0 +
            cell_capacitance_at x
              (fun i => (relocate_parents c.parent_index (lo, lo + c.num_compartments) g).getD i 0)
              lo c.segments k) ∧
    (∀ k, k < N →
      (normalize_capacitance (lo, lo + c.num_compartments) e1).face_alpha_.getD k 0 =
        cell_face_alpha_at x lo c.segments (e.face_alpha_.getD k 0) k) ∧
    (∀ k, (k < lo ∨ lo + c.num_compartments ≤ k) →
      cell_area_at x
        (fun i => (relocate_parents c.parent_index (lo, lo + c.num_compartments) g).getD i 0)
        lo c.segments k = 0 ∧
      cell_capacitance_at x
        (fun i => (relocate_parents c.parent_index (lo, lo + c.num_compartments) g).getD i 0)
        lo c.segments k = 0) := by
  obtain ⟨hA, hC, hF, hG⟩ := hlen
  obtain ⟨hsum, hpar⟩ := hwf
  have harr := segments_loop_arrays x _ _ c.segments 0 lo e e1
    (laid_out_make_partition _ lo) hs
  obtain ⟨ha, hc, hf⟩ := harr
  have hfr := segments_loop_frame x
    (util.make_partition_view (c.segments.map (fun s => s.num_compartments)) lo)
    (relocate_parents c.parent_index (lo, lo + c.num_compartments) g) c.segments 0 e
  rw [hs] at hfr
  have hfr2 := normalize_capacitance_frame (lo, lo + c.num_compartments) e1
  have hn := normalize_areas (lo, lo + c.num_compartments) e1
  have hl1 : e1.cv_areas_.length = N ∧ e1.face_alpha_.length = N ∧ e1.cv_capacitance_.length = N := by
    unfold geometry_frame at hfr
    obtain ⟨_, _, _, _, _, _, _, _, _, _, _, h1, h2, h3⟩ := hfr
    exact ⟨by rw [h1, hA], by rw [h2, hF], by rw [h3, hC]⟩
  have hl2 : (normalize_capacitance (lo, lo + c.num_compartments) e1).cv_capacitance_.length = N := by
    unfold geometry_frame at hfr2
    obtain ⟨_, _, _, _, _, _, _, _, _, _, _, _, _, h3⟩ := hfr2
    rw [h3, hl1.2.2]
  have hmal : ∀ s ∈ c.segments, s.kind = segmentKind.soma → 1 ≤ s.num_compartments := by
    intro s hsm hk
    have hnf := (cell_segments_fail_iff x lo
      (relocate_parents c.parent_index (lo, lo + c.num_compartments) g) c.segments e).not
    rw [hs] at hnf
    have hno : ¬ ∃ s ∈ c.segments, s.malformed := hnf.mp (by simp)
    by_contra hcon
    apply hno
    refine ⟨s, hsm, ?_⟩
    unfold segment.malformed
    rw [hk]
    simp only
    omega
  refine ⟨⟨by rw [hn.1]; exact hl1.1, hl2, by rw [hn.2]; exact hl1.2.1⟩, ?_, ?_, ?_, ?_⟩
  · intro k hk
    rw [hn.1]
    exact ha k (by omega)
  · intro k hk
    rw [normalize_capacitance_getD, hn.1]
    simp only
    by_cases hin : lo ≤ k ∧ k < lo + c.num_compartments
    · rw [if_pos ⟨hin, by omega⟩, if_pos hin, hc k (by omega)]
    · rw [if_neg (fun hh => hin hh.1), if_neg hin, hc k (by omega)]
  · intro k hk
    rw [hn.2]
    exact hf k (by omega)
  · intro k hout
    apply cell_area_outside x _ c.segments lo k hmal
    · rw [hsum]
      exact hout
    · rw [hsum]
      intro i h1 h2
      show (relocate_parents c.parent_index (lo, lo + c.num_compartments) g).getD i 0 ≠ k
      rw [relocate_parents_getD]
      rw [if_pos ⟨⟨h1, h2⟩, by omega⟩]
      show c.parent_index.getD (i - lo) 0 + lo ≠ k
      have := hpar (i - lo) (by omega)
      omega

/-! ## The arrays after the loop over the cells -/

/-- On success the loop over well-formed cells laid out from `lo` leaves the entries below
`lo` alone, and in the range of every cell it leaves the closed forms of the area, of the
normalized capacitance, of the face coefficient and of the relocated parent. -/
theorem cells_loop_arrays (x : externals) (part : util.partition_range) (cs : List cell)
    (i lo N : Nat) (loc loc1 : lowering_locals) (e e1 : fvm_multicell)
    (hl : laid_out part i lo (cs.map (fun c => c.num_compartments)))
    (hwf : ∀ c ∈ cs, c.well_formed)
    (hlen : e.cv_areas_.length = N ∧ e.cv_capacitance_.length = N ∧ e.face_alpha_.length = N ∧
      loc.group_parent_index.length = N)
    (hfit : lo + (cs.map (fun c => c.num_compartments)).sum ≤ N)
    (hz : ∀ k, lo ≤ k → e.cv_areas_.getD k 0 = 0 ∧ e.cv_capacitance_.getD k 0 = 0 ∧
      e.face_alpha_.getD k 0 = 0)
    (h : cells_loop x part i cs loc e = (loc1, e1, none)) :
    (∀ k, k < lo →
      e1.cv_areas_.getD k 0 = e.cv_areas_.getD k 0 ∧
      e1.cv_capacitance_.getD k 0 = e.cv_capacitance_.getD k 0 ∧
      e1.face_alpha_.getD k 0 = e.face_alpha_.getD k 0 ∧
      loc1.group_parent_index.getD k 0 = loc.group_parent_index.getD k 0) ∧
    (∀ t (ht : t < cs.length) k,
      lo + ((cs.map (fun c => c.num_compartments)).take t).sum ≤ k →
      k < lo + ((cs.map (fun c => c.num_compartments)).take t).sum + (cs[t]).num_compartments →
      e1.cv_areas_.getD k 0 =
        cell_area_at x (fun j => loc1.group_parent_index.getD j 0)
          (lo + ((cs.map (fun c => c.num_compartments)).take t).sum) (cs[t]).segments k ∧
      e1.cv_capacitance_.getD k 0 =
        cell_capacitance_at x (fun j => loc1.group_parent_index.getD j 0)
          (lo + ((cs.map (fun c => c.num_compartments)).take t).sum) (cs[t]).segments k /
            e1.cv_areas_.getD k 0 ∧
      e1.face_alpha_.getD k 0 =
        cell_face_alpha_at x (lo + ((cs.map (fun c => c.num_compartments)).take t).sum)
          (cs[t]).segments 0 k ∧
      loc1.group_parent_index.getD k 0 =
        (cs[t]).parent_index.getD
          (k - (lo + ((cs.map (fun c => c.num_compartments)).take t).sum)) 0 +
          (lo + ((cs.map (fun c => c.num_compartments)).take t).sum)) := by
  induction cs generalizing i lo loc e with
  | nil =>
    simp only [cells_loop, Prod.mk.injEq] at h
    obtain ⟨h1, h2, _⟩ := h
    subst h1
    subst h2
    refine ⟨fun k _ => ⟨rfl, rfl, rfl, rfl⟩, ?_⟩
    intro t ht
    simp at ht
  | cons c cs ih =>
    simp only [List.map_cons, List.sum_cons] at hfit
    have hcomps : part.get i = (lo, lo + c.num_compartments) :=
      laid_out_head part i lo c.num_compartments _ hl
    have hl2 := laid_out_tail part i lo c.num_compartments _ hl
    simp only [cells_loop] at h
    rw [hcomps] at h
    simp only at h
    rcases hs : segments_loop x
      (util.make_partition_view (c.segments.map (fun s => s.num_compartments)) lo)
      (relocate_parents c.parent_index (lo, lo + c.num_compartments) loc.group_parent_index)
      0 c.segments e with ⟨e2, _ | err⟩
    swap
    · simp only [hs] at h
      cases h
    simp only [hs] at h
    obtain ⟨⟨sA, sC, sF⟩, vA, vC, vF, vO⟩ := cell_step_arrays x c lo N loc.group_parent_index e e2
      (hwf c (by simp)) hlen (by omega) hs
    have hGl : (relocate_parents c.parent_index (lo, lo + c.num_compartments)
        loc.group_parent_index).length = N := by
      rw [relocate_parents_length]
      exact hlen.2.2.2
    have hz2 : ∀ k, lo + c.num_compartments ≤ k →
        (normalize_capacitance (lo, lo + c.num_compartments) e2).cv_areas_.getD k 0 = 0 ∧
        (normalize_capacitance (lo, lo + c.num_compartments) e2).cv_capacitance_.getD k 0 = 0 ∧
        (normalize_capacitance (lo, lo + c.num_compartments) e2).face_alpha_.getD k 0 = 0 := by
      intro k hk
      by_cases hkN : k < N
      · obtain ⟨z1, z2, z3⟩ := hz k (by omega)
        obtain ⟨o1, o2⟩ := vO k (Or.inr hk)
        refine ⟨?_, ?_, ?_⟩
        · rw [vA k hkN, z1, o1, add_zero]
        · rw [vC k hkN, if_neg (by omega), z2, o2, add_zero]
        · rw [vF k hkN, z3]
          exact cell_face_alpha_outside x c.segments lo k 0
            (Or.inr (by rw [(hwf c (by simp)).1]; exact hk))
      · exact ⟨getD_beyond _ k (by omega), getD_beyond _ k (by omega), getD_beyond _ k (by omega)⟩
    obtain ⟨iF, iV⟩ := ih (i + 1) (lo + c.num_compartments) _ _ hl2
      (fun c1 hc1 => hwf c1 (by simp [hc1])) ⟨sA, sC, sF, hGl⟩ (by omega) hz2 h
    have hgp : ∀ k, k < lo + c.num_compartments →
        loc1.group_parent_index.getD k 0 =
          (relocate_parents c.parent_index (lo, lo + c.num_compartments)
            loc.group_parent_index).getD k 0 := fun k hk => (iF k hk).2.2.2
    refine ⟨?_, ?_⟩
    · intro k hk
      obtain ⟨f1, f2, f3, f4⟩ := iF k (by omega)
      obtain ⟨o1, o2⟩ := vO k (Or.inl hk)
      have hkN : k < N := by omega
      refine ⟨?_, ?_, ?_, ?_⟩
      · rw [f1, vA k hkN, o1, add_zero]
      · rw [f2, vC k hkN, if_neg (by omega), o2, add_zero]
      · rw [f3, vF k hkN]
        exact cell_face_alpha_outside x c.segments lo k _ (Or.inl hk)
      · rw [f4, relocate_parents_getD, if_neg]
        intro hh
        have := hh.1.1
        simp only at this
        omega
    · intro t ht k hk1 hk2
      cases t with
      | zero =>
        simp only [List.take_zero, List.sum_nil, Nat.add_zero, List.getElem_cons_zero,
          List.map_cons] at hk1 hk2 ⊢
        obtain ⟨f1, f2, f3, f4⟩ := iF k hk2
        obtain ⟨z1, z2, z3⟩ := hz k hk1
        have hkN : k < N := by omega
        have hcg := cell_area_congr x (fun j => loc1.group_parent_index.getD j 0)
          (fun j => (relocate_parents c.parent_index (lo, lo + c.num_compartments)
            loc.group_parent_index).getD j 0) c.segments lo k
          (fun j _ hj2 => hgp j (by rw [(hwf c (by simp)).1] at hj2; exact hj2))
        have hA : e1.cv_areas_.getD k 0 =
            cell_area_at x (fun j => loc1.group_parent_index.getD j 0) lo c.segments k := by
          rw [f1, vA k hkN, z1, zero_add, hcg.1]
        refine ⟨hA, ?_, ?_, ?_⟩
        · rw [f2, vC k hkN, if_pos ⟨hk1, hk2⟩, z2, zero_add, hcg.2, f1]
        · rw [f3, vF k hkN, z3]
        · rw [f4, relocate_parents_getD, if_pos ⟨⟨hk1, hk2⟩, by omega⟩]
      | succ t =>
        simp only [List.length_cons, Nat.add_lt_add_iff_right] at ht
        simp only [List.map_cons, List.take_succ_cons, List.sum_cons,
          List.getElem_cons_succ] at hk1 hk2 ⊢
        have := iV t ht k (by omega) (by omega)
        rw [Nat.add_assoc] at this
        exact this

/-! ## The arrays of a successfully lowered engine -/

theorem initialize_success_arrays (x : externals) (cells : List cell) (cell : cell)
    (dh : List Nat) (th : List (Nat × Nat)) (ph : List (field_selector × Nat))
    (e : fvm_multicell)
    (hok : ( fvm_multicell.initialize x cells cell dh th ph e).failure = none) :
    ∃ loc e1,
      cells_loop x (cell_comp_part cells) 0 cells (lowering_locals.start (ncomp cells))
        (allocate_storage (ncomp cells) e) = (loc, e1, none) ∧
      ( fvm_multicell.initialize x cells cell dh th ph e).engine.matrix_ =
        matrix.of_parent_index loc.group_parent_index ∧
      ( fvm_multicell.initialize x cells cell dh th ph e).engine.cv_areas_ = e1.cv_areas_ ∧
      ( fvm_multicell.initialize x cells cell dh th ph e).engine.cv_capacitance_ =
        e1.cv_capacitance_ ∧
      ( fvm_multicell.initialize x cells cell dh th ph e).engine.face_alpha_ = e1.face_alpha_ ∧
      loc.group_parent_index.length = ncomp cells := by
  obtain ⟨loc, e1, r, hc, hcase⟩ := initialize_cases x cells cell dh th ph e
  rcases hcase with ⟨err, _, hout⟩ | ⟨_, what, hout⟩ | ⟨hr, hout⟩
  · rw [hout] at hok
    cases hok
  · rw [hout] at hok
    cases hok
  · subst hr
    refine ⟨loc, e1, hc, ?_⟩
    rw [hout]
    have hb := bind_mechanisms_frame x cell dh th ph
      { e1 with matrix_ := matrix.of_parent_index loc.group_parent_index }
    obtain ⟨b1, _, b3, b4, b5, _⟩ := hb
    refine ⟨b1, b3, b5, b4, ?_⟩
    rw [(cells_loop_parents x (cell_comp_part cells) cells 0 _ loc _ e1 hc).1]
    simp [lowering_locals.start]

/-- The closed forms of the three arrays of a successfully lowered engine whose cells are
well formed: in the range of cell `t`, which starts at the sum `L` of the compartment
counts of the cells before it, the area, the capacitance (normalized by the area) and the
face coefficient of the segments of that cell laid out from `L`. -/
theorem initialize_arrays (x : externals) (cells : List cell) (cell : cell)
    (dh : List Nat) (th : List (Nat × Nat)) (ph : List (field_selector × Nat))
    (e : fvm_multicell) (hwf : ∀ c ∈ cells, c.well_formed)
    (hok : ( fvm_multicell.initialize x cells cell dh th ph e).failure = none)
    (t : Nat) (ht : t < cells.length) (k : Nat)
    (hk1 : ((cells.map (fun c => c.num_compartments)).take t).sum ≤ k)
    (hk2 : k < ((cells.map (fun c => c.num_compartments)).take t).sum +
      (cells[t]).num_compartments) :
    ( fvm_multicell.initialize x cells cell dh th ph e).engine.cv_areas_.getD k 0 =
      cell_area_at x
        (fun j => ( fvm_multicell.initialize x cells cell dh th ph e).engine.matrix_.p.getD j 0)
        ((cells.map (fun c => c.num_compartments)).take t).sum (cells[t]).segments k ∧
    ( fvm_multicell.initialize x cells cell dh th ph e).engine.cv_capacitance_.getD k 0 =
      cell_capacitance_at x
        (fun j => ( fvm_multicell.initialize x cells cell dh th ph e).engine.matrix_.p.getD j 0)
        ((cells.map (fun c => c.num_compartments)).take t).sum (cells[t]).segments k /
          ( fvm_multicell.initialize x cells cell dh th ph e).engine.cv_areas_.getD k 0 ∧
    ( fvm_multicell.initialize x cells cell dh th ph e).engine.face_alpha_.getD k 0 =
      cell_face_alpha_at x ((cells.map (fun c => c.num_compartments)).take t).sum
        (cells[t]).segments 0 k ∧
    ( fvm_multicell.initialize x cells cell dh th ph e).engine.matrix_.p.getD k 0 =
      (cells[t]).parent_index.getD
        (k - ((cells.map (fun c => c.num_compartments)).take t).sum) 0 +
        ((cells.map (fun c => c.num_compartments)).take t).sum ∧
    k < ( fvm_multicell.initialize x cells cell dh th ph e).engine.matrix_.p.length := by
  obtain ⟨loc, e1, hc, hm, hA, hC, hF, hG⟩ :=
    initialize_success_arrays x cells cell dh th ph e hok
  have hn : 1 ≤ cells.length := by omega
  have hN := ncomp_eq_sum cells hn
  have hlay : laid_out (cell_comp_part cells) 0 0 (cells.map (fun c => c.num_compartments)) :=
    laid_out_make_partition _ 0
  obtain ⟨_, hV⟩ := cells_loop_arrays x (cell_comp_part cells) cells 0 0 (ncomp cells)
    (lowering_locals.start (ncomp cells)) loc (allocate_storage (ncomp cells) e) e1 hlay hwf
    (by simp [allocate_storage, lowering_locals.start]) (by omega)
    (fun k _ => by simp [allocate_storage, List.getD_eq_getElem?_getD, List.getElem?_replicate]; split_ifs <;> simp) hc
  have hv := hV t ht k (by omega) (by omega)
  simp only [Nat.zero_add] at hv
  have hp : ( fvm_multicell.initialize x cells cell dh th ph e).engine.matrix_.p =
      loc.group_parent_index := by
    rw [hm]
    rfl
  rw [hA, hC, hF, hp]
  refine ⟨hv.1, hv.2.1, hv.2.2.1, hv.2.2.2, ?_⟩
  rw [hG, hN]
  have htot : ((cells.map (fun c => c.num_compartments)).take (t + 1)).sum ≤
      (cells.map (fun c => c.num_compartments)).sum := by
    have := sum_take_mono (cells.map (fun c => c.num_compartments)) (t + 1)
      (cells.map (fun c => c.num_compartments)).length (by simp; omega)
    rwa [List.take_length] at this
  have hlen : t < (cells.map (fun c => c.num_compartments)).length := by simpa using ht
  rw [List.sum_take_succ _ t hlen] at htot
  simp only [List.getElem_map] at htot
  omega

/-! ## The face coefficient of a cable compartment -/

theorem cell_face_alpha_at_cable (x : externals) (segs : List segment) (lo : Nat) (d : ℚ)
    (j : Nat) (hj : j < segs.length) (hk : (segs[j]).kind = segmentKind.cable)
    (o : Nat) (ho : o < (segs[j]).num_compartments) :
    cell_face_alpha_at x lo segs d
      (lo + ((segs.map (fun s => s.num_compartments)).take j).sum + o) =
        (segs[j]).face_alpha_at x o := by
  induction segs generalizing lo j with
  | nil => simp at hj
  | cons seg segs ih =>
    cases j with
    | zero =>
      simp only [List.getElem_cons_zero] at hk ho
      simp only [List.take_zero, List.sum_nil, Nat.add_zero, List.getElem_cons_zero]
      rw [cell_face_alpha_at, if_pos ⟨hk, by omega, by omega⟩]
      congr 1
      omega
    | succ j =>
      simp only [List.length_cons, Nat.add_lt_add_iff_right] at hj
      simp only [List.getElem_cons_succ] at hk ho
      simp only [List.map_cons, List.take_succ_cons, List.sum_cons, List.getElem_cons_succ]
      rw [cell_face_alpha_at, if_neg (by omega)]
      have := ih (lo + seg.num_compartments) j hj hk ho
      rw [← this]
      congr 1
      omega

theorem prefix_fits (cells : List cell) (t : Nat) (ht : t < cells.length) :
    ((cells.map (fun c => c.num_compartments)).take t).sum + (cells[t]).num_compartments ≤
      (cells.map (fun c => c.num_compartments)).sum := by
  have htot : ((cells.map (fun c => c.num_compartments)).take (t + 1)).sum ≤
      (cells.map (fun c => c.num_compartments)).sum := by
    have := sum_take_mono (cells.map (fun c => c.num_compartments)) (t + 1)
      (cells.map (fun c => c.num_compartments)).length (by simp; omega)
    rwa [List.take_length] at this
  have hlen : t < (cells.map (fun c => c.num_compartments)).length := by simpa using ht
  rw [List.sum_take_succ _ t hlen] at htot
  simpa using htot

/-- On success the loop over cells whose segments partition their ranges leaves, in the
range of every cell, the face coefficients of the segments of that cell. -/
theorem cells_loop_face_alpha (x : externals) (part : util.partition_range) (cs : List cell)
    (i lo N : Nat) (loc loc1 : lowering_locals) (e e1 : fvm_multicell)
    (hl : laid_out part i lo (cs.map (fun c => c.num_compartments)))
    (hsum : ∀ c ∈ cs, (c.segments.map (fun s => s.num_compartments)).sum = c.num_compartments)
    (hlen : e.face_alpha_.length = N)
    (hfit : lo + (cs.map (fun c => c.num_compartments)).sum ≤ N)
    (h : cells_loop x part i cs loc e = (loc1, e1, none)) :
    (∀ k, k < lo → e1.face_alpha_.getD k 0 = e.face_alpha_.getD k 0) ∧
    (∀ t (ht : t < cs.length) k,
      lo + ((cs.map (fun c => c.num_compartments)).take t).sum ≤ k →
      k < lo + ((cs.map (fun c => c.num_compartments)).take t).sum + (cs[t]).num_compartments →
      e1.face_alpha_.getD k 0 =
        cell_face_alpha_at x (lo + ((cs.map (fun c => c.num_compartments)).take t).sum)
          (cs[t]).segments (e.face_alpha_.getD k 0) k) := by
  induction cs generalizing i lo loc e with
  | nil =>
    simp only [cells_loop, Prod.mk.injEq] at h
    obtain ⟨_, h2, _⟩ := h
    subst h2
    refine ⟨fun k _ => rfl, ?_⟩
    intro t ht
    simp at ht
  | cons c cs ih =>
    simp only [List.map_cons, List.sum_cons] at hfit
    have hcomps : part.get i = (lo, lo + c.num_compartments) :=
      laid_out_head part i lo c.num_compartments _ hl
    have hl2 := laid_out_tail part i lo c.num_compartments _ hl
    simp only [cells_loop] at h
    rw [hcomps] at h
    simp only at h
    rcases hs : segments_loop x
      (util.make_partition_view (c.segments.map (fun s => s.num_compartments)) lo)
      (relocate_parents c.parent_index (lo, lo + c.num_compartments) loc.group_parent_index)
      0 c.segments e with ⟨e2, _ | err⟩
    swap
    · simp only [hs] at h
      cases h
    simp only [hs] at h
    obtain ⟨_, _, hf⟩ := segments_loop_arrays x _ _ c.segments 0 lo e e2
      (laid_out_make_partition _ lo) hs
    have hfr := segments_loop_frame x
      (util.make_partition_view (c.segments.map (fun s => s.num_compartments)) lo)
      (relocate_parents c.parent_index (lo, lo + c.num_compartments) loc.group_parent_index)
      c.segments 0 e
    rw [hs] at hfr
    have hn := (normalize_areas (lo, lo + c.num_compartments) e2).2
    have hl3 : (normalize_capacitance (lo, lo + c.num_compartments) e2).face_alpha_.length = N := by
      unfold geometry_frame at hfr
      obtain ⟨_, _, _, _, _, _, _, _, _, _, _, _, h2, _⟩ := hfr
      rw [hn, h2, hlen]
    have hcs := hsum c (by simp)
    obtain ⟨iF, iV⟩ := ih (i + 1) (lo + c.num_compartments) _ _ hl2
      (fun c1 hc1 => hsum c1 (by simp [hc1])) hl3 (by omega) h
    refine ⟨?_, ?_⟩
    · intro k hk
      rw [iF k (by omega), hn, hf k (by omega)]
      exact cell_face_alpha_outside x c.segments lo k _ (Or.inl hk)
    · intro t ht k hk1 hk2
      cases t with
      | zero =>
        simp only [List.take_zero, List.sum_nil, Nat.add_zero, List.getElem_cons_zero,
          List.map_cons] at hk1 hk2 ⊢
        rw [iF k hk2, hn, hf k (by omega)]
      | succ t =>
        simp only [List.length_cons, Nat.add_lt_add_iff_right] at ht
        simp only [List.map_cons, List.take_succ_cons, List.sum_cons,
          List.getElem_cons_succ] at hk1 hk2 ⊢
        have hpf := prefix_fits cs t ht
        have := iV t ht k (by omega) (by omega)
        rw [Nat.add_assoc] at this
        rw [this, hn, hf k (by omega)]
        rw [cell_face_alpha_outside x c.segments lo k _ (Or.inr (by rw [hcs]; omega))]

theorem initialize_face_alpha_at (x : externals) (cells : List cell) (cell : cell)
    (dh : List Nat) (th : List (Nat × Nat)) (ph : List (field_selector × Nat))
    (e : fvm_multicell)
    (hsum : ∀ c ∈ cells,
      (c.segments.map (fun s => s.num_compartments)).sum = c.num_compartments)
    (hok : ( fvm_multicell.initialize x cells cell dh th ph e).failure = none)
    (t : Nat) (ht : t < cells.length) (k : Nat)
    (hk1 : ((cells.map (fun c => c.num_compartments)).take t).sum ≤ k)
    (hk2 : k < ((cells.map (fun c => c.num_compartments)).take t).sum +
      (cells[t]).num_compartments) :
    ( fvm_multicell.initialize x cells cell dh th ph e).engine.face_alpha_.getD k 0 =
      cell_face_alpha_at x ((cells.map (fun c => c.num_compartments)).take t).sum
        (cells[t]).segments 0 k ∧
    k < ( fvm_multicell.initialize x cells cell dh th ph e).engine.matrix_.d.length ∧
    ( fvm_multicell.initialize x cells cell dh th ph e).engine.matrix_.l.length =
      ( fvm_multicell.initialize x cells cell dh th ph e).engine.matrix_.d.length ∧
    ( fvm_multicell.initialize x cells cell dh th ph e).engine.matrix_.u.length =
      ( fvm_multicell.initialize x cells cell dh th ph e).engine.matrix_.d.length := by
  obtain ⟨loc, e1, hc, hm, _, _, hF, hG⟩ :=
    initialize_success_arrays x cells cell dh th ph e hok
  have hn : 1 ≤ cells.length := by omega
  have hN := ncomp_eq_sum cells hn
  have hfit := prefix_fits cells t ht
  obtain ⟨_, hV⟩ := cells_loop_face_alpha x (cell_comp_part cells) cells 0 0 (ncomp cells)
    (lowering_locals.start (ncomp cells)) loc (allocate_storage (ncomp cells) e) e1
    (laid_out_make_partition _ 0) hsum
    (by simp [allocate_storage]) (by omega) hc
  have hv := hV t ht k (by omega) (by omega)
  simp only [Nat.zero_add] at hv
  have hz : (allocate_storage (ncomp cells) e).face_alpha_.getD k 0 = 0 := by
    simp [allocate_storage, List.getD_eq_getElem?_getD, List.getElem?_replicate]
    split_ifs <;> simp
  rw [hz] at hv
  rw [hF, hm]
  refine ⟨hv, ?_, ?_, ?_⟩
  · simp only [matrix.of_parent_index, List.length_replicate]
    omega
  · simp only [matrix.of_parent_index, List.length_replicate]
  · simp only [matrix.of_parent_index, List.length_replicate]

theorem take_sum_add_le (sizes : List Nat) (j : Nat) (hj : j < sizes.length) :
    (sizes.take j).sum + sizes[j] ≤ sizes.sum := by
  have := sum_take_mono sizes (j + 1) sizes.length (by omega)
  rw [List.take_length, List.sum_take_succ _ j hj] at this
  exact this

theorem face_alpha_at_eq (x : externals) (seg : segment) (o : Nat) (c : compartment)
    (hc : seg.compartments[o]? = some c) :
    seg.face_alpha_at x o =
      x.pi * ((c.radius.1 + c.radius.2) / 2) ^ 2 / (seg.c_m * seg.r_L * c.length) := by
  unfold segment.face_alpha_at segment.compartment_at math.area_circle math.mean
  rw [hc]
  simp only [Option.getD_some]
  ring

theorem success_not_malformed (x : externals) (cells : List cell) (cell : cell)
    (dh : List Nat) (th : List (Nat × Nat)) (ph : List (field_selector × Nat))
    (e : fvm_multicell)
    (hok : ( fvm_multicell.initialize x cells cell dh th ph e).failure = none) :
    ∀ c ∈ cells, ∀ s ∈ c.segments, ¬ s.malformed := by
  obtain ⟨loc, e1, hc, _⟩ := initialize_success x cells cell dh th ph e hok
  have h := (cells_loop_fails_iff x (cell_comp_part cells) cells 0
    (lowering_locals.start (ncomp cells)) (allocate_storage (ncomp cells) e)).not
  rw [hc] at h
  have hno := h.mp (by simp)
  intro c hcm s hsm hmal
  exact hno ⟨c, hcm, s, hsm, hmal⟩

/-- C12: on a successfully lowered engine whose cells have segments that partition their
compartment ranges, the cable compartment at offset `o` of segment `j` of cell `t`, with end
radii `r_left`, `r_right` and length `len`, sits at CV `i = L + S + o` (`L` the compartments
of the cells before, `S` those of the segments before) and has
`face_alpha[i] = pi * ((r_left + r_right)/2)^2 / (c_m * r_L * len)`.  When every compartment
of the cable has both radii `r` and length `dx`, `face_alpha[i] = pi * r^2 / (c_m * r_L * dx)`
and, for `i >= 1`, the assembled off-diagonal coefficients `l[i]` and `u[i]` are
`-(100000 * dt * pi * r^2 / (c_m * r_L * dx))`. -/
theorem initialize_face_alpha (x : externals) (cells : List cell) (cell : cell)
    (dh : List Nat) (th : List (Nat × Nat)) (ph : List (field_selector × Nat))
    (e : fvm_multicell)
    (hsum : ∀ c ∈ cells,
      (c.segments.map (fun s => s.num_compartments)).sum = c.num_compartments)
    (hok : ( fvm_multicell.initialize x cells cell dh th ph e).failure = none)
    (t : Nat) (ht : t < cells.length) (j : Nat) (hj : j < (cells[t]).segments.length)
    (hcable : ((cells[t]).segments[j]).kind = segmentKind.cable)
    (o : Nat) (c : compartment) (hc : ((cells[t]).segments[j]).compartments[o]? = some c)
    (dt r dx : ℚ) :
    ( fvm_multicell.initialize x cells cell dh th ph e).engine.face_alpha_.getD
        (((cells.map (fun c => c.num_compartments)).take t).sum +
          (((cells[t]).segments.map (fun s => s.num_compartments)).take j).sum + o) 0 =
      x.pi * ((c.radius.1 + c.radius.2) / 2) ^ 2 /
        (((cells[t]).segments[j]).c_m * ((cells[t]).segments[j]).r_L * c.length) ∧
    ((∀ c1 ∈ ((cells[t]).segments[j]).compartments, c1.radius = (r, r) ∧ c1.length = dx) →
      ( fvm_multicell.initialize x cells cell dh th ph e).engine.face_alpha_.getD
          (((cells.map (fun c => c.num_compartments)).take t).sum +
            (((cells[t]).segments.map (fun s => s.num_compartments)).take j).sum + o) 0 =
        x.pi * r ^ 2 / (((cells[t]).segments[j]).c_m * ((cells[t]).segments[j]).r_L * dx) ∧
      (1 ≤ ((cells.map (fun c => c.num_compartments)).take t).sum +
            (((cells[t]).segments.map (fun s => s.num_compartments)).take j).sum + o →
        ( fvm_multicell.setup_matrix dt
            ( fvm_multicell.initialize x cells cell dh th ph e).engine).matrix_.l.getD
          (((cells.map (fun c => c.num_compartments)).take t).sum +
            (((cells[t]).segments.map (fun s => s.num_compartments)).take j).sum + o) 0 =
          -(100000 * dt * x.pi * r ^ 2 /
            (((cells[t]).segments[j]).c_m * ((cells[t]).segments[j]).r_L * dx)) ∧
        ( fvm_multicell.setup_matrix dt
            ( fvm_multicell.initialize x cells cell dh th ph e).engine).matrix_.u.getD
          (((cells.map (fun c => c.num_compartments)).take t).sum +
            (((cells[t]).segments.map (fun s => s.num_compartments)).take j).sum + o) 0 =
          -(100000 * dt * x.pi * r ^ 2 /
            (((cells[t]).segments[j]).c_m * ((cells[t]).segments[j]).r_L * dx)))) := by
  have hcm : (cells[t]) ∈ cells := List.getElem_mem ht
  have hsm : ((cells[t]).segments[j]) ∈ (cells[t]).segments := List.getElem_mem hj
  have hnm := success_not_malformed x cells cell dh th ph e hok _ hcm _ hsm
  have hcl : ((cells[t]).segments[j]).compartments.length =
      ((cells[t]).segments[j]).num_compartments := by
    by_contra hne
    apply hnm
    unfold segment.malformed
    rw [hcable]
    exact hne
  have ho : o < ((cells[t]).segments[j]).compartments.length := by
    by_contra hge
    rw [List.getElem?_eq_none (by omega)] at hc
    cases hc
  have hjl : j < ((cells[t]).segments.map (fun s => s.num_compartments)).length := by
    simpa using hj
  have hfit := take_sum_add_le ((cells[t]).segments.map (fun s => s.num_compartments)) j hjl
  simp only [List.getElem_map] at hfit
  have hs := hsum _ hcm
  obtain ⟨hfa, hd, hll, hul⟩ := initialize_face_alpha_at x cells cell dh th ph e hsum hok t ht
    (((cells.map (fun c => c.num_compartments)).take t).sum +
      (((cells[t]).segments.map (fun s => s.num_compartments)).take j).sum + o)
    (by omega) (by omega)
  have hval : ( fvm_multicell.initialize x cells cell dh th ph e).engine.face_alpha_.getD
        (((cells.map (fun c => c.num_compartments)).take t).sum +
          (((cells[t]).segments.map (fun s => s.num_compartments)).take j).sum + o) 0 =
      x.pi * ((c.radius.1 + c.radius.2) / 2) ^ 2 /
        (((cells[t]).segments[j]).c_m * ((cells[t]).segments[j]).r_L * c.length) := by
    rw [hfa, cell_face_alpha_at_cable x _ _ 0 j hj hcable o (by omega)]
    exact face_alpha_at_eq x _ o c hc
  refine ⟨hval, ?_⟩
  intro hu
  have hcmem : c ∈ ((cells[t]).segments[j]).compartments := by
    rw [List.getElem?_eq_getElem ho] at hc
    cases hc
    exact List.getElem_mem ho
  obtain ⟨hr, hdx⟩ := hu c hcmem
  have hval2 : ( fvm_multicell.initialize x cells cell dh th ph e).engine.face_alpha_.getD
        (((cells.map (fun c => c.num_compartments)).take t).sum +
          (((cells[t]).segments.map (fun s => s.num_compartments)).take j).sum + o) 0 =
      x.pi * r ^ 2 / (((cells[t]).segments[j]).c_m * ((cells[t]).segments[j]).r_L * dx) := by
    rw [hval, hr, hdx]
    simp only
    congr 2
    ring
  refine ⟨hval2, ?_⟩
  intro h1
  obtain ⟨_, _, _, hlu⟩ := setup_matrix_ldu dt
    ( fvm_multicell.initialize x cells cell dh th ph e).engine
  obtain ⟨hL, hU⟩ := hlu _ h1 hd
  rw [hL (by omega), hU (by omega), hval2]
  constructor <;> ring

/-- C12 (worked example): two copies of the sample cell; the second compartment of the
cable of the second cell is CV 5, its face coefficient is `(22/7) * 1^2 / (1/100 * 100 * 5)`
and the off-diagonal coefficient for `dt = 1/40` follows. -/
theorem initialize_face_alpha_witness :
    ( fvm_multicell.initialize sample_externals [sample_cell, sample_cell] sample_cell []
        [(0, 0), (0, 0), (0, 0), (0, 0)] [] fvm_multicell.fresh).engine.face_alpha_.getD 5 0 =
      (22 / 7) * 1 ^ 2 / (1 / 100 * 100 * 5) ∧
    ( fvm_multicell.setup_matrix (1 / 40)
        ( fvm_multicell.initialize sample_externals [sample_cell, sample_cell] sample_cell []
          [(0, 0), (0, 0), (0, 0), (0, 0)] [] fvm_multicell.fresh).engine).matrix_.l.getD 5 0 =
      -(100000 * (1 / 40) * (22 / 7) * 1 ^ 2 / (1 / 100 * 100 * 5)) :=
  have h := initialize_face_alpha sample_externals [sample_cell, sample_cell] sample_cell []
    [(0, 0), (0, 0), (0, 0), (0, 0)] [] fvm_multicell.fresh (by decide) (by decide) 1 (by decide)
    1 (by decide) (by decide) 1 ⟨(1, 1), 5⟩ (by decide) (1 / 40) 1 5
  have h2 := h.2 (by decide)
  ⟨h2.1, (h2.2 (by decide)).1⟩

/-! ## The total area -/

theorem list_sum_eq_sum_range (xs : List ℚ) :
    xs.sum = ∑ k ∈ Finset.range xs.length, xs.getD k 0 := by
  induction xs with
  | nil => simp
  | cons a xs ih =>
    rw [List.sum_cons, List.length_cons, Finset.sum_range_succ', ih]
    simp only [List.getD_cons_succ, List.getD_cons_zero]
    ring

theorem segment_area_total (x : externals) (P : Nat → Nat) (lo N : Nat) (seg : segment)
    (hsoma : seg.kind = segmentKind.soma → seg.num_compartments = 1)
    (hfit : lo + seg.num_compartments ≤ N)
    (hP : ∀ i, lo ≤ i → i < lo + seg.num_compartments → P i < N) :
    ∑ k ∈ Finset.range N, segment_area_at x P lo seg k = seg.membrane_area x := by
  unfold segment_area_at segment.membrane_area
  cases hk : seg.kind with
  | soma =>
    have := hsoma hk
    simp only
    rw [Finset.sum_eq_single lo]
    · rw [if_pos rfl]
    · intro b _ hb
      rw [if_neg hb]
    · intro hlo
      rw [Finset.mem_range] at hlo
      omega
  | cable =>
    simp only
    rw [Finset.sum_add_distrib]
    have h1 : ∑ k ∈ Finset.range N,
        (if lo ≤ k ∧ k < lo + seg.num_compartments
          then (seg.compartment_at (k - lo)).area_right x else 0) =
        ∑ o ∈ Finset.range seg.num_compartments, (seg.compartment_at o).area_right x := by
      rw [← Finset.sum_filter]
      have hset : (Finset.range N).filter (fun k => lo ≤ k ∧ k < lo + seg.num_compartments) =
          Finset.Ico lo (lo + seg.num_compartments) := by
        ext k
        simp only [Finset.mem_filter, Finset.mem_range, Finset.mem_Ico]
        omega
      rw [hset, Finset.sum_Ico_eq_sum_range]
      apply Finset.sum_congr
      · congr 1
        omega
      · intro o _
        congr 2
        omega
    have h2 : ∑ k ∈ Finset.range N,
        ∑ i ∈ (Finset.Ico lo (lo + seg.num_compartments)).filter (fun i => P i = k),
          (seg.compartment_at (i - lo)).area_left x =
        ∑ o ∈ Finset.range seg.num_compartments, (seg.compartment_at o).area_left x := by
      rw [Finset.sum_fiberwise_of_maps_to]
      · rw [Finset.sum_Ico_eq_sum_range]
        apply Finset.sum_congr
        · congr 1
          omega
        · intro o _
          congr 2
          omega
      · intro i hi
        rw [Finset.mem_Ico] at hi
        rw [Finset.mem_range]
        exact hP i hi.1 hi.2
    rw [h1, h2, Finset.sum_add_distrib, add_comm]
  | none => simp

theorem cell_area_total (x : externals) (P : Nat → Nat) (segs : List segment) (lo N : Nat)
    (hsoma : ∀ s ∈ segs, s.kind = segmentKind.soma → s.num_compartments = 1)
    (hfit : lo + (segs.map (fun s => s.num_compartments)).sum ≤ N)
    (hP : ∀ i, lo ≤ i → i < lo + (segs.map (fun s => s.num_compartments)).sum → P i < N) :
    ∑ k ∈ Finset.range N, cell_area_at x P lo segs k =
      (segs.map (fun s => s.membrane_area x)).sum := by
  induction segs generalizing lo with
  | nil => simp [cell_area_at]
  | cons seg segs ih =>
    simp only [List.map_cons, List.sum_cons] at hfit hP ⊢
    simp only [cell_area_at]
    rw [Finset.sum_add_distrib,
      segment_area_total x P lo N seg (hsoma seg (by simp)) (by omega)
        (fun i h1 h2 => hP i h1 (by omega)),
      ih (lo + seg.num_compartments) (fun s hs => hsoma s (by simp [hs])) (by omega)
        (fun i h1 h2 => hP i (by omega) (by omega))]

/-- C13: for a well-formed cell laid out from CV `lo` whose segments the geometry pass
accepts, the loop over its segments succeeds and, before the normalization, has added to
`area[k]` of every CV `k` the sum over the segments of: the sphere `4 pi r^2` when `k` is
the CV of a soma of radius `r`; the right half-frustum `a_R(k)` when `k` is a compartment of
the cable; and the left half-frusta `a_L(i)` of the compartments `i` of the cable with
`parent[i] = k` (the relocated parent `p[i - lo] + lo`).  It has added to
`cv_capacitance[k]` the same terms, each times the `c_m` of its segment.  Hence the sum
of `area` has grown by the total membrane area of the segments. -/
theorem segments_loop_accumulates (x : externals) (c : cell) (lo N : Nat) (g : List Nat)
    (e : fvm_multicell) (hwf : c.well_formed) (hmal : ∀ s ∈ c.segments, ¬ s.malformed)
    (hlen : e.cv_areas_.length = N ∧ e.cv_capacitance_.length = N ∧ g.length = N)
    (hfit : lo + c.num_compartments ≤ N) :
    (segments_loop x
      (util.make_partition_view (c.segments.map (fun s => s.num_compartments)) lo)
      (relocate_parents c.parent_index (lo, lo + c.num_compartments) g) 0 c.segments e).2 =
        none ∧
    (∀ k, k < N →
      (segments_loop x
        (util.make_partition_view (c.segments.map (fun s => s.num_compartments)) lo)
        (relocate_parents c.parent_index (lo, lo + c.num_compartments) g) 0 c.segments
        e).1.cv_areas_.getD k 0 =
        e.cv_areas_.getD k 0 +
          cell_area_at x
            (fun i => (relocate_parents c.parent_index (lo, lo + c.num_compartments) g).getD i 0)
            lo c.segments k) ∧
    (∀ k, k < N →
      (segments_loop x
        (util.make_partition_view (c.segments.map (fun s => s.num_compartments)) lo)
        (relocate_parents c.parent_index (lo, lo + c.num_compartments) g) 0 c.segments
        e).1.cv_capacitance_.getD k 0 =
        e.cv_capacitance_.getD k 0 +
          cell_capacitance_at x
            (fun i => (relocate_parents c.parent_index (lo, lo + c.num_compartments) g).getD i 0)
            lo c.segments k) ∧
    (∀ i, lo ≤ i → i < lo + c.num_compartments →
      (relocate_parents c.parent_index (lo, lo + c.num_compartments) g).getD i 0 =
        c.parent_index.getD (i - lo) 0 + lo) ∧
    (segments_loop x
      (util.make_partition_view (c.segments.map (fun s => s.num_compartments)) lo)
      (relocate_parents c.parent_index (lo, lo + c.num_compartments) g) 0 c.segments
      e).1.cv_areas_.sum =
        e.cv_areas_.sum + (c.segments.map (fun s => s.membrane_area x)).sum := by
  obtain ⟨hA, hC, hG⟩ := hlen
  obtain ⟨hsum, hpar⟩ := hwf
  have hnf := (cell_segments_fail_iff x lo
    (relocate_parents c.parent_index (lo, lo + c.num_compartments) g) c.segments e).not
  have hnone : (segments_loop x
      (util.make_partition_view (c.segments.map (fun s => s.num_compartments)) lo)
      (relocate_parents c.parent_index (lo, lo + c.num_compartments) g) 0 c.segments e).2 =
        none := by
    by_contra hne
    exact hnf.mpr (fun ⟨s, hs, hm⟩ => hmal s hs hm) hne
  have hfr := segments_loop_frame x
    (util.make_partition_view (c.segments.map (fun s => s.num_compartments)) lo)
    (relocate_parents c.parent_index (lo, lo + c.num_compartments) g) c.segments 0 e
  rcases hs : segments_loop x
    (util.make_partition_view (c.segments.map (fun s => s.num_compartments)) lo)
    (relocate_parents c.parent_index (lo, lo + c.num_compartments) g) 0 c.segments e
    with ⟨e1, r⟩
  rw [hs] at hnone hfr
  simp only at hnone hfr
  subst hnone
  obtain ⟨ha, hc, _⟩ := segments_loop_arrays x _ _ c.segments 0 lo e e1
    (laid_out_make_partition _ lo) hs
  have hrel : ∀ i, lo ≤ i → i < lo + c.num_compartments →
      (relocate_parents c.parent_index (lo, lo + c.num_compartments) g).getD i 0 =
        c.parent_index.getD (i - lo) 0 + lo := by
    intro i h1 h2
    rw [relocate_parents_getD, if_pos ⟨⟨h1, h2⟩, by omega⟩]
  have hl1 : e1.cv_areas_.length = N := by
    unfold geometry_frame at hfr
    obtain ⟨_, _, _, _, _, _, _, _, _, _, _, h1, _, _⟩ := hfr
    rw [h1, hA]
  have hsoma : ∀ s ∈ c.segments, s.kind = segmentKind.soma → s.num_compartments = 1 := by
    intro s hsm hk
    by_contra hcon
    apply hmal s hsm
    unfold segment.malformed
    rw [hk]
    exact hcon
  refine ⟨rfl, fun k hk => ha k (by omega), fun k hk => hc k (by omega), hrel, ?_⟩
  show e1.cv_areas_.sum = _
  rw [list_sum_eq_sum_range e1.cv_areas_, list_sum_eq_sum_range e.cv_areas_, hl1, hA,
    ← cell_area_total x
      (fun i => (relocate_parents c.parent_index (lo, lo + c.num_compartments) g).getD i 0)
      c.segments lo N hsoma (by omega) ?_, ← Finset.sum_add_distrib]
  · apply Finset.sum_congr rfl
    intro k hk
    rw [Finset.mem_range] at hk
    exact ha k (by omega)
  · intro i h1 h2
    rw [hsum] at h2
    show (relocate_parents c.parent_index (lo, lo + c.num_compartments) g).getD i 0 < N
    rw [hrel i h1 h2]
    have := hpar (i - lo) (by omega)
    omega

/-- C13 (worked example): the sample cell laid out from CV 0 on zeroed storage of three
CVs: the loop succeeds and the areas sum to the membrane area of the soma and the cable. -/
theorem segments_loop_accumulates_witness :
    (segments_loop sample_externals
      (util.make_partition_view (sample_cell.segments.map (fun s => s.num_compartments)) 0)
      (relocate_parents sample_cell.parent_index (0, 0 + sample_cell.num_compartments)
        [0, 0, 0]) 0 sample_cell.segments
      (allocate_storage 3 fvm_multicell.fresh)).2 = none ∧
    (segments_loop sample_externals
      (util.make_partition_view (sample_cell.segments.map (fun s => s.num_compartments)) 0)
      (relocate_parents sample_cell.parent_index (0, 0 + sample_cell.num_compartments)
        [0, 0, 0]) 0 sample_cell.segments
      (allocate_storage 3 fvm_multicell.fresh)).1.cv_areas_.sum =
        (allocate_storage 3 fvm_multicell.fresh).cv_areas_.sum +
          (sample_cell.segments.map (fun s => s.membrane_area sample_externals)).sum :=
  have h := segments_loop_accumulates sample_externals sample_cell 0 3 [0, 0, 0]
    (allocate_storage 3 fvm_multicell.fresh) (by decide) (by decide) (by decide) (by decide)
  ⟨h.1, h.2.2.2.2⟩

/-! ## The soma -/

theorem compute_soma (x : externals) (seg : segment) (parent : List Nat) (e : fvm_multicell)
    (i : Nat) (hk : seg.kind = segmentKind.soma) :
    compute_cv_area_unnormalized_capacitance x (i, i + 1) seg parent e =
      Except.ok { e with
        cv_areas_ := add_at e.cv_areas_ i (4 * x.pi * seg.radius ^ 2)
        cv_capacitance_ := add_at e.cv_capacitance_ i (4 * x.pi * seg.radius ^ 2 * seg.c_m) } := by
  unfold compute_cv_area_unnormalized_capacitance
  rw [hk]
  simp only [math.area_sphere]
  rw [if_neg (by simp)]
  have h : 4 * x.pi * seg.radius * seg.radius = 4 * x.pi * seg.radius ^ 2 := by ring
  rw [h]

/-- A successfully lowered engine of one well-formed cell whose only segment is a soma. -/
theorem soma_only_initialize (x : externals) (seg : segment) (c cell : cell) (dh : List Nat)
    (th : List (Nat × Nat)) (ph : List (field_selector × Nat)) (e : fvm_multicell)
    (hk : seg.kind = segmentKind.soma) (hsegs : c.segments = [seg]) (hwf : c.well_formed)
    (hok : ( fvm_multicell.initialize x [c] cell dh th ph e).failure = none) :
    ( fvm_multicell.initialize x [c] cell dh th ph e).engine.cv_areas_.getD 0 0 =
      4 * x.pi * seg.radius ^ 2 ∧
    ( fvm_multicell.initialize x [c] cell dh th ph e).engine.cv_capacitance_.getD 0 0 =
      4 * x.pi * seg.radius ^ 2 * seg.c_m / (4 * x.pi * seg.radius ^ 2) ∧
    ( fvm_multicell.initialize x [c] cell dh th ph e).engine.face_alpha_.getD 0 0 = 0 ∧
    ( fvm_multicell.initialize x [c] cell dh th ph e).engine.matrix_.size = 1 ∧
    ( fvm_multicell.initialize x [c] cell dh th ph e).engine.matrix_.d.length = 1 := by
  have hnm := success_not_malformed x [c] cell dh th ph e hok c (by simp) seg (by simp [hsegs])
  have hn1 : seg.num_compartments = 1 := by
    by_contra hne
    apply hnm
    unfold segment.malformed
    rw [hk]
    exact hne
  have hcn : c.num_compartments = 1 := by
    have := hwf.1
    rw [hsegs] at this
    simp only [List.map_cons, List.map_nil, List.sum_cons, List.sum_nil, Nat.add_zero] at this
    omega
  obtain ⟨hA, hC, hF, _, _⟩ := initialize_arrays x [c] cell dh th ph e
    (fun c1 hc1 => by simp at hc1; rw [hc1]; exact hwf) hok 0 (by simp) 0 (by simp)
    (by simp [hcn])
  simp only [List.take_zero, List.sum_nil, List.getElem_cons_zero, List.map_cons,
    List.map_nil] at hA hC hF
  rw [hsegs] at hA hC hF
  obtain ⟨loc, e1, _, hm, _, _, _, hG⟩ := initialize_success_arrays x [c] cell dh th ph e hok
  have hN : ncomp [c] = 1 := by
    rw [ncomp_eq_sum [c] (by simp)]
    simp [hcn]
  have harea : ( fvm_multicell.initialize x [c] cell dh th ph e).engine.cv_areas_.getD 0 0 =
      4 * x.pi * seg.radius ^ 2 := by
    rw [hA]
    simp only [cell_area_at, segment_area_at, hk, math.area_sphere]
    rw [if_pos trivial]
    ring
  refine ⟨harea, ?_, ?_, ?_, ?_⟩
  · rw [hC, harea]
    simp only [cell_capacitance_at, segment_area_at, hk, math.area_sphere]
    rw [if_pos trivial]
    congr 1
    ring
  · rw [hF]
    simp only [cell_face_alpha_at, hk]
    rw [if_neg (by simp)]
  · rw [hm]
    simp only [matrix.size, matrix.of_parent_index]
    rw [hG, hN]
  · rw [hm]
    simp only [matrix.of_parent_index, List.length_replicate]
    rw [hG, hN]

/-- C14: for a soma of radius `r` with capacitance `c_m` mapped to the single CV `i`,
`compute_cv_area_unnormalized_capacitance` succeeds and changes the engine only by adding
`4 pi r^2` to `area[i]` and `4 pi r^2 c_m` to `cv_capacitance[i]`: every other entry of the
two arrays and the whole of `face_alpha` are as before.  For a successfully lowered
well-formed cell whose only segment is that soma, `area[0] = 4 pi r^2`, `face_alpha[0] = 0`,
the matrix has size one, and after `setup_matrix` its diagonal is the single entry
`d[0] = area[0]`. -/
theorem soma_area_and_capacitance (x : externals) (seg : segment)
    (hk : seg.kind = segmentKind.soma) :
    (∀ (parent : List Nat) (e : fvm_multicell) (i : Nat),
      ∃ e1, compute_cv_area_unnormalized_capacitance x (i, i + 1) seg parent e = Except.ok e1 ∧
        e1 = { e with
          cv_areas_ := add_at e.cv_areas_ i (4 * x.pi * seg.radius ^ 2)
          cv_capacitance_ := add_at e.cv_capacitance_ i (4 * x.pi * seg.radius ^ 2 * seg.c_m) } ∧
        e1.face_alpha_ = e.face_alpha_ ∧
        (i < e.cv_areas_.length →
          e1.cv_areas_.getD i 0 = e.cv_areas_.getD i 0 + 4 * x.pi * seg.radius ^ 2) ∧
        (i < e.cv_capacitance_.length →
          e1.cv_capacitance_.getD i 0 =
            e.cv_capacitance_.getD i 0 + 4 * x.pi * seg.radius ^ 2 * seg.c_m) ∧
        (∀ k, k ≠ i →
          e1.cv_areas_.getD k 0 = e.cv_areas_.getD k 0 ∧
          e1.cv_capacitance_.getD k 0 = e.cv_capacitance_.getD k 0)) ∧
    (∀ (c cell : cell) (dh : List Nat) (th : List (Nat × Nat))
      (ph : List (field_selector × Nat)) (e : fvm_multicell) (dt : ℚ),
      c.segments = [seg] → c.well_formed →
      ( fvm_multicell.initialize x [c] cell dh th ph e).failure = none →
      ( fvm_multicell.initialize x [c] cell dh th ph e).engine.cv_areas_.getD 0 0 =
        4 * x.pi * seg.radius ^ 2 ∧
      ( fvm_multicell.initialize x [c] cell dh th ph e).engine.face_alpha_.getD 0 0 = 0 ∧
      ( fvm_multicell.initialize x [c] cell dh th ph e).engine.matrix_.size = 1 ∧
      ( fvm_multicell.setup_matrix dt
        ( fvm_multicell.initialize x [c] cell dh th ph e).engine).matrix_.d.length = 1 ∧
      ( fvm_multicell.setup_matrix dt
        ( fvm_multicell.initialize x [c] cell dh th ph e).engine).matrix_.d.getD 0 0 =
        ( fvm_multicell.initialize x [c] cell dh th ph e).engine.cv_areas_.getD 0 0) := by
  constructor
  · intro parent e i
    refine ⟨_, compute_soma x seg parent e i hk, rfl, rfl, ?_, ?_, ?_⟩
    · intro hi
      show (add_at e.cv_areas_ i (4 * x.pi * seg.radius ^ 2)).getD i 0 = _
      rw [getD_add_at, if_pos ⟨rfl, hi⟩]
    · intro hi
      show (add_at e.cv_capacitance_ i (4 * x.pi * seg.radius ^ 2 * seg.c_m)).getD i 0 = _
      rw [getD_add_at, if_pos ⟨rfl, hi⟩]
    · intro k hki
      constructor
      · show (add_at e.cv_areas_ i (4 * x.pi * seg.radius ^ 2)).getD k 0 = _
        rw [getD_add_at, if_neg (fun hh => hki hh.1.symm)]
      · show (add_at e.cv_capacitance_ i (4 * x.pi * seg.radius ^ 2 * seg.c_m)).getD k 0 = _
        rw [getD_add_at, if_neg (fun hh => hki hh.1.symm)]
  · intro c cell dh th ph e dt hsegs hwf hok
    obtain ⟨hA, _, hF, hS, hD⟩ := soma_only_initialize x seg c cell dh th ph e hk hsegs hwf hok
    obtain ⟨hdl, _, hd, _⟩ := setup_matrix_ldu dt
      ( fvm_multicell.initialize x [c] cell dh th ph e).engine
    refine ⟨hA, hF, hS, by rw [hdl, hD], ?_⟩
    rw [hd 0 (by omega), hD, if_neg (by omega)]
    simp

/-- C14 (worked example): the soma of the soma test, radius `9.4`, as the only segment of
a cell. -/
theorem soma_area_and_capacitance_witness :
    ( fvm_multicell.initialize sample_externals [soma_only_cell] soma_only_cell [] [] []
        fvm_multicell.fresh).engine.cv_areas_.getD 0 0 = 4 * (22 / 7) * (47 / 5) ^ 2 ∧
    ( fvm_multicell.initialize sample_externals [soma_only_cell] soma_only_cell [] [] []
        fvm_multicell.fresh).engine.face_alpha_.getD 0 0 = 0 ∧
    ( fvm_multicell.initialize sample_externals [soma_only_cell] soma_only_cell [] [] []
        fvm_multicell.fresh).engine.matrix_.size = 1 ∧
    ( fvm_multicell.setup_matrix (1 / 40)
      ( fvm_multicell.initialize sample_externals [soma_only_cell] soma_only_cell [] [] []
        fvm_multicell.fresh).engine).matrix_.d.getD 0 0 = 4 * (22 / 7) * (47 / 5) ^ 2 :=
  have h := (soma_area_and_capacitance sample_externals test_soma (by decide)).2 soma_only_cell
    soma_only_cell [] [] [] fvm_multicell.fresh (1 / 40) rfl (by decide) (by decide)
  ⟨h.1, h.2.1, h.2.2.1, h.2.2.2.2.trans h.1⟩

/-! ## Positivity of the areas and capacitances -/

theorem compartment_areas_pos (x : externals)
    (hfr : ∀ len r1 r2 : ℚ, 0 < len → 0 < r1 → 0 < r2 → 0 < x.area_frustrum len r1 r2)
    (c : compartment) (hc : 0 < c.radius.1 ∧ 0 < c.radius.2 ∧ 0 < c.length) :
    0 < c.area_left x ∧ 0 < c.area_right x := by
  obtain ⟨h1, h2, h3⟩ := hc
  have hm : 0 < math.mean c.radius := by
    unfold math.mean
    positivity
  exact ⟨hfr _ _ _ (by positivity) h1 hm, hfr _ _ _ (by positivity) h2 hm⟩

theorem compartment_at_mem (seg : segment) (o : Nat) (ho : o < seg.compartments.length) :
    seg.compartment_at o ∈ seg.compartments := by
  unfold segment.compartment_at
  rw [List.getElem?_eq_getElem ho]
  exact List.getElem_mem ho

theorem segment_area_nonneg (x : externals) (hpi : 0 < x.pi)
    (hfr : ∀ len r1 r2 : ℚ, 0 < len → 0 < r1 → 0 < r2 → 0 < x.area_frustrum len r1 r2)
    (P : Nat → Nat) (lo : Nat) (seg : segment) (k : Nat)
    (hpos : seg.positive) (hnm : ¬ seg.malformed) :
    0 ≤ segment_area_at x P lo seg k ∧
    (lo ≤ k → k < lo + seg.num_compartments → 0 < segment_area_at x P lo seg k) := by
  unfold segment.positive at hpos
  unfold segment.malformed at hnm
  unfold segment_area_at
  obtain ⟨hcm, hdim⟩ := hpos
  cases hk : seg.kind with
  | soma =>
    rw [hk] at hdim hnm
    simp only at hdim hnm
    have hs : 0 < math.area_sphere x seg.radius := by
      unfold math.area_sphere
      positivity
    simp only
    constructor
    · split_ifs
      · exact hs.le
      · exact le_refl _
    · intro h1 h2
      rw [if_pos (by omega)]
      exact hs
  | cable =>
    rw [hk] at hdim hnm
    simp only at hdim hnm
    have hlen : seg.compartments.length = seg.num_compartments := by
      by_contra hne
      exact hnm hne
    have hsum : 0 ≤ ∑ i ∈ (Finset.Ico lo (lo + seg.num_compartments)).filter (fun i => P i = k),
        (seg.compartment_at (i - lo)).area_left x := by
      apply Finset.sum_nonneg
      intro i hi
      rw [Finset.mem_filter, Finset.mem_Ico] at hi
      have hmem := compartment_at_mem seg (i - lo) (by omega)
      exact (compartment_areas_pos x hfr _ (hdim _ hmem)).1.le
    simp only
    constructor
    · apply add_nonneg _ hsum
      split_ifs with hin
      · have hmem := compartment_at_mem seg (k - lo) (by omega)
        exact (compartment_areas_pos x hfr _ (hdim _ hmem)).2.le
      · exact le_refl _
    · intro h1 h2
      rw [if_pos ⟨h1, h2⟩]
      have hmem := compartment_at_mem seg (k - lo) (by omega)
      exact add_pos_of_pos_of_nonneg (compartment_areas_pos x hfr _ (hdim _ hmem)).2 hsum
  | none =>
    rw [hk] at hdim
    exact absurd hdim (by simp)

theorem cell_area_pos (x : externals) (hpi : 0 < x.pi)
    (hfr : ∀ len r1 r2 : ℚ, 0 < len → 0 < r1 → 0 < r2 → 0 < x.area_frustrum len r1 r2)
    (P : Nat → Nat) (segs : List segment) (lo k : Nat)
    (hpos : ∀ s ∈ segs, s.positive) (hnm : ∀ s ∈ segs, ¬ s.malformed) :
    (0 ≤ cell_area_at x P lo segs k ∧ 0 ≤ cell_capacitance_at x P lo segs k) ∧
    (lo ≤ k → k < lo + (segs.map (fun s => s.num_compartments)).sum →
      0 < cell_area_at x P lo segs k ∧ 0 < cell_capacitance_at x P lo segs k) := by
  induction segs generalizing lo with
  | nil =>
    refine ⟨⟨le_refl _, le_refl _⟩, ?_⟩
    intro h1 h2
    simp at h2
    omega
  | cons seg segs ih =>
    obtain ⟨hn, hp⟩ := segment_area_nonneg x hpi hfr P lo seg k (hpos seg (by simp))
      (hnm seg (by simp))
    obtain ⟨⟨in1, in2⟩, ip⟩ := ih (lo + seg.num_compartments) (fun s hs => hpos s (by simp [hs]))
      (fun s hs => hnm s (by simp [hs]))
    have hcm : 0 < seg.c_m := (hpos seg (by simp)).1
    simp only [cell_area_at, cell_capacitance_at]
    refine ⟨⟨add_nonneg hn in1, add_nonneg (mul_nonneg hn hcm.le) in2⟩, ?_⟩
    intro h1 h2
    simp only [List.map_cons, List.sum_cons] at h2
    by_cases hin : k < lo + seg.num_compartments
    · have := hp h1 hin
      exact ⟨add_pos_of_pos_of_nonneg this in1,
        add_pos_of_pos_of_nonneg (mul_pos this hcm) in2⟩
    · obtain ⟨p1, p2⟩ := ip (by omega) (by omega)
      exact ⟨add_pos_of_nonneg_of_pos hn p1,
        add_pos_of_nonneg_of_pos (mul_nonneg hn hcm.le) p2⟩

theorem find_range (sizes : List Nat) (i : Nat) (hi : i < sizes.sum) :
    ∃ t, ∃ ht : t < sizes.length, (sizes.take t).sum ≤ i ∧ i < (sizes.take t).sum + sizes[t] := by
  induction sizes generalizing i with
  | nil => simp at hi
  | cons n sizes ih =>
    rw [List.sum_cons] at hi
    by_cases h : i < n
    · exact ⟨0, by simp, by simp, by simpa using h⟩
    · obtain ⟨t, ht, h1, h2⟩ := ih (i - n) (by omega)
      refine ⟨t + 1, by simpa using ht, ?_, ?_⟩
      · simp only [List.take_succ_cons, List.sum_cons]
        omega
      · simp only [List.take_succ_cons, List.sum_cons, List.getElem_cons_succ]
        omega

/-- The areas and the normalized capacitances of a successfully lowered engine are
positive when the dimensions of the well-formed cells are. -/
theorem areas_positive_of_valid (x : externals) (cells : List cell) (cell : cell)
    (dh : List Nat) (th : List (Nat × Nat)) (ph : List (field_selector × Nat))
    (e : fvm_multicell) (hpi : 0 < x.pi)
    (hfr : ∀ len r1 r2 : ℚ, 0 < len → 0 < r1 → 0 < r2 → 0 < x.area_frustrum len r1 r2)
    (hwf : ∀ c ∈ cells, c.well_formed)
    (hpos : ∀ c ∈ cells, ∀ s ∈ c.segments, s.positive)
    (hok : ( fvm_multicell.initialize x cells cell dh th ph e).failure = none)
    (i : Nat) (hi : i < ncomp cells) :
    0 < ( fvm_multicell.initialize x cells cell dh th ph e).engine.cv_areas_.getD i 0 ∧
    0 < ( fvm_multicell.initialize x cells cell dh th ph e).engine.cv_capacitance_.getD i 0 ∧
    ( fvm_multicell.initialize x cells cell dh th ph e).engine.cv_areas_.getD i 0 ≠ 0 := by
  have hne : 1 ≤ cells.length := by
    cases cells with
    | nil => simp [ncomp, cell_comp_part, util.make_partition_view, util.partition_range.bounds,
        util.partition_range.back, util.partition_range.front, util.partition_range.get,
        util.partition_range.size, util.make_partition] at hi
    | cons c cs => simp
  rw [ncomp_eq_sum cells hne] at hi
  obtain ⟨t, ht, h1, h2⟩ := find_range _ i hi
  have ht2 : t < cells.length := by simpa using ht
  simp only [List.getElem_map] at h2
  obtain ⟨hA, hC, _, _, _⟩ := initialize_arrays x cells cell dh th ph e hwf hok t ht2 i h1 h2
  have hcm : (cells[t]) ∈ cells := List.getElem_mem ht2
  have hnm := success_not_malformed x cells cell dh th ph e hok _ hcm
  obtain ⟨_, hp⟩ := cell_area_pos x hpi hfr
    (fun j => ( fvm_multicell.initialize x cells cell dh th ph e).engine.matrix_.p.getD j 0)
    (cells[t]).segments ((cells.map (fun c => c.num_compartments)).take t).sum i
    (hpos _ hcm) hnm
  obtain ⟨p1, p2⟩ := hp h1 (by rw [(hwf _ hcm).1]; exact h2)
  have ha : 0 < ( fvm_multicell.initialize x cells cell dh th ph e).engine.cv_areas_.getD i 0 := by
    rw [hA]
    exact p1
  refine ⟨ha, ?_, ha.ne.symm⟩
  rw [hC]
  exact div_pos p2 ha


/-- C15: with a positive `pi` and a frustum area that is positive on positive arguments,
when every cell is well formed (its segments partition its compartment range, parents at
or before their compartments) and every segment has `c_m > 0` and strictly positive radii
and compartment lengths, a successfully lowered engine has `area[i] > 0` and
`cv_capacitance[i] > 0` for every CV `i` in `[0, N)`; the divisor `area[i]` of the
normalization is therefore not zero. -/
theorem initialize_areas_positive (x : externals) (cells : List cell) (cell : cell)
    (dh : List Nat) (th : List (Nat × Nat)) (ph : List (field_selector × Nat))
    (e : fvm_multicell) (hpi : 0 < x.pi)
    (hfr : ∀ len r1 r2 : ℚ, 0 < len → 0 < r1 → 0 < r2 → 0 < x.area_frustrum len r1 r2)
    (hwf : ∀ c ∈ cells, c.well_formed)
    (hpos : ∀ c ∈ cells, ∀ s ∈ c.segments, s.positive)
    (hok : ( fvm_multicell.initialize x cells cell dh th ph e).failure = none)
    (i : Nat) (hi : i < ncomp cells) :
    0 < ( fvm_multicell.initialize x cells cell dh th ph e).engine.cv_areas_.getD i 0 ∧
    0 < ( fvm_multicell.initialize x cells cell dh th ph e).engine.cv_capacitance_.getD i 0 ∧
    ( fvm_multicell.initialize x cells cell dh th ph e).engine.cv_areas_.getD i 0 ≠ 0 :=
  areas_positive_of_valid x cells cell dh th ph e hpi hfr hwf hpos hok i hi

theorem sample_externals_positive :
    0 < sample_externals.pi ∧
    ∀ len r1 r2 : ℚ, 0 < len → 0 < r1 → 0 < r2 → 0 < sample_externals.area_frustrum len r1 r2 := by
  constructor
  · norm_num [sample_externals]
  · intro len r1 r2 h1 h2 h3
    simp only [sample_externals]
    positivity

theorem sample_cells_positive :
    ∀ c ∈ [sample_cell, sample_cell], ∀ s ∈ c.segments, s.positive := by
  intro c hc s hs
  simp only [List.mem_cons, List.mem_singleton, List.not_mem_nil, or_false, or_self] at hc
  subst hc
  simp only [sample_cell, List.mem_cons, List.mem_singleton, List.not_mem_nil, or_false] at hs
  rcases hs with rfl | rfl
  · norm_num [segment.positive, sample_soma]
  · norm_num [segment.positive, sample_cable]

/-- C15 (worked example): two copies of the sample cell; CV 5, the last compartment of the
cable of the second cell, has positive area and capacitance. -/
theorem initialize_areas_positive_witness :
    0 < ( fvm_multicell.initialize sample_externals [sample_cell, sample_cell] sample_cell []
        [(0, 0), (0, 0), (0, 0), (0, 0)] [] fvm_multicell.fresh).engine.cv_areas_.getD 5 0 ∧
    0 < ( fvm_multicell.initialize sample_externals [sample_cell, sample_cell] sample_cell []
        [(0, 0), (0, 0), (0, 0), (0, 0)] [] fvm_multicell.fresh).engine.cv_capacitance_.getD 5 0 :=
  have h := initialize_areas_positive sample_externals [sample_cell, sample_cell] sample_cell []
    [(0, 0), (0, 0), (0, 0), (0, 0)] [] fvm_multicell.fresh sample_externals_positive.1
    sample_externals_positive.2 (by decide) sample_cells_positive (by decide) 5 (by decide)
  ⟨h.1, h.2.1⟩

/-! ## The capacitance is per unit area -/

theorem cell_capacitance_uniform (x : externals) (P : Nat → Nat) (segs : List segment)
    (lo k : Nat) (cm : ℚ) (hcm : ∀ s ∈ segs, s.c_m = cm) :
    cell_capacitance_at x P lo segs k = cell_area_at x P lo segs k * cm := by
  induction segs generalizing lo with
  | nil => simp [cell_capacitance_at, cell_area_at]
  | cons seg segs ih =>
    rw [cell_capacitance_at, cell_area_at, ih _ (fun s hs => hcm s (by simp [hs])),
      hcm seg (by simp)]
    ring

/-- C16 (counterexample): the soma-only cell of radius `9.4` with `c_m = 1/100` lowers
successfully; `cv_capacitance[0]` is `1/100`, the capacitance per unit area, and not
`area[0] * c_m`. -/
theorem capacitance_is_not_total :
    ( fvm_multicell.initialize sample_externals [soma_only_cell] soma_only_cell [] [] []
        fvm_multicell.fresh).failure = none ∧
    (∀ s ∈ soma_only_cell.segments, s.c_m = 1 / 100) ∧
    ( fvm_multicell.initialize sample_externals [soma_only_cell] soma_only_cell [] [] []
        fvm_multicell.fresh).engine.cv_capacitance_.getD 0 0 = 1 / 100 ∧
    ( fvm_multicell.initialize sample_externals [soma_only_cell] soma_only_cell [] [] []
        fvm_multicell.fresh).engine.cv_capacitance_.getD 0 0 ≠
      ( fvm_multicell.initialize sample_externals [soma_only_cell] soma_only_cell [] [] []
        fvm_multicell.fresh).engine.cv_areas_.getD 0 0 * (1 / 100) := by
  obtain ⟨hA, hC, _⟩ := soma_only_initialize sample_externals test_soma soma_only_cell
    soma_only_cell [] [] [] fvm_multicell.fresh (by decide) rfl (by decide) (by decide)
  refine ⟨by decide, ?_, ?_, ?_⟩
  · intro s hs
    simp only [soma_only_cell, List.mem_singleton] at hs
    subst hs
    rfl
  · rw [hC]
    norm_num [sample_externals, test_soma]
  · rw [hC, hA]
    norm_num [sample_externals, test_soma]

/-- C16 (amended): in a successfully lowered engine of well-formed cells,
`cv_capacitance[i]` is the capacitance per unit area: it equals `c_m` for every CV `i` of
non-zero area of a cell whose segments all have membrane capacitance `c_m`. -/
theorem initialize_capacitance_per_unit_area (x : externals) (cells : List cell) (cell : cell)
    (dh : List Nat) (th : List (Nat × Nat)) (ph : List (field_selector × Nat))
    (e : fvm_multicell) (hwf : ∀ c ∈ cells, c.well_formed)
    (hok : ( fvm_multicell.initialize x cells cell dh th ph e).failure = none)
    (t : Nat) (ht : t < cells.length) (cm : ℚ)
    (hcm : ∀ s ∈ (cells[t]).segments, s.c_m = cm) (i : Nat)
    (hi1 : ((cells.map (fun c => c.num_compartments)).take t).sum ≤ i)
    (hi2 : i < ((cells.map (fun c => c.num_compartments)).take t).sum +
      (cells[t]).num_compartments)
    (harea : ( fvm_multicell.initialize x cells cell dh th ph e).engine.cv_areas_.getD i 0 ≠ 0) :
    ( fvm_multicell.initialize x cells cell dh th ph e).engine.cv_capacitance_.getD i 0 = cm := by
  obtain ⟨hA, hC, _⟩ := initialize_arrays x cells cell dh th ph e hwf hok t ht i hi1 hi2
  rw [hC, cell_capacitance_uniform x _ _ _ _ cm hcm, ← hA]
  exact mul_div_cancel_left₀ cm harea

/-- C16 (worked example): two copies of the sample cell, all of whose segments have
`c_m = 1/100`; CV 5 of the second cell holds `1/100`. -/
theorem initialize_capacitance_per_unit_area_witness :
    ( fvm_multicell.initialize sample_externals [sample_cell, sample_cell] sample_cell []
        [(0, 0), (0, 0), (0, 0), (0, 0)] [] fvm_multicell.fresh).engine.cv_capacitance_.getD 5 0 =
      1 / 100 :=
  initialize_capacitance_per_unit_area sample_externals [sample_cell, sample_cell] sample_cell []
    [(0, 0), (0, 0), (0, 0), (0, 0)] [] fvm_multicell.fresh (by decide) (by decide) 1 (by decide)
    (1 / 100)
    (by
      intro s hs
      simp only [List.getElem_cons_succ, List.getElem_cons_zero, sample_cell, List.mem_cons,
        List.mem_singleton, List.not_mem_nil, or_false] at hs
      rcases hs with rfl | rfl <;> rfl)
    5 (by decide) (by decide)
    (areas_positive_of_valid sample_externals [sample_cell, sample_cell] sample_cell []
      [(0, 0), (0, 0), (0, 0), (0, 0)] [] fvm_multicell.fresh sample_externals_positive.1
      sample_externals_positive.2 (by decide) sample_cells_positive (by decide) 5
      (by decide)).2.2

/-! ## Search in a partition -/

theorem is_sorted_iff (ds : List Nat) :
    util.is_sorted ds = true ↔ ∀ k, k + 1 < ds.length → ds.getD k 0 ≤ ds.getD (k + 1) 0 := by
  induction ds with
  | nil => simp [util.is_sorted]
  | cons a rest ih =>
    cases rest with
    | nil => simp [util.is_sorted]
    | cons b rest =>
      simp only [util.is_sorted, Bool.and_eq_true, Bool.not_eq_true', decide_eq_false_iff_not,
        not_lt, ih]
      constructor
      · rintro ⟨hab, hrest⟩ k hk
        cases k with
        | zero => simpa using hab
        | succ k =>
          have := hrest k (by simpa using hk)
          simpa using this
      · intro h
        refine ⟨by simpa using h 0 (by simp), ?_⟩
        intro k hk
        have := h (k + 1) (by simpa using hk)
        simpa using this

theorem upper_bound_loop_spec (divs : List Nat) (x : Nat) (fuel first len : Nat)
    (hfuel : len ≤ fuel) (hfit : first + len ≤ divs.length)
    (hmono : ∀ i j, i ≤ j → j < divs.length → divs.getD i 0 ≤ divs.getD j 0)
    (hlow : ∀ j, j < first → divs.getD j 0 ≤ x)
    (hhigh : ∀ j, first + len ≤ j → j < divs.length → x < divs.getD j 0) :
    util.upper_bound_loop divs x fuel first len ≤ divs.length ∧
    (∀ j, j < util.upper_bound_loop divs x fuel first len → divs.getD j 0 ≤ x) ∧
    (∀ j, util.upper_bound_loop divs x fuel first len ≤ j → j < divs.length →
      x < divs.getD j 0) := by
  induction fuel generalizing first len with
  | zero =>
    have hl : len = 0 := by omega
    subst hl
    simp only [util.upper_bound_loop]
    exact ⟨by omega, hlow, fun j h1 h2 => hhigh j (by omega) h2⟩
  | succ fuel ih =>
    simp only [util.upper_bound_loop]
    by_cases hl : len = 0
    · subst hl
      rw [if_pos rfl]
      exact ⟨by omega, hlow, fun j h1 h2 => hhigh j (by omega) h2⟩
    · rw [if_neg hl]
      have hhalf : len / 2 < len := Nat.div_lt_self (by omega) (by omega)
      by_cases hx : x < divs.getD (first + len / 2) 0
      · rw [if_pos hx]
        apply ih first (len / 2) (by omega) (by omega) hlow
        intro j h1 h2
        exact lt_of_lt_of_le hx (hmono _ _ h1 h2)
      · rw [if_neg hx]
        apply ih (first + len / 2 + 1) (len - len / 2 - 1) (by omega) (by omega)
        · intro j hj
          exact le_trans (hmono j (first + len / 2) (by omega) (by omega)) (not_lt.mp hx)
        · intro j h1 h2
          exact hhigh j (by omega) h2

theorem upper_bound_spec (divs : List Nat) (x : Nat)
    (hmono : ∀ i j, i ≤ j → j < divs.length → divs.getD i 0 ≤ divs.getD j 0) :
    util.upper_bound divs x ≤ divs.length ∧
    (∀ j, j < util.upper_bound divs x → divs.getD j 0 ≤ x) ∧
    (∀ j, util.upper_bound divs x ≤ j → j < divs.length → x < divs.getD j 0) := by
  unfold util.upper_bound
  apply upper_bound_loop_spec divs x divs.length 0 divs.length (le_refl _) (by omega) hmono
  · intro j hj
    omega
  · intro j h1 h2
    omega

/-- The position that `find` returns on non-decreasing divisions. -/
theorem find_spec (part : util.partition_range) (x : Nat)
    (hmono : ∀ i j, i ≤ j → j < part.divisions.length →
      part.divisions.getD i 0 ≤ part.divisions.getD j 0)
    (hn : 1 ≤ part.size) :
    (part.find x = part.size ↔
      x < part.divisions.getD 0 0 ∨ part.divisions.getD part.size 0 ≤ x) ∧
    (∀ k, k < part.size →
      (part.find x = k ↔ part.divisions.getD k 0 ≤ x ∧ x < part.divisions.getD (k + 1) 0)) := by
  obtain ⟨hle, hlow, hhigh⟩ := upper_bound_spec part.divisions x hmono
  have hsz : part.size = part.divisions.length - 1 := rfl
  have hne : part.empty = false := by
    simp only [util.partition_range.empty, beq_eq_false_iff_ne]
    omega
  have hfind : part.find x =
      if util.upper_bound part.divisions x = 0 ∨
        util.upper_bound part.divisions x = part.divisions.length
      then part.size else util.upper_bound part.divisions x - 1 := by
    simp only [util.partition_range.find, hne]
    rfl
  constructor
  · rw [hfind]
    constructor
    · intro h
      split_ifs at h with hc
      · rcases hc with h0 | hlen
        · left
          exact hhigh 0 (by omega) (by omega)
        · right
          exact hlow _ (by omega)
      · omega
    · intro h
      rw [if_pos]
      rcases h with h0 | hlast
      · left
        by_contra hpos
        have := hlow 0 (by omega)
        omega
      · right
        by_contra hlt
        have := hhigh part.size (by omega) (by omega)
        omega
  · intro k hk
    rw [hfind]
    constructor
    · intro h
      split_ifs at h with hc
      · omega
      · have hr : util.upper_bound part.divisions x = k + 1 := by omega
        exact ⟨hlow k (by omega), hhigh (k + 1) (by omega) (by omega)⟩
    · rintro ⟨h1, h2⟩
      have hr : util.upper_bound part.divisions x = k + 1 := by
        by_contra hne
        rcases Nat.lt_or_ge (util.upper_bound part.divisions x) (k + 1) with hlt | hge
        · have := hhigh k (by omega) (by omega)
          omega
        · have := hlow (k + 1) (by omega)
          omega
      rw [if_neg (by omega), hr]
      rfl

theorem mono_of_adjacent (part : util.partition_range)
    (hadj : ∀ k, k < part.size → part.divisions.getD k 0 ≤ part.divisions.getD (k + 1) 0) :
    ∀ i j, i ≤ j → j < part.divisions.length →
      part.divisions.getD i 0 ≤ part.divisions.getD j 0 := by
  intro i j hij hj
  induction j with
  | zero =>
    have : i = 0 := by omega
    subst this
    exact le_refl _
  | succ j ih =>
    rcases Nat.lt_or_ge i (j + 1) with hlt | hge
    · have hsz : part.size = part.divisions.length - 1 := rfl
      exact le_trans (ih (by omega) (by omega)) (hadj j (by omega))
    · have : i = j + 1 := by omega
      subst this
      exact le_refl _

/-- C25: on a partition with at least one interval, fewer than `npos` intervals and
non-decreasing divisions, `index(x) = k` exactly when `d_k <= x < d_(k+1)`, and
`index(x) = npos` exactly when `x < d_0` or `x >= d_n`; the interval that is found is not
empty, and it is the only interval that contains `x`. -/
theorem index_spec (part : util.partition_range) (x : Nat)
    (hadj : ∀ k, k < part.size → part.divisions.getD k 0 ≤ part.divisions.getD (k + 1) 0)
    (hn : 1 ≤ part.size) (hsz : part.size < util.partition_range.npos) :
    (∀ k, k < part.size →
      (part.index x = k ↔ part.divisions.getD k 0 ≤ x ∧ x < part.divisions.getD (k + 1) 0)) ∧
    (part.index x = util.partition_range.npos ↔
      x < part.divisions.getD 0 0 ∨ part.divisions.getD part.size 0 ≤ x) ∧
    (part.find x ≠ part.size →
      part.find x < part.size ∧ (part.get (part.find x)).1 < (part.get (part.find x)).2 ∧
      (part.get (part.find x)).1 ≤ x ∧ x < (part.get (part.find x)).2 ∧
      ∀ j, j < part.size → (part.get j).1 ≤ x → x < (part.get j).2 → j = part.find x) := by
  have hmono := mono_of_adjacent part hadj
  obtain ⟨hright, hpos⟩ := find_spec part x hmono hn
  have hlt : part.find x ≤ part.size := by
    obtain ⟨hle, _, _⟩ := upper_bound_spec part.divisions x hmono
    have hsz2 : part.size = part.divisions.length - 1 := rfl
    simp only [util.partition_range.find]
    split_ifs <;> omega
  refine ⟨?_, ?_, ?_⟩
  · intro k hk
    rw [← hpos k hk]
    unfold util.partition_range.index
    split_ifs with hc
    · constructor
      · intro h
        omega
      · intro h
        omega
    · simp
  · rw [← hright]
    unfold util.partition_range.index
    split_ifs with hc
    · simp [hc]
    · constructor
      · intro h
        simp only [Nat.sub_zero] at h
        omega
      · intro h
        exact absurd h hc
  · intro hfound
    have hk : part.find x < part.size := by omega
    have hin := (hpos (part.find x) hk).mp rfl
    refine ⟨hk, ?_, hin.1, hin.2, ?_⟩
    · show part.divisions.getD (part.find x) 0 < part.divisions.getD (part.find x + 1) 0
      omega
    · intro j hj h1 h2
      exact ((hpos j hj).mpr ⟨h1, h2⟩).symm

/-- C25 (worked example): the divisions `0, 2, 2, 5`: the value 2 lies in the interval
`[2, 5)` of index 2, not in the empty interval `[2, 2)`; the value 5 is not found. -/
theorem index_spec_witness :
    (util.partition_range.mk [0, 2, 2, 5]).index 2 = 2 ∧
    ((util.partition_range.mk [0, 2, 2, 5]).index 5 = util.partition_range.npos) :=
  have h := index_spec ⟨[0, 2, 2, 5]⟩ 2 (by decide) (by decide) (by decide)
  have h5 := index_spec ⟨[0, 2, 2, 5]⟩ 5 (by decide) (by decide) (by decide)
  ⟨(h.1 2 (by decide)).mpr (by decide), h5.2.1.mpr (by decide)⟩

/-! ## Validation of a partition -/

/-- What `validate()` checks: it throws exactly when two neighbours among the divisions
without the last one are out of order. -/
theorem validate_throws_iff (part : util.partition_range) :
    (∃ w, part.validate = Except.error w) ↔
      ∃ k, k + 1 < part.size ∧
        part.divisions.getD (k + 1) 0 < part.divisions.getD k 0 := by
  have hs := is_sorted_iff (part.divisions.take part.size)
  have hsz : part.size = part.divisions.length - 1 := rfl
  have hlen : (part.divisions.take part.size).length = part.size := by
    rw [List.length_take]
    omega
  have hget : ∀ k, k < part.size →
      (part.divisions.take part.size).getD k 0 = part.divisions.getD k 0 := by
    intro k hk
    rw [List.getD_eq_getElem _ 0 (by omega), List.getD_eq_getElem _ 0 (by omega),
      List.getElem_take]
  unfold util.partition_range.validate util.partition_range.is_valid
  by_cases hsorted : util.is_sorted (part.divisions.take part.size) = true
  · rw [hsorted]
    simp only [Bool.not_true, Bool.false_eq_true, if_false]
    constructor
    · rintro ⟨w, hw⟩
      cases hw
    · rintro ⟨k, hk, hlt⟩
      have := hs.mp hsorted k (by omega)
      rw [hget k (by omega), hget (k + 1) (by omega)] at this
      omega
  · have hfalse : util.is_sorted (part.divisions.take part.size) = false := by
      simpa using hsorted
    rw [hfalse]
    simp only [Bool.not_false, if_true]
    constructor
    · intro _
      by_contra hno
      apply hsorted
      rw [hs]
      intro k hk
      rw [hlen] at hk
      rw [hget k (by omega), hget (k + 1) (by omega)]
      by_contra hlt
      exact hno ⟨k, hk, by omega⟩
    · intro _
      exact ⟨_, rfl⟩

/-- C26: over the divisions `0, 2, 1` the last pair is out of order (`d_1 = 2 > d_2 = 1`),
and `validate()` returns without throwing: `is_valid()` hands to `std::is_sorted` the
divisions without the last one. -/
theorem validate_misses_last_pair :
    (util.partition_range.mk [0, 2, 1]).validate = Except.ok () ∧
    (util.partition_range.mk [0, 2, 1]).divisions.getD 2 0 <
      (util.partition_range.mk [0, 2, 1]).divisions.getD 1 0 ∧
    (util.partition_range.mk [0, 2, 1]).size = 2 :=
  ⟨rfl, by decide, rfl⟩

/-! ## Probe and detector handles -/

theorem probe_loop_ok (x : externals) (prs : List probe) (hs hs1 : List (field_selector × Nat))
    (hi : Nat) (h : probe_loop x prs hs hi = (hs1, none)) :
    (∀ pr ∈ prs, pr.kind ≠ probeKind.other) ∧ hs1.length = hs.length ∧
    (∀ j, j < hi → hs1[j]? = hs[j]?) ∧
    (∀ j, hi + prs.length ≤ j → hs1[j]? = hs[j]?) ∧
    (∀ k (hk : k < prs.length), hi + k < hs.length →
      ((prs[k]).kind = probeKind.membrane_voltage →
        hs1[hi + k]? =
          some (field_selector.voltage_, x.find_compartment_index (prs[k]).location)) ∧
      ((prs[k]).kind = probeKind.membrane_current →
        hs1[hi + k]? =
          some (field_selector.current_, x.find_compartment_index (prs[k]).location))) := by
  induction prs generalizing hs hi with
  | nil =>
    simp only [probe_loop, Prod.mk.injEq, and_true] at h
    subst h
    refine ⟨by simp, rfl, fun _ _ => rfl, fun _ _ => rfl, ?_⟩
    intro k hk
    simp at hk
  | cons pr prs ih =>
    simp only [probe_loop] at h
    cases hkind : pr.kind with
    | membrane_voltage =>
      rw [hkind] at h
      simp only at h
      obtain ⟨i1, i2, i3, i4, i5⟩ := ih _ _ h
      rw [List.length_set] at i2
      refine ⟨?_, i2, ?_, ?_, ?_⟩
      · intro q hq
        rcases List.mem_cons.mp hq with rfl | hq
        · rw [hkind]
          simp
        · exact i1 q hq
      · intro j hj
        rw [i3 j (by omega), List.getElem?_set_ne (by omega)]
      · intro j hj
        simp only [List.length_cons] at hj
        rw [i4 j (by omega), List.getElem?_set_ne (by omega)]
      · intro k hk hfit
        cases k with
        | zero =>
          simp only [List.getElem_cons_zero, Nat.add_zero, hkind]
          constructor
          · intro _
            rw [i3 hi (by omega), List.getElem?_set_self (by omega)]
          · intro hc
            cases hc
        | succ k =>
          simp only [List.length_cons, Nat.add_lt_add_iff_right] at hk
          simp only [List.getElem_cons_succ]
          have := i5 k hk (by rw [List.length_set]; omega)
          rw [show hi + 1 + k = hi + (k + 1) by omega] at this
          exact this
    | membrane_current =>
      rw [hkind] at h
      simp only at h
      obtain ⟨i1, i2, i3, i4, i5⟩ := ih _ _ h
      rw [List.length_set] at i2
      refine ⟨?_, i2, ?_, ?_, ?_⟩
      · intro q hq
        rcases List.mem_cons.mp hq with rfl | hq
        · rw [hkind]
          simp
        · exact i1 q hq
      · intro j hj
        rw [i3 j (by omega), List.getElem?_set_ne (by omega)]
      · intro j hj
        simp only [List.length_cons] at hj
        rw [i4 j (by omega), List.getElem?_set_ne (by omega)]
      · intro k hk hfit
        cases k with
        | zero =>
          simp only [List.getElem_cons_zero, Nat.add_zero, hkind]
          constructor
          · intro hc
            cases hc
          · intro _
            rw [i3 hi (by omega), List.getElem?_set_self (by omega)]
        | succ k =>
          simp only [List.length_cons, Nat.add_lt_add_iff_right] at hk
          simp only [List.getElem_cons_succ]
          have := i5 k hk (by rw [List.length_set]; omega)
          rw [show hi + 1 + k = hi + (k + 1) by omega] at this
          exact this
    | other =>
      rw [hkind] at h
      simp only [Prod.mk.injEq] at h
      cases h.2

/-- On success the three handle containers are those that the synapse pass, the probe loop
and the detector loop leave. -/
theorem bind_mechanisms_handles (x : externals) (cell : cell) (dh : List Nat)
    (th : List (Nat × Nat)) (ph : List (field_selector × Nat)) (e : fvm_multicell)
    (hok : (bind_mechanisms x cell dh th ph e).failure = none) :
    (probe_loop x cell.probes ph 0).2 = none ∧
    (bind_mechanisms x cell dh th ph e).probe_handles = (probe_loop x cell.probes ph 0).1 ∧
    (bind_mechanisms x cell dh th ph e).detector_handles =
      detector_loop x cell.detectors dh 0 ∧
    (bind_mechanisms x cell dh th ph e).target_handles =
      (synapse_pass x cell.synapses th).target_handles := by
  unfold bind_mechanisms at hok ⊢
  simp only at hok ⊢
  rcases hd : density_loop x e.segment_index_ (mech_map_loop 0 cell.segments []) e.mechanisms_
    with ⟨ms, _ | err⟩
  · simp only [hd] at hok ⊢
    rcases hs : synapse_mechanism_loop x (synapse_pass x cell.synapses th).syn_mech_map
      e.cv_areas_ (synapse_pass x cell.synapses th).syn_mech_indices ms with ⟨ms1, _ | err⟩
    · simp only [hs] at hok ⊢
      rcases hp : probe_loop x cell.probes ph 0 with ⟨ph1, _ | err⟩
      · simp only [hp] at hok ⊢
        simp
      · simp only [hp] at hok
        cases hok
    · simp only [hs] at hok
      cases hok
  · simp only [hd] at hok
    cases hok

theorem initialize_handles (x : externals) (cells : List cell) (cell : cell) (dh : List Nat)
    (th : List (Nat × Nat)) (ph : List (field_selector × Nat)) (e : fvm_multicell)
    (hok : ( fvm_multicell.initialize x cells cell dh th ph e).failure = none) :
    (probe_loop x cell.probes ph 0).2 = none ∧
    ( fvm_multicell.initialize x cells cell dh th ph e).probe_handles =
      (probe_loop x cell.probes ph 0).1 ∧
    ( fvm_multicell.initialize x cells cell dh th ph e).detector_handles =
      detector_loop x cell.detectors dh 0 ∧
    ( fvm_multicell.initialize x cells cell dh th ph e).target_handles =
      (synapse_pass x cell.synapses th).target_handles := by
  obtain ⟨loc, e1, r, hcl, hcase⟩ := initialize_cases x cells cell dh th ph e
  rcases hcase with ⟨err, _, hout⟩ | ⟨_, what, hout⟩ | ⟨_, hout⟩
  · rw [hout] at hok
    cases hok
  · rw [hout] at hok
    cases hok
  · rw [hout] at hok ⊢
    exact bind_mechanisms_handles x cell dh th ph _ hok

/-- C27: after a successful lowering, the handle emitted for a probe of the description
read by the binder, declared at a location that resolves to CV `i`, selects `voltage` at
`i` when the kind is `membrane_voltage` and `current` at `i` when the kind is
`membrane_current`, so `probe(h)` returns `voltage()[i]` resp. `current()[i]` in every
engine state; a probe of any other kind makes the lowering fail; and
`detector_voltage(h) = voltage()[h]` for every handle `h`. -/
theorem probe_reads_field (x : externals) (cells : List cell) (cell : cell) (dh : List Nat)
    (th : List (Nat × Nat)) (ph : List (field_selector × Nat)) (e : fvm_multicell) :
    (( fvm_multicell.initialize x cells cell dh th ph e).failure = none →
      ∀ k (hk : k < cell.probes.length), k < ph.length →
        ∃ h, ( fvm_multicell.initialize x cells cell dh th ph e).probe_handles[k]? = some h ∧
          h.2 = x.find_compartment_index (cell.probes[k]).location ∧
          ((cell.probes[k]).kind = probeKind.membrane_voltage →
            ∀ st : fvm_multicell, fvm_multicell.probe h st =
              st.voltage_.getD (x.find_compartment_index (cell.probes[k]).location) 0) ∧
          ((cell.probes[k]).kind = probeKind.membrane_current →
            ∀ st : fvm_multicell, fvm_multicell.probe h st =
              st.current_.getD (x.find_compartment_index (cell.probes[k]).location) 0)) ∧
    ((∃ pr ∈ cell.probes, pr.kind = probeKind.other) →
      ( fvm_multicell.initialize x cells cell dh th ph e).failure ≠ none) ∧
    (∀ (h : Nat) (st : fvm_multicell),
      fvm_multicell.detector_voltage h st = st.voltage_.getD h 0) := by
  refine ⟨?_, ?_, fun _ _ => rfl⟩
  · intro hok k hk hfit
    obtain ⟨hnone, hph, _, _⟩ := initialize_handles x cells cell dh th ph e hok
    rcases hp : probe_loop x cell.probes ph 0 with ⟨ph1, r⟩
    rw [hp] at hnone hph
    simp only at hnone hph
    subst hnone
    obtain ⟨hkinds, _, _, _, hval⟩ := probe_loop_ok x cell.probes ph ph1 0 hp
    obtain ⟨hv, hc⟩ := hval k hk (by omega)
    rw [Nat.zero_add] at hv hc
    rw [hph]
    cases hkind : (cell.probes[k]).kind with
    | membrane_voltage =>
      refine ⟨_, hv hkind, rfl, fun _ _ => rfl, ?_⟩
      intro hcon
      cases hcon
    | membrane_current =>
      refine ⟨_, hc hkind, rfl, ?_, fun _ _ => rfl⟩
      intro hcon
      cases hcon
    | other =>
      exact absurd hkind (hkinds _ (List.getElem_mem hk))
  · rintro ⟨pr, hpr, hkind⟩ hok
    obtain ⟨hnone, _, _, _⟩ := initialize_handles x cells cell dh th ph e hok
    rcases hp : probe_loop x cell.probes ph 0 with ⟨ph1, r⟩
    rw [hp] at hnone
    simp only at hnone
    subst hnone
    exact (probe_loop_ok x cell.probes ph ph1 0 hp).1 pr hpr hkind

/-- C27 (worked example): the sample cell with a voltage probe and a current probe; the
second handle reads the current of CV 1.  With a probe of unsupported kind the lowering
fails. -/
theorem probe_reads_field_witness :
    (∃ h, ( fvm_multicell.initialize sample_externals [probed_cell] probed_cell [7]
        [(0, 0), (0, 0)] [(field_selector.voltage_, 9), (field_selector.voltage_, 9)]
        fvm_multicell.fresh).probe_handles[1]? = some h ∧
      ∀ st : fvm_multicell, fvm_multicell.probe h st = st.current_.getD 1 0) ∧
    ( fvm_multicell.initialize sample_externals [bad_probe_cell] bad_probe_cell []
        [(0, 0), (0, 0)] [(field_selector.voltage_, 9)] fvm_multicell.fresh).failure ≠ none :=
  have h := (probe_reads_field sample_externals [probed_cell] probed_cell [7]
    [(0, 0), (0, 0)] [(field_selector.voltage_, 9), (field_selector.voltage_, 9)]
    fvm_multicell.fresh).1 (by decide) 1 (by decide) (by decide)
  have hb := (probe_reads_field sample_externals [bad_probe_cell] bad_probe_cell []
    [(0, 0), (0, 0)] [(field_selector.voltage_, 9)] fvm_multicell.fresh).2.1
    ⟨⟨⟨0, 0⟩, probeKind.other⟩, List.mem_singleton.mpr rfl, rfl⟩
  ⟨h.elim (fun w hw => ⟨w, hw.1, hw.2.2.2 rfl⟩), hb⟩

/-! ## Evaluations of the binder -/

/-- C22: two copies of a cell with one detector, two synapses and two probes, and handle
containers of the sizes of the totals (2, 4 and 4): the lowering succeeds, but the binder
reads one description only, so it writes the first detector handle, the first two target
handles and the first two probe handles; the other entries still hold what the caller had
put there (7, `(9, 9)` and `(voltage, 9)`). -/
theorem initialize_leaves_handles_of_later_cells :
    ( fvm_multicell.initialize sample_externals [probed_cell, probed_cell] probed_cell [7, 7]
        [(9, 9), (9, 9), (9, 9), (9, 9)]
        [(field_selector.voltage_, 9), (field_selector.voltage_, 9),
          (field_selector.voltage_, 9), (field_selector.voltage_, 9)]
        fvm_multicell.fresh).failure = none ∧
    ( fvm_multicell.initialize sample_externals [probed_cell, probed_cell] probed_cell [7, 7]
        [(9, 9), (9, 9), (9, 9), (9, 9)]
        [(field_selector.voltage_, 9), (field_selector.voltage_, 9),
          (field_selector.voltage_, 9), (field_selector.voltage_, 9)]
        fvm_multicell.fresh).detector_handles = [1, 7] ∧
    ( fvm_multicell.initialize sample_externals [probed_cell, probed_cell] probed_cell [7, 7]
        [(9, 9), (9, 9), (9, 9), (9, 9)]
        [(field_selector.voltage_, 9), (field_selector.voltage_, 9),
          (field_selector.voltage_, 9), (field_selector.voltage_, 9)]
        fvm_multicell.fresh).target_handles = [(0, 0), (1, 0), (9, 9), (9, 9)] ∧
    ( fvm_multicell.initialize sample_externals [probed_cell, probed_cell] probed_cell [7, 7]
        [(9, 9), (9, 9), (9, 9), (9, 9)]
        [(field_selector.voltage_, 9), (field_selector.voltage_, 9),
          (field_selector.voltage_, 9), (field_selector.voltage_, 9)]
        fvm_multicell.fresh).probe_handles =
      [(field_selector.voltage_, 0), (field_selector.current_, 1),
        (field_selector.voltage_, 9), (field_selector.voltage_, 9)] := by
  decide

/-- C23: an "hh" mechanism that uses sodium and is bound to an empty index set, as the
lowering of the soma-only cell instantiates it: the index set of sodium is empty and the
engine holds no sodium storage, yet after the pass of the ion loop for sodium the engine
holds a (default-constructed, empty) sodium storage, inserted by the access `ions_[ion]`
of the `set_ion` call.  After the whole lowering the storage of all three ions exists,
that of calcium too, which no mechanism uses. -/
theorem ion_storage_created_for_empty_index_set :
    ion_index_set hh_externals ionKind.na hh_unbound_engine.mechanisms_ = [] ∧
    hh_unbound_engine.ions_.get ionKind.na = none ∧
    (ion_step hh_externals hh_unbound_engine ionKind.na).ions_.get ionKind.na =
      some (ion.of_index []) ∧
    ( fvm_multicell.initialize hh_externals [soma_only_cell] soma_only_cell [] [] []
        fvm_multicell.fresh).failure = none ∧
    ( fvm_multicell.initialize hh_externals [soma_only_cell] soma_only_cell [] [] []
        fvm_multicell.fresh).engine.mechanisms_.map (fun m => (m.name, m.node_index, m.ions)) =
      [("hh", [], [ionKind.na, ionKind.k])] ∧
    ion_index_set hh_externals ionKind.ca
      ( fvm_multicell.initialize hh_externals [soma_only_cell] soma_only_cell [] [] []
        fvm_multicell.fresh).engine.mechanisms_ = [] ∧
    (( fvm_multicell.initialize hh_externals [soma_only_cell] soma_only_cell [] [] []
        fvm_multicell.fresh).engine.ions_.get ionKind.ca).isSome = true := by
  refine ⟨by decide, rfl, rfl, by decide, by decide, by decide, by decide⟩

/-- C24: the sample cell (a soma of one compartment carrying "pas" and "hh", a cable of
two compartments carrying "pas") lowered on a fresh engine: the density mechanisms "hh"
and "pas" are instantiated with empty compartment index vectors, not with `[0]` and
`[0, 1, 2]`: the vectors are built from the member `segment_index_`, which the lowering
never fills. -/
theorem density_index_ignores_segment_ranges :
    ( fvm_multicell.initialize sample_externals [sample_cell] sample_cell [] [(0, 0), (0, 0)] []
        fvm_multicell.fresh).failure = none ∧
    ( fvm_multicell.initialize sample_externals [sample_cell] sample_cell [] [(0, 0), (0, 0)] []
        fvm_multicell.fresh).engine.segment_index_ = [] ∧
    ( fvm_multicell.initialize sample_externals [sample_cell] sample_cell [] [(0, 0), (0, 0)] []
        fvm_multicell.fresh).engine.mechanisms_.map (fun m => (m.name, m.node_index)) =
      [("hh", []), ("pas", []), ("exp2syn", [1]), ("expsyn", [0])] ∧
    (sample_cell.segments.map (fun s => (s.num_compartments, s.mechanisms))) =
      [(1, ["membrane", "pas", "hh"]), (2, ["membrane", "pas"])] := by
  decide

/-! ## Normalization per cell and normalization once for all cells -/

theorem segments_loop_success_congr (x : externals) (lo : Nat) (parent : List Nat)
    (segs : List segment) (e e' e1 : fvm_multicell)
    (h : segments_loop x
      (util.make_partition_view (segs.map (fun s => s.num_compartments)) lo) parent 0 segs e =
        (e1, none)) :
    ∃ e1', segments_loop x
      (util.make_partition_view (segs.map (fun s => s.num_compartments)) lo) parent 0 segs e' =
        (e1', none) := by
  have h1 := (cell_segments_fail_iff x lo parent segs e).not
  have h2 := (cell_segments_fail_iff x lo parent segs e').not
  rw [h] at h1
  have hno := h1.mp (by simp)
  have hnone := h2.mpr hno
  rcases hs : segments_loop x
    (util.make_partition_view (segs.map (fun s => s.num_compartments)) lo) parent 0 segs e'
    with ⟨e1', r⟩
  rw [hs] at hnone
  simp only [ne_eq, not_not] at hnone
  subst hnone
  exact ⟨e1', hs⟩

/-- The two loops over the cells run side by side: they keep the same areas and face
coefficients, and the capacitance of the loop that normalizes each cell is, on the CVs of
the cells already processed, the capacitance of the other loop divided by the area. -/
theorem cells_loops_agree (x : externals) (part : util.partition_range) (cs : List cell)
    (i lo N : Nat) (loc loc1 : lowering_locals) (e e' e1 : fvm_multicell)
    (hl : laid_out part i lo (cs.map (fun c => c.num_compartments)))
    (hwf : ∀ c ∈ cs, c.well_formed)
    (hlen : e.cv_areas_.length = N ∧ e.cv_capacitance_.length = N ∧ e.face_alpha_.length = N ∧
      loc.group_parent_index.length = N)
    (hlen' : e'.cv_capacitance_.length = N)
    (hfit : lo + (cs.map (fun c => c.num_compartments)).sum ≤ N)
    (hA : e'.cv_areas_ = e.cv_areas_) (hF : e'.face_alpha_ = e.face_alpha_)
    (hC : ∀ k, k < N → e.cv_capacitance_.getD k 0 =
      if k < lo then e'.cv_capacitance_.getD k 0 / e.cv_areas_.getD k 0
      else e'.cv_capacitance_.getD k 0)
    (h : cells_loop x part i cs loc e = (loc1, e1, none)) :
    ∃ e1', cells_loop_unnormalized x part i cs loc e' = (loc1, e1', none) ∧
      e1'.cv_areas_ = e1.cv_areas_ ∧ e1'.face_alpha_ = e1.face_alpha_ ∧
      e1'.cv_capacitance_.length = N ∧ e1.cv_capacitance_.length = N ∧
      e1.cv_areas_.length = N ∧
      ∀ k, k < N → e1.cv_capacitance_.getD k 0 =
        if k < lo + (cs.map (fun c => c.num_compartments)).sum
        then e1'.cv_capacitance_.getD k 0 / e1.cv_areas_.getD k 0
        else e1'.cv_capacitance_.getD k 0 := by
  induction cs generalizing i lo loc e e' with
  | nil =>
    simp only [cells_loop, Prod.mk.injEq] at h
    obtain ⟨h1, h2, _⟩ := h
    subst h1
    subst h2
    refine ⟨e', rfl, hA, hF, hlen', hlen.2.1, hlen.1, ?_⟩
    simpa using hC
  | cons c cs ih =>
    simp only [List.map_cons, List.sum_cons] at hfit ⊢
    have hcomps : part.get i = (lo, lo + c.num_compartments) :=
      laid_out_head part i lo c.num_compartments _ hl
    have hl2 := laid_out_tail part i lo c.num_compartments _ hl
    simp only [cells_loop] at h
    simp only [cells_loop_unnormalized]
    rw [hcomps] at h ⊢
    simp only at h ⊢
    rcases hs : segments_loop x
      (util.make_partition_view (c.segments.map (fun s => s.num_compartments)) lo)
      (relocate_parents c.parent_index (lo, lo + c.num_compartments) loc.group_parent_index)
      0 c.segments e with ⟨e2, _ | err⟩
    swap
    · simp only [hs] at h
      cases h
    simp only [hs] at h
    obtain ⟨e2', hs'⟩ := segments_loop_success_congr x lo _ c.segments e e' e2 hs
    simp only [hs']
    obtain ⟨⟨sA, sC, sF⟩, vA, vC, vF, vO⟩ := cell_step_arrays x c lo N loc.group_parent_index e e2
      (hwf c (by simp)) hlen (by omega) hs
    obtain ⟨ha', hc', hf'⟩ := segments_loop_arrays x _ _ c.segments 0 lo e' e2'
      (laid_out_make_partition _ lo) hs'
    have hfr' := segments_loop_frame x
      (util.make_partition_view (c.segments.map (fun s => s.num_compartments)) lo)
      (relocate_parents c.parent_index (lo, lo + c.num_compartments) loc.group_parent_index)
      c.segments 0 e'
    rw [hs'] at hfr'
    unfold geometry_frame at hfr'
    obtain ⟨_, _, _, _, _, _, _, _, _, _, _, l1, l2, l3⟩ := hfr'
    simp only at l1 l2 l3
    have hAl : e'.cv_areas_.length = N := by rw [hA]; exact hlen.1
    have hFl : e'.face_alpha_.length = N := by rw [hF]; exact hlen.2.2.1
    have hGl : (relocate_parents c.parent_index (lo, lo + c.num_compartments)
        loc.group_parent_index).length = N := by
      rw [relocate_parents_length]
      exact hlen.2.2.2
    have hA2 : e2'.cv_areas_ =
        (normalize_capacitance (lo, lo + c.num_compartments) e2).cv_areas_ := by
      apply list_ext_getD _ _ (by rw [l1, hAl, sA])
      intro k hk
      rw [l1, hAl] at hk
      rw [ha' k (by omega), vA k hk, hA]
    have hF2 : e2'.face_alpha_ =
        (normalize_capacitance (lo, lo + c.num_compartments) e2).face_alpha_ := by
      apply list_ext_getD _ _ (by rw [l2, hFl, sF])
      intro k hk
      rw [l2, hFl] at hk
      rw [hf' k (by omega), vF k hk, hF]
    have hC2 : ∀ k, k < N →
        (normalize_capacitance (lo, lo + c.num_compartments) e2).cv_capacitance_.getD k 0 =
          if k < lo + c.num_compartments
          then e2'.cv_capacitance_.getD k 0 /
            (normalize_capacitance (lo, lo + c.num_compartments) e2).cv_areas_.getD k 0
          else e2'.cv_capacitance_.getD k 0 := by
      intro k hk
      rw [vC k hk, hc' k (by omega)]
      have hCk := hC k hk
      by_cases h1 : k < lo
      · obtain ⟨o1, o2⟩ := vO k (Or.inl h1)
        rw [if_neg (by omega), if_pos (by omega), o2, add_zero, add_zero, vA k hk, o1, add_zero,
          hCk, if_pos h1]
      · rw [if_neg h1] at hCk
        by_cases h2 : k < lo + c.num_compartments
        · rw [if_pos ⟨by omega, h2⟩, if_pos h2, hCk]
        · rw [if_neg (fun hh => h2 hh.2), if_neg h2, hCk]
    obtain ⟨e1', r1, r2, r3, r4, r5, r6, r7⟩ := ih (i + 1) (lo + c.num_compartments) _ _ e2' hl2
      (fun c1 hc1 => hwf c1 (by simp [hc1])) ⟨sA, sC, sF, hGl⟩ (by rw [l3, hlen'])
      (by omega) hA2 hF2 hC2 h
    refine ⟨e1', r1, r2, r3, r4, r5, r6, ?_⟩
    intro k hk
    rw [r7 k hk, Nat.add_assoc]

theorem ncomp_nil : ncomp [] = 0 := by
  decide

/-- C29: for cells that are well formed (local parents `p[k] <= k`, hence `p[0] = 0`, and
segments that partition the compartment range) and whose segments the geometry pass
accepts, normalizing the capacitance of each cell right after its segments, as the
lowering does, and normalizing once over every CV in `[0, N)` after the segments of all
cells both succeed and leave the same `cv_capacitance`, the same areas, the same face
coefficients and the same parent array. -/
theorem normalization_per_cell_eq_global (x : externals) (cells : List cell)
    (e : fvm_multicell) (hwf : ∀ c ∈ cells, c.well_formed)
    (hnm : ∀ c ∈ cells, ∀ s ∈ c.segments, ¬ s.malformed) :
    (geometry_per_cell x cells e).2.2 = none ∧ (geometry_global x cells e).2.2 = none ∧
    (geometry_global x cells e).2.1.cv_capacitance_ =
      (geometry_per_cell x cells e).2.1.cv_capacitance_ ∧
    (geometry_global x cells e).2.1.cv_areas_ = (geometry_per_cell x cells e).2.1.cv_areas_ ∧
    (geometry_global x cells e).2.1.face_alpha_ =
      (geometry_per_cell x cells e).2.1.face_alpha_ ∧
    (geometry_global x cells e).1 = (geometry_per_cell x cells e).1 := by
  have hfail := (cells_loop_fails_iff x (cell_comp_part cells) cells 0
    (lowering_locals.start (ncomp cells)) (allocate_storage (ncomp cells) e)).not
  have hnone : (cells_loop x (cell_comp_part cells) 0 cells
      (lowering_locals.start (ncomp cells)) (allocate_storage (ncomp cells) e)).2.2 = none := by
    by_contra hne
    exact hfail.mpr (fun ⟨c, hc, s, hs, hm⟩ => hnm c hc s hs hm) hne
  rcases hcl : cells_loop x (cell_comp_part cells) 0 cells
      (lowering_locals.start (ncomp cells)) (allocate_storage (ncomp cells) e)
    with ⟨loc1, e1, r⟩
  rw [hcl] at hnone
  simp only at hnone
  subst hnone
  have hN : (cells.map (fun c => c.num_compartments)).sum = ncomp cells := by
    cases cells with
    | nil => rw [ncomp_nil]; rfl
    | cons c cs => rw [ncomp_eq_sum (c :: cs) (by simp)]
  obtain ⟨e1', g1, g2, g3, g4, g5, g6, g7⟩ := cells_loops_agree x (cell_comp_part cells) cells
    0 0 (ncomp cells) (lowering_locals.start (ncomp cells)) loc1
    (allocate_storage (ncomp cells) e) (allocate_storage (ncomp cells) e) e1
    (laid_out_make_partition _ 0) hwf
    (by simp [allocate_storage, lowering_locals.start]) (by simp [allocate_storage])
    (by omega) rfl rfl (fun k _ => by rw [if_neg (by omega)]) hcl
  unfold geometry_per_cell geometry_global
  rw [hcl, g1]
  simp only
  have hn := normalize_areas (0, ncomp cells) e1'
  refine ⟨trivial, trivial, ?_, by rw [hn.1, g2], by rw [hn.2, g3], trivial⟩
  have hfr := normalize_capacitance_frame (0, ncomp cells) e1'
  unfold geometry_frame at hfr
  obtain ⟨_, _, _, _, _, _, _, _, _, _, _, _, _, l3⟩ := hfr
  apply list_ext_getD _ _ (by rw [l3, g4, g5])
  intro k hk
  rw [l3, g4] at hk
  rw [normalize_capacitance_getD, g7 k hk, Nat.zero_add, hN, if_pos hk, g2]
  rw [if_pos ⟨⟨Nat.zero_le _, hk⟩, by rw [g4]; exact hk⟩]

/-- C29 (worked example): two copies of the sample cell. -/
theorem normalization_per_cell_eq_global_witness :
    (geometry_global sample_externals [sample_cell, sample_cell]
        fvm_multicell.fresh).2.1.cv_capacitance_ =
      (geometry_per_cell sample_externals [sample_cell, sample_cell]
        fvm_multicell.fresh).2.1.cv_capacitance_ :=
  (normalization_per_cell_eq_global sample_externals [sample_cell, sample_cell]
    fvm_multicell.fresh (by decide) (by decide)).2.2.1

/-! ## Row sums of the assembled matrix -/

theorem forest_le (e : fvm_multicell) (hf : forest e) (i : Nat) (h1 : 1 ≤ i)
    (h2 : i < e.matrix_.d.length) : e.matrix_.p.getD i 0 ≤ i := by
  rcases hf i h1 h2 with h | h
  · omega
  · omega

theorem forest_root_coupling (dt : ℚ) (e : fvm_multicell) (hf : forest e) (i : Nat)
    (h1 : 1 ≤ i) (h2 : i < e.matrix_.d.length) (hroot : e.matrix_.p.getD i 0 = i) :
    100000 * dt * e.face_alpha_.getD i 0 = 0 := by
  rcases hf i h1 h2 with h | h
  · omega
  · rw [h.2, mul_zero]

/-- The entry `(k, c)` of the assembled matrix, split into its diagonal part, the edge from
`k` to its parent and the edge from the child `c` to `k`. -/
theorem setup_matrix_entry (dt : ℚ) (e : fvm_multicell)
    (hl : e.matrix_.l.length = e.matrix_.d.length)
    (hu : e.matrix_.u.length = e.matrix_.d.length) (hf : forest e)
    (k c : Nat) (hk : k < e.matrix_.d.length) (hc : c < e.matrix_.d.length) :
    ( fvm_multicell.setup_matrix dt e).matrix_.entry k c =
      (if c = k then ( fvm_multicell.setup_matrix dt e).matrix_.d.getD k 0 else 0) +
      (if c ≠ k ∧ 1 ≤ k ∧ e.matrix_.p.getD k 0 = c
        then -(100000 * dt * e.face_alpha_.getD k 0) else 0) +
      (if c ≠ k ∧ 1 ≤ c ∧ e.matrix_.p.getD c 0 = k
        then -(100000 * dt * e.face_alpha_.getD c 0) else 0) := by
  obtain ⟨_, hp, _, hlu⟩ := setup_matrix_ldu dt e
  unfold matrix.entry
  rw [hp]
  by_cases hkc : k = c
  · subst hkc
    have h2 : ¬ (k ≠ k ∧ 1 ≤ k ∧ e.matrix_.p.getD k 0 = k) := fun h => h.1 rfl
    rw [if_pos rfl, if_pos rfl, if_neg h2, add_zero, add_zero]
  · have hck : ¬ c = k := fun h => hkc h.symm
    rw [if_neg hkc, if_neg hck, zero_add]
    by_cases hA : 1 ≤ k ∧ e.matrix_.p.getD k 0 = c
    · have hB : ¬ (c ≠ k ∧ 1 ≤ c ∧ e.matrix_.p.getD c 0 = k) := by
        rintro ⟨_, h1, h2⟩
        have := forest_le e hf k hA.1 hk
        have := forest_le e hf c h1 hc
        omega
      have hA2 : c ≠ k ∧ 1 ≤ k ∧ e.matrix_.p.getD k 0 = c := ⟨hck, hA⟩
      rw [if_pos hA, if_pos hA2, if_neg hB, add_zero]
      exact (hlu k hA.1 hk).1 (by omega)
    · have hA2 : ¬ (c ≠ k ∧ 1 ≤ k ∧ e.matrix_.p.getD k 0 = c) := fun h => hA h.2
      rw [if_neg hA, if_neg hA2, zero_add]
      by_cases hB : 1 ≤ c ∧ e.matrix_.p.getD c 0 = k
      · have hB2 : c ≠ k ∧ 1 ≤ c ∧ e.matrix_.p.getD c 0 = k := ⟨hck, hB⟩
        rw [if_pos hB, if_pos hB2]
        exact (hlu c hB.1 hc).2 (by omega)
      · have hB2 : ¬ (c ≠ k ∧ 1 ≤ c ∧ e.matrix_.p.getD c 0 = k) := fun h => hB h.2
        rw [if_neg hB, if_neg hB2]

/-- Every row of the assembled matrix sums to the area of its CV. -/
theorem setup_matrix_row_sum (dt : ℚ) (e : fvm_multicell)
    (hl : e.matrix_.l.length = e.matrix_.d.length)
    (hu : e.matrix_.u.length = e.matrix_.d.length) (hf : forest e)
    (k : Nat) (hk : k < e.matrix_.d.length) :
    (∑ c ∈ Finset.range e.matrix_.d.length, ( fvm_multicell.setup_matrix dt e).matrix_.entry k c) =
      e.cv_areas_.getD k 0 := by
  obtain ⟨_, _, hd, _⟩ := setup_matrix_ldu dt e
  have hsplit : (∑ c ∈ Finset.range e.matrix_.d.length,
      ( fvm_multicell.setup_matrix dt e).matrix_.entry k c) =
      ∑ c ∈ Finset.range e.matrix_.d.length,
        ((if c = k then ( fvm_multicell.setup_matrix dt e).matrix_.d.getD k 0 else 0) +
        (if c ≠ k ∧ 1 ≤ k ∧ e.matrix_.p.getD k 0 = c
          then -(100000 * dt * e.face_alpha_.getD k 0) else 0) +
        (if c ≠ k ∧ 1 ≤ c ∧ e.matrix_.p.getD c 0 = k
          then -(100000 * dt * e.face_alpha_.getD c 0) else 0)) := by
    apply Finset.sum_congr rfl
    intro c hc
    rw [Finset.mem_range] at hc
    exact setup_matrix_entry dt e hl hu hf k c hk hc
  rw [hsplit, Finset.sum_add_distrib, Finset.sum_add_distrib, Finset.sum_ite_eq',
    if_pos (Finset.mem_range.mpr hk), hd k hk, Finset.sum_filter]
  have hchildren : (∑ i ∈ Finset.Ico 1 e.matrix_.d.length,
      if e.matrix_.p.getD i 0 = k then 100000 * dt * e.face_alpha_.getD i 0 else 0) =
      ∑ c ∈ Finset.range e.matrix_.d.length,
        if 1 ≤ c ∧ e.matrix_.p.getD c 0 = k then 100000 * dt * e.face_alpha_.getD c 0
        else 0 := by
    rw [← Finset.sum_filter, ← Finset.sum_filter]
    apply Finset.sum_congr _ (fun _ _ => rfl)
    ext c
    simp only [Finset.mem_filter, Finset.mem_Ico, Finset.mem_range]
    constructor
    · rintro ⟨⟨h1, h2⟩, h3⟩
      exact ⟨h2, h1, h3⟩
    · rintro ⟨h2, h1, h3⟩
      exact ⟨⟨h1, h2⟩, h3⟩
  have hparent : (if 1 ≤ k then 100000 * dt * e.face_alpha_.getD k 0 else 0) +
      (∑ c ∈ Finset.range e.matrix_.d.length,
        if c ≠ k ∧ 1 ≤ k ∧ e.matrix_.p.getD k 0 = c
        then -(100000 * dt * e.face_alpha_.getD k 0) else 0) = 0 := by
    by_cases h1 : 1 ≤ k
    · rw [if_pos h1]
      by_cases hroot : e.matrix_.p.getD k 0 = k
      · rw [forest_root_coupling dt e hf k h1 hk hroot, neg_zero]
        simp
      · have hle := forest_le e hf k h1 hk
        have hcong : (∑ c ∈ Finset.range e.matrix_.d.length,
            if c ≠ k ∧ 1 ≤ k ∧ e.matrix_.p.getD k 0 = c
            then -(100000 * dt * e.face_alpha_.getD k 0) else 0) =
            ∑ c ∈ Finset.range e.matrix_.d.length,
              if e.matrix_.p.getD k 0 = c then -(100000 * dt * e.face_alpha_.getD k 0)
              else 0 := by
          apply Finset.sum_congr rfl
          intro c _
          by_cases hpc : e.matrix_.p.getD k 0 = c
          · have h3 : c ≠ k ∧ 1 ≤ k ∧ e.matrix_.p.getD k 0 = c :=
              ⟨fun h => hroot (hpc.trans h), h1, hpc⟩
            rw [if_pos h3, if_pos hpc]
          · have h3 : ¬ (c ≠ k ∧ 1 ≤ k ∧ e.matrix_.p.getD k 0 = c) := fun h => hpc h.2.2
            rw [if_neg h3, if_neg hpc]
        rw [hcong, Finset.sum_ite_eq, if_pos (Finset.mem_range.mpr (by omega))]
        ring
    · rw [if_neg h1]
      have : (∑ c ∈ Finset.range e.matrix_.d.length,
          if c ≠ k ∧ 1 ≤ k ∧ e.matrix_.p.getD k 0 = c
          then -(100000 * dt * e.face_alpha_.getD k 0) else 0) = 0 := by
        apply Finset.sum_eq_zero
        intro c _
        have h3 : ¬ (c ≠ k ∧ 1 ≤ k ∧ e.matrix_.p.getD k 0 = c) := fun h => h1 h.2.1
        rw [if_neg h3]
      rw [this, add_zero]
  have hchild : (∑ c ∈ Finset.range e.matrix_.d.length,
        if 1 ≤ c ∧ e.matrix_.p.getD c 0 = k then 100000 * dt * e.face_alpha_.getD c 0
        else 0) +
      (∑ c ∈ Finset.range e.matrix_.d.length,
        if c ≠ k ∧ 1 ≤ c ∧ e.matrix_.p.getD c 0 = k
        then -(100000 * dt * e.face_alpha_.getD c 0) else 0) = 0 := by
    rw [← Finset.sum_add_distrib]
    apply Finset.sum_eq_zero
    intro c hc
    rw [Finset.mem_range] at hc
    by_cases hB : 1 ≤ c ∧ e.matrix_.p.getD c 0 = k
    · by_cases hck : c = k
      · subst hck
        have h3 : ¬ (c ≠ c ∧ 1 ≤ c ∧ e.matrix_.p.getD c 0 = c) := fun h => h.1 rfl
        rw [if_pos hB, if_neg h3, add_zero]
        exact forest_root_coupling dt e hf c hB.1 hc hB.2
      · have h3 : c ≠ k ∧ 1 ≤ c ∧ e.matrix_.p.getD c 0 = k := ⟨hck, hB⟩
        rw [if_pos hB, if_pos h3]
        ring
    · have h3 : ¬ (c ≠ k ∧ 1 ≤ c ∧ e.matrix_.p.getD c 0 = k) := fun h => hB h.2
      rw [if_neg hB, if_neg h3, add_zero]
  rw [hchildren]
  linarith

/-- The product of a row with a vector `y = 2 x - V` is twice the product with `x` minus
`V` times the sum of the row. -/
theorem row_apply_affine (m : matrix) (x y : List ℚ) (V : ℚ) (k : Nat)
    (hy : ∀ c, c < m.d.length → y.getD c 0 = 2 * x.getD c 0 - V) :
    m.row_apply y k =
      2 * m.row_apply x k - V * ∑ c ∈ Finset.range m.d.length, m.entry k c := by
  unfold matrix.row_apply
  rw [Finset.mul_sum, Finset.mul_sum, ← Finset.sum_sub_distrib]
  apply Finset.sum_congr rfl
  intro c hc
  rw [Finset.mem_range] at hc
  rw [hy c hc]
  ring

theorem row_apply_const (m : matrix) (x : List ℚ) (v : ℚ) (k : Nat)
    (hx : ∀ c, c < m.d.length → x.getD c 0 = v) :
    m.row_apply x k = v * ∑ c ∈ Finset.range m.d.length, m.entry k c := by
  unfold matrix.row_apply
  rw [Finset.mul_sum]
  apply Finset.sum_congr rfl
  intro c hc
  rw [Finset.mem_range] at hc
  rw [hx c hc]
  ring

theorem row_apply_congr (m m1 : matrix) (x : List ℚ) (k : Nat) (hl : m1.l = m.l)
    (hd : m1.d = m.d) (hu : m1.u = m.u) (hp : m1.p = m.p) :
    m1.row_apply x k = m.row_apply x k := by
  unfold matrix.row_apply matrix.entry
  rw [hl, hd, hu, hp]

/-! ## The coefficients of the system do not depend on the state -/

theorem same_coefficients_refl (a : fvm_multicell) : same_coefficients a a := by
  simp [same_coefficients]

theorem setup_matrix_coefficients (dt : ℚ) (a b : fvm_multicell)
    (h : same_coefficients a b) (hwl : a.matrix_.l.length = a.matrix_.d.length)
    (hwu : a.matrix_.u.length = a.matrix_.d.length) :
    ( fvm_multicell.setup_matrix dt b).matrix_.l = ( fvm_multicell.setup_matrix dt a).matrix_.l ∧
    ( fvm_multicell.setup_matrix dt b).matrix_.d = ( fvm_multicell.setup_matrix dt a).matrix_.d ∧
    ( fvm_multicell.setup_matrix dt b).matrix_.u = ( fvm_multicell.setup_matrix dt a).matrix_.u ∧
    ( fvm_multicell.setup_matrix dt b).matrix_.p = ( fvm_multicell.setup_matrix dt a).matrix_.p := by
  obtain ⟨ha, hf, _, hp, hl, hd, hu, _, hl0, hu0, _, _, _⟩ := h
  obtain ⟨al, au, ar, afl, afu, afr⟩ := setup_matrix_full dt a
  obtain ⟨bl, bu, br, bfl, bfu, bfr⟩ := setup_matrix_full dt b
  obtain ⟨ad, ap, adf, _⟩ := setup_matrix_ldu dt a
  obtain ⟨bd, bp, bdf, _⟩ := setup_matrix_ldu dt b
  refine ⟨?_, ?_, ?_, ?_⟩
  · apply list_ext_getD _ _ (by rw [bl, al, hl])
    intro i hi1
    rw [bfl, afl, hd, hl, hf]
    by_cases h0 : i = 0
    · subst h0
      rw [if_neg (by omega), if_neg (by omega)]
      exact hl0
    · have hlt : i < a.matrix_.l.length := by rw [bl, hl] at hi1; exact hi1
      have hc1 : (1 ≤ i ∧ i < a.matrix_.d.length) ∧ i < a.matrix_.l.length :=
        ⟨⟨by omega, by omega⟩, hlt⟩
      rw [if_pos hc1, if_pos hc1]
  · apply list_ext_getD _ _ (by rw [bd, ad, hd])
    intro i hi1
    rw [bd] at hi1
    rw [bdf i hi1, adf i (by omega), ha, hf, hp, hd]
  · apply list_ext_getD _ _ (by rw [bu, au, hu])
    intro i hi1
    rw [bfu, afu, hd, hu, hf]
    by_cases h0 : i = 0
    · subst h0
      rw [if_neg (by omega), if_neg (by omega)]
      exact hu0
    · have hlt : i < a.matrix_.u.length := by rw [bu, hu] at hi1; exact hi1
      have hc1 : (1 ≤ i ∧ i < a.matrix_.d.length) ∧ i < a.matrix_.u.length :=
        ⟨⟨by omega, by omega⟩, hlt⟩
      rw [if_pos hc1, if_pos hc1]
  · rw [bp, ap, hp]

theorem exact_solver_congr (m m1 : matrix) (hl : m1.l = m.l) (hd : m1.d = m.d) (hu : m1.u = m.u)
    (hp : m1.p = m.p) (h : m.exact_solver) : m1.exact_solver := by
  intro b x hb
  have hM : ({ m1 with rhs := b } : matrix) = { m with rhs := b } :=
    matrix_ext _ _ hl hd hu rfl hp
  rw [hM]
  exact h b x (by rw [← hd]; exact hb)

theorem same_coefficients_with_current (s : stepping) (dt : ℚ) (e a : fvm_multicell)
    (h : same_coefficients e a) :
    same_coefficients e { a with current_ := step_current s dt a } := by
  unfold same_coefficients at h ⊢
  obtain ⟨h1, h2, h3, h4, h5, h6, h7, h8, h9, h10, h11, h12, h13⟩ := h
  refine ⟨h1, h2, h3, h4, h5, h6, h7, h8, h9, h10, h11, ?_, h13⟩
  show (step_current s dt a).length = e.current_.length
  rw [step_current_length, h12]

theorem same_coefficients_advance (s : stepping) (dt : ℚ) (e a : fvm_multicell)
    (h : same_coefficients e a) : same_coefficients e ( fvm_multicell.advance s dt a) := by
  have hA := same_coefficients_with_current s dt e a h
  unfold same_coefficients at h hA ⊢
  obtain ⟨h1, h2, h3, h4, h5, h6, h7, h8, h9, h10, h11, h12, h13⟩ := h
  obtain ⟨fl, fu, fr, ffl, ffu, _⟩ := setup_matrix_full dt
    { a with current_ := step_current s dt a }
  obtain ⟨fd, fp, _, _⟩ := setup_matrix_ldu dt { a with current_ := step_current s dt a }
  obtain ⟨sl, su, sp, sd, sr⟩ := solve_frame
    ( fvm_multicell.setup_matrix dt { a with current_ := step_current s dt a }).matrix_
  rw [advance_fields]
  refine ⟨h1, h2, h3, ?_, ?_, ?_, ?_, ?_, ?_, ?_, ?_, ?_, h13⟩
  · show ( fvm_multicell.setup_matrix dt
      { a with current_ := step_current s dt a }).matrix_.solve.p = e.matrix_.p
    rw [sp, fp]
    exact h4
  · show ( fvm_multicell.setup_matrix dt
      { a with current_ := step_current s dt a }).matrix_.solve.l.length = e.matrix_.l.length
    rw [sl, fl]
    exact h5
  · show ( fvm_multicell.setup_matrix dt
      { a with current_ := step_current s dt a }).matrix_.solve.d.length = e.matrix_.d.length
    rw [sd, fd]
    exact h6
  · show ( fvm_multicell.setup_matrix dt
      { a with current_ := step_current s dt a }).matrix_.solve.u.length = e.matrix_.u.length
    rw [su, fu]
    exact h7
  · show ( fvm_multicell.setup_matrix dt
      { a with current_ := step_current s dt a }).matrix_.solve.rhs.length =
        e.matrix_.rhs.length
    rw [sr, fr]
    exact h8
  · show ( fvm_multicell.setup_matrix dt
      { a with current_ := step_current s dt a }).matrix_.solve.l.getD 0 0 = e.matrix_.l.getD 0 0
    rw [sl, ffl, if_neg (by omega)]
    exact h9
  · show ( fvm_multicell.setup_matrix dt
      { a with current_ := step_current s dt a }).matrix_.solve.u.getD 0 0 = e.matrix_.u.getD 0 0
    rw [su, ffu, if_neg (by omega)]
    exact h10
  · show (copy_into a.voltage_ _).length = e.voltage_.length
    rw [copy_into_length, h11]
  · show (step_current s dt a).length = e.current_.length
    rw [step_current_length, h12]

theorem forest_congr (e a : fvm_multicell) (h : same_coefficients e a) (hf : forest e) :
    forest a := by
  obtain ⟨_, h2, _, h4, _, h6, _⟩ := h
  intro i h1 hi
  rw [h4, h2]
  exact hf i h1 (by rw [← h6]; exact hi)

/-! ## Doubling the stimuli doubles the injected current -/

theorem doubled_stimuli_sum (s : stepping) (t : ℚ) (area : ℚ) (k : Nat)
    (stims : List (Nat × i_clamp))
    (hamp : ∀ (c : i_clamp) (t : ℚ),
      s.amplitude { c with amplitude := 2 * c.amplitude } t = 2 * s.amplitude c t) :
    (((stims.map (fun st => (st.1, { st.2 with amplitude := 2 * st.2.amplitude }))).filter
        (fun st => st.1 = k)).map (fun st => 100 * s.amplitude st.2 t / area)).sum =
      2 * ((stims.filter (fun st => st.1 = k)).map
        (fun st => 100 * s.amplitude st.2 t / area)).sum := by
  induction stims with
  | nil => simp
  | cons st stims ih =>
    rw [List.map_cons]
    by_cases h : st.1 = k
    · rw [List.filter_cons_of_pos (by simpa using h), List.filter_cons_of_pos (by simpa using h),
        List.map_cons, List.map_cons, List.sum_cons, List.sum_cons, ih]
      simp only
      rw [hamp]
      ring
    · rw [List.filter_cons_of_neg (by simpa using h), List.filter_cons_of_neg (by simpa using h),
        ih]

theorem step_current_doubles (s : stepping) (dt : ℚ) (a b : fvm_multicell)
    (hma : a.mechanisms_ = []) (hmb : b.mechanisms_ = [])
    (hst : b.stimulii_ =
      a.stimulii_.map (fun st => (st.1, { st.2 with amplitude := 2 * st.2.amplitude })))
    (ht : b.t_ = a.t_) (harea : b.cv_areas_ = a.cv_areas_)
    (hlen : b.current_.length = a.current_.length)
    (hamp : ∀ (c : i_clamp) (t : ℚ),
      s.amplitude { c with amplitude := 2 * c.amplitude } t = 2 * s.amplitude c t)
    (k : Nat) :
    (step_current s dt b).getD k 0 = 2 * (step_current s dt a).getD k 0 := by
  by_cases hk : k < a.current_.length
  · unfold step_current
    simp only [hma, hmb, List.foldl_nil]
    rw [stimulus_loop_getD s b _ _ k (by simpa [hlen] using hk),
      stimulus_loop_getD s a _ _ k (by simpa using hk), hst, ht, harea,
      doubled_stimuli_sum s a.t_ _ k a.stimulii_ hamp]
    have hz : ∀ (l : List ℚ), k < l.length → (List.map (fun _ => (0 : ℚ)) l).getD k 0 = 0 := by
      intro l hl
      rw [List.getD_eq_getElem _ 0 (by simpa using hl)]
      simp
    rw [hz _ (by rw [hlen]; exact hk), hz _ hk]
    ring
  · rw [getD_beyond _ k (by rw [step_current_length, hlen]; omega),
      getD_beyond _ k (by rw [step_current_length]; omega), mul_zero]

/-! ## One step on a passive engine -/

/-- The system that `advance(dt)` solves: its right-hand side, and the voltage it leaves. -/
theorem advance_system (s : stepping) (dt : ℚ) (a : fvm_multicell)
    (hr : a.matrix_.rhs.length = a.matrix_.d.length) :
    (∀ i, i < a.matrix_.d.length →
      ( fvm_multicell.setup_matrix dt { a with current_ := step_current s dt a }).matrix_.rhs.getD
          i 0 =
        a.cv_areas_.getD i 0 *
          (a.voltage_.getD i 0 -
            10 * dt / a.cv_capacitance_.getD i 0 * (step_current s dt a).getD i 0)) ∧
    ( fvm_multicell.setup_matrix dt { a with current_ := step_current s dt a }).matrix_.rhs.length =
      a.matrix_.d.length ∧
    ( fvm_multicell.setup_matrix dt { a with current_ := step_current s dt a }).matrix_.d.length =
      a.matrix_.d.length ∧
    (∀ i, i < a.voltage_.length →
      ( fvm_multicell.advance s dt a).voltage_.getD i 0 =
        ( fvm_multicell.setup_matrix dt
          { a with current_ := step_current s dt a }).matrix_.solve.rhs.getD i 0) := by
  obtain ⟨_, _, fr, _, _, ffr⟩ := setup_matrix_full dt { a with current_ := step_current s dt a }
  obtain ⟨fd, _, _, _⟩ := setup_matrix_ldu dt { a with current_ := step_current s dt a }
  refine ⟨?_, by rw [fr]; exact hr, fd, ?_⟩
  · intro i hi
    rw [ffr i]
    have hc : i < a.matrix_.d.length ∧ i < a.matrix_.rhs.length := ⟨hi, by omega⟩
    exact if_pos hc
  · intro i hi
    rw [advance_fields]
    exact copy_into_getD _ _ i hi

/-- One step on two passive engines with the same coefficients, the second with doubled
stimuli and a voltage that deviates twice as much from `V`: after the step the deviation is
doubled again. -/
theorem advance_doubles (s : stepping) (dt V : ℚ) (e a b : fvm_multicell)
    (hca : same_coefficients e a) (hcb : same_coefficients e b)
    (hma : a.mechanisms_ = []) (hmb : b.mechanisms_ = [])
    (hst : b.stimulii_ =
      a.stimulii_.map (fun st => (st.1, { st.2 with amplitude := 2 * st.2.amplitude })))
    (ht : b.t_ = a.t_)
    (hl : e.matrix_.l.length = e.matrix_.d.length) (hu : e.matrix_.u.length = e.matrix_.d.length)
    (hr : e.matrix_.rhs.length = e.matrix_.d.length)
    (hv : e.voltage_.length = e.matrix_.d.length) (hf : forest e)
    (hamp : ∀ (c : i_clamp) (t : ℚ),
      s.amplitude { c with amplitude := 2 * c.amplitude } t = 2 * s.amplitude c t)
    (hexact : ( fvm_multicell.setup_matrix dt e).matrix_.exact_solver)
    (hdev : ∀ i, i < e.matrix_.d.length → b.voltage_.getD i 0 = 2 * a.voltage_.getD i 0 - V) :
    ∀ i, i < e.matrix_.d.length →
      ( fvm_multicell.advance s dt b).voltage_.getD i 0 =
        2 * ( fvm_multicell.advance s dt a).voltage_.getD i 0 - V := by
  have hcA := same_coefficients_with_current s dt e a hca
  have hcB := same_coefficients_with_current s dt e b hcb
  obtain ⟨a1, a2, a3, a4, a5, a6, a7, a8, a9, a10, a11, a12, a13⟩ := hca
  obtain ⟨b1, b2, b3, b4, b5, b6, b7, b8, b9, b10, b11, b12, b13⟩ := hcb
  obtain ⟨rA, rlA, dlA, vA⟩ := advance_system s dt a (by rw [a8, a6]; exact hr)
  obtain ⟨rB, rlB, dlB, vB⟩ := advance_system s dt b (by rw [b8, b6]; exact hr)
  obtain ⟨cAl, cAd, cAu, cAp⟩ := setup_matrix_coefficients dt e _ hcA hl hu
  obtain ⟨cBl, cBd, cBu, cBp⟩ := setup_matrix_coefficients dt e _ hcB hl hu
  have hfA : forest { a with current_ := step_current s dt a } := forest_congr e _ hcA hf
  have exA := exact_solver_congr _ _ cAl cAd cAu cAp hexact
  have exB := exact_solver_congr _ _ cBl cBd cBu cBp hexact
  -- the solution of the first system
  have hsolA := (exA ( fvm_multicell.setup_matrix dt
    { a with current_ := step_current s dt a }).matrix_.rhs ( fvm_multicell.setup_matrix dt
    { a with current_ := step_current s dt a }).matrix_.solve.rhs
    (by rw [rlA, dlA])).mpr rfl
  obtain ⟨hxlen, hxrow⟩ := hsolA
  simp only at hxlen hxrow
  -- the candidate solution of the second system
  have hcand : ( fvm_multicell.setup_matrix dt
      { b with current_ := step_current s dt b }).matrix_.solved_by
      (( fvm_multicell.setup_matrix dt
        { a with current_ := step_current s dt a }).matrix_.solve.rhs.map
        (fun t => 2 * t - V)) := by
    constructor
    · rw [List.length_map, hxlen, dlA, dlB, a6, b6]
    · intro k hk
      rw [dlB, b6] at hk
      have hk' : k < ( fvm_multicell.setup_matrix dt
          { a with current_ := step_current s dt a }).matrix_.d.length := by
        rw [dlA, a6]
        exact hk
      have hget : ∀ c, c < ( fvm_multicell.setup_matrix dt
          { a with current_ := step_current s dt a }).matrix_.d.length →
          (( fvm_multicell.setup_matrix dt
            { a with current_ := step_current s dt a }).matrix_.solve.rhs.map
            (fun t => 2 * t - V)).getD c 0 =
          2 * ( fvm_multicell.setup_matrix dt
            { a with current_ := step_current s dt a }).matrix_.solve.rhs.getD c 0 - V := by
        intro c hc
        rw [List.getD_eq_getElem _ 0 (by rw [List.length_map, hxlen]; exact hc),
          List.getD_eq_getElem _ 0 (by rw [hxlen]; exact hc), List.getElem_map]
      rw [row_apply_congr _ _ _ k (cBl.trans cAl.symm) (cBd.trans cAd.symm)
        (cBu.trans cAu.symm) (cBp.trans cAp.symm),
        row_apply_affine _ _ _ V k hget, hxrow k hk', rA k (by rw [a6]; exact hk),
        rB k (by rw [b6]; exact hk)]
      have hrow := setup_matrix_row_sum dt { a with current_ := step_current s dt a }
        (by show a.matrix_.l.length = a.matrix_.d.length; rw [a5, a6]; exact hl)
        (by show a.matrix_.u.length = a.matrix_.d.length; rw [a7, a6]; exact hu) hfA k
        (by show k < a.matrix_.d.length; rw [a6]; exact hk)
      have hrow' : (∑ c ∈ Finset.range ( fvm_multicell.setup_matrix dt
          { a with current_ := step_current s dt a }).matrix_.d.length,
          ( fvm_multicell.setup_matrix dt
            { a with current_ := step_current s dt a }).matrix_.entry k c) =
          a.cv_areas_.getD k 0 := by
        rw [dlA]
        exact hrow
      rw [hrow', step_current_doubles s dt a b hma hmb hst ht (b1.trans a1.symm)
        (b12.trans a12.symm) hamp k, hdev k hk, b1, a1, b3, a3]
      ring
  have hxB := (exB ( fvm_multicell.setup_matrix dt
    { b with current_ := step_current s dt b }).matrix_.rhs _ (by rw [rlB, dlB])).mp hcand
  simp only at hxB
  intro i hi
  rw [vB i (by rw [b11, hv]; exact hi), vA i (by rw [a11, hv]; exact hi), ← hxB,
    List.getD_eq_getElem _ 0 (by rw [List.length_map, hxlen, dlA, a6]; exact hi),
    List.getD_eq_getElem _ 0 (by rw [hxlen, dlA, a6]; exact hi), List.getElem_map]

theorem advance_keeps_passive (s : stepping) (dt : ℚ) (a b : fvm_multicell)
    (hma : a.mechanisms_ = []) (hmb : b.mechanisms_ = [])
    (hst : b.stimulii_ =
      a.stimulii_.map (fun st => (st.1, { st.2 with amplitude := 2 * st.2.amplitude })))
    (ht : b.t_ = a.t_) :
    ( fvm_multicell.advance s dt a).mechanisms_ = [] ∧
    ( fvm_multicell.advance s dt b).mechanisms_ = [] ∧
    ( fvm_multicell.advance s dt b).stimulii_ =
      ( fvm_multicell.advance s dt a).stimulii_.map
        (fun st => (st.1, { st.2 with amplitude := 2 * st.2.amplitude })) ∧
    ( fvm_multicell.advance s dt b).t_ = ( fvm_multicell.advance s dt a).t_ := by
  rw [advance_fields, advance_fields]
  simp only [hma, hmb, List.map_nil, hst, ht, and_self]

theorem advance_steps_double (s : stepping) (V : ℚ) (e : fvm_multicell) (dts : List ℚ)
    (a b : fvm_multicell)
    (hca : same_coefficients e a) (hcb : same_coefficients e b)
    (hma : a.mechanisms_ = []) (hmb : b.mechanisms_ = [])
    (hst : b.stimulii_ =
      a.stimulii_.map (fun st => (st.1, { st.2 with amplitude := 2 * st.2.amplitude })))
    (ht : b.t_ = a.t_)
    (hl : e.matrix_.l.length = e.matrix_.d.length) (hu : e.matrix_.u.length = e.matrix_.d.length)
    (hr : e.matrix_.rhs.length = e.matrix_.d.length)
    (hv : e.voltage_.length = e.matrix_.d.length) (hf : forest e)
    (hamp : ∀ (c : i_clamp) (t : ℚ),
      s.amplitude { c with amplitude := 2 * c.amplitude } t = 2 * s.amplitude c t)
    (hexact : ∀ dt ∈ dts, ( fvm_multicell.setup_matrix dt e).matrix_.exact_solver)
    (hdev : ∀ i, i < e.matrix_.d.length → b.voltage_.getD i 0 = 2 * a.voltage_.getD i 0 - V) :
    ∀ i, i < e.matrix_.d.length →
      (advance_steps s dts b).voltage_.getD i 0 =
        2 * (advance_steps s dts a).voltage_.getD i 0 - V := by
  induction dts generalizing a b with
  | nil => exact hdev
  | cons dt dts ih =>
    unfold advance_steps
    rw [List.foldl_cons, List.foldl_cons]
    obtain ⟨k1, k2, k3, k4⟩ := advance_keeps_passive s dt a b hma hmb hst ht
    exact ih ( fvm_multicell.advance s dt a) ( fvm_multicell.advance s dt b)
      (same_coefficients_advance s dt e a hca) (same_coefficients_advance s dt e b hcb)
      k1 k2 k3 k4 (fun d hd => hexact d (List.mem_cons_of_mem _ hd))
      (advance_doubles s dt V e a b hca hcb hma hmb hst ht hl hu hr hv hf hamp
        (hexact dt (List.mem_cons_self _ _)) hdev)

/-! ## Worked example: the passive engine of two CVs -/

theorem passive_matrix_coefficients (st : List (Nat × i_clamp)) :
    ( fvm_multicell.setup_matrix 1 { passive_engine with stimulii_ := st }).matrix_.l = [0, -1] ∧
    ( fvm_multicell.setup_matrix 1 { passive_engine with stimulii_ := st }).matrix_.d = [2, 2] ∧
    ( fvm_multicell.setup_matrix 1 { passive_engine with stimulii_ := st }).matrix_.u = [0, -1] ∧
    ( fvm_multicell.setup_matrix 1 { passive_engine with stimulii_ := st }).matrix_.p = [0, 0] := by
  norm_num [fvm_multicell.setup_matrix, passive_engine, matrix.of_parent_index, copy_into,
    setup_matrix_step, setup_rhs_step, add_at, List.range', fvm_multicell.fresh, List.range,
    List.range.loop, List.replicate]

theorem solve_passive (b0 b1 : ℚ) :
    (matrix.solve ⟨[0, -1], [2, 2], [0, -1], [b0, b1], [0, 0]⟩).rhs =
      [(2 * b0 + b1) / 3, (b0 + 2 * b1) / 3] := by
  simp only [matrix.solve, matrix.size, List.length_cons, List.length_nil, List.range',
    List.reverse_cons, List.reverse_nil, List.nil_append, List.foldl_cons, List.foldl_nil,
    hines_backward_step, hines_forward_step, sub_at, div_at, List.getD_cons_zero,
    List.getD_cons_succ, List.set_cons_zero, List.set_cons_succ]
  norm_num
  constructor <;> ring

/-- The tree solver is exact on the coefficients of the passive engine for `dt = 1`. -/
theorem passive_exact (st : List (Nat × i_clamp)) :
    ( fvm_multicell.setup_matrix 1 { passive_engine with stimulii_ := st }).matrix_.exact_solver := by
  obtain ⟨hl, hd, hu, hp⟩ := passive_matrix_coefficients st
  intro b x hb
  rw [hd] at hb
  have hM : ({ ( fvm_multicell.setup_matrix 1
      { passive_engine with stimulii_ := st }).matrix_ with rhs := b } : matrix) =
      ⟨[0, -1], [2, 2], [0, -1], b, [0, 0]⟩ := matrix_ext _ _ hl hd hu rfl hp
  rw [hM]
  match b, hb with
  | [b0, b1], _ =>
    rw [solve_passive]
    unfold matrix.solved_by
    constructor
    · rintro ⟨hx, hrow⟩
      match x, hx with
      | [x0, x1], _ =>
        have h0 := hrow 0 (by simp)
        have h1 := hrow 1 (by simp)
        simp [matrix.row_apply, matrix.entry, Finset.sum_range_succ] at h0 h1
        congr 1
        · linarith
        · congr 1
          linarith
    · intro hx
      subst hx
      refine ⟨rfl, ?_⟩
      intro k hk
      simp only [List.length_cons, List.length_nil] at hk
      interval_cases k
      · simp [matrix.row_apply, matrix.entry, Finset.sum_range_succ]
        ring
      · simp [matrix.row_apply, matrix.entry, Finset.sum_range_succ]
        ring

theorem passive_tree (st : List (Nat × i_clamp)) (i : Nat) (h1 : 1 ≤ i)
    (h2 : i < ({ passive_engine with stimulii_ := st } : fvm_multicell).matrix_.d.length) :
    ({ passive_engine with stimulii_ := st } : fvm_multicell).matrix_.p.getD i 0 < i := by
  simp [passive_engine, matrix.of_parent_index] at h2
  interval_cases i
  show (matrix.of_parent_index [0, 0]).p.getD 1 0 < 1
  decide

theorem sample_amplitude_linear (c : i_clamp) (t : ℚ) :
    sample_stepping.amplitude { c with amplitude := 2 * c.amplitude } t =
      2 * sample_stepping.amplitude c t := by
  simp only [sample_stepping]
  split_ifs
  · rfl
  · ring

/-! ## Uniform voltage, and linearity of the passive model -/

/-- C30: for a parent array with `p[i] < i` for `i >= 1`, every row `k` of the matrix built
by `setup_matrix(dt)` sums to `area[k]` (diagonal and off-diagonal entries together); hence
when the current is zero and every voltage is `v`, the vector with every entry `v`
satisfies `M x = rhs`; and when the solver is exact on the assembled coefficients,
`advance(dt)` on an engine without mechanisms and without stimuli whose voltages all
equal `v` leaves every voltage equal to `v`. -/
theorem uniform_voltage_fixed_point (s : stepping) (dt v : ℚ) (e : fvm_multicell)
    (hl : e.matrix_.l.length = e.matrix_.d.length) (hu : e.matrix_.u.length = e.matrix_.d.length)
    (hr : e.matrix_.rhs.length = e.matrix_.d.length)
    (htree : ∀ i, 1 ≤ i → i < e.matrix_.d.length → e.matrix_.p.getD i 0 < i) :
    (∀ k, k < e.matrix_.d.length →
      (∑ c ∈ Finset.range e.matrix_.d.length,
        ( fvm_multicell.setup_matrix dt e).matrix_.entry k c) = e.cv_areas_.getD k 0) ∧
    ((∀ i, i < e.matrix_.d.length → e.current_.getD i 0 = 0 ∧ e.voltage_.getD i 0 = v) →
      ( fvm_multicell.setup_matrix dt e).matrix_.solved_by (List.replicate e.matrix_.d.length v)) ∧
    (e.mechanisms_ = [] → e.stimulii_ = [] → e.voltage_.length = e.matrix_.d.length →
      (∀ i, i < e.matrix_.d.length → e.voltage_.getD i 0 = v) →
      ( fvm_multicell.setup_matrix dt e).matrix_.exact_solver →
      ∀ i, i < e.matrix_.d.length → ( fvm_multicell.advance s dt e).voltage_.getD i 0 = v) := by
  have hf : forest e := fun i h1 h2 => Or.inl (htree i h1 h2)
  have hconst : ∀ (a : fvm_multicell), same_coefficients e a →
      (∀ i, i < e.matrix_.d.length → a.current_.getD i 0 = 0 ∧ a.voltage_.getD i 0 = v) →
      ( fvm_multicell.setup_matrix dt a).matrix_.solved_by
        (List.replicate e.matrix_.d.length v) := by
    intro a hca hstate
    have hfa := forest_congr e a hca hf
    obtain ⟨a1, a2, a3, a4, a5, a6, a7, a8, a9, a10, a11, a12, a13⟩ := hca
    obtain ⟨_, _, fr, _, _, ffr⟩ := setup_matrix_full dt a
    obtain ⟨fd, _, _, _⟩ := setup_matrix_ldu dt a
    constructor
    · rw [List.length_replicate, fd, a6]
    · intro k hk
      rw [fd, a6] at hk
      have hx : ∀ c, c < ( fvm_multicell.setup_matrix dt a).matrix_.d.length →
          (List.replicate e.matrix_.d.length v).getD c 0 = v := by
        intro c hc
        rw [fd, a6] at hc
        rw [List.getD_eq_getElem _ 0 (by rw [List.length_replicate]; exact hc),
          List.getElem_replicate]
      rw [row_apply_const _ _ v k hx, fd,
        setup_matrix_row_sum dt a (by rw [a5, a6]; exact hl) (by rw [a7, a6]; exact hu) hfa k
          (by rw [a6]; exact hk), ffr k,
        if_pos ⟨by rw [a6]; exact hk, by rw [a8, hr]; exact hk⟩, (hstate k hk).1, (hstate k hk).2]
      ring
  refine ⟨fun k hk => setup_matrix_row_sum dt e hl hu hf k hk, ?_, ?_⟩
  · intro hstate
    exact hconst e (same_coefficients_refl e) hstate
  · intro hm hs hv hvolt hexact i hi
    have hcA := same_coefficients_with_current s dt e e (same_coefficients_refl e)
    obtain ⟨cl, cd, cu, cp⟩ := setup_matrix_coefficients dt e _ hcA hl hu
    have exA := exact_solver_congr _ _ cl cd cu cp hexact
    obtain ⟨_, rl, dl, vA⟩ := advance_system s dt e hr
    have hzero : ∀ k, (step_current s dt e).getD k 0 = 0 := by
      intro k
      unfold step_current
      simp only [hm, hs, List.foldl_nil]
      by_cases hk : k < e.current_.length
      · rw [List.getD_eq_getElem _ 0 (by simpa using hk)]
        simp
      · exact getD_beyond _ k (by simpa using hk)
    have hsol := hconst { e with current_ := step_current s dt e } hcA
      (fun k hk => ⟨hzero k, hvolt k hk⟩)
    have hx := (exA ( fvm_multicell.setup_matrix dt
      { e with current_ := step_current s dt e }).matrix_.rhs _ (by rw [rl, dl])).mp hsol
    simp only at hx
    rw [vA i (by rw [hv]; exact hi), ← hx,
      List.getD_eq_getElem _ 0 (by rw [List.length_replicate]; exact hi), List.getElem_replicate]

/-- C30 (worked example): the passive engine of two CVs at rest: after `advance(1)` CV 1
is still at -65. -/
theorem uniform_voltage_fixed_point_witness :
    ( fvm_multicell.advance sample_stepping 1 passive_engine).voltage_.getD 1 0 = -65 :=
  (uniform_voltage_fixed_point sample_stepping 1 (-65) passive_engine rfl rfl rfl
    (passive_tree [])).2.2 rfl rfl rfl
    (by
      intro i hi
      simp only [passive_engine, matrix.of_parent_index, List.length_replicate,
        List.length_cons, List.length_nil] at hi
      interval_cases i <;> rfl)
    (passive_exact []) 1 (by decide)

/-- C21: for an engine without mechanisms whose parent array is a forest laid out parents
first, with the solver exact on the coefficients assembled for every step size of the
sequence, and a clamp amplitude `ie(t)` that doubles when the amplitude of the clamp is
doubled: after the same steps from `reset()`, the engine with every stimulus amplitude
doubled has, on every CV `i`, twice the deviation `voltage[i] - resting_potential` of the
engine with the original stimuli. -/
theorem passive_linearity (x : externals) (s : stepping) (e : fvm_multicell) (dts : List ℚ)
    (hm : e.mechanisms_ = [])
    (hl : e.matrix_.l.length = e.matrix_.d.length) (hu : e.matrix_.u.length = e.matrix_.d.length)
    (hr : e.matrix_.rhs.length = e.matrix_.d.length)
    (hv : e.voltage_.length = e.matrix_.d.length) (hf : forest e)
    (hamp : ∀ (c : i_clamp) (t : ℚ),
      s.amplitude { c with amplitude := 2 * c.amplitude } t = 2 * s.amplitude c t)
    (hexact : ∀ dt ∈ dts, ( fvm_multicell.setup_matrix dt e).matrix_.exact_solver) :
    ∀ i, i < e.matrix_.d.length →
      (advance_steps s dts ( fvm_multicell.reset x (double_stimuli e))).voltage_.getD i 0 -
          e.resting_potential_ =
        2 * ((advance_steps s dts ( fvm_multicell.reset x e)).voltage_.getD i 0 -
          e.resting_potential_) := by
  have hca : same_coefficients e ( fvm_multicell.reset x e) := by
    simp [same_coefficients, fvm_multicell.reset]
  have hcb : same_coefficients e ( fvm_multicell.reset x (double_stimuli e)) := by
    simp [same_coefficients, fvm_multicell.reset, double_stimuli]
  have hdev : ∀ i, i < e.matrix_.d.length →
      ( fvm_multicell.reset x (double_stimuli e)).voltage_.getD i 0 =
        2 * ( fvm_multicell.reset x e).voltage_.getD i 0 - e.resting_potential_ := by
    intro i hi
    rw [reset_voltage_getD x e i (by rw [hv]; exact hi),
      reset_voltage_getD x (double_stimuli e) i (by show i < e.voltage_.length; rw [hv]; exact hi)]
    show e.resting_potential_ = _
    ring
  have h := advance_steps_double s e.resting_potential_ e dts ( fvm_multicell.reset x e)
    ( fvm_multicell.reset x (double_stimuli e)) hca hcb
    (by simp [fvm_multicell.reset, hm]) (by simp [fvm_multicell.reset, double_stimuli, hm])
    rfl rfl hl hu hr hv hf hamp hexact hdev
  intro i hi
  rw [h i hi]
  ring

/-- C21 (worked example): the passive engine of two CVs with a clamp on CV 1, stepped
twice with `dt = 1` from reset. -/
theorem passive_linearity_witness :
    (advance_steps sample_stepping [1, 1]
        ( fvm_multicell.reset sample_externals
          (double_stimuli clamped_passive_engine))).voltage_.getD 0 0 -
        clamped_passive_engine.resting_potential_ =
      2 * ((advance_steps sample_stepping [1, 1]
        ( fvm_multicell.reset sample_externals clamped_passive_engine)).voltage_.getD 0 0 -
          clamped_passive_engine.resting_potential_) :=
  passive_linearity sample_externals sample_stepping clamped_passive_engine [1, 1] rfl rfl rfl
    rfl rfl (fun i h1 h2 => Or.inl (passive_tree _ i h1 h2)) sample_amplitude_linear
    (by
      intro dt hdt
      simp only [List.mem_cons, List.mem_singleton, List.not_mem_nil, or_false, or_self] at hdt
      subst hdt
      exact passive_exact _)
    0 (by decide)

theorem std_map_find_update {ν : Type} (m : std_map ν) (k : String) (f : Option ν → ν)
    (n : String) :
    std_map.find (std_map.update m k f) n =
      if n = k then some (f (std_map.find m k)) else std_map.find m n := by
  induction m with
  | nil =>
    unfold std_map.update
    by_cases h : n = k
    · subst h
      simp [std_map.find, name_less_irrefl]
    · simp only [if_neg h]
      unfold std_map.find
      by_cases h1 : name_less n k
      · simp [h1, std_map.find]
      · by_cases h2 : name_less k n
        · simp [h1, h2, std_map.find]
        · exact absurd (name_eq_of_not_less h1 h2) h
  | cons kv rest ih =>
    obtain ⟨k1, v⟩ := kv
    unfold std_map.update
    by_cases h1 : name_less k k1
    · rw [if_pos h1]
      by_cases h : n = k
      · subst h
        simp [std_map.find, name_less_irrefl, h1]
      · rw [if_neg h]
        by_cases h3 : name_less n k
        · have h4 : name_less n k1 := name_less_trans h3 h1
          simp [std_map.find, h3, h4]
        · by_cases h4 : name_less k n
          · conv_lhs => unfold std_map.find
            simp only [h3, h4, if_false, if_true]
          · exact absurd (name_eq_of_not_less h3 h4) h
    · rw [if_neg h1]
      by_cases h2 : name_less k1 k
      · rw [if_pos h2]
        by_cases h3 : name_less n k1
        · have hne : n ≠ k := by
            intro hcon
            subst hcon
            exact name_less_irrefl _ (name_less_trans h3 h2)
          simp [std_map.find, h3, hne]
        · by_cases h4 : name_less k1 n
          · conv_lhs => unfold std_map.find
            conv_rhs => unfold std_map.find
            simp only [h3, h4, if_false, if_true, ih]
            by_cases h : n = k
            · subst h
              simp [h1, h2]
            · simp [h]
          · have hn : n = k1 := name_eq_of_not_less h3 h4
            subst hn
            have hne : n ≠ k := by
              intro hcon
              subst hcon
              exact name_less_irrefl _ h2
            simp [std_map.find, name_less_irrefl, hne]
      · rw [if_neg h2]
        have hk : k = k1 := name_eq_of_not_less h1 h2
        subst hk
        by_cases h : n = k
        · subst h
          simp [std_map.find, name_less_irrefl]
        · rw [if_neg h]
          unfold std_map.find
          by_cases h3 : name_less n k
          · simp only [h3, if_true]
          · by_cases h4 : name_less k n
            · simp only [h3, h4, if_false, if_true]
            · exact absurd (name_eq_of_not_less h3 h4) h

theorem not_mem_take_indexOf (ns : List String) (a : String) :
    a ∉ ns.take (ns.indexOf a) := by
  induction ns with
  | nil => simp
  | cons b t ih =>
    by_cases h : b = a
    · rw [List.indexOf_cons_eq _ h]
      simp
    · rw [List.indexOf_cons_ne _ h, List.take_succ_cons, List.mem_cons]
      rintro (h1 | h1)
      · exact h h1.symm
      · exact ih h1

theorem mem_take_of_indexOf_lt (ns : List String) (a : String) (j : Nat)
    (h : ns.indexOf a < j) (ha : a ∈ ns) : a ∈ ns.take j := by
  have h1 : (ns.take j)[ns.indexOf a]? = some a := by
    rw [List.getElem?_take_of_lt h]
    rw [List.getElem?_eq_getElem (List.indexOf_lt_length.mpr ha)]
    simp
  exact List.getElem?_mem h1

theorem take_toFinset_mono (ns : List String) (i j : Nat) (h : i ≤ j) :
    (ns.take i).toFinset ⊆ (ns.take j).toFinset := by
  intro a ha
  rw [List.mem_toFinset] at ha ⊢
  have : ns.take i = (ns.take j).take i := by
    rw [List.take_take, Nat.min_eq_left h]
  rw [this] at ha
  exact List.take_subset _ _ ha

theorem names_before_lt (ns : List String) (a : String) (ha : a ∈ ns) :
    names_before ns a < ns.toFinset.card := by
  unfold names_before
  apply Finset.card_lt_card
  rw [Finset.ssubset_iff_of_subset]
  · exact ⟨a, List.mem_toFinset.mpr ha,
      fun h => not_mem_take_indexOf ns a (List.mem_toFinset.mp h)⟩
  · intro b hb
    rw [List.mem_toFinset] at hb ⊢
    exact List.take_subset _ _ hb

theorem names_before_lt_of_indexOf_lt (ns : List String) (a b : String) (ha : a ∈ ns)
    (h : ns.indexOf a < ns.indexOf b) : names_before ns a < names_before ns b := by
  unfold names_before
  apply Finset.card_lt_card
  rw [Finset.ssubset_iff_of_subset (take_toFinset_mono ns _ _ (Nat.le_of_lt h))]
  exact ⟨a, List.mem_toFinset.mpr (mem_take_of_indexOf_lt ns a _ h ha),
    fun h1 => not_mem_take_indexOf ns a (List.mem_toFinset.mp h1)⟩

theorem names_before_inj (ns : List String) (a b : String) (ha : a ∈ ns) (hb : b ∈ ns)
    (h : names_before ns a = names_before ns b) : a = b := by
  rcases Nat.lt_trichotomy (ns.indexOf a) (ns.indexOf b) with h1 | h1 | h1
  · exact absurd h (Nat.ne_of_lt (names_before_lt_of_indexOf_lt ns a b ha h1))
  · exact (List.indexOf_inj ha hb).mp h1
  · exact absurd h.symm (Nat.ne_of_lt (names_before_lt_of_indexOf_lt ns b a hb h1))

theorem names_before_append_mem (ns : List String) (a b : String) (hb : b ∈ ns) :
    names_before (ns ++ [a]) b = names_before ns b := by
  unfold names_before
  rw [List.indexOf_append_of_mem hb,
    List.take_append_of_le_length (Nat.le_of_lt (List.indexOf_lt_length.mpr hb))]

theorem names_before_append_fresh (ns : List String) (a : String) (ha : a ∉ ns) :
    names_before (ns ++ [a]) a = ns.toFinset.card := by
  unfold names_before
  rw [List.indexOf_append_of_not_mem ha, List.indexOf_cons_self, Nat.add_zero,
    List.take_left]

theorem earlier_same_append (ns : List String) (a : String) (j : Nat) (hj : j < ns.length) :
    earlier_same (ns ++ [a]) j = earlier_same ns j ∧
    (ns ++ [a]).getD j "" = ns.getD j "" := by
  have h2 : (ns ++ [a]).getD j "" = ns.getD j "" := by
    rw [List.getD_eq_getElem?_getD, List.getD_eq_getElem?_getD, List.getElem?_append_left hj]
  refine ⟨?_, h2⟩
  unfold earlier_same
  rw [h2, List.take_append_of_le_length (Nat.le_of_lt hj)]

theorem earlier_same_last (ns : List String) (a : String) :
    earlier_same (ns ++ [a]) ns.length = ns.count a ∧
    (ns ++ [a]).getD ns.length "" = a := by
  have h2 : (ns ++ [a]).getD ns.length "" = a := by
    rw [List.getD_eq_getElem?_getD]
    simp
  refine ⟨?_, h2⟩
  unfold earlier_same
  rw [h2, List.take_left]

theorem synapse_step_spec (x : externals) (s : synapse_locals) (syn : synapse) :
    ∃ idx,
      ((std_map.find s.syn_mech_indices syn.mechanism = none ∧ idx = s.syn_mech_map.length ∧
          (synapse_step x s syn).syn_mech_indices =
            std_map.update s.syn_mech_indices syn.mechanism (fun _ => idx) ∧
          (synapse_step x s syn).syn_mech_map.length = s.syn_mech_map.length + 1) ∨
        (std_map.find s.syn_mech_indices syn.mechanism = some idx ∧
          (synapse_step x s syn).syn_mech_indices = s.syn_mech_indices ∧
          (synapse_step x s syn).syn_mech_map.length = s.syn_mech_map.length)) ∧
      (synapse_step x s syn).target_handles =
        s.target_handles.set s.target_hi (idx, (s.syn_mech_map.getD idx []).length) ∧
      (synapse_step x s syn).target_hi = s.target_hi + 1 ∧
      (idx < (synapse_step x s syn).syn_mech_map.length → ∀ m,
        ((synapse_step x s syn).syn_mech_map.getD m []).length =
          (s.syn_mech_map.getD m []).length + if m = idx then 1 else 0) := by
  unfold synapse_step
  simp only
  cases hf : std_map.find s.syn_mech_indices syn.mechanism with
  | none =>
    simp only [Option.isNone_none, if_true]
    have hg : (s.syn_mech_map ++ [[]]).getD s.syn_mech_map.length [] = ([] : List Nat) := by
      simp [List.getD_eq_getElem?_getD]
    have hg2 : s.syn_mech_map.getD s.syn_mech_map.length [] = ([] : List Nat) := by
      simp [List.getD_eq_getElem?_getD]
    refine ⟨s.syn_mech_map.length, Or.inl (by simp), ?_, by simp, ?_⟩
    · rw [hg, hg2]
    · intro _ m
      rw [hg]
      simp only [List.getD_eq_getElem?_getD]
      by_cases hm : m = s.syn_mech_map.length
      · subst hm
        simp
      · rw [if_neg hm, List.getElem?_set_ne (Ne.symm hm)]
        by_cases hlt : m < s.syn_mech_map.length
        · rw [List.getElem?_append_left hlt]
          rfl
        · have h1 : (s.syn_mech_map ++ [[]])[m]? = none := by
            apply List.getElem?_eq_none
            simp
            omega
          have h2 : s.syn_mech_map[m]? = none := by
            apply List.getElem?_eq_none
            omega
          rw [h1, h2]
          rfl
  | some idx =>
    simp only [Option.isNone_some, Bool.false_eq_true, if_false, Option.getD_some]
    refine ⟨idx, Or.inr (by simp), by simp, by simp, ?_⟩
    intro hidx m
    rw [List.length_set] at hidx
    simp only [List.getD_eq_getElem?_getD]
    by_cases hm : m = idx
    · subst hm
      rw [List.getElem?_set_self hidx]
      simp
    · rw [if_neg hm, List.getElem?_set_ne (Ne.symm hm)]
      rfl

theorem toFinset_append_singleton_card (ns : List String) (a : String) :
    (ns ++ [a]).toFinset.card = if a ∈ ns then ns.toFinset.card else ns.toFinset.card + 1 := by
  have h : (ns ++ [a]).toFinset = insert a ns.toFinset := by
    ext b
    simp
    tauto
  rw [h]
  by_cases ha : a ∈ ns
  · rw [if_pos ha, Finset.insert_eq_of_mem (List.mem_toFinset.mpr ha)]
  · rw [if_neg ha, Finset.card_insert_of_not_mem (fun h1 => ha (List.mem_toFinset.mp h1))]

theorem synapse_pass_snoc (x : externals) (syns : List synapse) (syn : synapse)
    (th : List (Nat × Nat)) :
    synapse_pass x (syns ++ [syn]) th = synapse_step x (synapse_pass x syns th) syn := by
  unfold synapse_pass
  rw [List.foldl_append]
  rfl

theorem synapse_pass_inv (x : externals) (syns : List synapse) (th : List (Nat × Nat)) :
    (∀ name, std_map.find (synapse_pass x syns th).syn_mech_indices name =
      if name ∈ syns.map (fun s => s.mechanism) then
        some (names_before (syns.map (fun s => s.mechanism)) name) else none) ∧
    (synapse_pass x syns th).syn_mech_map.length =
      (syns.map (fun s => s.mechanism)).toFinset.card ∧
    (∀ name ∈ syns.map (fun s => s.mechanism),
      ((synapse_pass x syns th).syn_mech_map.getD
        (names_before (syns.map (fun s => s.mechanism)) name) []).length =
        (syns.map (fun s => s.mechanism)).count name) ∧
    (synapse_pass x syns th).target_hi = syns.length ∧
    (synapse_pass x syns th).target_handles.length = th.length ∧
    (∀ j, j < syns.length → j < th.length →
      (synapse_pass x syns th).target_handles[j]? =
        some (names_before (syns.map (fun s => s.mechanism))
            ((syns.map (fun s => s.mechanism)).getD j ""),
          earlier_same (syns.map (fun s => s.mechanism)) j)) ∧
    (∀ m lid, (∃ j, j < syns.length ∧
        names_before (syns.map (fun s => s.mechanism))
          ((syns.map (fun s => s.mechanism)).getD j "") = m ∧
        earlier_same (syns.map (fun s => s.mechanism)) j = lid) ↔
      lid < ((synapse_pass x syns th).syn_mech_map.getD m []).length) := by
  induction syns using List.reverseRecOn with
  | nil =>
    refine ⟨fun name => ?_, rfl, fun name h => ?_, rfl, rfl, fun j hj _ => ?_, fun m lid => ?_⟩
    · simp [synapse_pass, std_map.find]
    · simp at h
    · simp at hj
    · simp [synapse_pass]
  | append_singleton syns syn ih =>
    obtain ⟨ia, ib, ic, id, ie, ig, ih7⟩ := ih
    rw [synapse_pass_snoc, List.map_append, List.map_cons, List.map_nil]
    generalize hns : syns.map (fun s => s.mechanism) = ns at ia ib ic ig ih7 ⊢
    have hnl : ns.length = syns.length := by
      rw [← hns, List.length_map]
    generalize hs : synapse_pass x syns th = s at ia ib ic id ie ig ih7 ⊢
    obtain ⟨idx, hcase, hh, hhi, hlen⟩ := synapse_step_spec x s syn
    generalize ha : syn.mechanism = a at hcase ⊢
    have hmem : ∀ name, name ∈ ns ++ [a] ↔ name = a ∨ name ∈ ns := by
      intro name
      simp
      tauto
    have hkey : idx = names_before (ns ++ [a]) a ∧
        (s.syn_mech_map.getD idx []).length = ns.count a ∧
        idx < (synapse_step x s syn).syn_mech_map.length ∧
        (synapse_step x s syn).syn_mech_map.length = (ns ++ [a]).toFinset.card ∧
        (∀ name, std_map.find (synapse_step x s syn).syn_mech_indices name =
          if name ∈ ns ++ [a] then some (names_before (ns ++ [a]) name) else none) := by
      rcases hcase with ⟨hf, hidx, hind, hml⟩ | ⟨hf, hind, hml⟩
      · have hna : a ∉ ns := by
          intro hcon
          have := ia a
          rw [if_pos hcon, hf] at this
          cases this
        have h1 : idx = names_before (ns ++ [a]) a := by
          rw [names_before_append_fresh ns a hna, hidx, ib]
        refine ⟨h1, ?_, by omega, ?_, ?_⟩
        · rw [hidx, List.count_eq_zero_of_not_mem hna]
          simp [List.getD_eq_getElem?_getD]
        · rw [hml, toFinset_append_singleton_card, if_neg hna, ib]
        · intro name
          rw [hind, std_map_find_update]
          by_cases hn : name = a
          · subst hn
            rw [if_pos rfl, if_pos ((hmem name).mpr (Or.inl rfl)), ← h1]
          · rw [if_neg hn, ia name]
            by_cases hin : name ∈ ns
            · rw [if_pos hin, if_pos ((hmem name).mpr (Or.inr hin)),
                names_before_append_mem ns a name hin]
            · rw [if_neg hin, if_neg]
              rw [hmem]
              tauto
      · have hina : a ∈ ns := by
          by_contra hcon
          have := ia a
          rw [if_neg hcon, hf] at this
          cases this
        have h0 : idx = names_before ns a := by
          have := ia a
          rw [if_pos hina, hf] at this
          exact Option.some.inj this
        have h1 : idx = names_before (ns ++ [a]) a := by
          rw [names_before_append_mem ns a a hina]
          exact h0
        have hlt := names_before_lt ns a hina
        refine ⟨h1, ?_, by omega, ?_, ?_⟩
        · rw [h0]
          exact ic a hina
        · rw [hml, toFinset_append_singleton_card, if_pos hina, ib]
        · intro name
          rw [hind, ia name]
          by_cases hin : name ∈ ns
          · rw [if_pos hin, if_pos ((hmem name).mpr (Or.inr hin)),
              names_before_append_mem ns a name hin]
          · rw [if_neg hin, if_neg]
            rw [hmem]
            rintro (h | h)
            · exact hin (h ▸ hina)
            · exact hin h
    obtain ⟨k1, k2, k3, k4, k5⟩ := hkey
    have hlen2 := hlen k3
    refine ⟨k5, k4, ?_, ?_, ?_, ?_, ?_⟩
    · intro name hname
      rw [hlen2, List.count_append, List.count_singleton]
      by_cases hn : name = a
      · subst hn
        rw [← k1, if_pos rfl, k2]
        simp
      · have hin : name ∈ ns := by
          rcases (hmem name).mp hname with h | h
          · exact absurd h hn
          · exact h
        have hne : names_before (ns ++ [a]) name ≠ idx := by
          intro hcon
          rw [k1] at hcon
          exact hn (names_before_inj (ns ++ [a]) name a hname
            ((hmem a).mpr (Or.inl rfl)) hcon)
        rw [if_neg hne, names_before_append_mem ns a name hin, ic name hin]
        have : (a == name) = false := by
          simp
          exact fun h => hn h.symm
        simp [this]
    · rw [hhi, id, List.length_append]
      rfl
    · rw [hh, List.length_set, ie]
    · intro j hj hjt
      rw [List.length_append, List.length_singleton] at hj
      rw [hh, id]
      by_cases hjl : j = syns.length
      · subst hjl
        rw [List.getElem?_set_self (by omega), ← hnl, (earlier_same_last ns a).1,
          (earlier_same_last ns a).2, ← k1, k2]
      · have hj2 : j < ns.length := by omega
        rw [List.getElem?_set_ne (Ne.symm hjl), ig j (by omega) hjt,
          (earlier_same_append ns a j hj2).1, (earlier_same_append ns a j hj2).2,
          names_before_append_mem ns a _ (by
            rw [List.getD_eq_getElem?_getD, List.getElem?_eq_getElem hj2]
            exact List.getElem_mem hj2)]
    · intro m lid
      rw [hlen2, List.length_append, List.length_singleton]
      constructor
      · rintro ⟨j, hj, hm, hl⟩
        by_cases hjl : j = syns.length
        · subst hjl
          rw [← hnl, (earlier_same_last ns a).2, ← k1] at hm
          rw [← hnl, (earlier_same_last ns a).1] at hl
          subst hm
          rw [if_pos rfl, k2]
          omega
        · have hj2 : j < ns.length := by omega
          have hmemj : ns.getD j "" ∈ ns := by
            rw [List.getD_eq_getElem?_getD, List.getElem?_eq_getElem hj2]
            exact List.getElem_mem hj2
          rw [(earlier_same_append ns a j hj2).2,
            names_before_append_mem ns a _ hmemj] at hm
          rw [(earlier_same_append ns a j hj2).1] at hl
          have := (ih7 m lid).mp ⟨j, by omega, hm, hl⟩
          omega
      · intro hlt
        by_cases hold : lid < (s.syn_mech_map.getD m []).length
        · obtain ⟨j, hj, hm, hl⟩ := (ih7 m lid).mpr hold
          have hj2 : j < ns.length := by omega
          have hmemj : ns.getD j "" ∈ ns := by
            rw [List.getD_eq_getElem?_getD, List.getElem?_eq_getElem hj2]
            exact List.getElem_mem hj2
          refine ⟨j, by omega, ?_, ?_⟩
          · rw [(earlier_same_append ns a j hj2).2, names_before_append_mem ns a _ hmemj]
            exact hm
          · rw [(earlier_same_append ns a j hj2).1]
            exact hl
        · have hmi : m = idx := by
            by_contra hcon
            rw [if_neg hcon] at hlt
            omega
          subst hmi
          rw [if_pos rfl] at hlt
          refine ⟨syns.length, by omega, ?_, ?_⟩
          · rw [← hnl, (earlier_same_last ns a).2]
            exact k1.symm
          · rw [← hnl, (earlier_same_last ns a).1]
            omega

theorem earlier_same_lt (ns : List String) (j k : Nat) (hjk : j < k) (hk : k < ns.length)
    (h : ns.getD j "" = ns.getD k "") : earlier_same ns j < earlier_same ns k := by
  unfold earlier_same
  rw [← h]
  have hj : j < ns.length := by omega
  have h1 : ns.take (j + 1) = ns.take j ++ [ns.getD j ""] := by
    rw [List.take_succ, List.getD_eq_getElem?_getD, List.getElem?_eq_getElem hj]
    rfl
  have h2 : (ns.take (j + 1)).count (ns.getD j "") ≤ (ns.take k).count (ns.getD j "") := by
    apply List.Sublist.count_le
    have : ns.take (j + 1) = (ns.take k).take (j + 1) := by
      rw [List.take_take, Nat.min_eq_left (by omega)]
    rw [this]
    exact List.take_sublist _ _
  rw [h1, List.count_append, List.count_singleton_self] at h2
  omega

/-- The handles issued by the synapse loop.  After a successful lowering into a target
handle container that takes all the handles of the description read by the binder, the
handle emitted for the `k`-th synapse is `(m, lid)`, where `m` is the number of distinct
mechanism names that first appear in the synapse list before the name of this synapse
first appears and `lid` is the number of earlier synapses with the same mechanism name;
two different synapses never receive the same handle; and the handles issued are exactly
the pairs `(m, lid)` with `lid` below the length of the loop variable `syn_mech_map[m]`. -/
theorem synapse_loop_handles (x : externals) (cells : List cell) (cell : cell)
    (dh : List Nat) (th : List (Nat × Nat)) (ph : List (field_selector × Nat))
    (e : fvm_multicell)
    (hok : ( fvm_multicell.initialize x cells cell dh th ph e).failure = none)
    (hfit : cell.synapses.length ≤ th.length) :
    (∀ k, k < cell.synapses.length →
      ( fvm_multicell.initialize x cells cell dh th ph e).target_handles[k]? =
        some (names_before (cell.synapses.map (fun s => s.mechanism))
            ((cell.synapses.map (fun s => s.mechanism)).getD k ""),
          earlier_same (cell.synapses.map (fun s => s.mechanism)) k)) ∧
    (∀ j k, j < k → k < cell.synapses.length →
      ( fvm_multicell.initialize x cells cell dh th ph e).target_handles[j]? ≠
        ( fvm_multicell.initialize x cells cell dh th ph e).target_handles[k]?) ∧
    (∀ m lid,
      (∃ k, k < cell.synapses.length ∧
        ( fvm_multicell.initialize x cells cell dh th ph e).target_handles[k]? =
          some (m, lid)) ↔
      lid < ((synapse_pass x cell.synapses th).syn_mech_map.getD m []).length) := by
  obtain ⟨_, _, _, hth⟩ := initialize_handles x cells cell dh th ph e hok
  obtain ⟨_, _, _, _, _, hval, hdense⟩ := synapse_pass_inv x cell.synapses th
  rw [hth]
  generalize hns : cell.synapses.map (fun s => s.mechanism) = ns at hval hdense ⊢
  have hnl : ns.length = cell.synapses.length := by
    rw [← hns, List.length_map]
  have hmem : ∀ k, k < cell.synapses.length → ns.getD k "" ∈ ns := by
    intro k hk
    have hk2 : k < ns.length := by omega
    rw [List.getD_eq_getElem?_getD, List.getElem?_eq_getElem hk2]
    exact List.getElem_mem hk2
  refine ⟨fun k hk => hval k hk (by omega), ?_, ?_⟩
  · intro j k hjk hk hcon
    rw [hval j (by omega) (by omega), hval k hk (by omega)] at hcon
    have h1 := Option.some.inj hcon
    have h2 : ns.getD j "" = ns.getD k "" :=
      names_before_inj ns _ _ (hmem j (by omega)) (hmem k hk) (congrArg Prod.fst h1)
    have h3 := earlier_same_lt ns j k hjk (by omega) h2
    have h4 : earlier_same ns j = earlier_same ns k := congrArg Prod.snd h1
    omega
  · intro m lid
    rw [← hdense m lid]
    constructor
    · rintro ⟨k, hk, h⟩
      rw [hval k hk (by omega)] at h
      have h1 := Option.some.inj h
      exact ⟨k, hk, congrArg Prod.fst h1, congrArg Prod.snd h1⟩
    · rintro ⟨k, hk, h1, h2⟩
      refine ⟨k, hk, ?_⟩
      rw [hval k hk (by omega), h1, h2]

/-- The handles issued by the synapse loop on the sample cell with the synapses "expsyn",
"exp2syn", "expsyn": `(0, 0)`, `(1, 0)`, `(0, 1)`, pairwise different. -/
theorem synapse_loop_handles_example :
    ( fvm_multicell.initialize sample_externals [three_synapse_cell] three_synapse_cell []
        [(9, 9), (9, 9), (9, 9)] [] fvm_multicell.fresh).target_handles =
      [(0, 0), (1, 0), (0, 1)] ∧
    (∀ j k, j < k → k < three_synapse_cell.synapses.length →
      ( fvm_multicell.initialize sample_externals [three_synapse_cell] three_synapse_cell []
          [(9, 9), (9, 9), (9, 9)] [] fvm_multicell.fresh).target_handles[j]? ≠
        ( fvm_multicell.initialize sample_externals [three_synapse_cell] three_synapse_cell []
          [(9, 9), (9, 9), (9, 9)] [] fvm_multicell.fresh).target_handles[k]?) :=
  ⟨by decide,
    (synapse_loop_handles sample_externals [three_synapse_cell] three_synapse_cell []
      [(9, 9), (9, 9), (9, 9)] [] fvm_multicell.fresh (by decide) (by decide)).2.1⟩

/-- C32 (the code at the failing input): the synapses of the cell are an "expsyn" on CV 0,
an "exp2syn" on CV 1 and an "expsyn" on CV 1, and the handles issued are `(0, 0)`,
`(1, 0)`, `(0, 1)`.  The mechanism that handle index `0` addresses,
`mechanisms_[synapse_base_ + 0]`, is the "exp2syn" mechanism, whose index vector `[1]` has
length 1: the handle `(0, 1)` carries a lid outside `0..c_0-1`.  The mechanism that handle
index `1` addresses is the "expsyn" mechanism, whose index vector `[0, 1]` has length 2,
and the only lid issued for it is `0`.  `deliver_event((0, 1), w)` calls `net_receive`
with lid 1 on the "exp2syn" mechanism. -/
theorem target_lids_not_dense_in_addressed_mechanism :
    three_synapse_cell.synapses.map
        (fun s => (s.mechanism, sample_externals.find_compartment_index s.location)) =
      [("expsyn", 0), ("exp2syn", 1), ("expsyn", 1)] ∧
    ( fvm_multicell.initialize sample_externals [three_synapse_cell] three_synapse_cell []
        [(9, 9), (9, 9), (9, 9)] [] fvm_multicell.fresh).failure = none ∧
    ( fvm_multicell.initialize sample_externals [three_synapse_cell] three_synapse_cell []
        [(9, 9), (9, 9), (9, 9)] [] fvm_multicell.fresh).target_handles =
      [(0, 0), (1, 0), (0, 1)] ∧
    (( fvm_multicell.initialize sample_externals [three_synapse_cell] three_synapse_cell []
        [(9, 9), (9, 9), (9, 9)] [] fvm_multicell.fresh).engine.mechanisms_.drop
      ( fvm_multicell.initialize sample_externals [three_synapse_cell] three_synapse_cell []
        [(9, 9), (9, 9), (9, 9)] [] fvm_multicell.fresh).engine.synapse_base_).map
        (fun m => (m.name, m.node_index)) =
      [("exp2syn", [1]), ("expsyn", [0, 1])] ∧
    (0, 1) ∈ ( fvm_multicell.initialize sample_externals [three_synapse_cell] three_synapse_cell
        [] [(9, 9), (9, 9), (9, 9)] [] fvm_multicell.fresh).target_handles ∧
    ( fvm_multicell.initialize sample_externals [three_synapse_cell] three_synapse_cell []
        [(9, 9), (9, 9), (9, 9)] [] fvm_multicell.fresh).engine.mechanisms_[
      ( fvm_multicell.initialize sample_externals [three_synapse_cell] three_synapse_cell []
        [(9, 9), (9, 9), (9, 9)] [] fvm_multicell.fresh).engine.synapse_base_ + 0]?.map
        (fun m => m.node_index.length) = some 1 ∧
    (1, 1) ∉ ( fvm_multicell.initialize sample_externals [three_synapse_cell] three_synapse_cell
        [] [(9, 9), (9, 9), (9, 9)] [] fvm_multicell.fresh).target_handles ∧
    ( fvm_multicell.initialize sample_externals [three_synapse_cell] three_synapse_cell []
        [(9, 9), (9, 9), (9, 9)] [] fvm_multicell.fresh).engine.mechanisms_[
      ( fvm_multicell.initialize sample_externals [three_synapse_cell] three_synapse_cell []
        [(9, 9), (9, 9), (9, 9)] [] fvm_multicell.fresh).engine.synapse_base_ + 1]?.map
        (fun m => m.node_index.length) = some 2 ∧
    ( fvm_multicell.deliver_event sample_externals (0, 1) 1
      ( fvm_multicell.initialize sample_externals [three_synapse_cell] three_synapse_cell []
        [(9, 9), (9, 9), (9, 9)] [] fvm_multicell.fresh).engine).mechanisms_.map
        (fun m => (m.name, m.state.length)) =
      [("hh", 0), ("pas", 0), ("exp2syn", 2), ("expsyn", 0)] := by
  refine ⟨by decide, by decide, by decide, by decide, by decide, by decide, by decide,
    by decide, by decide⟩

theorem root_face_alpha (x : externals) (segs : List segment) (lo : Nat)
    (h : root_segment_kind segs = some segmentKind.soma) :
    cell_face_alpha_at x lo segs 0 lo = 0 ∧
    0 < (segs.map (fun s => s.num_compartments)).sum := by
  induction segs generalizing lo with
  | nil => simp [root_segment_kind] at h
  | cons seg segs ih =>
    unfold root_segment_kind at h
    by_cases hn : 0 < seg.num_compartments
    · rw [if_pos hn] at h
      have hk : seg.kind = segmentKind.soma := Option.some.inj h
      have hc : ¬ (seg.kind = segmentKind.cable ∧ lo ≤ lo ∧ lo < lo + seg.num_compartments) := by
        rw [hk]
        rintro ⟨hcon, _⟩
        cases hcon
      rw [cell_face_alpha_at, if_neg hc]
      refine ⟨cell_face_alpha_outside x segs _ lo 0 (Or.inl (by omega)), ?_⟩
      simp only [List.map_cons, List.sum_cons]
      omega
    · rw [if_neg hn] at h
      have hz : seg.num_compartments = 0 := by omega
      have hc : ¬ (seg.kind = segmentKind.cable ∧ lo ≤ lo ∧ lo < lo + seg.num_compartments) := by
        omega
      rw [cell_face_alpha_at, if_neg hc, hz, Nat.add_zero]
      refine ⟨(ih lo h).1, ?_⟩
      simp only [List.map_cons, List.sum_cons]
      have := (ih lo h).2
      omega

theorem initialize_roots (x : externals) (cells : List cell) (cell : cell)
    (dh : List Nat) (th : List (Nat × Nat)) (ph : List (field_selector × Nat))
    (e : fvm_multicell) (hwf : ∀ c ∈ cells, c.well_formed)
    (hroot : ∀ c ∈ cells, c.soma_root)
    (hok : ( fvm_multicell.initialize x cells cell dh th ph e).failure = none)
    (t : Nat) (ht : t < cells.length) :
    ( fvm_multicell.initialize x cells cell dh th ph e).engine.face_alpha_.getD
      ((cells.map (fun c => c.num_compartments)).take t).sum 0 = 0 ∧
    ((cells.map (fun c => c.num_compartments)).take t).sum <
      ( fvm_multicell.initialize x cells cell dh th ph e).engine.matrix_.d.length := by
  have hc : cells[t] ∈ cells := List.getElem_mem ht
  obtain ⟨h0, hpos⟩ := root_face_alpha x (cells[t]).segments
    ((cells.map (fun c => c.num_compartments)).take t).sum (hroot _ hc)
  rw [(hwf _ hc).1] at hpos
  obtain ⟨h1, h2, _, _⟩ := initialize_face_alpha_at x cells cell dh th ph e
    (fun c hc => (hwf c hc).1) hok t ht
    ((cells.map (fun c => c.num_compartments)).take t).sum (Nat.le_refl _) (by omega)
  exact ⟨h1.trans h0, h2⟩

theorem initialize_matrix_storage (x : externals) (cells : List cell) (cell : cell)
    (dh : List Nat) (th : List (Nat × Nat)) (ph : List (field_selector × Nat))
    (e : fvm_multicell)
    (hok : ( fvm_multicell.initialize x cells cell dh th ph e).failure = none) :
    ( fvm_multicell.initialize x cells cell dh th ph e).engine.matrix_.d.length =
      (cells.map (fun c => c.num_compartments)).sum ∧
    ( fvm_multicell.initialize x cells cell dh th ph e).engine.matrix_.l.length =
      (cells.map (fun c => c.num_compartments)).sum ∧
    ( fvm_multicell.initialize x cells cell dh th ph e).engine.matrix_.u.length =
      (cells.map (fun c => c.num_compartments)).sum ∧
    (∀ i, ( fvm_multicell.initialize x cells cell dh th ph e).engine.matrix_.l.getD i 0 = 0) ∧
    (∀ i, ( fvm_multicell.initialize x cells cell dh th ph e).engine.matrix_.u.getD i 0 = 0) := by
  obtain ⟨loc, e1, hc, hm, _, _, _, hG⟩ :=
    initialize_success_arrays x cells cell dh th ph e hok
  have hN : ncomp cells = (cells.map (fun c => c.num_compartments)).sum := by
    by_cases hn : 1 ≤ cells.length
    · exact ncomp_eq_sum cells hn
    · have : cells = [] := List.length_eq_zero.mp (by omega)
      subst this
      rfl
  rw [hm, ← hN, ← hG]
  refine ⟨by simp [matrix.of_parent_index], by simp [matrix.of_parent_index],
    by simp [matrix.of_parent_index], fun i => ?_, fun i => ?_⟩
  · simp [matrix.of_parent_index, List.getD_eq_getElem?_getD, List.getElem?_replicate]
    split_ifs <;> simp
  · simp [matrix.of_parent_index, List.getD_eq_getElem?_getD, List.getElem?_replicate]
    split_ifs <;> simp

theorem initialize_parent_in_range (x : externals) (cells : List cell) (cell : cell)
    (dh : List Nat) (th : List (Nat × Nat)) (ph : List (field_selector × Nat))
    (e : fvm_multicell) (hwf : ∀ c ∈ cells, c.well_formed)
    (hok : ( fvm_multicell.initialize x cells cell dh th ph e).failure = none)
    (k : Nat) (hk : k < (cells.map (fun c => c.num_compartments)).sum) :
    ∃ t, ∃ ht : t < cells.length,
      ((cells.map (fun c => c.num_compartments)).take t).sum ≤ k ∧
      k < ((cells.map (fun c => c.num_compartments)).take t).sum +
        (cells[t]).num_compartments ∧
      ((cells.map (fun c => c.num_compartments)).take t).sum ≤
        ( fvm_multicell.initialize x cells cell dh th ph e).engine.matrix_.p.getD k 0 ∧
      ( fvm_multicell.initialize x cells cell dh th ph e).engine.matrix_.p.getD k 0 ≤ k := by
  obtain ⟨t, ht, h1, h2⟩ := find_range (cells.map (fun c => c.num_compartments)) k hk
  have ht2 : t < cells.length := by simpa using ht
  rw [List.getElem_map] at h2
  obtain ⟨_, _, _, hp, _⟩ := initialize_arrays x cells cell dh th ph e hwf hok t ht2 k h1 h2
  have hle := (hwf _ (List.getElem_mem ht2)).2
    (k - ((cells.map (fun c => c.num_compartments)).take t).sum) (by omega)
  exact ⟨t, ht2, h1, h2, by omega, by omega⟩

/-- C31: for cells whose segments partition their compartments and whose parents precede
them, each with its root compartment in a soma segment, after a successful lowering
`face_alpha[lo] = 0` for the first CV `lo` of every cell; for every `dt` the matrix
assembled by `setup_matrix` has `l[lo] = u[lo] = 0` (for the root of the first cell,
which the assembly loop does not visit, these are the values the storage was constructed
with) and `d[lo]` is the area plus the couplings of the children other than `lo` itself;
and every non-zero off-diagonal entry joins two CVs in the range of the same cell. -/
theorem no_coupling_between_cells (x : externals) (cells : List cell) (cell : cell)
    (dh : List Nat) (th : List (Nat × Nat)) (ph : List (field_selector × Nat))
    (e : fvm_multicell) (hwf : ∀ c ∈ cells, c.well_formed)
    (hroot : ∀ c ∈ cells, c.soma_root)
    (hok : ( fvm_multicell.initialize x cells cell dh th ph e).failure = none) (dt : ℚ) :
    (∀ t, t < cells.length →
      ( fvm_multicell.initialize x cells cell dh th ph e).engine.face_alpha_.getD
        ((cells.map (fun c => c.num_compartments)).take t).sum 0 = 0 ∧
      ( fvm_multicell.setup_matrix dt
        ( fvm_multicell.initialize x cells cell dh th ph e).engine).matrix_.l.getD
        ((cells.map (fun c => c.num_compartments)).take t).sum 0 = 0 ∧
      ( fvm_multicell.setup_matrix dt
        ( fvm_multicell.initialize x cells cell dh th ph e).engine).matrix_.u.getD
        ((cells.map (fun c => c.num_compartments)).take t).sum 0 = 0 ∧
      ( fvm_multicell.setup_matrix dt
        ( fvm_multicell.initialize x cells cell dh th ph e).engine).matrix_.d.getD
        ((cells.map (fun c => c.num_compartments)).take t).sum 0 =
        ( fvm_multicell.initialize x cells cell dh th ph e).engine.cv_areas_.getD
          ((cells.map (fun c => c.num_compartments)).take t).sum 0 +
        ∑ i ∈ (Finset.Ico 1
            ( fvm_multicell.initialize x cells cell dh th ph e).engine.matrix_.d.length).filter
            (fun i =>
              ( fvm_multicell.initialize x cells cell dh th ph e).engine.matrix_.p.getD i 0 =
                ((cells.map (fun c => c.num_compartments)).take t).sum ∧
              i ≠ ((cells.map (fun c => c.num_compartments)).take t).sum),
          100000 * dt *
            ( fvm_multicell.initialize x cells cell dh th ph e).engine.face_alpha_.getD i 0) ∧
    (∀ r c, r ≠ c →
      ( fvm_multicell.setup_matrix dt
        ( fvm_multicell.initialize x cells cell dh th ph e).engine).matrix_.entry r c ≠ 0 →
      ∃ t, ∃ ht : t < cells.length,
        ((cells.map (fun c => c.num_compartments)).take t).sum ≤ r ∧
        r < ((cells.map (fun c => c.num_compartments)).take t).sum +
          (cells[t]).num_compartments ∧
        ((cells.map (fun c => c.num_compartments)).take t).sum ≤ c ∧
        c < ((cells.map (fun c => c.num_compartments)).take t).sum +
          (cells[t]).num_compartments) := by
  obtain ⟨hdl, hll, hul, hl0, hu0⟩ := initialize_matrix_storage x cells cell dh th ph e hok
  have hpar := initialize_parent_in_range x cells cell dh th ph e hwf hok
  have hrt := initialize_roots x cells cell dh th ph e hwf hroot hok
  generalize ( fvm_multicell.initialize x cells cell dh th ph e).engine = out
    at hdl hll hul hl0 hu0 hpar hrt ⊢
  obtain ⟨_, hp, hd, _⟩ := setup_matrix_ldu dt out
  obtain ⟨_, _, _, hl, hu, _⟩ := setup_matrix_full dt out
  constructor
  · intro t ht
    obtain ⟨hfa, hlt⟩ := hrt t ht
    generalize ((cells.map (fun c => c.num_compartments)).take t).sum = lo at hfa hlt ⊢
    refine ⟨hfa, ?_, ?_, ?_⟩
    · rw [hl lo, hfa, hl0 lo]
      split_ifs <;> simp
    · rw [hu lo, hfa, hu0 lo]
      split_ifs <;> simp
    · rw [hd lo hlt, hfa, Finset.sum_filter, Finset.sum_filter]
      have hz : (if 1 ≤ lo then 100000 * dt * (0 : ℚ) else 0) = 0 := by
        split_ifs <;> simp
      rw [hz, add_zero]
      congr 1
      apply Finset.sum_congr rfl
      intro i _
      by_cases hi : i = lo
      · subst hi
        rw [hfa]
        simp
      · by_cases hpi : out.matrix_.p.getD i 0 = lo
        · rw [if_pos hpi, if_pos ⟨hpi, hi⟩]
        · rw [if_neg hpi, if_neg (fun h => hpi h.1)]
  · intro r c hrc hne
    unfold matrix.entry at hne
    rw [if_neg hrc, hp] at hne
    by_cases h1 : 1 ≤ r ∧ out.matrix_.p.getD r 0 = c
    · rw [if_pos h1, hl r] at hne
      have hr : r < (cells.map (fun c => c.num_compartments)).sum := by
        by_contra hcon
        rw [if_neg (by omega), hl0 r] at hne
        exact hne rfl
      obtain ⟨t, ht, a1, a2, a3, a4⟩ := hpar r hr
      exact ⟨t, ht, a1, a2, by omega, by omega⟩
    · rw [if_neg h1] at hne
      by_cases h2 : 1 ≤ c ∧ out.matrix_.p.getD c 0 = r
      · rw [if_pos h2, hu c] at hne
        have hc : c < (cells.map (fun c => c.num_compartments)).sum := by
          by_contra hcon
          rw [if_neg (by omega), hu0 c] at hne
          exact hne rfl
        obtain ⟨t, ht, a1, a2, a3, a4⟩ := hpar c hc
        exact ⟨t, ht, by omega, by omega, a1, a2⟩
      · rw [if_neg h2] at hne
        exact absurd rfl hne

/-- C31 (worked example): two copies of the sample cell, `dt = 1/40`; the root of the
second cell is CV 3: its face coefficient and its entries of `l` and `u` are zero, and
the entry that would join it to CV 2, the last CV of the first cell, is zero. -/
theorem no_coupling_between_cells_witness :
    (∀ c ∈ [sample_cell, sample_cell], c.soma_root) ∧
    ( fvm_multicell.initialize sample_externals [sample_cell, sample_cell] sample_cell []
        [(0, 0), (0, 0), (0, 0), (0, 0)] [] fvm_multicell.fresh).engine.face_alpha_.getD 3 0 = 0 ∧
    ( fvm_multicell.setup_matrix (1 / 40)
        ( fvm_multicell.initialize sample_externals [sample_cell, sample_cell] sample_cell []
          [(0, 0), (0, 0), (0, 0), (0, 0)] [] fvm_multicell.fresh).engine).matrix_.l.getD 3 0 = 0 ∧
    ( fvm_multicell.setup_matrix (1 / 40)
        ( fvm_multicell.initialize sample_externals [sample_cell, sample_cell] sample_cell []
          [(0, 0), (0, 0), (0, 0), (0, 0)] [] fvm_multicell.fresh).engine).matrix_.u.getD 3 0 = 0 ∧
    ( fvm_multicell.setup_matrix (1 / 40)
        ( fvm_multicell.initialize sample_externals [sample_cell, sample_cell] sample_cell []
          [(0, 0), (0, 0), (0, 0), (0, 0)] [] fvm_multicell.fresh).engine).matrix_.entry 3 2 = 0 :=
  have h := no_coupling_between_cells sample_externals [sample_cell, sample_cell] sample_cell []
    [(0, 0), (0, 0), (0, 0), (0, 0)] [] fvm_multicell.fresh (by decide) (by decide) (by decide)
    (1 / 40)
  have h1 := h.1 1 (by decide)
  ⟨by decide, h1.1, h1.2.1, h1.2.2.1, by
    by_contra hcon
    obtain ⟨t, ht, a1, a2, a3, a4⟩ := h.2 3 2 (by decide) hcon
    have ht2 : t < 2 := ht
    interval_cases t
    · simp [sample_cell] at a2
    · simp [sample_cell] at a3⟩

end nest.mc
